import Mathlib

/-!
# DFT-FE population analysis: dense linear algebra on the process grid, the Chebyshev
filtered subspace iteration driver, the BFGS solver and the basis file reader

A shallow embedding of

* `src/linAlg/linearAlgebraOperationsInternal.cc`
  (`createGlobalToLocalIdMapsScaLAPACKMat`, `createProcessGridSquareMatrix`,
  `sumAcrossInterCommScaLAPACKMat`, `scaleScaLAPACKMat`,
  `broadcastAcrossInterCommScaLAPACKMat`, `fillParallelOverlapMatrix`,
  `fillParallelOverlapMatrixMixedPrec`, `subspaceRotation`,
  `subspaceRotationPGSMixedPrec`),
* `src/solvers/eigenSolvers/chebyshevOrthogonalizedSubspaceIterationSolver.cc`
  (`setChebyshevOrder`, `solve`),
* `src/solvers/cgSolvers/BFGSNonLinearSolver.cc`
  (`updateHessian`, `computeStep`, `solve`), and
* `src/dft/orbitalOverlapPopulation.cc` (`readBasisFile`).

Conventions.

* A `double` is a rational number: every statement below is about exact arithmetic,
  and the literals `0.1`, `0.2`, `0.5`, `0.8`, `1.5` are the rationals they denote.
* An `unsigned int` used as a size or an index is a natural number; index arithmetic
  is assumed not to wrap.
* A raw pointer is a buffer `Nat → ℚ` together with an offset.
* The MPI program is SPMD; the ranks of a communicator are numbered `0 .. n-1`, a
  per-rank quantity is a function of the rank number, and a collective is a function
  from the buffers of all ranks to the buffers of all ranks.
* BLAS, MPI and the `dealii::ScaLAPACKMatrix` container are external libraries; they are
  modelled by their documented reference behaviour.
-/

namespace dftfe

/-! ## Buffers and loops -/

/-- A contiguous array of `double`, addressed by element offset. -/
abbrev Buf := Nat → ℚ

/-- The loop `for (i = 0; i < n; ++i) s = body i s`. -/
def forLoop {σ : Type} (body : Nat → σ → σ) : Nat → σ → σ
  | 0, s => s
  | n + 1, s => body n (forLoop body n s)

/-- The loop `for (i = lo; i < hi; ++i) s = body i s`. -/
def forRange {σ : Type} (lo hi : Nat) (body : Nat → σ → σ) (s : σ) : σ :=
  forLoop (fun t => body (lo + t)) (hi - lo) s

/-- The loop `for (i = start; i < n; i += stride) s = body i s`, run with a bound `fuel`
on the number of iterations; `none` when the bound is exhausted before the loop exits
(with `stride = 0` and `start < n` the source loop never exits). -/
def stridedLoop {σ : Type} (n stride : Nat) (body : Nat → σ → σ) : Nat → Nat → σ → Option σ
  | fuel, i, s =>
    if i < n then
      match fuel with
      | 0 => none
      | f + 1 => stridedLoop n stride body f (i + stride) (body i s)
    else some s

/-! ## MPI collectives -/

/-- The call `MPI_Allreduce(MPI_IN_PLACE, buf, count, MPI_DOUBLE, MPI_SUM, comm)` on a
communicator of `n` ranks: `bufs q` is the buffer of rank `q`; afterwards the first
`count` elements of every rank hold the element-wise sum over the ranks. -/
def mpiAllreduceSum (n count : Nat) (bufs : Nat → Buf) : Nat → Buf :=
  fun q idx => if idx < count then ∑ p ∈ Finset.range n, bufs p idx else bufs q idx

/-- The call `MPI_Bcast(buf, count, MPI_DOUBLE, root, comm)`: afterwards the first
`count` elements of every rank are those of rank `root`. -/
def mpiBcast (count root : Nat) (bufs : Nat → Buf) : Nat → Buf :=
  fun q idx => if idx < count then bufs root idx else bufs q idx

/-! ## BLAS level 1 -/

/-- Reference BLAS `dscal_(n, da, dx, incx)`: `dx[i*incx] *= da` for `i < n`
(nothing is done when `incx` is not positive). -/
def dscal (n : Nat) (da : ℚ) (dx : Buf) (incx : Nat) : Buf :=
  if incx = 0 then dx
  else forLoop (fun i x => Function.update x (i * incx) (da * x (i * incx))) n dx

/-- Reference BLAS `ddot_(n, dx, incx, dy, incy)` for unit increments. -/
def ddot (n : Nat) (dx dy : Buf) : ℚ :=
  forLoop (fun i acc => acc + dx i * dy i) n 0

/-! ## The distributed dense matrix -/

/-- The part of `dealii::ScaLAPACKMatrix<double>` the code uses: the local panel is a
`local_m × local_n` table stored column-major in `values`, and `global_row`,
`global_column` give the global index of a local row or column. -/
structure ScaLAPACKMatrix where
  local_m : Nat
  local_n : Nat
  global_row : Nat → Nat
  global_column : Nat → Nat
  values : Buf

/-- The offset of `mat.local_el(i, j)` from `&mat.local_el(0, 0)`. -/
def ScaLAPACKMatrix.elIndex (mat : ScaLAPACKMatrix) (i j : Nat) : Nat :=
  i + j * mat.local_m

/-- The entry `mat.local_el(i, j)`. -/
def ScaLAPACKMatrix.local_el (mat : ScaLAPACKMatrix) (i j : Nat) : ℚ :=
  mat.values (mat.elIndex i j)

/-- The same matrix with another content of the local panel. -/
def ScaLAPACKMatrix.withValues (mat : ScaLAPACKMatrix) (v : Buf) : ScaLAPACKMatrix :=
  ⟨mat.local_m, mat.local_n, mat.global_row, mat.global_column, v⟩

/-- A `std::map<unsigned int, unsigned int>`: `find` returns `none` for an absent key. -/
abbrev IdMap := Nat → Option Nat

/-- The loop `for (i = 0; i < m; ++i) map[glob(i)] = i` on an empty map. -/
def fillIdMap (glob : Nat → Nat) (m : Nat) : IdMap :=
  forLoop (fun i (mp : IdMap) => Function.update mp (glob i) (some i)) m (fun _ => none)

/-- `createGlobalToLocalIdMapsScaLAPACKMat`: the row map and the column map of `mat`;
both are empty on a rank that is not active in the process grid. -/
def createGlobalToLocalIdMapsScaLAPACKMat (active : Bool) (mat : ScaLAPACKMatrix) :
    IdMap × IdMap :=
  if active then
    (fillIdMap mat.global_row mat.local_m, fillIdMap mat.global_column mat.local_n)
  else
    (fun _ => none, fun _ => none)

/-- `sumAcrossInterCommScaLAPACKMat` on an inter-communicator of `n` ranks:
`active q` and `mats q` are the process-grid flag and the matrix of rank `q`. -/
def sumAcrossInterCommScaLAPACKMat (n : Nat) (active : Nat → Bool)
    (mats : Nat → ScaLAPACKMatrix) : Nat → ScaLAPACKMatrix :=
  fun q =>
    if active q = true ∧ n > 1 then
      (mats q).withValues
        (mpiAllreduceSum n ((mats q).local_m * (mats q).local_n) (fun p => (mats p).values) q)
    else mats q

/-- `scaleScaLAPACKMat` on one rank. -/
def scaleScaLAPACKMat (active : Bool) (mat : ScaLAPACKMatrix) (scalar : ℚ) :
    ScaLAPACKMatrix :=
  if active then
    let numberComponents := mat.local_m * mat.local_n
    let inc := 1
    mat.withValues (dscal numberComponents scalar mat.values inc)
  else mat

/-- `broadcastAcrossInterCommScaLAPACKMat` on an inter-communicator of `n` ranks. -/
def broadcastAcrossInterCommScaLAPACKMat (n : Nat) (active : Nat → Bool)
    (mats : Nat → ScaLAPACKMatrix) (broadcastRoot : Nat) : Nat → ScaLAPACKMatrix :=
  fun q =>
    if active q = true ∧ n > 1 then
      (mats q).withValues
        (mpiBcast ((mats q).local_m * (mats q).local_n) broadcastRoot
          (fun p => (mats p).values) q)
    else mats q

/-- The sum of the squares of all entries of a distributed matrix: over the local panels
of the active ranks among `nRanks` ranks. -/
def frobeniusSq (nRanks : Nat) (active : Nat → Bool) (mats : Nat → ScaLAPACKMatrix) : ℚ :=
  ∑ q ∈ Finset.range nRanks,
    if active q then
      ∑ idx ∈ Finset.range ((mats q).local_m * (mats q).local_n), ((mats q).values idx) ^ 2
    else 0

/-! ## BLAS level 2 (reference implementation, `uplo = 'U'`, unit increments) -/

/-- Reference BLAS `dsymv_('U', n, alpha, a, lda, x, 1, beta, y, 1)`:
`y := alpha * A * x + beta * y` for the symmetric matrix `A` whose upper triangle is
stored column-major in `a`; the strictly lower part of `a` is not referenced. -/
def dsymv (n : Nat) (alpha : ℚ) (a : Buf) (lda : Nat) (x : Buf) (beta : ℚ) (y : Buf) : Buf :=
  let y0 : Buf := if beta = 1 then y else fun i => if i < n then beta * y i else y i
  if alpha = 0 then y0
  else
    forLoop (fun j yj =>
      let temp1 := alpha * x j
      let inner := forLoop (fun i (st : Buf × ℚ) =>
          (Function.update st.1 i (st.1 i + temp1 * a (i + j * lda)),
            st.2 + a (i + j * lda) * x i)) j (yj, 0)
      Function.update inner.1 j (inner.1 j + temp1 * a (j + j * lda) + alpha * inner.2)) n y0

/-- Reference BLAS `dsyr_('U', n, alpha, x, 1, a, lda)`: `A := alpha * x * xᵀ + A` on the
upper triangle of `a`; the strictly lower part of `a` is neither read nor written. -/
def dsyr (n : Nat) (alpha : ℚ) (x : Buf) (a : Buf) (lda : Nat) : Buf :=
  if n = 0 ∨ alpha = 0 then a
  else
    forLoop (fun j aj =>
      if x j ≠ 0 then
        let temp := alpha * x j
        forLoop (fun i ai =>
          Function.update ai (i + j * lda) (ai (i + j * lda) + x i * temp)) (j + 1) aj
      else aj) n a

/-! ## The BFGS solver -/

/-- A `std::vector<double>`: its size and its elements. -/
structure Vec where
  size : Nat
  data : Buf

/-- The call `v.resize(n, fill)`: the elements below the old size are kept, the new ones
are `fill` (`v.resize(n)` is `v.resize(n, 0)`). -/
def Vec.resize (v : Vec) (n : Nat) (fill : ℚ) : Vec :=
  ⟨n, fun i => if i < v.size then v.data i else fill⟩

/-- Modelled from the spec: the enumeration `nonLinearSolver::ReturnValueType`, declared in
a header that is not part of the sources; the spec lists the return codes `SUCCESS`,
`MAX_ITER_REACHED` and `FAILURE`. -/
inductive ReturnValueType where
  | SUCCESS
  | MAX_ITER_REACHED
  | FAILURE
  deriving DecidableEq

/-- The interface `nonlinearSolverProblem` the solver drives, as a state machine on the
problem state `σ`: `precondition(s, gradient)` fills `s`, `update(solution, ...)` moves
the problem. -/
structure nonlinearSolverProblem (σ : Type) where
  getNumberUnknowns : σ → Nat
  gradient : σ → Buf
  value : σ → ℚ
  precondition : σ → Buf → Buf → Buf
  update : σ → Buf → Bool → Bool → σ

/-- The numerical library routines whose results the solver consumes: the eigenvalues
`dsyevd_` returns, the lowest eigenpair `dsygvx_` returns, `dnrm2_` and `std::pow`.
Every statement below holds whatever they return. -/
structure NumLib where
  dsyevd : Nat → Buf → Buf
  dsygvx_value : Nat → Buf → Buf → ℚ
  dsygvx_vector : Nat → Buf → Buf → Buf
  dnrm2 : Nat → Buf → ℚ
  pow : ℚ → ℚ → ℚ

/-- What one executed iteration of `solve` did (a history record, not a member of the
class): whether the reset branch ran, the trust radius `computeStep` read,
and the `d_gradMax` it computed. -/
structure IterRecord where
  reset : Bool
  radius : ℚ
  gradMax : ℚ

/-- The members of `BFGSNonLinearSolver` (with those of its base `nonLinearSolver`), and
the history `trace` of the iterations executed so far, latest first. -/
structure BFGSNonLinearSolver where
  d_maxNumberIterations : Nat
  d_tolerance : ℚ
  d_trustRadiusInitial : ℚ
  d_trustRadiusMax : ℚ
  d_trustRadiusMin : ℚ
  d_isBFGSRestartDueToSmallRadius : Bool
  d_useSingleAtomSolutionsInitialGuess : Bool
  d_numberUnknowns : Nat
  d_unknownCountFlag : Vec
  d_deltaX : Vec
  d_deltaXNew : Vec
  d_gradient : Vec
  d_gradientNew : Vec
  d_hessian : Buf
  d_Srfo : Buf
  d_value : ℚ
  d_valueNew : ℚ
  d_trustRadius : ℚ
  d_normDelaXnew : ℚ
  d_lambda : ℚ
  d_gradMax : ℚ
  d_predDec : ℚ
  d_stepAccepted : Bool
  d_iter : Nat
  trace : List IterRecord

/-- The constructor: it sets the tolerance, the iteration limit, the two flags and the
three radii; the vectors are empty; `uninit` supplies the members it leaves
uninitialised. -/
def BFGSNonLinearSolver.construct (uninit : BFGSNonLinearSolver) (tolerance : ℚ)
    (maxNumberIterations : Nat) (trustRadius_maximum trustRadius_initial
      trustRadius_minimum : ℚ) : BFGSNonLinearSolver :=
  { uninit with
    d_maxNumberIterations := maxNumberIterations
    d_tolerance := tolerance
    d_isBFGSRestartDueToSmallRadius := false
    d_useSingleAtomSolutionsInitialGuess := false
    d_trustRadiusInitial := trustRadius_initial
    d_trustRadiusMax := trustRadius_maximum
    d_trustRadiusMin := trustRadius_minimum
    d_unknownCountFlag := ⟨0, fun _ => 0⟩
    d_deltaX := ⟨0, fun _ => 0⟩
    d_deltaXNew := ⟨0, fun _ => 0⟩
    d_gradient := ⟨0, fun _ => 0⟩
    d_gradientNew := ⟨0, fun _ => 0⟩
    trace := [] }

/-- `computeLInfNorm(vec)`. -/
def computeLInfNorm (s : BFGSNonLinearSolver) (vec : Buf) : ℚ :=
  forLoop (fun i norm =>
    let factor := s.d_unknownCountFlag.data i
    let val := vec i
    if norm > factor * |val| then norm else factor * |val|) s.d_numberUnknowns 0

/-- `initializeHessian(problem)`. -/
def initializeHessian {σ : Type} (num : NumLib) (problem : nonlinearSolverProblem σ) (p : σ)
    (s : BFGSNonLinearSolver) : BFGSNonLinearSolver :=
  let d_hessian := problem.precondition p s.d_hessian s.d_gradient.data
  let eigenValues := num.dsyevd s.d_numberUnknowns d_hessian
  let detS := forLoop (fun i d => d * eigenValues i) s.d_numberUnknowns 1
  let detS := num.pow |detS| (1 / (s.d_numberUnknowns : ℚ))
  { s with d_hessian := d_hessian, d_Srfo := fun i => d_hessian i / detS }

/-- The vector `delta_g` of `updateHessian` and `scaleHessian`. -/
def deltaG (s : BFGSNonLinearSolver) : Buf :=
  forLoop (fun i dg => Function.update dg i (s.d_gradientNew.data i - s.d_gradient.data i))
    s.d_numberUnknowns (fun _ => 0)

/-- The vector `Hdx` of `updateHessian`. -/
def hessianTimesStep (s : BFGSNonLinearSolver) : Buf :=
  dsymv s.d_numberUnknowns 1 s.d_hessian s.d_numberUnknowns s.d_deltaXNew.data 1 (fun _ => 0)

/-- The scalar `dxtHdx` of `updateHessian`. -/
def dxtHdx (s : BFGSNonLinearSolver) : ℚ :=
  ddot s.d_numberUnknowns s.d_deltaXNew.data (hessianTimesStep s)

/-- The scalar `dgtdx` of `updateHessian`. -/
def dgtdx (s : BFGSNonLinearSolver) : ℚ :=
  ddot s.d_numberUnknowns s.d_deltaXNew.data (deltaG s)

/-- The damping factor `theta` of `updateHessian`. -/
def theta (s : BFGSNonLinearSolver) : ℚ :=
  if dgtdx s ≥ (2 / 10) * dxtHdx s then 1 else (8 / 10) * dxtHdx s / (dxtHdx s - dgtdx s)

/-- The vector `r` of `updateHessian`. -/
def dampedR (s : BFGSNonLinearSolver) : Buf :=
  forLoop (fun i r =>
    Function.update r i (theta s * deltaG s i + (1 - theta s) * hessianTimesStep s i))
    s.d_numberUnknowns (fun _ => 0)

/-- The scalar `rtdx` of `updateHessian`. -/
def rtdx (s : BFGSNonLinearSolver) : ℚ :=
  ddot s.d_numberUnknowns s.d_deltaXNew.data (dampedR s)

/-- `updateHessian()`: the two `dsyr_` calls on `d_hessian` (the quantities `ztdx` and the
three `dnrm2_` norms it also computes are used by commented-out code only). -/
def updateHessian (s : BFGSNonLinearSolver) : BFGSNonLinearSolver :=
  let factor := 1 / rtdx s
  let h1 := dsyr s.d_numberUnknowns factor (dampedR s) s.d_hessian s.d_numberUnknowns
  let factor := -1 / dxtHdx s
  let h2 := dsyr s.d_numberUnknowns factor (hessianTimesStep s) h1 s.d_numberUnknowns
  { s with d_hessian := h2 }

/-- `scaleHessian()`. -/
def scaleHessian (num : NumLib) (s : BFGSNonLinearSolver) : BFGSNonLinearSolver :=
  let dgtdx := ddot s.d_numberUnknowns s.d_deltaXNew.data (deltaG s)
  let dgnorm := num.dnrm2 s.d_numberUnknowns (deltaG s)
  { s with
    d_hessian :=
      forLoop (fun i h => Function.update h (i + i * s.d_numberUnknowns) (dgnorm / dgtdx))
        s.d_numberUnknowns (fun _ => 0) }

/-- `computeStep()`: the augmented matrices, the lowest eigenpair from `dsygvx_`, the unscaled
step `eigenVector[i] / eigenVector[U]`, its norm, and the rescaling by
`d_trustRadius / d_normDelaXnew`, which the source applies unconditionally (the guard
`if (d_normDelaXnew > d_trustRadius)` is commented out). -/
def computeStep (num : NumLib) (s : BFGSNonLinearSolver) : BFGSNonLinearSolver :=
  let U := s.d_numberUnknowns
  let augmentedHessian := forLoop (fun col a =>
      forLoop (fun row a =>
        Function.update a (row + (U + 1) * col) (s.d_hessian (row + U * col))) U a)
    U (fun _ => 0)
  let augmentedSrfo := forLoop (fun col a =>
      forLoop (fun row a =>
        Function.update a (row + (U + 1) * col) (s.d_Srfo (row + U * col))) U a)
    U (fun _ => 0)
  let augmentedHessian := forLoop (fun i a =>
      Function.update (Function.update a (i + (U + 1) * U) (s.d_gradient.data i))
        (U + (U + 1) * i) (s.d_gradient.data i)) U augmentedHessian
  let augmentedSrfo := Function.update augmentedSrfo ((U + 2) * U) 1
  let eigenVector := num.dsygvx_vector (U + 1) augmentedHessian augmentedSrfo
  let d_lambda := num.dsygvx_value (U + 1) augmentedHessian augmentedSrfo
  let deltaXNew := forLoop (fun i v => Function.update v i (eigenVector i / eigenVector U))
    U s.d_deltaXNew.data
  let d_normDelaXnew := computeLInfNorm s deltaXNew
  let deltaXNew := forLoop (fun i v =>
      Function.update v i (v i * (s.d_trustRadius / d_normDelaXnew))) U deltaXNew
  { s with d_lambda := d_lambda, d_normDelaXnew := d_normDelaXnew,
           d_deltaXNew := ⟨s.d_deltaXNew.size, deltaXNew⟩ }

/-- `computepredDec()`. -/
def computepredDec (s : BFGSNonLinearSolver) : BFGSNonLinearSolver :=
  let U := s.d_numberUnknowns
  let Hdx := dsymv U 1 s.d_hessian U s.d_deltaXNew.data 1 (fun _ => 0)
  let dxtHdx := ddot U s.d_deltaXNew.data Hdx
  let Sdx := dsymv U 1 s.d_Srfo U s.d_deltaXNew.data 1 (fun _ => 0)
  let dxtSdx := ddot U s.d_deltaXNew.data Sdx
  let gtdx := ddot U s.d_deltaXNew.data s.d_gradient.data
  { s with d_predDec := (gtdx + (1 / 2) * dxtHdx) / (1 + dxtSdx) }

/-- `updateSolution(step, problem)`. -/
def updateSolution {σ : Type} (problem : nonlinearSolverProblem σ) (step : Buf)
    (s : BFGSNonLinearSolver) (p : σ) : BFGSNonLinearSolver × σ :=
  let incrementVector := forLoop (fun i v => Function.update v i (step i))
    s.d_numberUnknowns (fun _ => 0)
  let p1 := problem.update p incrementVector true s.d_useSingleAtomSolutionsInitialGuess
  ({ s with d_useSingleAtomSolutionsInitialGuess := false }, p1)

/-- The loop `while (d_trustRadius > d_normDelaXnew) d_trustRadius *= 0.5` with a bound
`fuel` on the number of halvings; `none` when the bound is exhausted. -/
def halveTrustRadius (normDelaXnew : ℚ) : Nat → ℚ → Option ℚ
  | fuel, trustRadius =>
    if trustRadius > normDelaXnew then
      match fuel with
      | 0 => none
      | f + 1 => halveTrustRadius normDelaXnew f (trustRadius * (1 / 2))
    else some trustRadius

/-- The branch `if (d_stepAccepted)` of the block "update trust radius and hessian". -/
def acceptedStep (s : BFGSNonLinearSolver) : BFGSNonLinearSolver :=
  let U := s.d_numberUnknowns
  let gtdx := ddot U s.d_deltaXNew.data s.d_gradient.data
  let gntdx := ddot U s.d_deltaXNew.data s.d_gradientNew.data
  let wolfeSufficientDec : Bool := decide ((s.d_valueNew - s.d_value) < (1 / 10) * gtdx)
  let wolfeCurvature : Bool := decide (gntdx > (1 / 2) * gtdx)
  let wolfeSatisfied := wolfeSufficientDec && wolfeCurvature
  let s := computepredDec s
  let ampfactor : ℚ :=
    if wolfeSufficientDec = true ∧ s.d_normDelaXnew ≥ s.d_trustRadius then 3 / 2 else 1
  let s :=
    if wolfeSatisfied then
      { s with d_trustRadius :=
          if 2 * ampfactor * s.d_trustRadius > s.d_trustRadiusMax then s.d_trustRadiusMax
          else 2 * ampfactor * s.d_trustRadius }
    else
      let t := if ampfactor * s.d_trustRadius < s.d_normDelaXnew
        then ampfactor * s.d_trustRadius else s.d_normDelaXnew
      let t := if t < s.d_trustRadiusMax then t else s.d_trustRadiusMax
      if t < s.d_trustRadiusMin then
        { s with d_trustRadius := t, d_isBFGSRestartDueToSmallRadius := true }
      else { s with d_trustRadius := t }
  let s := updateHessian s
  { s with d_deltaX := s.d_deltaXNew, d_value := s.d_valueNew, d_gradient := s.d_gradientNew }

/-- The branch `else` (step rejected) of the block "update trust radius and hessian". -/
def rejectedStep (fuel : Nat) (s : BFGSNonLinearSolver) : Option BFGSNonLinearSolver :=
  let s := { s with d_deltaX := s.d_deltaXNew }
  match halveTrustRadius s.d_normDelaXnew fuel (s.d_trustRadius * (1 / 2)) with
  | none => none
  | some t =>
    if t < s.d_trustRadiusMin then
      some { s with d_trustRadius := t, d_isBFGSRestartDueToSmallRadius := true }
    else some { s with d_trustRadius := t }

/-- The start of the loop body of `solve`: the small-radius reset branch. -/
def resetBranch {σ : Type} (num : NumLib) (problem : nonlinearSolverProblem σ) (p : σ)
    (s : BFGSNonLinearSolver) : BFGSNonLinearSolver :=
  if s.d_isBFGSRestartDueToSmallRadius then
    { initializeHessian num problem p s with d_trustRadius := 1 / 2 }
  else s

/-- The loop body of `solve` up to the convergence check: reset branch, `computeStep`,
the update of the problem, the new gradient and value, `scaleHessian` in the first
iteration or after a reset, and `d_gradMax`.  The quantities `residualNorm`, `gtdxs` and
`gtdxf` are printed only and are left out. -/
def iterationHead {σ : Type} (num : NumLib) (problem : nonlinearSolverProblem σ)
    (s : BFGSNonLinearSolver) (p : σ) : BFGSNonLinearSolver × σ :=
  let reset := s.d_isBFGSRestartDueToSmallRadius
  let s := resetBranch num problem p s
  let radius := s.d_trustRadius
  let s := computeStep num s
  let updateVector : Buf :=
    if s.d_stepAccepted then s.d_deltaXNew.data
    else forLoop (fun i v => Function.update v i (s.d_deltaXNew.data i - s.d_deltaX.data i))
      s.d_numberUnknowns (fun _ => 0)
  let updated := updateSolution problem updateVector s p
  let s : BFGSNonLinearSolver := updated.1
  let p : σ := updated.2
  let s : BFGSNonLinearSolver :=
    { s with
      d_gradientNew := ⟨s.d_gradientNew.size, problem.gradient p⟩
      d_valueNew := problem.value p }
  let s : BFGSNonLinearSolver :=
    if s.d_iter = 0 ∨ s.d_isBFGSRestartDueToSmallRadius = true then
      { scaleHessian num s with d_isBFGSRestartDueToSmallRadius := false }
    else s
  let s : BFGSNonLinearSolver :=
    { s with d_gradMax := computeLInfNorm s s.d_gradientNew.data }
  let s : BFGSNonLinearSolver :=
    { s with trace := IterRecord.mk reset radius s.d_gradMax :: s.trace }
  (s, p)

/-- One execution of the loop body of `solve`; the result carries `isBreak`. -/
def solveIteration {σ : Type} (num : NumLib) (problem : nonlinearSolverProblem σ)
    (fuel : Nat) (s : BFGSNonLinearSolver) (p : σ) :
    Option (BFGSNonLinearSolver × σ × Bool) :=
  let head := iterationHead num problem s p
  let s : BFGSNonLinearSolver := head.1
  let p : σ := head.2
  if s.d_gradMax < s.d_tolerance then some (s, p, true)
  else
    let s : BFGSNonLinearSolver :=
      { s with d_stepAccepted := decide (s.d_valueNew ≤ s.d_value) }
    if s.d_stepAccepted then some (acceptedStep s, p, false)
    else
      match rejectedStep fuel s with
      | none => none
      | some s => some (s, p, false)

/-- The initialisation `d_iter = 0` of the loop of `solve`. -/
def resetIter (s : BFGSNonLinearSolver) : BFGSNonLinearSolver :=
  { s with d_iter := 0 }

/-- The increment `++d_iter` of the loop of `solve`. -/
def incrementIter (s : BFGSNonLinearSolver) : BFGSNonLinearSolver :=
  { s with d_iter := s.d_iter + 1 }

/-- The loop `for (d_iter = ...; d_iter < d_maxNumberIterations; ++d_iter)` of `solve`,
entered with `remaining = d_maxNumberIterations - d_iter`. -/
def solveLoop {σ : Type} (num : NumLib) (problem : nonlinearSolverProblem σ) (fuel : Nat) :
    Nat → BFGSNonLinearSolver → σ → Option (BFGSNonLinearSolver × σ)
  | 0, s, p => some (s, p)
  | remaining + 1, s, p =>
    match solveIteration num problem fuel s p with
    | none => none
    | some (s, p, isBreak) =>
      if isBreak then some (s, p)
      else solveLoop num problem fuel remaining (incrementIter s) p

/-- The part of `solve` before the loop: sizes, the initial gradient, value and Hessian
(without restart), and `d_gradMax` of the initial gradient. -/
def solveInit {σ : Type} (num : NumLib) (problem : nonlinearSolverProblem σ)
    (restart : Bool) (s : BFGSNonLinearSolver) (p : σ) : BFGSNonLinearSolver :=
  let s := { s with d_numberUnknowns := problem.getNumberUnknowns p }
  let s := { s with d_unknownCountFlag := s.d_unknownCountFlag.resize s.d_numberUnknowns 1 }
  let s := { s with
    d_deltaX := s.d_deltaX.resize s.d_numberUnknowns 0
    d_deltaXNew := s.d_deltaXNew.resize s.d_numberUnknowns 0
    d_gradient := s.d_gradient.resize s.d_numberUnknowns 0
    d_gradientNew := s.d_gradientNew.resize s.d_numberUnknowns 0 }
  let s :=
    if !restart then
      let s := { s with d_trustRadius := 1 / 2, d_stepAccepted := true }
      let s := { s with d_gradient := ⟨s.d_gradient.size, problem.gradient p⟩,
                        d_value := problem.value p }
      initializeHessian num problem p s
    else
      { s with d_useSingleAtomSolutionsInitialGuess := true }
  { s with d_gradMax := computeLInfNorm s s.d_gradient.data, trace := [] }

/-- `solve(problem, checkpointFileName, restart)`: the return value, the solver and the
problem after the call; `none` when a trust-radius halving loop exhausts `fuel`. -/
def solve {σ : Type} (num : NumLib) (problem : nonlinearSolverProblem σ) (fuel : Nat)
    (restart : Bool) (s : BFGSNonLinearSolver) (p : σ) :
    Option (ReturnValueType × BFGSNonLinearSolver × σ) :=
  let s := solveInit num problem restart s p
  if s.d_gradMax < s.d_tolerance then some (ReturnValueType.SUCCESS, s, p)
  else
    match solveLoop num problem fuel s.d_maxNumberIterations (resetIter s) p with
    | none => none
    | some (s, p) =>
      let returnValue :=
        if s.d_iter = s.d_maxNumberIterations then ReturnValueType.MAX_ITER_REACHED
        else ReturnValueType.SUCCESS
      some (returnValue, s, p)

/-! ## BLAS level 3 and further collectives -/

/-- Reference BLAS `dgemm_(transA, transB, m, n, k, alpha, a, lda, b, ldb, beta, c, ldc)`
on column-major storage: `C(i,j) := alpha * sum_l op(A)(i,l) * op(B)(l,j) + beta * C(i,j)`
for `i < m`, `j < n`.  The pointers are `a + aOff`, `b + bOff`, `c + cOff`. -/
def dgemm (transA transB : Char) (m n k : Nat) (alpha : ℚ) (a : Buf) (aOff lda : Nat)
    (b : Buf) (bOff ldb : Nat) (beta : ℚ) (c : Buf) (cOff ldc : Nat) : Buf :=
  forLoop (fun j cj =>
    forLoop (fun i ci =>
      Function.update ci (cOff + i + j * ldc)
        (alpha * (∑ l ∈ Finset.range k,
            (if transA = 'N' then a (aOff + i + l * lda) else a (aOff + l + i * lda)) *
            (if transB = 'N' then b (bOff + l + j * ldb) else b (bOff + j + l * ldb)))
          + beta * ci (cOff + i + j * ldc))) m cj) n c

/-- The call `MPI_Allreduce(MPI_IN_PLACE, buf + off, count, MPI_DOUBLE, MPI_SUM, comm)`. -/
def mpiAllreduceSumAt (n off count : Nat) (bufs : Nat → Buf) : Nat → Buf :=
  fun q idx =>
    if off ≤ idx ∧ idx < off + count then ∑ p ∈ Finset.range n, bufs p idx else bufs q idx

/-- The call `MPI_Allgatherv(send, sendcount, ..., recv, recvcounts, displs, ..., comm)` on
`n` ranks: the block of rank `g` is stored at `recv + displs[g]`. -/
def mpiAllgatherv (n : Nat) (send : Nat → Buf) (recvcounts displs : Nat → Nat) (recv : Buf) :
    Buf :=
  forLoop (fun g r =>
    forLoop (fun t r => Function.update r (displs g + t) (send g t)) (recvcounts g) r) n recv

/-- `dealii::Utilities::MPI::max(value, comm)` on `n` ranks. -/
def mpiMax (n : Nat) (value : Nat → Nat) : Nat :=
  forLoop (fun p m => max m (value p)) n 0

/-- The results of the first `n` ranks when every one of them finished. -/
def allFinished {α : Type} (n : Nat) (dflt : α) (f : Nat → Option α) : Option (Nat → α) :=
  if ∀ g, g < n → (f g).isSome = true then some (fun g => (f g).getD dflt) else none

/-! ## Blocked overlap assembly and subspace rotation -/

/-- The environment of a call: the sizes of the band-group communicator
(`interBandGroupComm`) and of the domain-decomposition communicator (`mpiComm`), the
entries of `dftParameters` the code reads, and the vector
`bandGroupLowHighPlusOneIndices` that `dftUtils::createBandParallelizationIndices`
returns for `N` (that helper is not part of the sources; `allReduceBlockSize` is the value
of `mpiAllReduceMessageBlockSizeMB*1e+6/sizeof(T)`). -/
structure ParallelEnv where
  numberBandGroups : Nat
  numberDomainRanks : Nat
  wfcBlockSize : Nat
  subspaceRotDofsBlockSize : Nat
  bandParalOpt : Bool
  allReduceBlockSize : Nat
  bandGroupLowHighPlusOneIndices : Nat → Nat

/-- The arguments one rank passes: the multi-vector, its local size, whether the rank is
active in the process grid, and its part of the distributed matrix. -/
structure RankData where
  subspaceVectorsArray : Buf
  subspaceVectorsArrayLocalSize : Nat
  processActive : Bool
  mat : ScaLAPACKMatrix

/-- The row map of a rank, as `fillParallelOverlapMatrix` and `subspaceRotation` build
it. -/
def RankData.rowMap (d : RankData) : IdMap :=
  (createGlobalToLocalIdMapsScaLAPACKMat d.processActive d.mat).1

/-- The column map of a rank. -/
def RankData.colMap (d : RankData) : IdMap :=
  (createGlobalToLocalIdMapsScaLAPACKMat d.processActive d.mat).2

/-- The band-ownership test `(e <= indices[2*id+1] && e > indices[2*id])` on the end `e`
of a column block. -/
def bandOwns (env : ParallelEnv) (bandGroupTaskId e : Nat) : Prop :=
  e ≤ env.bandGroupLowHighPlusOneIndices (2 * bandGroupTaskId + 1) ∧
    e > env.bandGroupLowHighPlusOneIndices (2 * bandGroupTaskId)

instance (env : ParallelEnv) (g e : Nat) : Decidable (bandOwns env g e) := by
  unfold bandOwns; infer_instance

/-- The loop of `fillParallelOverlapMatrix` that copies the lower triangular part of the
block into the local panel. -/
def overlapScatter (N ivec B D : Nat) (rowMap colMap : IdMap) (mat : ScaLAPACKMatrix)
    (overlapMatrixBlock : Buf) (values : Buf) : Buf :=
  forLoop (fun i v =>
    match colMap (i + ivec) with
    | none => v
    | some localColumnId =>
      forRange (ivec + i) N (fun j v =>
        match rowMap j with
        | none => v
        | some localRowId =>
          Function.update v (mat.elIndex localRowId localColumnId)
            (overlapMatrixBlock (i * D + j - ivec))) v) B values

/-- The buffers of the ranks of one band group during `fillParallelOverlapMatrix`. -/
structure OverlapState where
  overlapMatrixBlock : Nat → Buf
  values : Nat → Buf

/-- The body of the block loop of `fillParallelOverlapMatrix` for the ranks `p` of the band
group `bandGroupTaskId`. -/
def overlapBlockStep (env : ParallelEnv) (N vectorsBlockSize : Nat) (ranks : Nat → RankData)
    (bandGroupTaskId : Nat) (ivec : Nat) (st : OverlapState) : OverlapState :=
  let B := min vectorsBlockSize (N - ivec)
  if bandOwns env bandGroupTaskId (ivec + B) then
    let D := N - ivec
    let localBlock : Nat → Buf := fun p =>
      dgemm 'N' 'T' D B ((ranks p).subspaceVectorsArrayLocalSize / N) 1
        (ranks p).subspaceVectorsArray ivec N (ranks p).subspaceVectorsArray ivec N
        0 (fun _ => 0) 0 D
    let summed := mpiAllreduceSum env.numberDomainRanks (D * B) localBlock
    { overlapMatrixBlock := summed
      values := fun p =>
        if (ranks p).processActive then
          overlapScatter N ivec B D
            (ranks p).rowMap (ranks p).colMap (ranks p).mat (summed p) (st.values p)
        else st.values p }
  else st

/-- The block loop of `fillParallelOverlapMatrix` on one band group: the local panels of
its ranks before the sum across band groups. -/
def overlapBandGroup (env : ParallelEnv) (N : Nat) (ranks : Nat → RankData)
    (bandGroupTaskId fuel : Nat) : Option (Nat → Buf) :=
  let vectorsBlockSize := min env.wfcBlockSize (env.bandGroupLowHighPlusOneIndices 1)
  (stridedLoop N vectorsBlockSize (overlapBlockStep env N vectorsBlockSize ranks bandGroupTaskId)
    fuel 0 ⟨fun _ _ => 0, fun p => (ranks p).mat.values⟩).map (fun st => st.values)

/-- `fillParallelOverlapMatrix` on all ranks: `ranks g p` are the arguments of the rank `p`
of the band group `g`; the result is `overlapMatPar` of every rank after the call. -/
def fillParallelOverlapMatrix (env : ParallelEnv) (N : Nat) (ranks : Nat → Nat → RankData)
    (fuel : Nat) : Option (Nat → Nat → ScaLAPACKMatrix) :=
  match allFinished env.numberBandGroups (fun p => (ranks 0 p).mat.values)
      (fun g => overlapBandGroup env N (ranks g) g fuel) with
  | none => none
  | some values =>
    some (fun g p =>
      sumAcrossInterCommScaLAPACKMat env.numberBandGroups
        (fun g1 => (ranks g1 p).processActive)
        (fun g1 => (ranks g1 p).mat.withValues (values g1 p)) g)

/-- The extraction of the `BVec × D` panel of the rotation matrix into
`rotationMatBlock` (previously set to zero), in either orientation. -/
def rotationGather (rotationMatTranspose : Bool) (active : Bool) (D BVec jvec : Nat)
    (rowMap colMap : IdMap) (mat : ScaLAPACKMatrix) (rotationMatBlock : Buf) : Buf :=
  if rotationMatTranspose then
    if active then
      forLoop (fun i blk =>
        match rowMap i with
        | none => blk
        | some localRowId =>
          forLoop (fun j blk =>
            match colMap (j + jvec) with
            | none => blk
            | some localColumnId =>
              Function.update blk (i * BVec + j) (mat.local_el localRowId localColumnId))
            BVec blk) D rotationMatBlock
    else rotationMatBlock
  else
    if active then
      forLoop (fun i blk =>
        match colMap i with
        | none => blk
        | some localColumnId =>
          forLoop (fun j blk =>
            match rowMap (j + jvec) with
            | none => blk
            | some localRowId =>
              Function.update blk (i * BVec + j) (mat.local_el localRowId localColumnId))
            BVec blk) D rotationMatBlock
    else rotationMatBlock

/-- The buffers and counters of the ranks of one band group during `subspaceRotation`. -/
structure RotationState where
  subspaceVectorsArray : Nat → Buf
  rotationMatBlock : Nat → Buf
  rotatedVectorsMatBlock : Nat → Buf
  startIndexBandParal : Nat
  numVectorsBandParal : Nat

/-- The body of the loop over vector blocks of `subspaceRotation`, for the dof block at
`idof`. -/
def rotationVectorStep (env : ParallelEnv) (N vectorsBlockSize dofsBlockSize idof : Nat)
    (ranks : Nat → RankData) (bandGroupTaskId : Nat)
    (rotationMatTranspose isRotationMatLowerTria : Bool) (jvec : Nat) (st : RotationState) :
    RotationState :=
  let BVec := min vectorsBlockSize (N - jvec)
  let D := if isRotationMatLowerTria then jvec + BVec else N
  if bandOwns env bandGroupTaskId (jvec + BVec) then
    let startIndexBandParal :=
      if jvec < st.startIndexBandParal then jvec else st.startIndexBandParal
    let numVectorsBandParal := jvec + BVec - startIndexBandParal
    let gathered : Nat → Buf := fun p =>
      rotationGather rotationMatTranspose (ranks p).processActive D BVec jvec
        (ranks p).rowMap (ranks p).colMap (ranks p).mat (fun _ => 0)
    let summed := mpiAllreduceSum env.numberDomainRanks (BVec * D) gathered
    { st with
      startIndexBandParal := startIndexBandParal
      numVectorsBandParal := numVectorsBandParal
      rotationMatBlock := summed
      rotatedVectorsMatBlock := fun p =>
        let numLocalDofs := (ranks p).subspaceVectorsArrayLocalSize / N
        let BDof := if numLocalDofs ≥ idof then min dofsBlockSize (numLocalDofs - idof) else 0
        if BDof ≠ 0 then
          dgemm 'N' 'N' BVec BDof D 1 (summed p) 0 BVec (st.subspaceVectorsArray p) (idof * N) N
            0 (st.rotatedVectorsMatBlock p) jvec N
        else st.rotatedVectorsMatBlock p }
  else st

/-- The body of the loop over dof blocks of `subspaceRotation`; `none` when the loop over
vector blocks exhausts `fuel`. -/
def rotationDofStep (env : ParallelEnv) (N vectorsBlockSize dofsBlockSize : Nat)
    (ranks : Nat → RankData) (bandGroupTaskId : Nat)
    (rotationMatTranspose isRotationMatLowerTria : Bool) (fuel : Nat) (idof : Nat)
    (st : Option RotationState) : Option RotationState :=
  match st with
  | none => none
  | some st =>
    let st : RotationState := { st with rotatedVectorsMatBlock := fun _ _ => 0 }
    match stridedLoop N vectorsBlockSize
        (rotationVectorStep env N vectorsBlockSize dofsBlockSize idof ranks bandGroupTaskId
          rotationMatTranspose isRotationMatLowerTria) fuel 0 st with
    | none => none
    | some st =>
      some { st with
        subspaceVectorsArray := fun p =>
          let numLocalDofs := (ranks p).subspaceVectorsArrayLocalSize / N
          let BDof := if numLocalDofs ≥ idof then min dofsBlockSize (numLocalDofs - idof) else 0
          if BDof ≠ 0 then
            forLoop (fun i x =>
              forLoop (fun j x =>
                Function.update x (N * (i + idof) + j) (st.rotatedVectorsMatBlock p (i * N + j)))
                N x) BDof (st.subspaceVectorsArray p)
          else st.subspaceVectorsArray p }

/-- The two block loops of `subspaceRotation` on one band group: the state of its ranks
before the communication across band groups. -/
def rotationBandGroup (env : ParallelEnv) (N : Nat) (ranks : Nat → RankData)
    (bandGroupTaskId : Nat) (rotationMatTranspose isRotationMatLowerTria : Bool)
    (fuel : Nat) : Option RotationState :=
  let maxNumLocalDofs := mpiMax env.numberDomainRanks
    (fun p => (ranks p).subspaceVectorsArrayLocalSize / N)
  let vectorsBlockSize := min env.wfcBlockSize (env.bandGroupLowHighPlusOneIndices 1)
  let dofsBlockSize := min maxNumLocalDofs env.subspaceRotDofsBlockSize
  match stridedLoop maxNumLocalDofs dofsBlockSize
      (rotationDofStep env N vectorsBlockSize dofsBlockSize ranks bandGroupTaskId
        rotationMatTranspose isRotationMatLowerTria fuel) fuel 0
      (some ⟨fun p => (ranks p).subspaceVectorsArray, fun _ _ => 0, fun _ _ => 0, N, 0⟩) with
  | none => none
  | some st => st

/-- The communication across band groups at the end of `subspaceRotation`, seen from the
rank `p` of band group `g`: `states g1` is the state of band group `g1` after the block
loops. -/
def rotationBandCommunication (env : ParallelEnv) (N : Nat) (ranks : Nat → Nat → RankData)
    (states : Nat → RotationState) (g p fuel : Nat) : Option Buf :=
  let numLocalDofs := (ranks g p).subspaceVectorsArrayLocalSize / N
  if ¬ env.bandParalOpt then
    (stridedLoop (N * numLocalDofs) env.allReduceBlockSize
      (fun i bufs =>
        mpiAllreduceSumAt env.numberBandGroups i
          (min env.allReduceBlockSize (N * numLocalDofs - i)) bufs)
      fuel 0 (fun g1 => (states g1).subspaceVectorsArray p)).map (fun bufs => bufs g)
  else
    let eigenVectorsBandGroup : Nat → Buf := fun g1 =>
      forLoop (fun iNode v =>
        forLoop (fun iWave v =>
          Function.update v (iNode * (states g1).numVectorsBandParal + iWave)
            ((states g1).subspaceVectorsArray p
              (iNode * N + (states g1).startIndexBandParal + iWave)))
          (states g1).numVectorsBandParal v)
        ((ranks g1 p).subspaceVectorsArrayLocalSize / N) (fun _ => 0)
    let eigenVectorsBandGroupTransposed : Nat → Buf := fun g1 =>
      forLoop (fun iNode v =>
        forLoop (fun iWave v =>
          Function.update v (iWave * ((ranks g1 p).subspaceVectorsArrayLocalSize / N) + iNode)
            (eigenVectorsBandGroup g1 (iNode * (states g1).numVectorsBandParal + iWave)))
          (states g1).numVectorsBandParal v)
        ((ranks g1 p).subspaceVectorsArrayLocalSize / N) (fun _ => 0)
    let recvcounts : Nat → Nat := fun g1 =>
      (states g1).numVectorsBandParal * ((ranks g1 p).subspaceVectorsArrayLocalSize / N)
    let displs : Nat → Nat := fun g1 =>
      (states g1).startIndexBandParal * ((ranks g1 p).subspaceVectorsArrayLocalSize / N)
    let eigenVectorsTransposed :=
      mpiAllgatherv env.numberBandGroups eigenVectorsBandGroupTransposed recvcounts displs
        (fun _ => 0)
    some (forLoop (fun iNode x =>
      forLoop (fun iWave x =>
        Function.update x (iNode * N + iWave)
          (eigenVectorsTransposed (iWave * numLocalDofs + iNode))) N x)
      numLocalDofs ((states g).subspaceVectorsArray p))

/-- `subspaceRotation` on all ranks: `ranks g p` are the arguments of the rank `p` of the
band group `g`; the result is `subspaceVectorsArray` of every rank after the call. -/
def subspaceRotation (env : ParallelEnv) (N : Nat) (ranks : Nat → Nat → RankData)
    (rotationMatTranspose isRotationMatLowerTria doCommAfterBandParal : Bool) (fuel : Nat) :
    Option (Nat → Nat → Buf) :=
  match allFinished env.numberBandGroups
      ⟨fun p => (ranks 0 p).subspaceVectorsArray, fun _ _ => 0, fun _ _ => 0, N, 0⟩
      (fun g => rotationBandGroup env N (ranks g) g rotationMatTranspose
        isRotationMatLowerTria fuel) with
  | none => none
  | some states =>
    if env.numberBandGroups > 1 ∧ doCommAfterBandParal = true then
      allFinished env.numberBandGroups (fun p => (ranks 0 p).subspaceVectorsArray)
        (fun g =>
          allFinished env.numberDomainRanks (ranks g 0).subspaceVectorsArray
            (fun p => rotationBandCommunication env N ranks states g p fuel))
    else some (fun g p => (states g).subspaceVectorsArray p)

/-- The properties of the two maps of a rank that the block algorithms rely on. -/
structure MapsOk (rowMap colMap : IdMap) (mat : ScaLAPACKMatrix) : Prop where
  row_lt : ∀ r lr, rowMap r = some lr → lr < mat.local_m
  col_lt : ∀ c lc, colMap c = some lc → lc < mat.local_n
  row_inj : ∀ r r2 lr, rowMap r = some lr → rowMap r2 = some lr → r = r2
  col_inj : ∀ c c2 lc, colMap c = some lc → colMap c2 = some lc → c = c2

/-- The entry `(r, c)` of `Xᵀ X`: the sum over the `P` ranks of the domain decomposition
and over their local rows `k` of `X[k, r] * X[k, c]`, with `X[k, j]` stored at `k * N + j`. -/
def overlapEntry (P N : Nat) (ranks : Nat → RankData) (r c : Nat) : ℚ :=
  ∑ q ∈ Finset.range P, ∑ k ∈ Finset.range ((ranks q).subspaceVectorsArrayLocalSize / N),
    (ranks q).subspaceVectorsArray (k * N + r) * (ranks q).subspaceVectorsArray (k * N + c)

/-- The end `ivec + B` of the column block that contains the column `c`. -/
def columnBlockEnd (N vectorsBlockSize c : Nat) : Nat :=
  c / vectorsBlockSize * vectorsBlockSize
    + min vectorsBlockSize (N - c / vectorsBlockSize * vectorsBlockSize)

/-- The band-group ranges `[indices[2g], indices[2g+1])`, `g < numberBandGroups`, are
consecutive and cover `[0, N)`. -/
structure BandPartition (env : ParallelEnv) (N : Nat) : Prop where
  first : env.bandGroupLowHighPlusOneIndices 0 = 0
  last : env.bandGroupLowHighPlusOneIndices (2 * (env.numberBandGroups - 1) + 1) = N
  ordered : ∀ g, g < env.numberBandGroups →
    env.bandGroupLowHighPlusOneIndices (2 * g) ≤ env.bandGroupLowHighPlusOneIndices (2 * g + 1)
  contiguous : ∀ g, g + 1 < env.numberBandGroups →
    env.bandGroupLowHighPlusOneIndices (2 * (g + 1))
      = env.bandGroupLowHighPlusOneIndices (2 * g + 1)

/-- The rank `d` of a band group holds the same multi-vector as the rank `e` of another
band group at the same position of the domain decomposition, and the same part of the
process grid. -/
structure Replicated (d e : RankData) : Prop where
  vectors : d.subspaceVectorsArray = e.subspaceVectorsArray
  size : d.subspaceVectorsArrayLocalSize = e.subspaceVectorsArrayLocalSize
  active : d.processActive = e.processActive
  local_m : d.mat.local_m = e.mat.local_m
  local_n : d.mat.local_n = e.mat.local_n
  global_row : d.mat.global_row = e.mat.global_row
  global_column : d.mat.global_column = e.mat.global_column

/-- The entry `(r, c)` of the distributed matrix as one rank holds it: the local element
when the rank owns the row and the column in its maps, zero otherwise. -/
def ownedEntry (d : RankData) (r c : Nat) : ℚ :=
  match d.rowMap r, d.colMap c with
  | some lr, some lc => d.mat.local_el lr lc
  | _, _ => 0

/-- The entry `(r, c)` of the distributed matrix: the sum over the `P` ranks of the process
grid of what they hold of it (every entry is held by one rank of a block-cyclic
distribution). -/
def globalEntry (P : Nat) (ranks : Nat → RankData) (r c : Nat) : ℚ :=
  ∑ q ∈ Finset.range P, ownedEntry (ranks q) r c

/-- The coefficient of `X[k, i]` in the rotated `X[k, j]`: `Q(j, i)`, or `Q(i, j)` when
`rotationMatTranspose` is set. -/
def rotationEntry (rotationMatTranspose : Bool) (P : Nat) (ranks : Nat → RankData)
    (j i : Nat) : ℚ :=
  if rotationMatTranspose then globalEntry P ranks i j else globalEntry P ranks j i

/-- The number `BDof` of local rows of the dof block that starts at `idof`. -/
def blockDofs (dofsBlockSize numLocalDofs idof : Nat) : Nat :=
  if numLocalDofs ≥ idof then min dofsBlockSize (numLocalDofs - idof) else 0

/-- The inner dimension `D` of the product for the vector block that contains the column
`c`. -/
def rotationDepth (isRotationMatLowerTria : Bool) (N vectorsBlockSize c : Nat) : Nat :=
  if isRotationMatLowerTria then columnBlockEnd N vectorsBlockSize c else N

/-- The rotated entry `(k, j)` a band group computes from the multi-vector `X`: the sum over
the first `D` columns `i` of the rotation coefficient times `X[k, i]` when the band group
owns the vector block of column `j`, zero otherwise. -/
def rotatedValue (env : ParallelEnv) (N vectorsBlockSize : Nat) (ranks : Nat → RankData)
    (bandGroupTaskId : Nat) (rotationMatTranspose isRotationMatLowerTria : Bool) (X : Buf)
    (k j : Nat) : ℚ :=
  if bandOwns env bandGroupTaskId (columnBlockEnd N vectorsBlockSize j) then
    ∑ i ∈ Finset.range (rotationDepth isRotationMatLowerTria N vectorsBlockSize j),
      rotationEntry rotationMatTranspose env.numberDomainRanks ranks j i * X (k * N + i)
  else 0

/-- Two states of `subspaceRotation` hold the same multi-vector and the same band
counters, which is all that the code after the block loops reads. -/
def RotationState.agree (s t : RotationState) : Prop :=
  s.subspaceVectorsArray = t.subspaceVectorsArray ∧
    s.startIndexBandParal = t.startIndexBandParal ∧
    s.numVectorsBandParal = t.numVectorsBandParal

/-- Two runs of the block loops both exhaust their fuel, or both finish in states that
agree. -/
def runsAgree (a b : Option RotationState) : Prop :=
  match a, b with
  | none, none => True
  | some s, some t => s.agree t
  | _, _ => False

/-! ## The mixed-precision overlap assembly -/

/-- Reference BLAS `sgemm_`: single precision is modelled exactly, so it computes what
`dgemm_` computes. -/
def sgemm (transA transB : Char) (m n k : Nat) (alpha : ℚ) (a : Buf) (aOff lda : Nat)
    (b : Buf) (bOff ldb : Nat) (beta : ℚ) (c : Buf) (cOff ldc : Nat) : Buf :=
  dgemm transA transB m n k alpha a aOff lda b bOff ldb beta c cOff ldc

/-- The `std::vector` of lower precision built from the range
`[array, array + size)`: the conversion is modelled exactly. -/
def lowPrecCopy (array : Buf) (size : Nat) : Buf :=
  fun idx => if idx < size then array idx else 0

/-- The loop of `fillParallelOverlapMatrixMixedPrec` that stitches the `B × B` block and
the `DRem × B` block into the `D × B` tile. -/
def overlapStitch (B D DRem : Nat) (overlapMatrixBlockDoublePrec overlapMatrixBlockLowPrec : Buf)
    (overlapMatrixBlock : Buf) : Buf :=
  forLoop (fun i blk =>
    let blk := forLoop (fun j blk =>
      Function.update blk (i * D + j) (overlapMatrixBlockDoublePrec (i * B + j))) B blk
    forLoop (fun j blk =>
      Function.update blk (i * D + j + B) (overlapMatrixBlockLowPrec (i * DRem + j))) DRem blk)
    B overlapMatrixBlock

/-- The buffers of the ranks of one band group during
`fillParallelOverlapMatrixMixedPrec`. -/
structure OverlapMixedState where
  overlapMatrixBlock : Nat → Buf
  overlapMatrixBlockLowPrec : Nat → Buf
  overlapMatrixBlockDoublePrec : Nat → Buf
  values : Nat → Buf

/-- The body of the block loop of `fillParallelOverlapMatrixMixedPrec` for the ranks `p`
of the band group `bandGroupTaskId`. -/
def overlapBlockStepMixedPrec (env : ParallelEnv) (N vectorsBlockSize : Nat)
    (ranks : Nat → RankData) (bandGroupTaskId : Nat) (ivec : Nat) (st : OverlapMixedState) :
    OverlapMixedState :=
  let B := min vectorsBlockSize (N - ivec)
  if bandOwns env bandGroupTaskId (ivec + B) then
    let D := N - ivec
    let doublePrec : Nat → Buf := fun p =>
      dgemm 'N' 'T' B B ((ranks p).subspaceVectorsArrayLocalSize / N) 1
        (ranks p).subspaceVectorsArray ivec N (ranks p).subspaceVectorsArray ivec N
        0 (st.overlapMatrixBlockDoublePrec p) 0 B
    let DRem := D - B
    let lowPrec : Nat → Buf := fun p =>
      if DRem ≠ 0 then
        sgemm 'N' 'T' DRem B ((ranks p).subspaceVectorsArrayLocalSize / N) 1
          (lowPrecCopy (ranks p).subspaceVectorsArray (ranks p).subspaceVectorsArrayLocalSize)
          (ivec + B) N
          (lowPrecCopy (ranks p).subspaceVectorsArray (ranks p).subspaceVectorsArrayLocalSize)
          ivec N 0 (fun _ => 0) 0 DRem
      else fun _ => 0
    let doubleSummed := mpiAllreduceSum env.numberDomainRanks (B * B) doublePrec
    let lowSummed := mpiAllreduceSum env.numberDomainRanks (DRem * B) lowPrec
    let stitched : Nat → Buf := fun p =>
      overlapStitch B D DRem (doubleSummed p) (lowSummed p) (fun _ => 0)
    { overlapMatrixBlock := stitched
      overlapMatrixBlockLowPrec := lowSummed
      overlapMatrixBlockDoublePrec := doubleSummed
      values := fun p =>
        if (ranks p).processActive then
          overlapScatter N ivec B D (ranks p).rowMap (ranks p).colMap (ranks p).mat
            (stitched p) (st.values p)
        else st.values p }
  else st

/-- The block loop of `fillParallelOverlapMatrixMixedPrec` on one band group: the local
panels of its ranks before the sum across band groups. -/
def overlapBandGroupMixedPrec (env : ParallelEnv) (N : Nat) (ranks : Nat → RankData)
    (bandGroupTaskId fuel : Nat) : Option (Nat → Buf) :=
  let vectorsBlockSize := min env.wfcBlockSize (env.bandGroupLowHighPlusOneIndices 1)
  (stridedLoop N vectorsBlockSize
    (overlapBlockStepMixedPrec env N vectorsBlockSize ranks bandGroupTaskId)
    fuel 0 ⟨fun _ _ => 0, fun _ _ => 0, fun _ _ => 0, fun p => (ranks p).mat.values⟩).map
    (fun st => st.values)

/-- `fillParallelOverlapMatrixMixedPrec` on all ranks. -/
def fillParallelOverlapMatrixMixedPrec (env : ParallelEnv) (N : Nat)
    (ranks : Nat → Nat → RankData) (fuel : Nat) : Option (Nat → Nat → ScaLAPACKMatrix) :=
  match allFinished env.numberBandGroups (fun p => (ranks 0 p).mat.values)
      (fun g => overlapBandGroupMixedPrec env N (ranks g) g fuel) with
  | none => none
  | some values =>
    some (fun g p =>
      sumAcrossInterCommScaLAPACKMat env.numberBandGroups
        (fun g1 => (ranks g1 p).processActive)
        (fun g1 => (ranks g1 p).mat.withValues (values g1 p)) g)

/-! ## The mixed-precision rotation by a lower triangular matrix -/

/-- The extraction of the `BVec × D` panel of the rotation matrix in
`subspaceRotationPGSMixedPrec`: the panel with its diagonal entries set to zero, and the
diagonal entries in `diagValuesBlock`. -/
def rotationGatherPGS (rotationMatTranspose : Bool) (active : Bool) (D BVec jvec : Nat)
    (rowMap colMap : IdMap) (mat : ScaLAPACKMatrix) (rotationMatBlock diagValuesBlock : Buf) :
    Buf × Buf :=
  if rotationMatTranspose then
    if active then
      forLoop (fun i (st : Buf × Buf) =>
        match rowMap i with
        | none => st
        | some localRowId =>
          let blk := forLoop (fun j blk =>
            match colMap (j + jvec) with
            | none => blk
            | some localColumnId =>
              Function.update blk (i * BVec + j) (mat.local_el localRowId localColumnId))
            BVec st.1
          if i ≥ jvec ∧ i < jvec + BVec then
            match colMap i with
            | none => (blk, st.2)
            | some localColumnId =>
              (Function.update blk (i * BVec + i - jvec) 0,
                Function.update st.2 (i - jvec) (mat.local_el localRowId localColumnId))
          else (blk, st.2)) D (rotationMatBlock, diagValuesBlock)
    else (rotationMatBlock, diagValuesBlock)
  else
    if active then
      forLoop (fun i (st : Buf × Buf) =>
        match colMap i with
        | none => st
        | some localColumnId =>
          let blk := forLoop (fun j blk =>
            match rowMap (j + jvec) with
            | none => blk
            | some localRowId =>
              Function.update blk (i * BVec + j) (mat.local_el localRowId localColumnId))
            BVec st.1
          if i ≥ jvec ∧ i < jvec + BVec then
            match rowMap i with
            | none => (blk, st.2)
            | some localRowId =>
              (Function.update blk (i * BVec + i - jvec) 0,
                Function.update st.2 (i - jvec) (mat.local_el localRowId localColumnId))
          else (blk, st.2)) D (rotationMatBlock, diagValuesBlock)
    else (rotationMatBlock, diagValuesBlock)

/-- The buffers of the ranks of one band group during `subspaceRotationPGSMixedPrec`. -/
structure RotationPGSState where
  subspaceVectorsArray : Nat → Buf
  rotationMatBlock : Nat → Buf
  rotatedVectorsMatBlockTemp : Nat → Buf
  diagValuesBlock : Nat → Buf

/-- The body of the loop over vector blocks of `subspaceRotationPGSMixedPrec`, for the dof
block at `idof`; `subspaceVectorsArraySinglePrec` is the copy of the multi-vector made
before the loops. -/
def rotationPGSVectorStep (env : ParallelEnv) (N vectorsBlockSize dofsBlockSize idof : Nat)
    (ranks : Nat → RankData) (bandGroupTaskId : Nat) (rotationMatTranspose : Bool)
    (subspaceVectorsArraySinglePrec : Nat → Buf) (jvec : Nat) (st : RotationPGSState) :
    RotationPGSState :=
  let BVec := min vectorsBlockSize (N - jvec)
  let D := jvec + BVec
  if bandOwns env bandGroupTaskId (jvec + BVec) then
    let gathered : Nat → Buf × Buf := fun p =>
      rotationGatherPGS rotationMatTranspose (ranks p).processActive D BVec jvec
        (ranks p).rowMap (ranks p).colMap (ranks p).mat (fun _ => 0) (fun _ => 0)
    let summed := mpiAllreduceSum env.numberDomainRanks (BVec * D) (fun p => (gathered p).1)
    let diag := mpiAllreduceSum env.numberDomainRanks BVec (fun p => (gathered p).2)
    let temp : Nat → Buf := fun p =>
      sgemm 'N' 'N' BVec
        (if (ranks p).subspaceVectorsArrayLocalSize / N ≥ idof then
          min dofsBlockSize ((ranks p).subspaceVectorsArrayLocalSize / N - idof) else 0)
        D 1 (summed p) 0 BVec (subspaceVectorsArraySinglePrec p) (idof * N) N
        0 (st.rotatedVectorsMatBlockTemp p) 0 BVec
    { rotationMatBlock := summed
      diagValuesBlock := diag
      rotatedVectorsMatBlockTemp := fun p =>
        let numLocalDofs := (ranks p).subspaceVectorsArrayLocalSize / N
        let BDof := if numLocalDofs ≥ idof then min dofsBlockSize (numLocalDofs - idof) else 0
        if BDof ≠ 0 then temp p else st.rotatedVectorsMatBlockTemp p
      subspaceVectorsArray := fun p =>
        let numLocalDofs := (ranks p).subspaceVectorsArrayLocalSize / N
        let BDof := if numLocalDofs ≥ idof then min dofsBlockSize (numLocalDofs - idof) else 0
        if BDof ≠ 0 then
          forLoop (fun i x =>
            forLoop (fun j x =>
              Function.update x (N * (idof + i) + j + jvec)
                (x (N * (idof + i) + j + jvec) * diag p j + temp p (i * BVec + j)))
              BVec x) BDof (st.subspaceVectorsArray p)
        else st.subspaceVectorsArray p }
  else
    { st with
      subspaceVectorsArray := fun p =>
        let numLocalDofs := (ranks p).subspaceVectorsArrayLocalSize / N
        let BDof := if numLocalDofs ≥ idof then min dofsBlockSize (numLocalDofs - idof) else 0
        forLoop (fun i x =>
          forLoop (fun j x => Function.update x (N * (idof + i) + j + jvec) 0) BVec x)
          BDof (st.subspaceVectorsArray p) }

/-- The body of the loop over dof blocks of `subspaceRotationPGSMixedPrec`; `none` when
the loop over vector blocks exhausts `fuel`. -/
def rotationPGSDofStep (env : ParallelEnv) (N vectorsBlockSize dofsBlockSize : Nat)
    (ranks : Nat → RankData) (bandGroupTaskId : Nat) (rotationMatTranspose : Bool)
    (subspaceVectorsArraySinglePrec : Nat → Buf) (fuel : Nat) (idof : Nat)
    (st : Option RotationPGSState) : Option RotationPGSState :=
  match st with
  | none => none
  | some st =>
    stridedLoop N vectorsBlockSize
      (rotationPGSVectorStep env N vectorsBlockSize dofsBlockSize idof ranks bandGroupTaskId
        rotationMatTranspose subspaceVectorsArraySinglePrec) fuel 0 st

/-- The two block loops of `subspaceRotationPGSMixedPrec` on one band group. -/
def rotationPGSBandGroup (env : ParallelEnv) (N : Nat) (ranks : Nat → RankData)
    (bandGroupTaskId : Nat) (rotationMatTranspose : Bool) (fuel : Nat) :
    Option RotationPGSState :=
  let maxNumLocalDofs := mpiMax env.numberDomainRanks
    (fun p => (ranks p).subspaceVectorsArrayLocalSize / N)
  let vectorsBlockSize := min env.wfcBlockSize (env.bandGroupLowHighPlusOneIndices 1)
  let dofsBlockSize := min maxNumLocalDofs env.subspaceRotDofsBlockSize
  let subspaceVectorsArraySinglePrec : Nat → Buf := fun p =>
    lowPrecCopy (ranks p).subspaceVectorsArray (ranks p).subspaceVectorsArrayLocalSize
  match stridedLoop maxNumLocalDofs dofsBlockSize
      (rotationPGSDofStep env N vectorsBlockSize dofsBlockSize ranks bandGroupTaskId
        rotationMatTranspose subspaceVectorsArraySinglePrec fuel) fuel 0
      (some ⟨fun p => (ranks p).subspaceVectorsArray, fun _ _ => 0, fun _ _ => 0,
        fun _ _ => 0⟩) with
  | none => none
  | some st => st

/-- `subspaceRotationPGSMixedPrec` on all ranks: `ranks g p` are the arguments of the rank
`p` of the band group `g`; the result is `subspaceVectorsArray` of every rank after the
call. -/
def subspaceRotationPGSMixedPrec (env : ParallelEnv) (N : Nat) (ranks : Nat → Nat → RankData)
    (rotationMatTranspose doCommAfterBandParal : Bool) (fuel : Nat) :
    Option (Nat → Nat → Buf) :=
  match allFinished env.numberBandGroups
      ⟨fun p => (ranks 0 p).subspaceVectorsArray, fun _ _ => 0, fun _ _ => 0, fun _ _ => 0⟩
      (fun g => rotationPGSBandGroup env N (ranks g) g rotationMatTranspose fuel) with
  | none => none
  | some states =>
    if env.numberBandGroups > 1 ∧ doCommAfterBandParal = true then
      allFinished env.numberBandGroups (fun p => (ranks 0 p).subspaceVectorsArray)
        (fun g =>
          allFinished env.numberDomainRanks (ranks g 0).subspaceVectorsArray
            (fun p =>
              (stridedLoop (N * ((ranks g p).subspaceVectorsArrayLocalSize / N))
                env.allReduceBlockSize
                (fun i bufs =>
                  mpiAllreduceSumAt env.numberBandGroups i
                    (min env.allReduceBlockSize
                      (N * ((ranks g p).subspaceVectorsArrayLocalSize / N) - i)) bufs)
                fuel 0 (fun g1 => (states g1).subspaceVectorsArray p)).map (fun bufs => bufs g)))
    else some (fun g p => (states g).subspaceVectorsArray p)

/-- The entry `(k, j)` that `subspaceRotationPGSMixedPrec` leaves on a band group, in the
words of the specification: the diagonal entry `(j, j)` of `Q` times `X[k, j]` plus the
sum over `i ≠ j`, `i < jvec + BVec`, of the off-diagonal coefficient times `X[k, i]` when
the band group owns the vector block of column `j`, zero otherwise. -/
def pgsValue (env : ParallelEnv) (N vectorsBlockSize : Nat) (ranks : Nat → RankData)
    (bandGroupTaskId : Nat) (rotationMatTranspose : Bool) (X : Buf) (k j : Nat) : ℚ :=
  if bandOwns env bandGroupTaskId (columnBlockEnd N vectorsBlockSize j) then
    X (N * k + j) * globalEntry env.numberDomainRanks ranks j j
      + ∑ i ∈ Finset.range (columnBlockEnd N vectorsBlockSize j),
          (if i = j then 0
            else rotationEntry rotationMatTranspose env.numberDomainRanks ranks j i)
            * X (N * k + i)
  else 0

/-- The entry `(k, j)` after the vector block of column `j` in
`subspaceRotationPGSMixedPrec`: the diagonal term reads `X`, the product reads the copy
`single` of lower precision. -/
def pgsBlockValue (env : ParallelEnv) (N vectorsBlockSize : Nat) (ranks : Nat → RankData)
    (bandGroupTaskId : Nat) (rotationMatTranspose : Bool) (X single : Buf) (k j : Nat) : ℚ :=
  if bandOwns env bandGroupTaskId (columnBlockEnd N vectorsBlockSize j) then
    X (N * k + j) * globalEntry env.numberDomainRanks ranks j j
      + ∑ i ∈ Finset.range (columnBlockEnd N vectorsBlockSize j),
          (if i = j then 0
            else rotationEntry rotationMatTranspose env.numberDomainRanks ranks j i)
            * single (k * N + i)
  else 0

/-! ## The process grid -/

/-- `createProcessGridSquareMatrix`: the numbers of rows and columns of the process grid
it creates. `scalapackParalProcs` and `useELPA` are the entries of `dftParameters`,
`withELPA` says whether the code is compiled with `DFTFE_WITH_ELPA`; `numberProcs` is the
size of the communicator. `std::floor(std::sqrt(numberProcs))` is `Nat.sqrt numberProcs`
and `std::ceil((double)size/(double)(1000))` is the ceiling of the quotient. -/
def createProcessGridSquareMatrix (scalapackParalProcs : Nat) (useELPA withELPA : Bool)
    (numberProcs size : Nat) (useOnlyThumbRule : Bool) : Nat × Nat :=
  let rowProcs : Nat :=
    if scalapackParalProcs = 0 ∨ useOnlyThumbRule = true then
      min (Nat.sqrt numberProcs) ⌈(size : ℚ) / 1000⌉₊
    else
      min (Nat.sqrt numberProcs) scalapackParalProcs
  let rowProcs : Nat :=
    if withELPA then
      if (scalapackParalProcs = 0 ∨ useOnlyThumbRule = true) ∧ useELPA = true then
        min (Nat.sqrt numberProcs) (rowProcs * 2)
      else rowProcs
    else rowProcs
  (rowProcs, rowProcs)

/-! ## The Chebyshev-filtered subspace iteration driver -/

/-- The table `order_lookup`: pairs of an upper bound and a polynomial degree. -/
def order_lookup : List (Nat × Nat) :=
  [(500, 24), (750, 30), (1000, 39), (1500, 50), (2000, 53), (3000, 57), (4000, 62),
   (5000, 69), (9000, 77), (14000, 104), (20000, 119), (30000, 162), (50000, 300),
   (80000, 450), (100000, 550), (200000, 700), (500000, 1000)]

/-- The loop of `setChebyshevOrder` over the rows of a table: the degree of the first row
whose bound is not below `upperBoundUnwantedSpectrum`, and `1250` after the last row. -/
def orderLoop (upperBoundUnwantedSpectrum : Nat) : List (Nat × Nat) → Nat
  | [] => 1250
  | row :: rest =>
    if upperBoundUnwantedSpectrum ≤ row.1 then row.2
    else orderLoop upperBoundUnwantedSpectrum rest

/-- `internal::setChebyshevOrder`. -/
def setChebyshevOrder (upperBoundUnwantedSpectrum : Nat) : Nat :=
  orderLoop upperBoundUnwantedSpectrum order_lookup

/-! ## IEEE-754 binary64 arithmetic -/

/-- The natural number nearest to `q >= 0`, a tie going to the even one. -/
def roundHalfEven (q : ℚ) : Nat :=
  if q - (⌊q⌋₊ : ℚ) < 1 / 2 then ⌊q⌋₊
  else if q - (⌊q⌋₊ : ℚ) > 1 / 2 then ⌊q⌋₊ + 1
  else if ⌊q⌋₊ % 2 = 0 then ⌊q⌋₊ else ⌊q⌋₊ + 1

/-- The exponent `e` with `2^e <= x < 2^(e+1)` of a rational `x > 0`. -/
def binade (x : ℚ) : Int :=
  if (2 : ℚ) ^ ((Nat.log2 x.num.toNat : Int) - (Nat.log2 x.den : Int)) ≤ x
  then (Nat.log2 x.num.toNat : Int) - (Nat.log2 x.den : Int)
  else (Nat.log2 x.num.toNat : Int) - (Nat.log2 x.den : Int) - 1

/-- The multiple of the unit in the last place nearest to `x > 0` (ties to even): 53
significant bits, the unit being `2^(e - 52)` in the binade `e` and `2^(-1074)` below
`2^(-1022)`. -/
def roundMagnitude (x : ℚ) : ℚ :=
  (roundHalfEven (x / (2 : ℚ) ^ (max (binade x) (-1022) - 52)) : ℚ)
    * (2 : ℚ) ^ (max (binade x) (-1022) - 52)

/-- The `double` that a real number is rounded to in the default rounding mode (to
nearest, ties to even); `none` when the result is an infinity. -/
def roundToDouble (x : ℚ) : Option ℚ :=
  if x = 0 then some 0
  else if roundMagnitude |x| < (2 : ℚ) ^ (1024 : Int) then
    some (if x < 0 then -roundMagnitude |x| else roundMagnitude |x|)
  else none

/-- The conversion of a finite `double` to `unsigned int` (32 bits): the value is
truncated toward zero; `none` when the truncated value is not representable, where the
behaviour is undefined. -/
def doubleToUnsigned (x : ℚ) : Option Nat :=
  if -1 < x ∧ x < 4294967296 then some ⌊x⌋₊ else none

/-- The value of `chebyshevOrder` in `solve` after the lookup, before the scaling of the
first SCF iteration: `configuredOrder` is `dftParameters::chebyshevOrder`; the `double`
member `d_upperBoundUnWantedSpectrum` holds the given number rounded to `double` and is
converted to the `unsigned int` argument of `setChebyshevOrder`; `none` when that
conversion is undefined. -/
def nominalChebyshevOrder (configuredOrder : Nat) (d_upperBoundUnWantedSpectrum : ℚ) :
    Option Nat :=
  if configuredOrder = 0 then
    ((roundToDouble d_upperBoundUnWantedSpectrum).bind doubleToUnsigned).map setChebyshevOrder
  else some configuredOrder

/-- The value of `chebyshevOrder` that `solve` filters with. The conditional expression
of the assignment has the type `double` in both branches: the `unsigned int` degree is
converted to `double`, multiplied in `double` arithmetic by the `double`
`dftParameters::chebyshevFilterPolyDegreeFirstScfScalingFactor` (the given number rounded
to `double`) in the first branch, and the result is converted back to `unsigned int`;
`none` when a conversion is undefined. -/
def solveChebyshevOrder (configuredOrder : Nat) (d_upperBoundUnWantedSpectrum : ℚ)
    (isFirstScf isPseudopotential : Bool)
    (chebyshevFilterPolyDegreeFirstScfScalingFactor : ℚ) : Option Nat :=
  match nominalChebyshevOrder configuredOrder d_upperBoundUnWantedSpectrum with
  | none => none
  | some chebyshevOrder =>
    if isFirstScf && isPseudopotential then
      ((roundToDouble chebyshevFilterPolyDegreeFirstScfScalingFactor).bind
        (fun factor => roundToDouble ((chebyshevOrder : ℚ) * factor))).bind doubleToUnsigned
    else (roundToDouble (chebyshevOrder : ℚ)).bind doubleToUnsigned

/-- The local `adaptiveOrder` of the block that starts at `jvec`. -/
def adaptiveOrder (chebyshevOrder jvec numAdaptiveFilterStates : Nat) : ℚ :=
  (1 / 2) * (chebyshevOrder : ℚ)
    + (jvec : ℚ) * (3 / 10) * (chebyshevOrder : ℚ) / (numAdaptiveFilterStates : ℚ)

/-- The degree `solve` passes to `chebyshevFilterOpt` for the block `[jvec, jvec + BVec)`. -/
def filterDegree (chebyshevOrder numAdaptiveFilterStates jvec BVec : Nat) : Nat :=
  if jvec + BVec < numAdaptiveFilterStates then
    ⌈adaptiveOrder chebyshevOrder jvec numAdaptiveFilterStates⌉₊
  else chebyshevOrder

/-- The orthogonalization routines `solve` calls. -/
inductive OrthoCall where
  | lowdenOrthogonalization
  | pseudoGramSchmidtOrthogonalization
  | gramSchmidtOrthogonalization
  deriving DecidableEq

/-- The routines of `linearAlgebraOperations` that orthogonalize the vectors `σ` in
place and return a flag (`1` on failure); they are not part of the sources. -/
structure OrthoLib (σ : Type) where
  lowdenOrthogonalization : σ → Nat × σ
  pseudoGramSchmidtOrthogonalization : σ → Nat × σ
  gramSchmidtOrthogonalization : σ → Nat × σ

/-- The orthogonalization step of `solve` when `rrGEP` is off: the vectors afterwards and
the routines that were called, in the order of the calls. -/
def orthogonalize {σ : Type} (lib : OrthoLib σ) (orthogType : String) (x : σ) :
    σ × List OrthoCall :=
  if orthogType = "LW" then
    let r := lib.lowdenOrthogonalization x
    if r.1 = 1 then
      ((lib.gramSchmidtOrthogonalization r.2).2,
        [OrthoCall.lowdenOrthogonalization, OrthoCall.gramSchmidtOrthogonalization])
    else (r.2, [OrthoCall.lowdenOrthogonalization])
  else if orthogType = "PGS" then
    let r := lib.pseudoGramSchmidtOrthogonalization x
    if r.1 = 1 then
      ((lib.gramSchmidtOrthogonalization r.2).2,
        [OrthoCall.pseudoGramSchmidtOrthogonalization, OrthoCall.gramSchmidtOrthogonalization])
    else (r.2, [OrthoCall.pseudoGramSchmidtOrthogonalization])
  else if orthogType = "GS" then
    ((lib.gramSchmidtOrthogonalization x).2, [OrthoCall.gramSchmidtOrthogonalization])
  else (x, [])

/-! ## The blocked Chebyshev filtering of the driver -/

/-- The operations of `operatorDFTClass` and `linearAlgebraOperations` that the block loop
of `solve` calls on the block of vectors of all ranks of a band group; they are not part
of the sources. `reinit op BVec blocks` is `operatorMatrix.reinit(BVec, block, true)`;
`chebyshevFilterOpt op BVec degree blocks` is the sequence
`initCellWaveFunctionMatrix`, `chebyshevFilterOpt`,
`fillGlobalArrayFromCellWaveFunctionMatrix`, which filters the block in place with the
given polynomial degree. Both return the new state of the operator. -/
structure FilterLib (σ : Type) where
  reinit : σ → Nat → (Nat → Buf) → σ × (Nat → Buf)
  chebyshevFilterOpt : σ → Nat → Nat → (Nat → Buf) → σ × (Nat → Buf)

/-- The data of the ranks of one band group during the block loop of `solve`. -/
structure ChebyshevState (σ : Type) where
  eigenVectorsFlattened : Nat → Buf
  eigenVectorsFlattenedArrayBlock : Nat → Buf
  operatorMatrix : σ
  startIndexBandParal : Nat
  numVectorsBandParal : Nat

/-- The body of the block loop of `solve` for the ranks `p` of the band group
`bandGroupTaskId`; `localVectorSize p` is the number of local rows of rank `p`. -/
def chebyshevBlockStep {σ : Type} (lib : FilterLib σ) (env : ParallelEnv)
    (N vectorsBlockSize chebyshevOrder numAdaptiveFilterStates : Nat)
    (localVectorSize : Nat → Nat) (bandGroupTaskId : Nat) (jvec : Nat)
    (st : ChebyshevState σ) : ChebyshevState σ :=
  let BVec := min vectorsBlockSize (N - jvec)
  if bandOwns env bandGroupTaskId (jvec + BVec) then
    let startIndexBandParal :=
      if jvec < st.startIndexBandParal then jvec else st.startIndexBandParal
    let numVectorsBandParal := jvec + BVec - startIndexBandParal
    let re : σ × (Nat → Buf) :=
      if BVec ≠ vectorsBlockSize then
        lib.reinit st.operatorMatrix BVec st.eigenVectorsFlattenedArrayBlock
      else (st.operatorMatrix, st.eigenVectorsFlattenedArrayBlock)
    let block : Nat → Buf := fun p =>
      forLoop (fun iNode blk =>
        forLoop (fun iWave blk =>
          Function.update blk (iNode * BVec + iWave)
            (st.eigenVectorsFlattened p (iNode * N + jvec + iWave))) BVec blk)
        (localVectorSize p) (re.2 p)
    let filtered := lib.chebyshevFilterOpt re.1 BVec
      (filterDegree chebyshevOrder numAdaptiveFilterStates jvec BVec) block
    { eigenVectorsFlattened := fun p =>
        forLoop (fun iNode x =>
          forLoop (fun iWave x =>
            Function.update x (iNode * N + jvec + iWave) (filtered.2 p (iNode * BVec + iWave)))
            BVec x) (localVectorSize p) (st.eigenVectorsFlattened p)
      eigenVectorsFlattenedArrayBlock := filtered.2
      operatorMatrix := filtered.1
      startIndexBandParal := startIndexBandParal
      numVectorsBandParal := numVectorsBandParal }
  else
    { st with
      eigenVectorsFlattened := fun p =>
        forLoop (fun iNode x =>
          forLoop (fun iWave x => Function.update x (iNode * N + jvec + iWave) 0) BVec x)
          (localVectorSize p) (st.eigenVectorsFlattened p) }

/-- The block loop of `solve` on one band group. -/
def chebyshevBandGroup {σ : Type} (lib : FilterLib σ) (env : ParallelEnv)
    (N chebyWfcBlockSize chebyshevOrder numAdaptiveFilterStates : Nat)
    (eigenVectorsFlattened : Nat → Buf) (localVectorSize : Nat → Nat) (operatorMatrix : σ)
    (bandGroupTaskId fuel : Nat) : Option (ChebyshevState σ) :=
  let vectorsBlockSize := min chebyWfcBlockSize (env.bandGroupLowHighPlusOneIndices 1)
  let re := lib.reinit operatorMatrix vectorsBlockSize (fun _ _ => 0)
  stridedLoop N vectorsBlockSize
    (chebyshevBlockStep lib env N vectorsBlockSize chebyshevOrder numAdaptiveFilterStates
      localVectorSize bandGroupTaskId)
    fuel 0 ⟨eigenVectorsFlattened, re.2, re.1, N, 0⟩

/-- The communication across band groups after the block loop of `solve`, seen from the
rank `p` of band group `g`: `states g1` is the state of band group `g1`, `bandParalOpt` the
value of `dftParameters::bandParalOpt`. -/
def chebyshevBandCommunication {σ : Type} (env : ParallelEnv) (bandParalOpt : Bool) (N : Nat)
    (localVectorSize : Nat → Nat → Nat) (states : Nat → ChebyshevState σ) (g p fuel : Nat) :
    Option Buf :=
  if ¬ bandParalOpt then
    (stridedLoop (N * localVectorSize g p) env.allReduceBlockSize
      (fun i bufs =>
        mpiAllreduceSumAt env.numberBandGroups i
          (min env.allReduceBlockSize (N * localVectorSize g p - i)) bufs)
      fuel 0 (fun g1 => (states g1).eigenVectorsFlattened p)).map (fun bufs => bufs g)
  else
    let eigenVectorsBandGroup : Nat → Buf := fun g1 =>
      forLoop (fun iNode v =>
        forLoop (fun iWave v =>
          Function.update v (iNode * (states g1).numVectorsBandParal + iWave)
            ((states g1).eigenVectorsFlattened p
              (iNode * N + (states g1).startIndexBandParal + iWave)))
          (states g1).numVectorsBandParal v)
        (localVectorSize g1 p) (fun _ => 0)
    let eigenVectorsBandGroupTransposed : Nat → Buf := fun g1 =>
      forLoop (fun iNode v =>
        forLoop (fun iWave v =>
          Function.update v (iWave * localVectorSize g1 p + iNode)
            (eigenVectorsBandGroup g1 (iNode * (states g1).numVectorsBandParal + iWave)))
          (states g1).numVectorsBandParal v)
        (localVectorSize g1 p) (fun _ => 0)
    let recvcounts : Nat → Nat := fun g1 =>
      (states g1).numVectorsBandParal * localVectorSize g1 p
    let displs : Nat → Nat := fun g1 =>
      (states g1).startIndexBandParal * localVectorSize g1 p
    let eigenVectorsTransposed :=
      mpiAllgatherv env.numberBandGroups eigenVectorsBandGroupTransposed recvcounts displs
        (fun _ => 0)
    some (forLoop (fun iNode x =>
      forLoop (fun iWave x =>
        Function.update x (iNode * N + iWave)
          (eigenVectorsTransposed (iWave * localVectorSize g p + iNode))) N x)
      (localVectorSize g p) ((states g).eigenVectorsFlattened p))

/-- The Chebyshev filtering part of `solve` on all ranks: `eigenVectorsFlattened g p`,
`localVectorSize g p` and `operatorMatrix g` are the data of the rank `p` of the band group
`g`, `bandParalOpt` is the value of `dftParameters::bandParalOpt`; the result is
`eigenVectorsFlattened` of every rank after the communication across band groups. -/
def chebyshevFiltering {σ : Type} (lib : FilterLib σ) (env : ParallelEnv)
    (bandParalOpt : Bool) (N chebyWfcBlockSize chebyshevOrder numAdaptiveFilterStates : Nat)
    (eigenVectorsFlattened : Nat → Nat → Buf) (localVectorSize : Nat → Nat → Nat)
    (operatorMatrix : Nat → σ) (fuel : Nat) : Option (Nat → Nat → Buf) :=
  match allFinished env.numberBandGroups
      ⟨eigenVectorsFlattened 0, fun _ _ => 0, operatorMatrix 0, N, 0⟩
      (fun g => chebyshevBandGroup lib env N chebyWfcBlockSize chebyshevOrder
        numAdaptiveFilterStates (eigenVectorsFlattened g) (localVectorSize g)
        (operatorMatrix g) g fuel) with
  | none => none
  | some states =>
    if env.numberBandGroups > 1 then
      allFinished env.numberBandGroups (eigenVectorsFlattened 0)
        (fun g =>
          allFinished env.numberDomainRanks (eigenVectorsFlattened g 0)
            (fun p =>
              chebyshevBandCommunication env bandParalOpt N localVectorSize states g p fuel))
    else some (fun g p => (states g).eigenVectorsFlattened p)

/-- The band counters describe the columns below `upto` that the band group owns: none
so far (`startIndexBandParal = N`, `numVectorsBandParal = 0`), or exactly the columns
`[startIndexBandParal, startIndexBandParal + numVectorsBandParal)`. -/
def bandRange (env : ParallelEnv) (N vectorsBlockSize bandGroupTaskId : Nat)
    (startIndexBandParal numVectorsBandParal upto : Nat) : Prop :=
  (startIndexBandParal = N ∧ numVectorsBandParal = 0 ∧
    ∀ c, c < upto → c < N →
      ¬ bandOwns env bandGroupTaskId (columnBlockEnd N vectorsBlockSize c)) ∨
  (startIndexBandParal < N ∧ startIndexBandParal < upto ∧
    bandOwns env bandGroupTaskId (columnBlockEnd N vectorsBlockSize startIndexBandParal) ∧
    1 ≤ numVectorsBandParal ∧ startIndexBandParal + numVectorsBandParal ≤ upto ∧
    startIndexBandParal + numVectorsBandParal ≤ N ∧
    ∀ c, c < upto → c < N →
      (bandOwns env bandGroupTaskId (columnBlockEnd N vectorsBlockSize c)
        ↔ startIndexBandParal ≤ c ∧ c < startIndexBandParal + numVectorsBandParal))

/-! ## The Wolfe flags of the accepted branch -/

/-- The local `wolfeSufficientDec` of the accepted branch of `solve`. -/
def wolfeSufficientDec (s : BFGSNonLinearSolver) : Bool :=
  decide ((s.d_valueNew - s.d_value)
    < (1 / 10) * ddot s.d_numberUnknowns s.d_deltaXNew.data s.d_gradient.data)

/-- The local `wolfeCurvature` of the accepted branch of `solve`. -/
def wolfeCurvature (s : BFGSNonLinearSolver) : Bool :=
  decide (ddot s.d_numberUnknowns s.d_deltaXNew.data s.d_gradientNew.data
    > (1 / 2) * ddot s.d_numberUnknowns s.d_deltaXNew.data s.d_gradient.data)

/-- The local `wolfeSatisfied` of the accepted branch of `solve`. -/
def wolfeSatisfied (s : BFGSNonLinearSolver) : Bool :=
  wolfeSufficientDec s && wolfeCurvature s

/-- The local `ampfactor` of the accepted branch of `solve`. -/
def ampfactor (s : BFGSNonLinearSolver) : ℚ :=
  if wolfeSufficientDec s = true ∧ s.d_normDelaXnew ≥ s.d_trustRadius then 3 / 2 else 1

/-! ## The unscaled step of `computeStep` -/

/-- The array `augmentedHessian` that `computeStep` passes to `dsygvx_`. -/
def augmentedHessian (s : BFGSNonLinearSolver) : Buf :=
  let U := s.d_numberUnknowns
  forLoop (fun i a =>
      Function.update (Function.update a (i + (U + 1) * U) (s.d_gradient.data i))
        (U + (U + 1) * i) (s.d_gradient.data i)) U
    (forLoop (fun col a =>
      forLoop (fun row a =>
        Function.update a (row + (U + 1) * col) (s.d_hessian (row + U * col))) U a)
    U (fun _ => 0))

/-- The array `augmentedSrfo` that `computeStep` passes to `dsygvx_`. -/
def augmentedSrfo (s : BFGSNonLinearSolver) : Buf :=
  let U := s.d_numberUnknowns
  Function.update
    (forLoop (fun col a =>
      forLoop (fun row a =>
        Function.update a (row + (U + 1) * col) (s.d_Srfo (row + U * col))) U a)
    U (fun _ => 0)) ((U + 2) * U) 1

/-- The vector `d_deltaXNew` of `computeStep` after the loop
`d_deltaXNew[i] = eigenVector[i] / eigenVector[d_numberUnknowns]`, before the rescaling. -/
def unscaledStep (num : NumLib) (s : BFGSNonLinearSolver) : Buf :=
  let U := s.d_numberUnknowns
  let eigenVector := num.dsygvx_vector (U + 1) (augmentedHessian s) (augmentedSrfo s)
  forLoop (fun i v => Function.update v i (eigenVector i / eigenVector U)) U s.d_deltaXNew.data

/-! ## The symmetric matrix stored in an upper triangle -/

/-- The entry `(i, j)` of the symmetric matrix that the routines called with `uplo = 'U'`
read from the column-major array `a` of leading dimension `lda`: the stored entry of the
upper triangle. -/
def symmetricEntry (lda : Nat) (a : Buf) (i j : Nat) : ℚ :=
  if i ≤ j then a (i + j * lda) else a (j + i * lda)

/-! ## `readBasisFile` -/

/-- The function `std::isspace` in the "C" locale. -/
def isSpace (c : Char) : Bool :=
  c = ' ' || c = '\t' || c = '\n' || c = '\x0b' || c = '\x0c' || c = '\r'

/-- The lines that the loop `while (std::getline(readFile, readLine))` reads from the rest
of a file, `acc` being the part of the current line already extracted: a line ends at
`'\n'` (which is dropped) or at the end of the file, and the end of the file after a
`'\n'` does not give a further line. -/
def getlineLoop : List Char → List Char → List (List Char)
  | acc, [] => if acc = [] then [] else [acc]
  | acc, c :: cs => if c = '\n' then acc :: getlineLoop [] cs else getlineLoop (acc ++ [c]) cs

/-- The words that successive extractions `iss >> word` deliver from the rest of a line,
`acc` being the part of the current word already extracted: leading white space is
skipped, and a word ends at white space or at the end of the line. -/
def extractWords : List Char → List Char → List (List Char)
  | acc, [] => if acc = [] then [] else [acc]
  | acc, c :: cs =>
    if isSpace c then (if acc = [] then extractWords [] cs else acc :: extractWords [] cs)
    else extractWords (acc ++ [c]) cs

/-- The value of a run of decimal digits at the start of a string, continuing from `acc`. -/
def digitsValue : List Char → Nat → Nat
  | [], acc => acc
  | c :: cs, acc => if c.isDigit then digitsValue cs (acc * 10 + (c.toNat - 48)) else acc

/-- The integer that a string denotes in base 10: white space is skipped, then an optional
sign and the longest run of decimal digits are converted; the result is `0` when there is
no digit. The value is not bounded. -/
def decimalValue (word : List Char) : Int :=
  match word.dropWhile isSpace with
  | '-' :: rest => - (digitsValue rest 0 : Int)
  | '+' :: rest => (digitsValue rest 0 : Int)
  | rest => (digitsValue rest 0 : Int)

/-- The function `strtol(nptr, NULL, 10)` with a 64-bit `long`: the decimal value of the
string, replaced by `LONG_MIN = -2^63` or `LONG_MAX = 2^63 - 1` when it is out of range. -/
def strtol (word : List Char) : Int :=
  max (-9223372036854775808) (min (decimalValue word) 9223372036854775807)

/-- The function `atoi` with a 32-bit `int`, as the C library computes it:
`(int) strtol(nptr, NULL, 10)`, the conversion to `int` keeping the low 32 bits in two's
complement. The result is the decimal value of the string when that value fits an `int`
(the C standard leaves the other case undefined). -/
def atoi (word : List Char) : Int :=
  (strtol word + 2147483648) % 4294967296 - 2147483648

/-- The loop `while (iss >> word && columnCount < numColumns)
rowData[columnCount++] = atoi(word.c_str())` on the words the stream still delivers. -/
def rowLoop (numColumns : Nat) : List (List Char) → Nat → List Int → List Int
  | [], _, rowData => rowData
  | word :: rest, columnCount, rowData =>
    if columnCount < numColumns then
      rowLoop numColumns rest (columnCount + 1) (rowData.set columnCount (atoi word))
    else rowData

/-- The body of the loop over the lines of `readBasisFile`, on the lines still to read. -/
def readLines (numColumns : Nat) : List (List Char) → List Int → List (List Int) →
    List (List Int)
  | [], _, data => data
  | readLine :: rest, rowData, data =>
    readLines numColumns rest (rowLoop numColumns (extractWords [] readLine) 0 rowData)
      (data ++ [rowLoop numColumns (extractWords [] readLine) 0 rowData])

/-- `readBasisFile(numColumns, data, fileName)`: `file` is the content of the file, `none`
when it cannot be opened; the result is `data` after the call, `none` when the function
calls `exit(-1)`. -/
def readBasisFile (numColumns : Nat) (data : List (List Int)) (file : Option (List Char)) :
    Option (List (List Int)) :=
  match file with
  | none => none
  | some content =>
    some (readLines numColumns (getlineLoop [] content) (List.replicate numColumns 0) data)

/-! ## The column blocks of the blocked loops -/

/-- The number of column blocks of size `vectorsBlockSize` that cover `N` columns: the
number of iterations of `for (jvec = 0; jvec < N; jvec += vectorsBlockSize)`. -/
def numBlocks (N vectorsBlockSize : Nat) : Nat :=
  (N + vectorsBlockSize - 1) / vectorsBlockSize

/-! ## The update vector of an iteration of `solve` -/

/-- The vector `updateVector` of the iteration of `solve` that starts in the state `s` with
the problem in the state `p`. -/
def solveUpdateVector {σ : Type} (num : NumLib) (problem : nonlinearSolverProblem σ)
    (s : BFGSNonLinearSolver) (p : σ) : Buf :=
  let s := computeStep num (resetBranch num problem p s)
  if s.d_stepAccepted then s.d_deltaXNew.data
  else forLoop (fun i v => Function.update v i (s.d_deltaXNew.data i - s.d_deltaX.data i))
    s.d_numberUnknowns (fun _ => 0)

/-- The vector `incrementVector` that `updateSolution(step, problem)` passes to
`problem.update`. -/
def incrementVector (s : BFGSNonLinearSolver) (step : Buf) : Buf :=
  forLoop (fun i v => Function.update v i (step i)) s.d_numberUnknowns (fun _ => 0)

/-! ## Concrete inputs -/

/-- Two ranks holding `1 × 1` panels with the entries `1` and `2`. -/
def panelsOneTwo : Nat → ScaLAPACKMatrix :=
  fun q => ⟨1, 1, fun i => i, fun j => j, fun idx => if idx = 0 then (q : ℚ) + 1 else 0⟩

/-- A solver state with two unknowns: the Hessian is the identity, the accepted step is
`(1, 0)`, the gradient goes from `(0, 0)` to `(1, 1)`; the trust radius `1/2` equals the
minimum. -/
def solverExample : BFGSNonLinearSolver where
  d_maxNumberIterations := 1
  d_tolerance := 1 / 100
  d_trustRadiusInitial := 1 / 2
  d_trustRadiusMax := 2
  d_trustRadiusMin := 1 / 2
  d_isBFGSRestartDueToSmallRadius := false
  d_useSingleAtomSolutionsInitialGuess := false
  d_numberUnknowns := 2
  d_unknownCountFlag := ⟨2, fun _ => 1⟩
  d_deltaX := ⟨2, fun _ => 0⟩
  d_deltaXNew := ⟨2, fun i => if i = 0 then 1 else 0⟩
  d_gradient := ⟨2, fun _ => 0⟩
  d_gradientNew := ⟨2, fun i => if i < 2 then 1 else 0⟩
  d_hessian := fun idx => if idx = 0 ∨ idx = 3 then 1 else 0
  d_Srfo := fun idx => if idx = 0 ∨ idx = 3 then 1 else 0
  d_value := 1
  d_valueNew := 0
  d_trustRadius := 1 / 2
  d_normDelaXnew := 1
  d_lambda := 0
  d_gradMax := 1
  d_predDec := 0
  d_stepAccepted := true
  d_iter := 1
  trace := []

/-- The problem `f(x) = x` in one unknown: the gradient is `1` everywhere (the problem
never converges), `update` adds the step, the preconditioner is the identity. -/
def lineProblem : nonlinearSolverProblem ℚ where
  getNumberUnknowns := fun _ => 1
  gradient := fun _ _ => 1
  value := fun x => x
  precondition := fun _ _ _ _ => 1
  update := fun x v _ _ => x + v 0

/-- A numerical library that returns the eigenvector `(-1, 1, 1, ...)`, unit eigenvalues,
unit norms and unit powers. -/
def unitNumLib : NumLib where
  dsyevd := fun _ _ _ => 1
  dsygvx_value := fun _ _ _ => 0
  dsygvx_vector := fun _ _ _ i => if i = 0 then -1 else 1
  dnrm2 := fun _ _ => 1
  pow := fun _ _ => 1

/-- A freshly constructed solver with tolerance `1/100`, one iteration, maximum radius `2`
and the given initial and minimum radii. -/
def freshSolver (trustRadius_initial trustRadius_minimum : ℚ) : BFGSNonLinearSolver :=
  BFGSNonLinearSolver.construct solverExample (1 / 100) 1 2 trustRadius_initial
    trustRadius_minimum

/-- One band group that owns the two vectors, one rank of the domain decomposition, and
blocks of one vector and one degree of freedom. -/
def oneRankEnv : ParallelEnv where
  numberBandGroups := 1
  numberDomainRanks := 1
  wfcBlockSize := 1
  subspaceRotDofsBlockSize := 1
  bandParalOpt := false
  allReduceBlockSize := 1
  bandGroupLowHighPlusOneIndices := fun i => if i = 0 then 0 else 2

/-- The rank holds the two local rows `(1, 2)` and `(3, 4)` of `X` and the whole `2 × 2`
matrix, whose local panel is `1, 2, 3, 4` in column-major order. -/
def oneRankData : Nat → Nat → RankData :=
  fun _ _ => ⟨fun idx => (idx : ℚ) + 1, 4, true,
    ⟨2, 2, fun i => i, fun j => j, fun idx => (idx : ℚ) + 1⟩⟩

/-- Orthogonalization routines on a trivial state that all report failure. -/
def failingOrthoLib : OrthoLib Unit where
  lowdenOrthogonalization := fun _ => (1, ())
  pseudoGramSchmidtOrthogonalization := fun _ => (1, ())
  gramSchmidtOrthogonalization := fun _ => (1, ())

/-- The data of `oneRankData` with the lower triangular matrix `Q = [[1, 0], [2, 4]]`. -/
def triaRankData : Nat → Nat → RankData :=
  fun _ _ => ⟨fun idx => (idx : ℚ) + 1, 4, true,
    ⟨2, 2, fun i => i, fun j => j, fun idx => if idx = 2 then 0 else (idx : ℚ) + 1⟩⟩

/-- Two band groups of one rank each: the first owns the column `0`, the second the
column `1`. -/
def twoBandEnv : ParallelEnv where
  numberBandGroups := 2
  numberDomainRanks := 1
  wfcBlockSize := 1
  subspaceRotDofsBlockSize := 1
  bandParalOpt := true
  allReduceBlockSize := 1
  bandGroupLowHighPlusOneIndices := fun i => if i = 0 then 0 else if i ≤ 2 then 1 else 2

/-- A filter that doubles every entry of the block and adds the polynomial degree. -/
def doublingFilterLib : FilterLib Unit where
  reinit := fun op _ block => (op, block)
  chebyshevFilterOpt := fun op _ degree block => (op, fun p x => 2 * block p x + degree)

/-- The state `solverExample` with the trust radius `1` (the norm of its step `(1, 0)`) and
a new value equal to the old one: the decrease `f_new - f = 0` equals `0.1 * <g, dx> = 0`. -/
def equalDecreaseExample : BFGSNonLinearSolver :=
  { solverExample with d_valueNew := 1, d_trustRadius := 1 }

/-- The state `solverExample` with the step `(1/2, 0)`, of the norm of the trust radius
`1/2`, scaled down from an unscaled step of norm `1`. -/
def acceptedExample : BFGSNonLinearSolver :=
  { solverExample with d_deltaXNew := ⟨2, fun i => if i = 0 then 1 / 2 else 0⟩ }

/-- The state `solverExample` with the trust radius `1` (the norm of its step `(1, 0)`) and
an unscaled step norm `1/4` below it. -/
def shortStepExample : BFGSNonLinearSolver :=
  { solverExample with d_trustRadius := 1, d_normDelaXnew := 1 / 4 }

/-- The state `solverExample` with a new gradient `(-1, 1)`, for which the curvature test
fails, the trust radius `1` (the norm of its step `(1, 0)`) and an unscaled step norm `2`
above it. -/
def longStepExample : BFGSNonLinearSolver :=
  { solverExample with
    d_gradientNew := ⟨2, fun i => if i = 0 then -1 else 1⟩
    d_trustRadius := 1
    d_normDelaXnew := 2 }

/-- The state `solverExample` with a new value `2` above the old value `1` (the step is
rejected), the trust radius `1` (the norm of its step `(1, 0)`) and the unscaled step norm
`1/2`. -/
def halvingExample : BFGSNonLinearSolver :=
  { solverExample with d_trustRadius := 1, d_normDelaXnew := 1 / 2, d_valueNew := 2 }

/-- The state `solverExample` with the trust radius `2`. -/
def wideRadiusExample : BFGSNonLinearSolver :=
  { solverExample with d_trustRadius := 2 }

/-- A basis file with four lines: `1 2`, `3`, an empty line and `-4 5 6`. -/
def basisFileExample : List Char :=
  ['1', ' ', '2', '\n', '3', '\n', '\n', '-', '4', ' ', '5', ' ', '6']

/-- A basis file with two lines whose words do not fit an `int`: `2147483648 -2147483649`
and `99999999999999999999 2147483647`. -/
def wideTokenExample : List Char :=
  "2147483648 -2147483649\n99999999999999999999 2147483647".toList

/-! ## Loop lemmas -/

theorem forLoop_zero {σ : Type} (body : Nat → σ → σ) (s : σ) : forLoop body 0 s = s := rfl

theorem forLoop_succ {σ : Type} (body : Nat → σ → σ) (n : Nat) (s : σ) :
    forLoop body (n + 1) s = body n (forLoop body n s) := rfl

theorem forLoop_invariant {σ : Type} (body : Nat → σ → σ) (I : Nat → σ → Prop) (n : Nat)
    (s : σ) (h0 : I 0 s) (hstep : ∀ i t, i < n → I i t → I (i + 1) (body i t)) :
    I n (forLoop body n s) := by
  induction n with
  | zero => exact h0
  | succ k ih =>
    exact hstep k _ (Nat.lt_succ_self k)
      (ih (fun i t hi hI => hstep i t (Nat.lt_succ_of_lt hi) hI))

theorem dscal_one (n : Nat) (da : ℚ) (dx : Buf) (idx : Nat) :
    dscal n da dx 1 idx = if idx < n then da * dx idx else dx idx := by
  unfold dscal
  simp only [one_ne_zero, if_false, mul_one]
  induction n with
  | zero => simp [forLoop]
  | succ k ih =>
    simp only [forLoop]
    by_cases h : idx = k
    · subst h
      simp only [Function.update_same, Nat.lt_succ_self, if_true]
      rw [ih]; simp
    · rw [Function.update_noteq h, ih]
      have : (idx < k + 1) ↔ idx < k := by omega
      simp only [this]

theorem ScaLAPACKMatrix.ext_fields (a b : ScaLAPACKMatrix) (h1 : a.local_m = b.local_m)
    (h2 : a.local_n = b.local_n) (h3 : a.global_row = b.global_row)
    (h4 : a.global_column = b.global_column) (h5 : a.values = b.values) : a = b := by
  cases a; cases b; simp only [ScaLAPACKMatrix.mk.injEq]; exact ⟨h1, h2, h3, h4, h5⟩

theorem scaleScaLAPACKMat_values (active : Bool) (mat : ScaLAPACKMatrix) (alpha : ℚ)
    (idx : Nat) :
    (scaleScaLAPACKMat active mat alpha).values idx =
      if active = true ∧ idx < mat.local_m * mat.local_n then alpha * mat.values idx
      else mat.values idx := by
  unfold scaleScaLAPACKMat
  cases active <;> simp [ScaLAPACKMatrix.withValues, dscal_one]

theorem scaleScaLAPACKMat_local_m (active : Bool) (mat : ScaLAPACKMatrix) (alpha : ℚ) :
    (scaleScaLAPACKMat active mat alpha).local_m = mat.local_m := by
  unfold scaleScaLAPACKMat; cases active <;> simp [ScaLAPACKMatrix.withValues]

theorem scaleScaLAPACKMat_local_n (active : Bool) (mat : ScaLAPACKMatrix) (alpha : ℚ) :
    (scaleScaLAPACKMat active mat alpha).local_n = mat.local_n := by
  unfold scaleScaLAPACKMat; cases active <;> simp [ScaLAPACKMatrix.withValues]

theorem scaleScaLAPACKMat_global_row (active : Bool) (mat : ScaLAPACKMatrix) (alpha : ℚ) :
    (scaleScaLAPACKMat active mat alpha).global_row = mat.global_row := by
  unfold scaleScaLAPACKMat; cases active <;> simp [ScaLAPACKMatrix.withValues]

theorem scaleScaLAPACKMat_global_column (active : Bool) (mat : ScaLAPACKMatrix) (alpha : ℚ) :
    (scaleScaLAPACKMat active mat alpha).global_column = mat.global_column := by
  unfold scaleScaLAPACKMat; cases active <;> simp [ScaLAPACKMatrix.withValues]

theorem sumAcross_values (n : Nat) (active : Nat → Bool) (mats : Nat → ScaLAPACKMatrix)
    (q idx : Nat) :
    (sumAcrossInterCommScaLAPACKMat n active mats q).values idx =
      if (active q = true ∧ n > 1) ∧ idx < (mats q).local_m * (mats q).local_n
      then ∑ p ∈ Finset.range n, (mats p).values idx else (mats q).values idx := by
  unfold sumAcrossInterCommScaLAPACKMat
  by_cases h : active q = true ∧ n > 1
  · simp only [h, and_self, if_true, ScaLAPACKMatrix.withValues, mpiAllreduceSum, true_and]
  · simp only [h, if_false, false_and]

theorem sumAcross_local_m (n : Nat) (active : Nat → Bool) (mats : Nat → ScaLAPACKMatrix)
    (q : Nat) : (sumAcrossInterCommScaLAPACKMat n active mats q).local_m = (mats q).local_m := by
  unfold sumAcrossInterCommScaLAPACKMat; split <;> simp [ScaLAPACKMatrix.withValues]

theorem sumAcross_local_n (n : Nat) (active : Nat → Bool) (mats : Nat → ScaLAPACKMatrix)
    (q : Nat) : (sumAcrossInterCommScaLAPACKMat n active mats q).local_n = (mats q).local_n := by
  unfold sumAcrossInterCommScaLAPACKMat; split <;> simp [ScaLAPACKMatrix.withValues]

theorem sumAcross_global_row (n : Nat) (active : Nat → Bool) (mats : Nat → ScaLAPACKMatrix)
    (q : Nat) :
    (sumAcrossInterCommScaLAPACKMat n active mats q).global_row = (mats q).global_row := by
  unfold sumAcrossInterCommScaLAPACKMat; split <;> simp [ScaLAPACKMatrix.withValues]

theorem sumAcross_global_column (n : Nat) (active : Nat → Bool)
    (mats : Nat → ScaLAPACKMatrix) (q : Nat) :
    (sumAcrossInterCommScaLAPACKMat n active mats q).global_column
      = (mats q).global_column := by
  unfold sumAcrossInterCommScaLAPACKMat; split <;> simp [ScaLAPACKMatrix.withValues]

theorem bcast_values (n : Nat) (active : Nat → Bool) (mats : Nat → ScaLAPACKMatrix)
    (root q idx : Nat) :
    (broadcastAcrossInterCommScaLAPACKMat n active mats root q).values idx =
      if (active q = true ∧ n > 1) ∧ idx < (mats q).local_m * (mats q).local_n
      then (mats root).values idx else (mats q).values idx := by
  unfold broadcastAcrossInterCommScaLAPACKMat
  by_cases h : active q = true ∧ n > 1
  · simp only [h, and_self, if_true, ScaLAPACKMatrix.withValues, mpiBcast, true_and]
  · simp only [h, if_false, false_and]

theorem bcast_local_m (n : Nat) (active : Nat → Bool) (mats : Nat → ScaLAPACKMatrix)
    (root q : Nat) :
    (broadcastAcrossInterCommScaLAPACKMat n active mats root q).local_m
      = (mats q).local_m := by
  unfold broadcastAcrossInterCommScaLAPACKMat; split <;> simp [ScaLAPACKMatrix.withValues]

theorem bcast_local_n (n : Nat) (active : Nat → Bool) (mats : Nat → ScaLAPACKMatrix)
    (root q : Nat) :
    (broadcastAcrossInterCommScaLAPACKMat n active mats root q).local_n
      = (mats q).local_n := by
  unfold broadcastAcrossInterCommScaLAPACKMat; split <;> simp [ScaLAPACKMatrix.withValues]

theorem bcast_global_row (n : Nat) (active : Nat → Bool) (mats : Nat → ScaLAPACKMatrix)
    (root q : Nat) :
    (broadcastAcrossInterCommScaLAPACKMat n active mats root q).global_row
      = (mats q).global_row := by
  unfold broadcastAcrossInterCommScaLAPACKMat; split <;> simp [ScaLAPACKMatrix.withValues]

theorem bcast_global_column (n : Nat) (active : Nat → Bool) (mats : Nat → ScaLAPACKMatrix)
    (root q : Nat) :
    (broadcastAcrossInterCommScaLAPACKMat n active mats root q).global_column
      = (mats q).global_column := by
  unfold broadcastAcrossInterCommScaLAPACKMat; split <;> simp [ScaLAPACKMatrix.withValues]

theorem frobeniusSq_congr (nRanks : Nat) (active : Nat → Bool) (a b : Nat → ScaLAPACKMatrix)
    (c : ℚ) (hm : ∀ q, (a q).local_m * (a q).local_n = (b q).local_m * (b q).local_n)
    (hv : ∀ q idx, active q = true → idx < (b q).local_m * (b q).local_n →
      (a q).values idx = c * (b q).values idx) :
    frobeniusSq nRanks active a = c ^ 2 * frobeniusSq nRanks active b := by
  unfold frobeniusSq
  rw [Finset.mul_sum]
  refine Finset.sum_congr rfl (fun q _ => ?_)
  by_cases hq : active q = true
  · simp only [hq, if_true, hm q]
    rw [Finset.mul_sum]
    refine Finset.sum_congr rfl (fun idx hidx => ?_)
    rw [hv q idx hq (Finset.mem_range.mp hidx)]
    ring
  · simp [hq]

/-! ## The distributed-matrix helpers -/

/-- C9: `scaleScaLAPACKMat` multiplies every entry of the local panel of every active rank
by `alpha` and changes nothing else (the entries of inactive ranks, the panel shapes and
the index maps stay), so the sum of squares of all entries of the distributed matrix is
multiplied by `alpha ^ 2` and its square root, the Frobenius norm, by `|alpha|`. -/
theorem scaleScaLAPACKMat_scales_frobenius (nRanks : Nat) (active : Nat → Bool)
    (mats : Nat → ScaLAPACKMatrix) (alpha : ℚ) :
    (∀ q idx, (scaleScaLAPACKMat (active q) (mats q) alpha).values idx =
        if active q = true ∧ idx < (mats q).local_m * (mats q).local_n
        then alpha * (mats q).values idx else (mats q).values idx) ∧
    (∀ q, (scaleScaLAPACKMat (active q) (mats q) alpha).local_m = (mats q).local_m ∧
        (scaleScaLAPACKMat (active q) (mats q) alpha).local_n = (mats q).local_n ∧
        (scaleScaLAPACKMat (active q) (mats q) alpha).global_row = (mats q).global_row ∧
        (scaleScaLAPACKMat (active q) (mats q) alpha).global_column
          = (mats q).global_column) ∧
    frobeniusSq nRanks active (fun q => scaleScaLAPACKMat (active q) (mats q) alpha)
      = alpha ^ 2 * frobeniusSq nRanks active mats ∧
    Real.sqrt ((frobeniusSq nRanks active
        (fun q => scaleScaLAPACKMat (active q) (mats q) alpha) : ℚ) : ℝ)
      = |(alpha : ℝ)| * Real.sqrt ((frobeniusSq nRanks active mats : ℚ) : ℝ) := by
  have hval : ∀ q idx, (scaleScaLAPACKMat (active q) (mats q) alpha).values idx =
        if active q = true ∧ idx < (mats q).local_m * (mats q).local_n
        then alpha * (mats q).values idx else (mats q).values idx := by
    intro q idx
    unfold scaleScaLAPACKMat
    by_cases hq : active q = true
    · simp only [hq, if_true, ScaLAPACKMatrix.withValues, dscal_one, true_and]
    · simp [hq]
  have hshape : ∀ q, (scaleScaLAPACKMat (active q) (mats q) alpha).local_m = (mats q).local_m ∧
        (scaleScaLAPACKMat (active q) (mats q) alpha).local_n = (mats q).local_n ∧
        (scaleScaLAPACKMat (active q) (mats q) alpha).global_row = (mats q).global_row ∧
        (scaleScaLAPACKMat (active q) (mats q) alpha).global_column
          = (mats q).global_column := by
    intro q
    unfold scaleScaLAPACKMat
    by_cases hq : active q = true
    · simp [hq, ScaLAPACKMatrix.withValues]
    · simp [hq]
  have hsq : frobeniusSq nRanks active (fun q => scaleScaLAPACKMat (active q) (mats q) alpha)
      = alpha ^ 2 * frobeniusSq nRanks active mats := by
    apply frobeniusSq_congr
    · intro q; rw [(hshape q).1, (hshape q).2.1]
    · intro q idx hq hidx
      rw [hval q idx, if_pos ⟨hq, hidx⟩]
  refine ⟨hval, hshape, hsq, ?_⟩
  rw [hsq]
  push_cast
  rw [Real.sqrt_mul (sq_nonneg _), Real.sqrt_sq_eq_abs]

/-- C10: on an inter-communicator of `n ≥ 1` ranks that are all active in the process
grid and hold panels of one size, a broadcast from rank `r`, then the sum across the
communicator, then a scaling by `1 / n` leaves on every rank the panel rank `r` held
before (nothing outside the panel changes), and is the identity on rank `r`. -/
theorem broadcast_sum_scale_identity (n r : Nat) (active : Nat → Bool)
    (mats : Nat → ScaLAPACKMatrix) (hn : 1 ≤ n) (hr : r < n)
    (hact : ∀ q, q < n → active q = true)
    (hshape : ∀ q, q < n →
      (mats q).local_m * (mats q).local_n = (mats r).local_m * (mats r).local_n) :
    (∀ q, q < n → ∀ idx,
      (scaleScaLAPACKMat (active q)
        (sumAcrossInterCommScaLAPACKMat n active
          (broadcastAcrossInterCommScaLAPACKMat n active mats r) q) (1 / (n : ℚ))).values idx
        = if idx < (mats r).local_m * (mats r).local_n then (mats r).values idx
          else (mats q).values idx) ∧
    scaleScaLAPACKMat (active r)
        (sumAcrossInterCommScaLAPACKMat n active
          (broadcastAcrossInterCommScaLAPACKMat n active mats r) r) (1 / (n : ℚ)) = mats r := by
  have hn0 : (n : ℚ) ≠ 0 := by
    have : 0 < n := hn
    exact_mod_cast this.ne'
  have key : ∀ q, q < n → ∀ idx,
      (scaleScaLAPACKMat (active q)
        (sumAcrossInterCommScaLAPACKMat n active
          (broadcastAcrossInterCommScaLAPACKMat n active mats r) q) (1 / (n : ℚ))).values idx
        = if idx < (mats r).local_m * (mats r).local_n then (mats r).values idx
          else (mats q).values idx := by
    intro q hq idx
    rw [scaleScaLAPACKMat_values, sumAcross_local_m, sumAcross_local_n, bcast_local_m,
      bcast_local_n, sumAcross_values, bcast_local_m, bcast_local_n, hshape q hq,
      bcast_values, hshape q hq]
    simp only [hact q hq, true_and]
    by_cases hidx : idx < (mats r).local_m * (mats r).local_n
    · simp only [hidx, if_true, and_true]
      by_cases h1 : n > 1
      · simp only [h1, if_true]
        have hsum : ∀ p ∈ Finset.range n,
            (broadcastAcrossInterCommScaLAPACKMat n active mats r p).values idx
              = (mats r).values idx := by
          intro p hp
          have hp := Finset.mem_range.mp hp
          rw [bcast_values, hshape p hp]
          simp [hact p hp, h1, hidx]
        rw [Finset.sum_congr rfl hsum]
        simp only [Finset.sum_const, Finset.card_range, nsmul_eq_mul]
        field_simp
      · have hn1 : n = 1 := by omega
        subst hn1
        have hqr : q = r := by omega
        subst hqr
        simp
    · simp [hidx]
  refine ⟨key, ?_⟩
  apply ScaLAPACKMatrix.ext_fields
  · rw [scaleScaLAPACKMat_local_m, sumAcross_local_m, bcast_local_m]
  · rw [scaleScaLAPACKMat_local_n, sumAcross_local_n, bcast_local_n]
  · rw [scaleScaLAPACKMat_global_row, sumAcross_global_row, bcast_global_row]
  · rw [scaleScaLAPACKMat_global_column, sumAcross_global_column, bcast_global_column]
  · funext idx
    rw [key r hr idx]
    simp

/-- Witness for C10: two ranks with panels `[1]` and `[2]`, root `1`; rank `0` ends with
the entry `2`. -/
theorem broadcast_sum_scale_identity_witness :
    (scaleScaLAPACKMat true
        (sumAcrossInterCommScaLAPACKMat 2 (fun _ => true)
          (broadcastAcrossInterCommScaLAPACKMat 2 (fun _ => true) panelsOneTwo 1) 0)
        (1 / ((2 : Nat) : ℚ))).values 0 = 2 := by
  have h := (broadcast_sum_scale_identity 2 1 (fun _ => true) panelsOneTwo (by decide)
    (by decide) (fun _ _ => rfl) (fun _ _ => rfl)).1 0 (by decide) 0
  rw [h]
  simp [panelsOneTwo]
  norm_num

/-! ## Vector loops -/

theorem forLoop_fill (f : Nat → ℚ) (n : Nat) (v0 : Buf) (k : Nat) :
    forLoop (fun i v => Function.update v i (f i)) n v0 k = if k < n then f k else v0 k := by
  induction n with
  | zero => simp [forLoop]
  | succ m ih =>
    simp only [forLoop]
    by_cases h : k = m
    · subst h; simp
    · rw [Function.update_noteq h, ih]
      have : (k < m + 1) ↔ k < m := by omega
      simp only [this]

theorem ddot_eq_sum (n : Nat) (x y : Buf) : ddot n x y = ∑ i ∈ Finset.range n, x i * y i := by
  unfold ddot
  induction n with
  | zero => simp [forLoop]
  | succ m ih => simp only [forLoop, Finset.sum_range_succ, ih]

theorem deltaG_apply (s : BFGSNonLinearSolver) (k : Nat) :
    deltaG s k = if k < s.d_numberUnknowns then s.d_gradientNew.data k - s.d_gradient.data k
      else 0 := by
  unfold deltaG
  rw [forLoop_fill (fun i => s.d_gradientNew.data i - s.d_gradient.data i)]

theorem dampedR_apply (s : BFGSNonLinearSolver) (k : Nat) :
    dampedR s k = if k < s.d_numberUnknowns
      then theta s * deltaG s k + (1 - theta s) * hessianTimesStep s k else 0 := by
  unfold dampedR
  rw [forLoop_fill (fun i => theta s * deltaG s i + (1 - theta s) * hessianTimesStep s i)]

theorem rtdx_eq (s : BFGSNonLinearSolver) :
    rtdx s = theta s * dgtdx s + (1 - theta s) * dxtHdx s := by
  unfold rtdx dgtdx dxtHdx
  rw [ddot_eq_sum, ddot_eq_sum, ddot_eq_sum, Finset.mul_sum, Finset.mul_sum,
    ← Finset.sum_add_distrib]
  refine Finset.sum_congr rfl (fun i hi => ?_)
  rw [dampedR_apply, if_pos (Finset.mem_range.mp hi)]
  ring

/-! ## The rank-one update `dsyr_` -/

theorem dsyr_column (lda j m : Nat) (x : Buf) (temp : ℚ) (aj : Buf) (idx : Nat) :
    forLoop (fun i ai => Function.update ai (i + j * lda) (ai (i + j * lda) + x i * temp)) m aj
        idx
      = if j * lda ≤ idx ∧ idx < j * lda + m then aj idx + x (idx - j * lda) * temp
        else aj idx := by
  induction m with
  | zero =>
    simp only [forLoop]
    rw [if_neg]; omega
  | succ k ih =>
    simp only [forLoop]
    by_cases h : idx = k + j * lda
    · subst h
      rw [Function.update_same, ih, if_neg (by omega), if_pos (by omega)]
      congr 2
      rw [Nat.add_sub_cancel]
    · rw [Function.update_noteq h, ih]
      have : (j * lda ≤ idx ∧ idx < j * lda + (k + 1)) ↔ (j * lda ≤ idx ∧ idx < j * lda + k) := by
        omega
      simp only [this]

theorem column_window (lda i j m : Nat) (hi : i < lda) (hm : m < lda) :
    (m * lda ≤ i + j * lda ∧ i + j * lda < m * lda + (m + 1)) ↔ (j = m ∧ i ≤ m) := by
  constructor
  · rintro ⟨h1, h2⟩
    have hj : j = m := by
      rcases Nat.lt_trichotomy j m with h | h | h
      · exfalso
        have : (j + 1) * lda ≤ m * lda := Nat.mul_le_mul_right lda h
        rw [Nat.add_mul, Nat.one_mul] at this
        omega
      · exact h
      · exfalso
        have : (m + 1) * lda ≤ j * lda := Nat.mul_le_mul_right lda h
        rw [Nat.add_mul, Nat.one_mul] at this
        omega
    subst hj
    exact ⟨rfl, by omega⟩
  · rintro ⟨rfl, h⟩
    exact ⟨by omega, by omega⟩

theorem dsyr_apply (n lda : Nat) (alpha : ℚ) (x a : Buf) (hlda : n ≤ lda) (i j : Nat)
    (hi : i < n) (hj : j < n) :
    dsyr n alpha x a lda (i + j * lda)
      = if i ≤ j then a (i + j * lda) + alpha * x i * x j else a (i + j * lda) := by
  unfold dsyr
  by_cases h0 : n = 0 ∨ alpha = 0
  · rw [if_pos h0]
    rcases h0 with h0 | h0
    · omega
    · simp [h0]
  · rw [if_neg h0]
    have key : ∀ m, m ≤ n →
        forLoop (fun j aj =>
          if x j ≠ 0 then
            forLoop (fun i ai =>
              Function.update ai (i + j * lda) (ai (i + j * lda) + x i * (alpha * x j)))
              (j + 1) aj
          else aj) m a (i + j * lda)
        = if i ≤ j ∧ j < m then a (i + j * lda) + alpha * x i * x j else a (i + j * lda) := by
      intro m
      induction m with
      | zero => intro _; simp [forLoop]
      | succ k ih =>
        intro hk
        rw [forLoop_succ]
        have ihk := ih (by omega)
        have hwin := column_window lda i j k (by omega) (by omega)
        by_cases hx : x k ≠ 0
        · rw [if_pos hx, dsyr_column, ihk]
          by_cases hw : j = k ∧ i ≤ k
          · rw [if_pos (hwin.mpr hw)]
            obtain ⟨rfl, hik⟩ := hw
            rw [if_neg (by omega), if_pos ⟨hik, by omega⟩, Nat.add_sub_cancel]
            ring
          · rw [if_neg (fun h => hw (hwin.mp h))]
            have : (i ≤ j ∧ j < k + 1) ↔ (i ≤ j ∧ j < k) := by
              constructor
              · rintro ⟨h1, h2⟩
                refine ⟨h1, ?_⟩
                by_contra hc
                exact hw ⟨by omega, by omega⟩
              · rintro ⟨h1, h2⟩; exact ⟨h1, by omega⟩
            simp only [this]
        · rw [if_neg hx, ihk]
          have hx0 : x k = 0 := by
            by_contra hc; exact hx hc
          by_cases hjk : j = k
          · subst hjk
            by_cases hij : i ≤ j
            · rw [if_neg (by omega), if_pos ⟨hij, by omega⟩, hx0]; ring
            · rw [if_neg (by omega), if_neg (by omega)]
          · have : (i ≤ j ∧ j < k + 1) ↔ (i ≤ j ∧ j < k) := by omega
            simp only [this]
    rw [key n (le_refl n)]
    by_cases hij : i ≤ j
    · rw [if_pos ⟨hij, hj⟩, if_pos hij]
    · rw [if_neg (fun h => hij h.1), if_neg hij]

/-! ## `updateHessian` -/

/-- C3: in `updateHessian`, whenever `dxtHdx > 0` the damped vector `r` satisfies
`rtdx ≥ 0.2 * dxtHdx`, with equality in the damped branch `dgtdx < 0.2 * dxtHdx`; hence
`rtdx > 0` and the factor `1 / rtdx` of the first rank-one update is positive. -/
theorem updateHessian_rtdx_positive (s : BFGSNonLinearSolver) (h : 0 < dxtHdx s) :
    rtdx s ≥ (2 / 10) * dxtHdx s ∧
    (dgtdx s < (2 / 10) * dxtHdx s → rtdx s = (2 / 10) * dxtHdx s) ∧
    0 < rtdx s ∧ 0 < 1 / rtdx s := by
  have hr := rtdx_eq s
  have hmain : rtdx s ≥ (2 / 10) * dxtHdx s ∧
      (dgtdx s < (2 / 10) * dxtHdx s → rtdx s = (2 / 10) * dxtHdx s) := by
    by_cases hb : dgtdx s ≥ (2 / 10) * dxtHdx s
    · have ht : theta s = 1 := by unfold theta; rw [if_pos hb]
      rw [ht] at hr
      have hr1 : rtdx s = dgtdx s := by rw [hr]; ring
      refine ⟨by rw [hr1]; exact hb, fun hlt => ?_⟩
      exact absurd hb (not_le.mpr hlt)
    · have hlt : dgtdx s < (2 / 10) * dxtHdx s := not_le.mp hb
      have hne : dxtHdx s - dgtdx s ≠ 0 := by
        have : 0 < dxtHdx s - dgtdx s := by linarith
        exact this.ne'
      have ht : theta s = (8 / 10) * dxtHdx s / (dxtHdx s - dgtdx s) := by
        unfold theta; rw [if_neg hb]
      have hr1 : rtdx s = (2 / 10) * dxtHdx s := by
        rw [hr, ht]
        field_simp
        ring
      exact ⟨by rw [hr1], fun _ => hr1⟩
  have hpos : 0 < rtdx s := by
    have := hmain.1
    have h2 : 0 < (2 / 10) * dxtHdx s := by positivity
    exact lt_of_lt_of_le h2 this
  exact ⟨hmain.1, hmain.2, hpos, by positivity⟩

theorem solverExample_Hdx (k : Nat) :
    hessianTimesStep solverExample k = if k = 0 then 1 else 0 := by
  simp only [hessianTimesStep, dsymv, solverExample, forLoop, if_true, one_ne_zero, if_false]
  by_cases h0 : k = 0
  · subst h0; simp [Function.update]
  · by_cases h1 : k = 1
    · subst h1; simp [Function.update]
    · simp [Function.update, h0, h1]

theorem solverExample_deltaG (k : Nat) :
    deltaG solverExample k = if k < 2 then 1 else 0 := by
  rw [deltaG_apply]
  have hU : solverExample.d_numberUnknowns = 2 := rfl
  rw [hU]
  by_cases h : k < 2
  · simp [solverExample, h]
  · simp [h]

theorem solverExample_dxtHdx : dxtHdx solverExample = 1 := by
  unfold dxtHdx
  rw [ddot_eq_sum]
  have hU : solverExample.d_numberUnknowns = 2 := rfl
  rw [hU]
  simp only [Finset.sum_range_succ, Finset.sum_range_zero, solverExample_Hdx]
  simp [solverExample]

theorem solverExample_dgtdx : dgtdx solverExample = 1 := by
  unfold dgtdx
  rw [ddot_eq_sum]
  have hU : solverExample.d_numberUnknowns = 2 := rfl
  rw [hU]
  simp only [Finset.sum_range_succ, Finset.sum_range_zero, solverExample_deltaG]
  simp [solverExample]

theorem solverExample_theta : theta solverExample = 1 := by
  unfold theta
  rw [solverExample_dxtHdx, solverExample_dgtdx]
  norm_num

theorem solverExample_r (k : Nat) : dampedR solverExample k = if k < 2 then 1 else 0 := by
  rw [dampedR_apply, solverExample_theta, solverExample_deltaG]
  have hU : solverExample.d_numberUnknowns = 2 := rfl
  rw [hU]
  by_cases h : k < 2
  · simp [h]
  · simp [h]

theorem solverExample_rtdx : rtdx solverExample = 1 := by
  rw [rtdx_eq, solverExample_theta, solverExample_dgtdx]
  ring

/-- Witness for C3: the state `solverExample` has `dxtHdx = 1 > 0`. -/
theorem updateHessian_rtdx_positive_witness :
    0 < dxtHdx solverExample ∧
    (rtdx solverExample ≥ (2 / 10) * dxtHdx solverExample ∧
      (dgtdx solverExample < (2 / 10) * dxtHdx solverExample →
        rtdx solverExample = (2 / 10) * dxtHdx solverExample) ∧
      0 < rtdx solverExample ∧ 0 < 1 / rtdx solverExample) :=
  ⟨by rw [solverExample_dxtHdx]; norm_num,
   updateHessian_rtdx_positive solverExample (by rw [solverExample_dxtHdx]; norm_num)⟩

theorem updateHessian_entry (s : BFGSNonLinearSolver) (i j : Nat)
    (hi : i < s.d_numberUnknowns) (hj : j < s.d_numberUnknowns) :
    (updateHessian s).d_hessian (i + j * s.d_numberUnknowns)
      = if i ≤ j then
          s.d_hessian (i + j * s.d_numberUnknowns)
            + (1 / rtdx s) * dampedR s i * dampedR s j
            + (-1 / dxtHdx s) * hessianTimesStep s i * hessianTimesStep s j
        else s.d_hessian (i + j * s.d_numberUnknowns) := by
  unfold updateHessian
  simp only []
  rw [dsyr_apply _ _ _ _ _ (le_refl _) i j hi hj, dsyr_apply _ _ _ _ _ (le_refl _) i j hi hj]
  by_cases h : i ≤ j
  · simp only [h, if_true]
  · simp only [h, if_false]

/-- C4, as stated, fails: `updateHessian` applied to the identity Hessian of
`solverExample` leaves `d_hessian[0 + 1*2] = 1` and `d_hessian[1 + 0*2] = 0`. -/
theorem updateHessian_stored_not_symmetric :
    ¬ ∀ s : BFGSNonLinearSolver,
      (∀ i j, i < s.d_numberUnknowns → j < s.d_numberUnknowns →
        s.d_hessian (i + j * s.d_numberUnknowns) = s.d_hessian (j + i * s.d_numberUnknowns)) →
      ∀ i j, i < s.d_numberUnknowns → j < s.d_numberUnknowns →
        (updateHessian s).d_hessian (i + j * s.d_numberUnknowns)
          = (updateHessian s).d_hessian (j + i * s.d_numberUnknowns) := by
  intro h
  have hsym : ∀ i j, i < solverExample.d_numberUnknowns → j < solverExample.d_numberUnknowns →
      solverExample.d_hessian (i + j * solverExample.d_numberUnknowns)
        = solverExample.d_hessian (j + i * solverExample.d_numberUnknowns) := by
    intro i j hi hj
    have hi2 : i < 2 := hi
    have hj2 : j < 2 := hj
    interval_cases i <;> interval_cases j <;> simp [solverExample]
  have h01 := h solverExample hsym 0 1 (by decide) (by decide)
  rw [updateHessian_entry solverExample 0 1 (by decide) (by decide),
    updateHessian_entry solverExample 1 0 (by decide) (by decide)] at h01
  simp only [solverExample_rtdx, solverExample_dxtHdx, solverExample_r, solverExample_Hdx] at h01
  simp [solverExample] at h01

/-- C4, amended: `updateHessian` writes only the upper triangle of `d_hessian` (the part
`dsymv_`, `dsyr_` and `dsygvx_` read with `uplo = 'U'`): for `i ≤ j < U` the entry `(i, j)`
becomes `H(i,j) + r_i r_j / rtdx - Hdx_i Hdx_j / dxtHdx`, an expression that is unchanged
when `i` and `j` are exchanged in the update terms, so the symmetric matrix the upper
triangle represents stays symmetric; every entry with `i > j` keeps its value. -/
theorem updateHessian_upper_triangle (s : BFGSNonLinearSolver) (i j : Nat)
    (hi : i < s.d_numberUnknowns) (hj : j < s.d_numberUnknowns) :
    (i ≤ j →
      (updateHessian s).d_hessian (i + j * s.d_numberUnknowns)
        = s.d_hessian (i + j * s.d_numberUnknowns)
            + (1 / rtdx s) * dampedR s i * dampedR s j
            + (-1 / dxtHdx s) * hessianTimesStep s i * hessianTimesStep s j ∧
      (1 / rtdx s) * dampedR s i * dampedR s j
            + (-1 / dxtHdx s) * hessianTimesStep s i * hessianTimesStep s j
        = (1 / rtdx s) * dampedR s j * dampedR s i
            + (-1 / dxtHdx s) * hessianTimesStep s j * hessianTimesStep s i) ∧
    (j < i →
      (updateHessian s).d_hessian (i + j * s.d_numberUnknowns)
        = s.d_hessian (i + j * s.d_numberUnknowns)) := by
  have h := updateHessian_entry s i j hi hj
  refine ⟨fun hij => ⟨?_, by ring⟩, fun hji => ?_⟩
  · rw [h, if_pos hij]
  · rw [h, if_neg (by omega)]

/-- Witness for C4 (amended): the entries `(0, 1)` and `(1, 0)` of `solverExample`. -/
theorem updateHessian_upper_triangle_witness :
    (updateHessian solverExample).d_hessian (0 + 1 * 2) = 1 ∧
    (updateHessian solverExample).d_hessian (1 + 0 * 2) = 0 := by
  have h01 := (updateHessian_upper_triangle solverExample 0 1 (by decide) (by decide)).1
    (by decide)
  have h10 := (updateHessian_upper_triangle solverExample 1 0 (by decide) (by decide)).2
    (by decide)
  refine ⟨?_, ?_⟩
  · have e := h01.1
    simp only [solverExample_rtdx, solverExample_dxtHdx, solverExample_r,
      solverExample_Hdx] at e
    have e2 : (updateHessian solverExample).d_hessian (0 + 1 * 2)
        = (updateHessian solverExample).d_hessian
            (0 + 1 * solverExample.d_numberUnknowns) := rfl
    rw [e2, e]
    simp [solverExample]
  · have e2 : (updateHessian solverExample).d_hessian (1 + 0 * 2)
        = (updateHessian solverExample).d_hessian
            (1 + 0 * solverExample.d_numberUnknowns) := rfl
    rw [e2, h10]
    simp [solverExample]

/-! ## Frame properties of the solver steps -/

theorem resetBranch_fields {σ : Type} (num : NumLib) (problem : nonlinearSolverProblem σ)
    (p : σ) (s : BFGSNonLinearSolver) :
    (resetBranch num problem p s).d_trustRadiusMin = s.d_trustRadiusMin ∧
    (resetBranch num problem p s).d_trustRadiusMax = s.d_trustRadiusMax ∧
    (resetBranch num problem p s).d_tolerance = s.d_tolerance ∧
    (resetBranch num problem p s).d_maxNumberIterations = s.d_maxNumberIterations ∧
    (resetBranch num problem p s).d_iter = s.d_iter ∧
    (resetBranch num problem p s).d_numberUnknowns = s.d_numberUnknowns ∧
    (resetBranch num problem p s).d_unknownCountFlag = s.d_unknownCountFlag ∧
    (resetBranch num problem p s).trace = s.trace ∧
    (resetBranch num problem p s).d_isBFGSRestartDueToSmallRadius
      = s.d_isBFGSRestartDueToSmallRadius := by
  unfold resetBranch initializeHessian
  split <;> simp

theorem resetBranch_radius {σ : Type} (num : NumLib) (problem : nonlinearSolverProblem σ)
    (p : σ) (s : BFGSNonLinearSolver) :
    (resetBranch num problem p s).d_trustRadius
      = if s.d_isBFGSRestartDueToSmallRadius = true then 1 / 2 else s.d_trustRadius := by
  unfold resetBranch initializeHessian
  split <;> simp

theorem computeLInfNorm_nonneg (s : BFGSNonLinearSolver) (vec : Buf) :
    0 ≤ computeLInfNorm s vec := by
  unfold computeLInfNorm
  generalize s.d_numberUnknowns = n
  induction n with
  | zero => simp [forLoop]
  | succ k ih =>
    rw [forLoop_succ]
    simp only []
    split
    · exact ih
    · rename_i h
      exact le_trans ih (not_lt.mp h)

theorem computeStep_fields (num : NumLib) (s : BFGSNonLinearSolver) :
    (computeStep num s).d_trustRadiusMin = s.d_trustRadiusMin ∧
    (computeStep num s).d_trustRadiusMax = s.d_trustRadiusMax ∧
    (computeStep num s).d_tolerance = s.d_tolerance ∧
    (computeStep num s).d_maxNumberIterations = s.d_maxNumberIterations ∧
    (computeStep num s).d_iter = s.d_iter ∧
    (computeStep num s).d_numberUnknowns = s.d_numberUnknowns ∧
    (computeStep num s).d_unknownCountFlag = s.d_unknownCountFlag ∧
    (computeStep num s).trace = s.trace ∧
    (computeStep num s).d_isBFGSRestartDueToSmallRadius
      = s.d_isBFGSRestartDueToSmallRadius ∧
    (computeStep num s).d_trustRadius = s.d_trustRadius ∧
    0 ≤ (computeStep num s).d_normDelaXnew := by
  refine ⟨rfl, rfl, rfl, rfl, rfl, rfl, rfl, rfl, rfl, rfl, ?_⟩
  exact computeLInfNorm_nonneg _ _

theorem iterationHead_fields {σ : Type} (num : NumLib) (problem : nonlinearSolverProblem σ)
    (s : BFGSNonLinearSolver) (p : σ) :
    (iterationHead num problem s p).1.d_trustRadiusMin = s.d_trustRadiusMin ∧
    (iterationHead num problem s p).1.d_trustRadiusMax = s.d_trustRadiusMax ∧
    (iterationHead num problem s p).1.d_tolerance = s.d_tolerance ∧
    (iterationHead num problem s p).1.d_maxNumberIterations = s.d_maxNumberIterations ∧
    (iterationHead num problem s p).1.d_iter = s.d_iter ∧
    (iterationHead num problem s p).1.d_numberUnknowns = s.d_numberUnknowns ∧
    (iterationHead num problem s p).1.d_unknownCountFlag = s.d_unknownCountFlag := by
  obtain ⟨h1, h2, h3, h4, h5, h6, h7, -, -⟩ := resetBranch_fields num problem p s
  unfold iterationHead updateSolution scaleHessian
  simp only []
  split <;> simp [computeStep, h1, h2, h3, h4, h5, h6, h7]

theorem iterationHead_flag {σ : Type} (num : NumLib) (problem : nonlinearSolverProblem σ)
    (s : BFGSNonLinearSolver) (p : σ) :
    (iterationHead num problem s p).1.d_isBFGSRestartDueToSmallRadius = false := by
  unfold iterationHead updateSolution scaleHessian
  simp only []
  split
  · simp
  · rename_i h
    simp only [not_or] at h
    simpa using h.2

theorem iterationHead_radius {σ : Type} (num : NumLib) (problem : nonlinearSolverProblem σ)
    (s : BFGSNonLinearSolver) (p : σ) :
    (iterationHead num problem s p).1.d_trustRadius
        = (resetBranch num problem p s).d_trustRadius ∧
    0 ≤ (iterationHead num problem s p).1.d_normDelaXnew := by
  unfold iterationHead updateSolution scaleHessian
  simp only []
  split
  · exact ⟨rfl, computeLInfNorm_nonneg _ _⟩
  · exact ⟨rfl, computeLInfNorm_nonneg _ _⟩

theorem iterationHead_trace {σ : Type} (num : NumLib) (problem : nonlinearSolverProblem σ)
    (s : BFGSNonLinearSolver) (p : σ) :
    (iterationHead num problem s p).1.trace
      = IterRecord.mk s.d_isBFGSRestartDueToSmallRadius
          (resetBranch num problem p s).d_trustRadius
          (iterationHead num problem s p).1.d_gradMax :: s.trace := by
  obtain ⟨-, -, -, -, -, -, -, h8, -⟩ := resetBranch_fields num problem p s
  unfold iterationHead updateSolution scaleHessian
  simp only []
  split <;> simp [computeStep, h8]

theorem iterationHead_gradMax {σ : Type} (num : NumLib) (problem : nonlinearSolverProblem σ)
    (s : BFGSNonLinearSolver) (p : σ) :
    (iterationHead num problem s p).1.d_gradientNew.data
      = problem.gradient (iterationHead num problem s p).2 ∧
    (iterationHead num problem s p).1.d_gradMax
      = computeLInfNorm (iterationHead num problem s p).1
          (problem.gradient (iterationHead num problem s p).2) := by
  unfold iterationHead updateSolution scaleHessian
  simp only []
  split_ifs <;> exact ⟨rfl, rfl⟩

theorem acceptedStep_fields (s : BFGSNonLinearSolver) :
    (acceptedStep s).d_trustRadiusMin = s.d_trustRadiusMin ∧
    (acceptedStep s).d_trustRadiusMax = s.d_trustRadiusMax ∧
    (acceptedStep s).d_tolerance = s.d_tolerance ∧
    (acceptedStep s).d_maxNumberIterations = s.d_maxNumberIterations ∧
    (acceptedStep s).d_iter = s.d_iter ∧
    (acceptedStep s).d_numberUnknowns = s.d_numberUnknowns ∧
    (acceptedStep s).d_unknownCountFlag = s.d_unknownCountFlag ∧
    (acceptedStep s).trace = s.trace := by
  unfold acceptedStep updateHessian computepredDec
  simp only []
  split_ifs <;> simp

theorem acceptedStep_flag (s : BFGSNonLinearSolver)
    (h0 : s.d_isBFGSRestartDueToSmallRadius = false) :
    ((acceptedStep s).d_isBFGSRestartDueToSmallRadius = true →
      (acceptedStep s).d_trustRadius < s.d_trustRadiusMin) ∧
    ((acceptedStep s).d_trustRadius = s.d_trustRadiusMin →
      (acceptedStep s).d_isBFGSRestartDueToSmallRadius = false) := by
  unfold acceptedStep updateHessian computepredDec
  simp only []
  split_ifs <;> simp_all <;> exact ne_of_lt (by assumption)

theorem acceptedStep_bounds (s : BFGSNonLinearSolver)
    (hmin : s.d_trustRadiusMin ≤ s.d_trustRadiusMax) (hmax : 0 ≤ s.d_trustRadiusMax)
    (h1 : s.d_trustRadiusMin ≤ s.d_trustRadius) (h2 : 0 ≤ s.d_trustRadius)
    (h3 : 0 ≤ s.d_normDelaXnew) :
    (acceptedStep s).d_trustRadius ≤ s.d_trustRadiusMax ∧
    0 ≤ (acceptedStep s).d_trustRadius ∧
    ((acceptedStep s).d_isBFGSRestartDueToSmallRadius = true ∨
      s.d_trustRadiusMin ≤ (acceptedStep s).d_trustRadius) := by
  unfold acceptedStep updateHessian computepredDec
  simp only []
  split_ifs <;> dsimp only <;> refine ⟨?_, ?_, ?_⟩ <;>
    first | linarith | exact Or.inl rfl | (right; linarith)

theorem halveTrustRadius_spec (norm : ℚ) (fuel : Nat) (tr t : ℚ)
    (h : halveTrustRadius norm fuel tr = some t) :
    t ≤ norm ∧ (0 ≤ tr → 0 ≤ t ∧ t ≤ tr) := by
  induction fuel generalizing tr with
  | zero =>
    unfold halveTrustRadius at h
    split at h
    · simp at h
    · rename_i hc
      simp only [Option.some.injEq] at h
      subst h
      exact ⟨not_lt.mp hc, fun h0 => ⟨h0, le_refl _⟩⟩
  | succ f ih =>
    unfold halveTrustRadius at h
    split at h
    · have := ih (tr * (1 / 2)) h
      refine ⟨this.1, fun h0 => ?_⟩
      have h2 := this.2 (by linarith)
      exact ⟨h2.1, by linarith⟩
    · rename_i hc
      simp only [Option.some.injEq] at h
      subst h
      exact ⟨not_lt.mp hc, fun h0 => ⟨h0, le_refl _⟩⟩

theorem rejectedStep_fields (fuel : Nat) (s t : BFGSNonLinearSolver)
    (h : rejectedStep fuel s = some t) :
    t.d_trustRadiusMin = s.d_trustRadiusMin ∧
    t.d_trustRadiusMax = s.d_trustRadiusMax ∧
    t.d_tolerance = s.d_tolerance ∧
    t.d_maxNumberIterations = s.d_maxNumberIterations ∧
    t.d_iter = s.d_iter ∧
    t.d_numberUnknowns = s.d_numberUnknowns ∧
    t.d_unknownCountFlag = s.d_unknownCountFlag ∧
    t.trace = s.trace := by
  unfold rejectedStep at h
  simp only [] at h
  split at h
  · simp at h
  · split at h <;> (simp only [Option.some.injEq] at h; subst h; simp)

theorem rejectedStep_flag (fuel : Nat) (s t : BFGSNonLinearSolver)
    (h : rejectedStep fuel s = some t) (h0 : s.d_isBFGSRestartDueToSmallRadius = false) :
    (t.d_isBFGSRestartDueToSmallRadius = true → t.d_trustRadius < s.d_trustRadiusMin) ∧
    (t.d_trustRadius = s.d_trustRadiusMin → t.d_isBFGSRestartDueToSmallRadius = false) := by
  unfold rejectedStep at h
  simp only [] at h
  split at h
  · simp at h
  · rename_i r hr
    split at h
    · rename_i hlt
      simp only [Option.some.injEq] at h
      subst h
      dsimp only at hlt ⊢
      exact ⟨fun _ => hlt, fun he => absurd he (ne_of_lt hlt)⟩
    · rename_i hlt
      simp only [Option.some.injEq] at h
      subst h
      dsimp only at hlt ⊢
      exact ⟨fun hc => by rw [h0] at hc; exact absurd hc (by decide), fun _ => h0⟩

theorem rejectedStep_bounds (fuel : Nat) (s t : BFGSNonLinearSolver)
    (h : rejectedStep fuel s = some t)
    (h1 : s.d_trustRadius ≤ s.d_trustRadiusMax) (h2 : 0 ≤ s.d_trustRadius) :
    t.d_trustRadius ≤ s.d_trustRadiusMax ∧ 0 ≤ t.d_trustRadius ∧
    (t.d_isBFGSRestartDueToSmallRadius = true ∨ s.d_trustRadiusMin ≤ t.d_trustRadius) := by
  unfold rejectedStep at h
  simp only [] at h
  split at h
  · simp at h
  · rename_i r hr
    have hs := (halveTrustRadius_spec _ _ _ _ hr).2 (by linarith)
    split at h
    · simp only [Option.some.injEq] at h
      subst h
      dsimp only
      exact ⟨by linarith, hs.1, Or.inl rfl⟩
    · rename_i hlt
      simp only [Option.some.injEq] at h
      subst h
      dsimp only at hlt ⊢
      exact ⟨by linarith, hs.1, Or.inr (not_lt.mp hlt)⟩

theorem solveIteration_cases {σ : Type} (num : NumLib) (problem : nonlinearSolverProblem σ)
    (fuel : Nat) (s : BFGSNonLinearSolver) (p : σ) (out : BFGSNonLinearSolver × σ × Bool)
    (h : solveIteration num problem fuel s p = some out) :
    ((iterationHead num problem s p).1.d_gradMax < (iterationHead num problem s p).1.d_tolerance
      ∧ out = ((iterationHead num problem s p).1, (iterationHead num problem s p).2, true)) ∨
    (¬ (iterationHead num problem s p).1.d_gradMax
        < (iterationHead num problem s p).1.d_tolerance ∧
      ∃ a : BFGSNonLinearSolver,
        a.d_trustRadiusMin = s.d_trustRadiusMin ∧
        a.d_trustRadiusMax = s.d_trustRadiusMax ∧
        a.d_tolerance = s.d_tolerance ∧
        a.d_maxNumberIterations = s.d_maxNumberIterations ∧
        a.d_iter = s.d_iter ∧
        a.d_numberUnknowns = s.d_numberUnknowns ∧
        a.d_unknownCountFlag = s.d_unknownCountFlag ∧
        a.trace = (iterationHead num problem s p).1.trace ∧
        a.d_isBFGSRestartDueToSmallRadius = false ∧
        a.d_trustRadius = (resetBranch num problem p s).d_trustRadius ∧
        0 ≤ a.d_normDelaXnew ∧
        (out = (acceptedStep a, (iterationHead num problem s p).2, false) ∨
          ∃ t, rejectedStep fuel a = some t ∧
            out = (t, (iterationHead num problem s p).2, false))) := by
  unfold solveIteration at h
  simp only [] at h
  obtain ⟨f1, f2, f3, f4, f5, f6, f7⟩ := iterationHead_fields num problem s p
  have hflag := iterationHead_flag num problem s p
  obtain ⟨hrad, hnorm⟩ := iterationHead_radius num problem s p
  split at h
  · rename_i hc
    left
    simp only [Option.some.injEq] at h
    exact ⟨hc, h.symm⟩
  · rename_i hc
    right
    refine ⟨hc, ?_⟩
    split at h
    · simp only [Option.some.injEq] at h
      exact ⟨{ (iterationHead num problem s p).1 with
        d_stepAccepted := decide ((iterationHead num problem s p).1.d_valueNew
          ≤ (iterationHead num problem s p).1.d_value) },
        f1, f2, f3, f4, f5, f6, f7, rfl, hflag, hrad, hnorm, Or.inl h.symm⟩
    · split at h
      · simp at h
      · rename_i t ht
        simp only [Option.some.injEq] at h
        exact ⟨{ (iterationHead num problem s p).1 with
        d_stepAccepted := decide ((iterationHead num problem s p).1.d_valueNew
          ≤ (iterationHead num problem s p).1.d_value) },
          f1, f2, f3, f4, f5, f6, f7, rfl, hflag, hrad, hnorm, Or.inr ⟨t, ht, h.symm⟩⟩

theorem solveIteration_fields {σ : Type} (num : NumLib) (problem : nonlinearSolverProblem σ)
    (fuel : Nat) (s : BFGSNonLinearSolver) (p : σ) (out : BFGSNonLinearSolver × σ × Bool)
    (h : solveIteration num problem fuel s p = some out) :
    out.1.d_trustRadiusMin = s.d_trustRadiusMin ∧
    out.1.d_trustRadiusMax = s.d_trustRadiusMax ∧
    out.1.d_tolerance = s.d_tolerance ∧
    out.1.d_maxNumberIterations = s.d_maxNumberIterations ∧
    out.1.d_iter = s.d_iter ∧
    out.1.d_numberUnknowns = s.d_numberUnknowns ∧
    out.1.d_unknownCountFlag = s.d_unknownCountFlag ∧
    out.1.trace = IterRecord.mk s.d_isBFGSRestartDueToSmallRadius
          (resetBranch num problem p s).d_trustRadius
          (iterationHead num problem s p).1.d_gradMax :: s.trace ∧
    (out.2.2 = true ↔ (iterationHead num problem s p).1.d_gradMax < s.d_tolerance) := by
  obtain ⟨f1, f2, f3, f4, f5, f6, f7⟩ := iterationHead_fields num problem s p
  have htr := iterationHead_trace num problem s p
  rcases solveIteration_cases num problem fuel s p out h with ⟨hc, rfl⟩ | ⟨hc, a, a1, a2, a3, a4,
    a5, a6, a7, a8, -, -, -, hout⟩
  · rw [f3] at hc
    exact ⟨f1, f2, f3, f4, f5, f6, f7, htr, by simp [hc]⟩
  · rw [f3] at hc
    rcases hout with rfl | ⟨t, ht, rfl⟩
    · obtain ⟨b1, b2, b3, b4, b5, b6, b7, b8⟩ := acceptedStep_fields a
      exact ⟨b1.trans a1, b2.trans a2, b3.trans a3, b4.trans a4, b5.trans a5, b6.trans a6,
        b7.trans a7, (b8.trans a8).trans htr, by simp [hc]⟩
    · obtain ⟨b1, b2, b3, b4, b5, b6, b7, b8⟩ := rejectedStep_fields fuel a t ht
      exact ⟨b1.trans a1, b2.trans a2, b3.trans a3, b4.trans a4, b5.trans a5, b6.trans a6,
        b7.trans a7, (b8.trans a8).trans htr, by simp [hc]⟩

/-! ## The trust-radius floor -/

/-- C6: in an iteration of `solve` that reaches the trust-radius update, the reset flag
`d_isBFGSRestartDueToSmallRadius` is set afterwards only if the updated trust radius is
strictly below `d_trustRadiusMin`; when the updated radius equals `d_trustRadiusMin` the
flag is clear, the reset branch of the next iteration changes nothing, and the next
iteration records that it ran `computeStep` without reset on the radius
`d_trustRadiusMin`. -/
theorem reset_scheduled_only_below_minimum {σ : Type} (num : NumLib)
    (problem : nonlinearSolverProblem σ) (fuel : Nat) (s t : BFGSNonLinearSolver) (p q : σ)
    (h : solveIteration num problem fuel s p = some (t, q, false)) :
    (t.d_isBFGSRestartDueToSmallRadius = true → t.d_trustRadius < t.d_trustRadiusMin) ∧
    (t.d_trustRadius = t.d_trustRadiusMin →
      t.d_isBFGSRestartDueToSmallRadius = false ∧
      resetBranch num problem q (incrementIter t) = incrementIter t ∧
      ∀ fuel2 out, solveIteration num problem fuel2 (incrementIter t) q = some out →
        ∃ g, out.1.trace.head? = some (IterRecord.mk false t.d_trustRadiusMin g)) := by
  have hmin := (solveIteration_fields num problem fuel s p _ h).1
  have hflags : (t.d_isBFGSRestartDueToSmallRadius = true → t.d_trustRadius < s.d_trustRadiusMin) ∧
      (t.d_trustRadius = s.d_trustRadiusMin → t.d_isBFGSRestartDueToSmallRadius = false) := by
    rcases solveIteration_cases num problem fuel s p _ h with ⟨-, he⟩ | ⟨-, a, a1, -, -, -, -, -,
      -, -, a9, -, -, hout⟩
    · simp at he
    · rcases hout with he | ⟨r, hr, he⟩
      · simp only [Prod.mk.injEq, and_true] at he
        obtain ⟨rfl, -⟩ := he
        have := acceptedStep_flag a a9
        rw [a1] at this
        exact this
      · simp only [Prod.mk.injEq, and_true] at he
        obtain ⟨rfl, -⟩ := he
        have := rejectedStep_flag fuel a t hr a9
        rw [a1] at this
        exact this
  dsimp only at hmin
  rw [← hmin] at hflags
  refine ⟨hflags.1, fun he => ?_⟩
  have hf := hflags.2 he
  have hf2 : (incrementIter t).d_isBFGSRestartDueToSmallRadius = false := hf
  have hreset : resetBranch num problem q (incrementIter t) = incrementIter t := by
    unfold resetBranch
    rw [hf2]
    simp
  refine ⟨hf, hreset, fun fuel2 out ho => ?_⟩
  have htr := (solveIteration_fields num problem fuel2 _ q out ho).2.2.2.2.2.2.2.1
  rw [htr, hreset, hf2]
  have hr2 : (incrementIter t).d_trustRadius = t.d_trustRadiusMin := he
  rw [hr2]
  exact ⟨_, rfl⟩

/-! ## The loop of `solve` -/

theorem solveLoop_spec {σ : Type} (num : NumLib) (problem : nonlinearSolverProblem σ)
    (fuel : Nat) (remaining : Nat) (s : BFGSNonLinearSolver) (p : σ)
    (out : BFGSNonLinearSolver × σ) (h : solveLoop num problem fuel remaining s p = some out) :
    out.1.d_tolerance = s.d_tolerance ∧
    out.1.d_maxNumberIterations = s.d_maxNumberIterations ∧
    ∃ l : List IterRecord, out.1.trace = l ++ s.trace ∧
      ((out.1.d_iter = s.d_iter + remaining ∧ l.length = remaining ∧
          ∀ r ∈ l, s.d_tolerance ≤ r.gradMax) ∨
        (out.1.d_iter < s.d_iter + remaining ∧ ∃ r ∈ l, r.gradMax < s.d_tolerance)) ∧
      (1 ≤ remaining → ∃ g, l.getLast? = some (IterRecord.mk s.d_isBFGSRestartDueToSmallRadius
          (resetBranch num problem p s).d_trustRadius g)) := by
  induction remaining generalizing s p with
  | zero =>
    simp only [solveLoop, Option.some.injEq] at h
    subst h
    exact ⟨rfl, rfl, [], rfl, Or.inl ⟨rfl, rfl, by simp⟩, by omega⟩
  | succ n ih =>
    unfold solveLoop at h
    split at h
    · simp at h
    · rename_i s1 p1 b hit
      obtain ⟨-, -, f3, f4, f5, -, -, f8, f9⟩ := solveIteration_fields num problem fuel s p _ hit
      dsimp only at f3 f4 f5 f8 f9
      by_cases hb : b = true
      · rw [if_pos hb] at h
        simp only [Option.some.injEq] at h
        subst h
        refine ⟨f3, f4, [_], f8, Or.inr ⟨by dsimp only; omega, _, List.mem_singleton.mpr rfl,
          f9.mp hb⟩, fun _ => ⟨_, rfl⟩⟩
      · rw [if_neg hb] at h
        obtain ⟨g3, g4, l, hl, hcase, -⟩ := ih (incrementIter s1) p1 h
        have e3 : (incrementIter s1).d_tolerance = s.d_tolerance := f3
        have e4 : (incrementIter s1).d_maxNumberIterations = s.d_maxNumberIterations := f4
        have e5 : (incrementIter s1).d_iter = s.d_iter + 1 := by
          show s1.d_iter + 1 = s.d_iter + 1
          rw [f5]
        have e8 : (incrementIter s1).trace = (IterRecord.mk s.d_isBFGSRestartDueToSmallRadius
          (resetBranch num problem p s).d_trustRadius
          (iterationHead num problem s p).1.d_gradMax) :: s.trace := f8
        have hge : s.d_tolerance ≤ (iterationHead num problem s p).1.d_gradMax :=
          not_lt.mp (fun hlt => hb (f9.mpr hlt))
        rw [e3, e5] at hcase
        refine ⟨g3.trans e3, g4.trans e4, l ++ [(IterRecord.mk s.d_isBFGSRestartDueToSmallRadius
          (resetBranch num problem p s).d_trustRadius
          (iterationHead num problem s p).1.d_gradMax)], ?_, ?_,
          fun _ => ⟨(iterationHead num problem s p).1.d_gradMax, by simp⟩⟩
        · rw [hl, e8]; simp
        · rcases hcase with ⟨c1, c2, c3⟩ | ⟨c1, r, hr, c2⟩
          · refine Or.inl ⟨by omega, by simp [c2], ?_⟩
            intro r hr
            rcases List.mem_append.mp hr with hr | hr
            · exact c3 r hr
            · rw [List.mem_singleton.mp hr]; exact hge
          · exact Or.inr ⟨by omega, r, List.mem_append.mpr (Or.inl hr), c2⟩

theorem solveLoop_exit {σ : Type} (num : NumLib) (problem : nonlinearSolverProblem σ)
    (fuel : Nat) (remaining : Nat) (s : BFGSNonLinearSolver) (p : σ)
    (out : BFGSNonLinearSolver × σ) (h : solveLoop num problem fuel remaining s p = some out) :
    out.1.d_iter = s.d_iter + remaining ∨
    (out.1.d_iter < s.d_iter + remaining ∧ s.d_iter ≤ out.1.d_iter ∧
      out.1.d_gradMax < s.d_tolerance ∧
      out.1.d_gradientNew.data = problem.gradient out.2 ∧
      out.1.d_gradMax = computeLInfNorm out.1 (problem.gradient out.2) ∧
      ∃ r l, out.1.trace = r :: (l ++ s.trace) ∧ r.gradMax = out.1.d_gradMax ∧
        l.length = out.1.d_iter - s.d_iter ∧ ∀ r' ∈ l, s.d_tolerance ≤ r'.gradMax) := by
  induction remaining generalizing s p with
  | zero =>
    simp only [solveLoop, Option.some.injEq] at h
    subst h
    exact Or.inl rfl
  | succ n ih =>
    unfold solveLoop at h
    split at h
    · simp at h
    · rename_i s1 p1 b hit
      obtain ⟨-, -, f3, f4, f5, -, -, f8, f9⟩ := solveIteration_fields num problem fuel s p _ hit
      dsimp only at f3 f4 f5 f8 f9
      by_cases hb : b = true
      · rw [if_pos hb] at h
        simp only [Option.some.injEq] at h
        subst h
        subst hb
        right
        have hlt := f9.mp rfl
        rcases solveIteration_cases num problem fuel s p _ hit with ⟨-, hout⟩ | ⟨hc, -⟩
        · have e1 : s1 = (iterationHead num problem s p).1 := congrArg (fun o => o.1) hout
          have e2 : p1 = (iterationHead num problem s p).2 := congrArg (fun o => o.2.1) hout
          obtain ⟨g1, g2⟩ := iterationHead_gradMax num problem s p
          refine ⟨by dsimp only; omega, by dsimp only; omega, ?_, ?_, ?_, _, [], f8, ?_,
            by dsimp only [List.length]; omega, by simp⟩
          · dsimp only
            rw [e1]
            exact hlt
          · dsimp only
            rw [e1, e2]
            exact g1
          · dsimp only
            rw [e1, e2]
            exact g2
          · dsimp only
            rw [e1]
        · obtain ⟨-, -, k3, -⟩ := iterationHead_fields num problem s p
          rw [k3] at hc
          exact absurd hlt hc
      · rw [if_neg hb] at h
        have e3 : (incrementIter s1).d_tolerance = s.d_tolerance := f3
        have e5 : (incrementIter s1).d_iter = s.d_iter + 1 := by
          show s1.d_iter + 1 = s.d_iter + 1
          rw [f5]
        have e8 : (incrementIter s1).trace = (IterRecord.mk s.d_isBFGSRestartDueToSmallRadius
          (resetBranch num problem p s).d_trustRadius
          (iterationHead num problem s p).1.d_gradMax) :: s.trace := f8
        have hge : s.d_tolerance ≤ (iterationHead num problem s p).1.d_gradMax :=
          not_lt.mp (fun hlt => hb (f9.mpr hlt))
        rcases ih (incrementIter s1) p1 h with c1 | ⟨c1, c2, c3, c4, c5, r, l, c6, c7, c8, c9⟩
        · left
          rw [c1, e5]
          omega
        · right
          rw [e5] at c1 c2 c8
          rw [e3] at c3 c9
          rw [e8] at c6
          refine ⟨by omega, by omega, c3, c4, c5, r,
            l ++ [IterRecord.mk s.d_isBFGSRestartDueToSmallRadius
              (resetBranch num problem p s).d_trustRadius
              (iterationHead num problem s p).1.d_gradMax], ?_, c7, ?_, ?_⟩
          · rw [c6]
            simp
          · rw [List.length_append, c8]
            simp only [List.length_singleton]
            omega
          · intro r' hr'
            rcases List.mem_append.mp hr' with hr' | hr'
            · exact c9 r' hr'
            · rw [List.mem_singleton.mp hr']
              exact hge

theorem solveInit_fields {σ : Type} (num : NumLib) (problem : nonlinearSolverProblem σ)
    (restart : Bool) (s : BFGSNonLinearSolver) (p : σ) :
    (solveInit num problem restart s p).d_tolerance = s.d_tolerance ∧
    (solveInit num problem restart s p).d_maxNumberIterations = s.d_maxNumberIterations ∧
    (solveInit num problem restart s p).d_trustRadiusMin = s.d_trustRadiusMin ∧
    (solveInit num problem restart s p).d_trustRadiusMax = s.d_trustRadiusMax ∧
    (solveInit num problem restart s p).trace = [] ∧
    (solveInit num problem restart s p).d_isBFGSRestartDueToSmallRadius
      = s.d_isBFGSRestartDueToSmallRadius ∧
    (restart = false → (solveInit num problem restart s p).d_trustRadius = 1 / 2) ∧
    (restart = true → (solveInit num problem restart s p).d_trustRadius = s.d_trustRadius) := by
  unfold solveInit initializeHessian
  cases restart <;> simp

/-! ## Termination of the halving loop and of `solve` -/

theorem halveTrustRadius_of_bound (norm : ℚ) (n : Nat) (tr : ℚ) (h : tr ≤ norm * 2 ^ n) :
    ∃ t, ∀ fuel, n ≤ fuel → halveTrustRadius norm fuel tr = some t := by
  induction n generalizing tr with
  | zero =>
    refine ⟨tr, fun fuel _ => ?_⟩
    unfold halveTrustRadius
    rw [if_neg]
    simp only [pow_zero, mul_one] at h
    exact not_lt.mpr h
  | succ k ih =>
    by_cases hc : tr > norm
    · have hb : tr * (1 / 2) ≤ norm * 2 ^ k := by
        rw [pow_succ] at h
        linarith
      obtain ⟨t, ht⟩ := ih (tr * (1 / 2)) hb
      refine ⟨t, fun fuel hf => ?_⟩
      obtain ⟨f, rfl⟩ : ∃ f, fuel = f + 1 := ⟨fuel - 1, by omega⟩
      unfold halveTrustRadius
      rw [if_pos hc]
      exact ht f (by omega)
    · refine ⟨tr, fun fuel _ => ?_⟩
      unfold halveTrustRadius
      rw [if_neg hc]

theorem halveTrustRadius_terminates (norm tr : ℚ) (hn : 0 < norm) :
    ∃ F t, ∀ fuel, F ≤ fuel → halveTrustRadius norm fuel tr = some t := by
  obtain ⟨n, hlt⟩ := pow_unbounded_of_one_lt (tr / norm) (one_lt_two : (1 : ℚ) < 2)
  have hb : tr ≤ norm * 2 ^ n := by
    have := (div_lt_iff₀ hn).mp hlt
    linarith
  obtain ⟨t, ht⟩ := halveTrustRadius_of_bound norm n tr hb
  exact ⟨n, t, ht⟩

theorem rejectedStep_terminates (a : BFGSNonLinearSolver) (hn : 0 < a.d_normDelaXnew) :
    ∃ F t, ∀ fuel, F ≤ fuel → rejectedStep fuel a = some t := by
  obtain ⟨F, r, hr⟩ := halveTrustRadius_terminates a.d_normDelaXnew
    (a.d_trustRadius * (1 / 2)) hn
  refine ⟨F, ?_⟩
  by_cases hlt : r < a.d_trustRadiusMin
  · constructor
    intro fuel hf
    unfold rejectedStep
    simp only []
    rw [hr fuel hf]
    simp only []
    rw [if_pos hlt]
  · constructor
    intro fuel hf
    unfold rejectedStep
    simp only []
    rw [hr fuel hf]
    simp only []
    rw [if_neg hlt]

theorem iterationHead_norm {σ : Type} (num : NumLib) (problem : nonlinearSolverProblem σ)
    (s : BFGSNonLinearSolver) (p : σ) :
    (iterationHead num problem s p).1.d_normDelaXnew
      = (computeStep num (resetBranch num problem p s)).d_normDelaXnew := by
  unfold iterationHead updateSolution scaleHessian
  simp only []
  split <;> rfl

theorem solveIteration_terminates {σ : Type} (num : NumLib)
    (problem : nonlinearSolverProblem σ) (s : BFGSNonLinearSolver) (p : σ)
    (hn : 0 < (computeStep num (resetBranch num problem p s)).d_normDelaXnew) :
    ∃ F out, ∀ fuel, F ≤ fuel → solveIteration num problem fuel s p = some out := by
  rw [← iterationHead_norm] at hn
  by_cases hc : (iterationHead num problem s p).1.d_gradMax
      < (iterationHead num problem s p).1.d_tolerance
  · refine ⟨0, ?_⟩
    constructor
    intro fuel _
    unfold solveIteration
    simp only []
    rw [if_pos hc]
  · by_cases ha : (iterationHead num problem s p).1.d_valueNew
        ≤ (iterationHead num problem s p).1.d_value
    · refine ⟨0, ?_⟩
      constructor
      intro fuel _
      unfold solveIteration
      simp only []
      rw [if_neg hc, if_pos (by simpa using ha)]
    · obtain ⟨F, t, ht⟩ := rejectedStep_terminates
        { (iterationHead num problem s p).1 with
          d_stepAccepted := decide ((iterationHead num problem s p).1.d_valueNew
            ≤ (iterationHead num problem s p).1.d_value) } hn
      refine ⟨F, (t, (iterationHead num problem s p).2, false), fun fuel hf => ?_⟩
      unfold solveIteration
      simp only []
      rw [if_neg hc, if_neg (by simpa using ha), ht fuel hf]

theorem solveLoop_terminates {σ : Type} (num : NumLib) (problem : nonlinearSolverProblem σ)
    (flags : Vec) (U : Nat)
    (hpos : ∀ s : BFGSNonLinearSolver, s.d_unknownCountFlag = flags → s.d_numberUnknowns = U →
      0 < (computeStep num s).d_normDelaXnew)
    (remaining : Nat) (s : BFGSNonLinearSolver) (p : σ)
    (hf : s.d_unknownCountFlag = flags) (hU : s.d_numberUnknowns = U) :
    ∃ F out, ∀ fuel, F ≤ fuel → solveLoop num problem fuel remaining s p = some out := by
  induction remaining generalizing s p with
  | zero => exact ⟨0, (s, p), fun fuel _ => rfl⟩
  | succ n ih =>
    obtain ⟨-, -, -, -, -, r6, r7, -, -⟩ := resetBranch_fields num problem p s
    obtain ⟨F1, ⟨s1, p1, b⟩, h1⟩ := solveIteration_terminates num problem s p
      (hpos _ (r7.trans hf) (r6.trans hU))
    obtain ⟨-, -, -, -, -, f6, f7, -, -⟩ :=
      solveIteration_fields num problem F1 s p _ (h1 F1 (le_refl _))
    dsimp only at f6 f7
    by_cases hb : b = true
    · refine ⟨F1, (s1, p1), fun fuel hfu => ?_⟩
      unfold solveLoop
      rw [h1 fuel hfu]
      simp only []
      rw [if_pos hb]
    · obtain ⟨F2, out, h2⟩ := ih (incrementIter s1) p1 (f7.trans hf) (f6.trans hU)
      refine ⟨max F1 F2, out, fun fuel hfu => ?_⟩
      unfold solveLoop
      rw [h1 fuel (le_trans (le_max_left _ _) hfu)]
      simp only []
      rw [if_neg hb]
      exact h2 fuel (le_trans (le_max_right _ _) hfu)

/-! ## The return value of `solve` -/

/-- C5: `solve` returns `SUCCESS` at once, with the problem untouched and no iteration
executed, when the initial gradient has `d_gradMax < d_tolerance`.  Whenever it returns,
the value is never `FAILURE`, and it is `MAX_ITER_REACHED` exactly when the initial
`d_gradMax` is at least the tolerance and all `d_maxNumberIterations` iterations ran, each
with a new gradient of `d_gradMax` at least the tolerance (this includes
`d_maxNumberIterations = 0`); otherwise it is `SUCCESS`.  A return of `SUCCESS` is a
converged one: the final `d_gradMax` is below the tolerance, and either the initial
gradient was already below it and nothing was changed, or the loop left early, in an
iteration `d_iter < d_maxNumberIterations` whose new gradient, the gradient of the problem
at the returned point, has the inf-norm `d_gradMax` below the tolerance, after `d_iter`
iterations whose new gradients all had an inf-norm at least the tolerance.  A return of
`MAX_ITER_REACHED` leaves `d_iter = d_maxNumberIterations`.  It does return: always when
the trust-radius halving loop is not entered with a zero step norm, in particular with
enough fuel whenever `computeStep` yields a positive `d_normDelaXnew`. -/
theorem solve_return_value {σ : Type} (num : NumLib) (problem : nonlinearSolverProblem σ)
    (restart : Bool) (s0 : BFGSNonLinearSolver) (p0 : σ) :
    ((solveInit num problem restart s0 p0).d_gradMax < s0.d_tolerance →
      ∀ fuel, solve num problem fuel restart s0 p0
        = some (ReturnValueType.SUCCESS, solveInit num problem restart s0 p0, p0) ∧
        (solveInit num problem restart s0 p0).trace = []) ∧
    (∀ fuel out, solve num problem fuel restart s0 p0 = some out →
      out.1 ≠ ReturnValueType.FAILURE ∧
      (out.1 = ReturnValueType.MAX_ITER_REACHED ↔
        (s0.d_tolerance ≤ (solveInit num problem restart s0 p0).d_gradMax ∧
          out.2.1.trace.length = s0.d_maxNumberIterations ∧
          ∀ r ∈ out.2.1.trace, s0.d_tolerance ≤ r.gradMax)) ∧
      (out.1 = ReturnValueType.SUCCESS ↔
        ¬ (s0.d_tolerance ≤ (solveInit num problem restart s0 p0).d_gradMax ∧
          out.2.1.trace.length = s0.d_maxNumberIterations ∧
          ∀ r ∈ out.2.1.trace, s0.d_tolerance ≤ r.gradMax)) ∧
      (out.1 = ReturnValueType.SUCCESS →
        out.2.1.d_gradMax < s0.d_tolerance ∧
        (((solveInit num problem restart s0 p0).d_gradMax < s0.d_tolerance ∧
            out.2.1 = solveInit num problem restart s0 p0 ∧ out.2.2 = p0) ∨
          (s0.d_tolerance ≤ (solveInit num problem restart s0 p0).d_gradMax ∧
            out.2.1.d_iter < s0.d_maxNumberIterations ∧
            out.2.1.d_gradientNew.data = problem.gradient out.2.2 ∧
            out.2.1.d_gradMax = computeLInfNorm out.2.1 (problem.gradient out.2.2) ∧
            ∃ r l, out.2.1.trace = r :: l ∧ r.gradMax = out.2.1.d_gradMax ∧
              l.length = out.2.1.d_iter ∧ ∀ r' ∈ l, s0.d_tolerance ≤ r'.gradMax))) ∧
      (out.1 = ReturnValueType.MAX_ITER_REACHED →
        out.2.1.d_iter = s0.d_maxNumberIterations)) ∧
    (s0.d_maxNumberIterations = 0 →
      ∀ fuel, ∃ out, solve num problem fuel restart s0 p0 = some out) ∧
    ((∀ s : BFGSNonLinearSolver,
        s.d_unknownCountFlag = (solveInit num problem restart s0 p0).d_unknownCountFlag →
        s.d_numberUnknowns = (solveInit num problem restart s0 p0).d_numberUnknowns →
        0 < (computeStep num s).d_normDelaXnew) →
      ∃ F out, ∀ fuel, F ≤ fuel → solve num problem fuel restart s0 p0 = some out) := by
  obtain ⟨i1, i2, -, -, i5, -, -, -⟩ := solveInit_fields num problem restart s0 p0
  refine ⟨?_, ?_, ?_, ?_⟩
  · intro hlt fuel
    refine ⟨?_, i5⟩
    unfold solve
    simp only []
    rw [i1, if_pos hlt]
  · intro fuel out h
    unfold solve at h
    simp only [] at h
    rw [i1] at h
    by_cases hlt : (solveInit num problem restart s0 p0).d_gradMax < s0.d_tolerance
    · rw [if_pos hlt] at h
      simp only [Option.some.injEq] at h
      subst h
      have hn : ¬ s0.d_tolerance ≤ (solveInit num problem restart s0 p0).d_gradMax :=
        not_le.mpr hlt
      refine ⟨by simp, ?_, ?_, fun _ => ⟨hlt, Or.inl ⟨hlt, rfl, rfl⟩⟩, ?_⟩
      · constructor
        · intro hc; simp at hc
        · intro hc; exact absurd hc.1 hn
      · constructor
        · intro _ hc; exact hn hc.1
        · intro _; rfl
      · intro hc; simp at hc
    · rw [if_neg hlt] at h
      have hge := not_lt.mp hlt
      split at h
      · simp at h
      · rename_i t q hloop
        obtain ⟨l3, l4, l, hl, hcase, -⟩ := solveLoop_spec num problem fuel _ _ _ _ hloop
        have hexit := solveLoop_exit num problem fuel _ _ _ _ hloop
        dsimp only at l3 l4 hl hcase hexit
        have e0 : (resetIter (solveInit num problem restart s0 p0)).d_iter = 0 := rfl
        have e1 : (resetIter (solveInit num problem restart s0 p0)).trace = [] := i5
        have e3 : (resetIter (solveInit num problem restart s0 p0)).d_tolerance
            = s0.d_tolerance := i1
        have e4 : (resetIter (solveInit num problem restart s0 p0)).d_maxNumberIterations
            = s0.d_maxNumberIterations := i2
        rw [e1, List.append_nil] at hl
        rw [e0, e3, i2] at hcase
        rw [e0, e1, e3, i2] at hexit
        rw [l4, e4] at h
        simp only [Option.some.injEq] at h
        subst h
        dsimp only
        rcases hcase with ⟨c1, c2, c3⟩ | ⟨c1, r, hr, c2⟩
        · have hit : t.d_iter = s0.d_maxNumberIterations := by omega
          rw [if_pos hit, hl]
          refine ⟨by simp, ?_, ?_, ?_, fun _ => hit⟩
          · exact ⟨fun _ => ⟨hge, c2, c3⟩, fun _ => rfl⟩
          · constructor
            · intro hc; simp at hc
            · intro hc; exact absurd ⟨hge, c2, c3⟩ hc
          · intro hc; simp at hc
        · have hit : ¬ t.d_iter = s0.d_maxNumberIterations := by omega
          rw [if_neg hit]
          have hno : ¬ (s0.d_tolerance ≤ (solveInit num problem restart s0 p0).d_gradMax ∧
              t.trace.length = s0.d_maxNumberIterations ∧
              ∀ r ∈ t.trace, s0.d_tolerance ≤ r.gradMax) := by
            intro hc
            rw [hl] at hc
            exact absurd (hc.2.2 r hr) (not_le.mpr c2)
          refine ⟨by simp, ?_, ?_, ?_, ?_⟩
          · constructor
            · intro hc; simp at hc
            · intro hc; exact absurd hc hno
          · exact ⟨fun _ => hno, fun _ => rfl⟩
          · intro _
            rcases hexit with x1 | ⟨x1, -, x3, x4, x5, r1, l1, x6, x7, x8, x9⟩
            · exact absurd (by omega) hit
            · rw [List.append_nil] at x6
              exact ⟨x3, Or.inr ⟨hge, by omega, x4, x5, r1, l1, x6, x7, by omega, x9⟩⟩
          · intro hc; simp at hc
  · intro h0 fuel
    unfold solve
    simp only []
    split
    · exact ⟨_, rfl⟩
    · rw [i2, h0]
      simp only [solveLoop]
      exact ⟨_, rfl⟩
  · intro hpos
    by_cases hlt : (solveInit num problem restart s0 p0).d_gradMax < s0.d_tolerance
    · refine ⟨0, ?_⟩
      constructor
      intro fuel _
      unfold solve
      simp only []
      rw [i1, if_pos hlt]
    · obtain ⟨F, ⟨t, q⟩, hF⟩ := solveLoop_terminates num problem _ _ hpos
        (solveInit num problem restart s0 p0).d_maxNumberIterations
        (resetIter (solveInit num problem restart s0 p0)) p0 rfl rfl
      refine ⟨F, ?_⟩
      constructor
      intro fuel hfu
      unfold solve
      simp only []
      rw [i1, if_neg hlt, hF fuel hfu]

/-! ## A concrete run -/

theorem lineRun_init (ti tm : ℚ) :
    (solveInit unitNumLib lineProblem false (freshSolver ti tm) 0).d_gradMax = 1 ∧
    (solveInit unitNumLib lineProblem false (freshSolver ti tm) 0).d_tolerance = 1 / 100 ∧
    (solveInit unitNumLib lineProblem false (freshSolver ti tm) 0).d_maxNumberIterations = 1 := by
  simp [solveInit, freshSolver, BFGSNonLinearSolver.construct, initializeHessian,
    computeLInfNorm, lineProblem, unitNumLib, Vec.resize, forLoop]

theorem lineRun_head (ti tm : ℚ) :
    (iterationHead unitNumLib lineProblem
        (resetIter (solveInit unitNumLib lineProblem false (freshSolver ti tm) 0)) 0).1.d_gradMax
      = 1 ∧
    (iterationHead unitNumLib lineProblem
        (resetIter (solveInit unitNumLib lineProblem false (freshSolver ti tm) 0)) 0).1.d_valueNew
      = -(1 / 2) ∧
    (iterationHead unitNumLib lineProblem
        (resetIter (solveInit unitNumLib lineProblem false (freshSolver ti tm) 0)) 0).1.d_value
      = 0 := by
  simp [iterationHead, resetIter, resetBranch, computeStep, updateSolution, scaleHessian,
    solveInit, freshSolver, BFGSNonLinearSolver.construct, initializeHessian,
    computeLInfNorm, lineProblem, unitNumLib, Vec.resize, forLoop]
  norm_num

theorem lineRun (ti tm : ℚ) (fuel : Nat) :
    ∃ t q, solve unitNumLib lineProblem fuel false (freshSolver ti tm) 0
        = some (ReturnValueType.MAX_ITER_REACHED, t, q) ∧
      t.trace = [IterRecord.mk false (1 / 2) 1] := by
  obtain ⟨g1, g2, g3⟩ := lineRun_init ti tm
  obtain ⟨k1, k2, k3⟩ := lineRun_head ti tm
  obtain ⟨-, -, k4, -, -, -, -⟩ := iterationHead_fields unitNumLib lineProblem
    (resetIter (solveInit unitNumLib lineProblem false (freshSolver ti tm) 0)) 0
  have k5 : (resetIter (solveInit unitNumLib lineProblem false (freshSolver ti tm) 0)).d_tolerance
      = 1 / 100 := g2
  have hit : ∃ out, solveIteration unitNumLib lineProblem fuel
      (resetIter (solveInit unitNumLib lineProblem false (freshSolver ti tm) 0)) 0 = some out ∧
      out.2.2 = false := by
    unfold solveIteration
    simp only []
    rw [if_neg (by rw [k1, k4, k5]; norm_num), if_pos (by rw [k2, k3]; norm_num)]
    exact ⟨_, rfl, rfl⟩
  obtain ⟨⟨s1, p1, b⟩, hout, hb⟩ := hit
  dsimp only at hb
  subst hb
  obtain ⟨-, -, -, f4, f5, -, -, f8, -⟩ := solveIteration_fields _ _ _ _ _ _ hout
  dsimp only at f4 f5 f8
  refine ⟨incrementIter s1, p1, ?_, ?_⟩
  · unfold solve
    simp only []
    rw [if_neg (by rw [g1, g2]; norm_num), g3]
    unfold solveLoop
    rw [hout]
    simp only [Bool.false_eq_true, if_false, solveLoop]
    have e1 : (incrementIter s1).d_iter = (incrementIter s1).d_maxNumberIterations := by
      show s1.d_iter + 1 = s1.d_maxNumberIterations
      rw [f5, f4]
      show 0 + 1 = (solveInit unitNumLib lineProblem false (freshSolver ti tm) 0).d_maxNumberIterations
      rw [g3]
    rw [if_pos e1]
  · show s1.trace = _
    rw [f8, k1]
    have e2 : (resetIter (solveInit unitNumLib lineProblem false (freshSolver ti tm) 0)).trace
        = [] :=
      (solveInit_fields unitNumLib lineProblem false (freshSolver ti tm) 0).2.2.2.2.1
    have e3 : (resetIter (solveInit unitNumLib lineProblem false
        (freshSolver ti tm) 0)).d_isBFGSRestartDueToSmallRadius = false := by
      have := (solveInit_fields unitNumLib lineProblem false (freshSolver ti tm) 0).2.2.2.2.2.1
      exact this.trans rfl
    rw [e2, e3, resetBranch_radius, e3]
    have e4 : (resetIter (solveInit unitNumLib lineProblem false
        (freshSolver ti tm) 0)).d_trustRadius = 1 / 2 :=
      (solveInit_fields unitNumLib lineProblem false (freshSolver ti tm) 0).2.2.2.2.2.2.1 rfl
    rw [e4]
    simp

/-- Witness for C5: the run on `lineProblem` with one iteration allowed returns
`MAX_ITER_REACHED` after one recorded iteration. -/
theorem solve_return_value_witness :
    ∃ out, solve unitNumLib lineProblem 0 false (freshSolver (1 / 2) (1 / 2)) 0 = some out ∧
      out.1 = ReturnValueType.MAX_ITER_REACHED ∧
      out.2.1.trace.length = (freshSolver (1 / 2) (1 / 2)).d_maxNumberIterations := by
  obtain ⟨t, q, h, -⟩ := lineRun (1 / 2) (1 / 2) 0
  have hc := ((solve_return_value unitNumLib lineProblem false
    (freshSolver (1 / 2) (1 / 2)) 0).2.1 0 _ h).2.1.mp rfl
  exact ⟨_, h, rfl, hc.2.1⟩

/-! ## The first iteration -/

theorem construct_flag (uninit : BFGSNonLinearSolver) (tolerance : ℚ) (maxIter : Nat)
    (tmax tinit tmin : ℚ) :
    (BFGSNonLinearSolver.construct uninit tolerance maxIter tmax tinit
      tmin).d_isBFGSRestartDueToSmallRadius = false ∧
    (BFGSNonLinearSolver.construct uninit tolerance maxIter tmax tinit
      tmin).d_maxNumberIterations = maxIter ∧
    (BFGSNonLinearSolver.construct uninit tolerance maxIter tmax tinit
      tmin).d_tolerance = tolerance ∧
    (BFGSNonLinearSolver.construct uninit tolerance maxIter tmax tinit
      tmin).d_trustRadiusMin = tmin ∧
    (BFGSNonLinearSolver.construct uninit tolerance maxIter tmax tinit
      tmin).d_trustRadiusMax = tmax ∧
    (BFGSNonLinearSolver.construct uninit tolerance maxIter tmax tinit
      tmin).d_trustRadiusInitial = tinit :=
  ⟨rfl, rfl, rfl, rfl, rfl, rfl⟩

/-- C7, as stated, fails: a solver constructed with `trustRadius_initial = 1/4` below
`trustRadius_minimum = 1`, started without restart on the non-converged `lineProblem`,
runs its first (and only) iteration without taking the reset branch. -/
theorem first_iteration_reset_not_taken :
    (freshSolver (1 / 4) 1).d_trustRadiusInitial < (freshSolver (1 / 4) 1).d_trustRadiusMin ∧
    ¬ ((solveInit unitNumLib lineProblem false (freshSolver (1 / 4) 1) 0).d_gradMax
        < (freshSolver (1 / 4) 1).d_tolerance) ∧
    ∃ t q, solve unitNumLib lineProblem 0 false (freshSolver (1 / 4) 1) 0
        = some (ReturnValueType.MAX_ITER_REACHED, t, q) ∧
      t.trace.map IterRecord.reset = [false] := by
  obtain ⟨t, q, h, ht⟩ := lineRun (1 / 4) 1 0
  refine ⟨?_, ?_, t, q, h, by rw [ht]; rfl⟩
  · show (1 / 4 : ℚ) < 1
    norm_num
  · rw [(lineRun_init (1 / 4) 1).1]
    show ¬ ((1 : ℚ) < 1 / 100)
    norm_num

theorem solve_first_record {σ : Type} (num : NumLib) (problem : nonlinearSolverProblem σ)
    (restart : Bool) (s0 : BFGSNonLinearSolver) (p0 : σ)
    (hiter : 1 ≤ s0.d_maxNumberIterations)
    (hnc : ¬ (solveInit num problem restart s0 p0).d_gradMax < s0.d_tolerance)
    (fuel : Nat) (out : ReturnValueType × BFGSNonLinearSolver × σ)
    (h : solve num problem fuel restart s0 p0 = some out) :
    ∃ g, out.2.1.trace.getLast? = some (IterRecord.mk s0.d_isBFGSRestartDueToSmallRadius
      (resetBranch num problem p0 (resetIter (solveInit num problem restart s0 p0))).d_trustRadius
      g) := by
  obtain ⟨i1, i2, -, -, i5, i6, -, -⟩ := solveInit_fields num problem restart s0 p0
  unfold solve at h
  simp only [] at h
  rw [i1, if_neg hnc] at h
  split at h
  · simp at h
  · rename_i t q hloop
    obtain ⟨-, -, l, hl, -, hlast⟩ := solveLoop_spec num problem fuel _ _ _ _ hloop
    have e1 : (resetIter (solveInit num problem restart s0 p0)).trace = [] := i5
    have e6 : (resetIter (solveInit num problem restart s0 p0)).d_isBFGSRestartDueToSmallRadius
        = s0.d_isBFGSRestartDueToSmallRadius := i6
    rw [e1, List.append_nil] at hl
    rw [i2, e6] at hlast
    obtain ⟨g, hg⟩ := hlast hiter
    simp only [Option.some.injEq] at h
    subst h
    exact ⟨g, by dsimp only at hl ⊢; rw [hl]; exact hg⟩

/-- C7, amended: a solver constructed with any radii (also `trustRadius_initial` below
`trustRadius_minimum`) and started without restart enters the loop with the reset flag
clear and the trust radius `0.5`, so the reset branch of the first iteration changes
nothing; on a non-converged problem with at least one iteration allowed, the first
iteration is recorded as run without reset on the radius `0.5` (the Hessian is the one
initialised before the loop). -/
theorem first_iteration_without_reset {σ : Type} (num : NumLib)
    (problem : nonlinearSolverProblem σ) (uninit : BFGSNonLinearSolver) (tolerance : ℚ)
    (maxIter : Nat) (tmax tinit tmin : ℚ) (p0 : σ) (hiter : 1 ≤ maxIter)
    (hnc : ¬ (solveInit num problem false
      (BFGSNonLinearSolver.construct uninit tolerance maxIter tmax tinit tmin) p0).d_gradMax
        < tolerance) :
    resetBranch num problem p0 (resetIter (solveInit num problem false
        (BFGSNonLinearSolver.construct uninit tolerance maxIter tmax tinit tmin) p0))
      = resetIter (solveInit num problem false
        (BFGSNonLinearSolver.construct uninit tolerance maxIter tmax tinit tmin) p0) ∧
    (resetIter (solveInit num problem false
        (BFGSNonLinearSolver.construct uninit tolerance maxIter tmax tinit tmin) p0)).d_trustRadius
      = 1 / 2 ∧
    ∀ fuel out, solve num problem fuel false
        (BFGSNonLinearSolver.construct uninit tolerance maxIter tmax tinit tmin) p0 = some out →
      ∃ g, out.2.1.trace.getLast? = some (IterRecord.mk false (1 / 2) g) := by
  obtain ⟨c1, c2, c3, -, -, -⟩ := construct_flag uninit tolerance maxIter tmax tinit tmin
  obtain ⟨-, -, -, -, -, i6, i7, -⟩ := solveInit_fields num problem false
    (BFGSNonLinearSolver.construct uninit tolerance maxIter tmax tinit tmin) p0
  have e6 : (resetIter (solveInit num problem false
      (BFGSNonLinearSolver.construct uninit tolerance maxIter tmax tinit tmin)
        p0)).d_isBFGSRestartDueToSmallRadius = false := i6.trans c1
  have e7 : (resetIter (solveInit num problem false
      (BFGSNonLinearSolver.construct uninit tolerance maxIter tmax tinit tmin)
        p0)).d_trustRadius = 1 / 2 := i7 rfl
  have hreset : resetBranch num problem p0 (resetIter (solveInit num problem false
        (BFGSNonLinearSolver.construct uninit tolerance maxIter tmax tinit tmin) p0))
      = resetIter (solveInit num problem false
        (BFGSNonLinearSolver.construct uninit tolerance maxIter tmax tinit tmin) p0) := by
    unfold resetBranch
    rw [e6]
    simp
  refine ⟨hreset, e7, fun fuel out h => ?_⟩
  obtain ⟨g, hg⟩ := solve_first_record num problem false _ p0 (by rw [c2]; exact hiter)
    (by rw [c3]; exact hnc) fuel out h
  rw [hreset, e7, c1] at hg
  exact ⟨g, hg⟩

/-- Witness for C7 (amended): the run of `freshSolver (1/4) 1` on `lineProblem`. -/
theorem first_iteration_without_reset_witness :
    ∃ out, solve unitNumLib lineProblem 0 false (freshSolver (1 / 4) 1) 0 = some out ∧
      ∃ g, out.2.1.trace.getLast? = some (IterRecord.mk false (1 / 2) g) := by
  obtain ⟨t, q, h, -⟩ := lineRun (1 / 4) 1 0
  have hw := (first_iteration_without_reset unitNumLib lineProblem solverExample (1 / 100) 1 2
    (1 / 4) 1 0 (le_refl 1)
    (by
      have := (lineRun_init (1 / 4) 1).1
      unfold freshSolver at this
      rw [this]
      norm_num)).2.2 0 _ h
  exact ⟨_, h, hw⟩

theorem lineRun_iteration (ti tm : ℚ) (fuel : Nat) :
    ∃ t q, solveIteration unitNumLib lineProblem fuel
        (resetIter (solveInit unitNumLib lineProblem false (freshSolver ti tm) 0)) 0
        = some (t, q, false) ∧ t.d_trustRadius = 3 / 4 ∧ t.d_trustRadiusMin = tm := by
  obtain ⟨k1, k2, k3⟩ := lineRun_head ti tm
  obtain ⟨k6, -, k4, -, -, -, -⟩ := iterationHead_fields unitNumLib lineProblem
    (resetIter (solveInit unitNumLib lineProblem false (freshSolver ti tm) 0)) 0
  have k5 : (resetIter (solveInit unitNumLib lineProblem false (freshSolver ti tm) 0)).d_tolerance
      = 1 / 100 := (lineRun_init ti tm).2.1
  obtain ⟨X, hX⟩ : ∃ X : BFGSNonLinearSolver, X =
      { (iterationHead unitNumLib lineProblem
          (resetIter (solveInit unitNumLib lineProblem false (freshSolver ti tm) 0)) 0).1 with
        d_stepAccepted := decide ((iterationHead unitNumLib lineProblem
          (resetIter (solveInit unitNumLib lineProblem false (freshSolver ti tm) 0)) 0).1.d_valueNew
            ≤ (iterationHead unitNumLib lineProblem
          (resetIter (solveInit unitNumLib lineProblem false (freshSolver ti tm) 0)) 0).1.d_value) } :=
    ⟨_, rfl⟩
  refine ⟨acceptedStep X, (iterationHead unitNumLib lineProblem
    (resetIter (solveInit unitNumLib lineProblem false (freshSolver ti tm) 0)) 0).2, ?_, ?_, ?_⟩
  · unfold solveIteration
    simp only []
    rw [if_neg (by rw [k1, k4, k5]; norm_num), if_pos (by rw [k2, k3]; norm_num), hX]
  · rw [hX]
    simp [acceptedStep, updateHessian, computepredDec, iterationHead, resetIter, resetBranch,
      computeStep, updateSolution, scaleHessian, solveInit, freshSolver,
      BFGSNonLinearSolver.construct, initializeHessian, computeLInfNorm, lineProblem,
      unitNumLib, Vec.resize, forLoop, ddot]
    norm_num
    split_ifs <;> rfl
  · rw [(acceptedStep_fields X).1, hX]
    exact k6

/-- Witness for C6: the first iteration of `freshSolver (1/2) (3/4)` on `lineProblem` is
accepted and updates the trust radius to `3/4`, exactly the minimum; no reset is
scheduled. -/
theorem reset_scheduled_only_below_minimum_witness :
    ∃ t q, solveIteration unitNumLib lineProblem 0
        (resetIter (solveInit unitNumLib lineProblem false (freshSolver (1 / 2) (3 / 4)) 0)) 0
        = some (t, q, false) ∧ t.d_trustRadius = t.d_trustRadiusMin ∧
      t.d_isBFGSRestartDueToSmallRadius = false ∧
      resetBranch unitNumLib lineProblem q (incrementIter t) = incrementIter t := by
  obtain ⟨t, q, h, h1, h2⟩ := lineRun_iteration (1 / 2) (3 / 4) 0
  have he : t.d_trustRadius = t.d_trustRadiusMin := by rw [h1, h2]
  have hw := (reset_scheduled_only_below_minimum unitNumLib lineProblem 0 _ t 0 q h).2 he
  exact ⟨t, q, h, he, hw.1, hw.2.1⟩

/-! ## The range of the trust radius -/

/-- C8, as stated, fails: with `trustRadius_minimum = trustRadius_initial = 1` and
`trustRadius_maximum = 2`, the first iteration on `lineProblem` runs `computeStep` with the
trust radius `1/2`, below the minimum. -/
theorem trust_radius_below_minimum :
    (freshSolver 1 1).d_trustRadiusMin ≤ (freshSolver 1 1).d_trustRadiusInitial ∧
    (freshSolver 1 1).d_trustRadiusInitial ≤ (freshSolver 1 1).d_trustRadiusMax ∧
    ∃ t q, solve unitNumLib lineProblem 0 false (freshSolver 1 1) 0
        = some (ReturnValueType.MAX_ITER_REACHED, t, q) ∧
      ∃ r ∈ t.trace, r.radius < (freshSolver 1 1).d_trustRadiusMin := by
  obtain ⟨t, q, h, ht⟩ := lineRun 1 1 0
  refine ⟨?_, ?_, t, q, h, IterRecord.mk false (1 / 2) 1, by rw [ht]; simp, ?_⟩
  · show (1 : ℚ) ≤ 1
    norm_num
  · show (1 : ℚ) ≤ 2
    norm_num
  · show (1 / 2 : ℚ) < 1
    norm_num

theorem solveIteration_radius {σ : Type} (num : NumLib) (problem : nonlinearSolverProblem σ)
    (fuel : Nat) (s : BFGSNonLinearSolver) (p : σ) (out : BFGSNonLinearSolver × σ × Bool)
    (hmin : s.d_trustRadiusMin ≤ 1 / 2) (hmax : 1 / 2 ≤ s.d_trustRadiusMax)
    (hinv : s.d_isBFGSRestartDueToSmallRadius = true ∨
      (s.d_trustRadiusMin ≤ s.d_trustRadius ∧ s.d_trustRadius ≤ s.d_trustRadiusMax ∧
        0 ≤ s.d_trustRadius))
    (h : solveIteration num problem fuel s p = some out) :
    (s.d_trustRadiusMin ≤ (resetBranch num problem p s).d_trustRadius ∧
      (resetBranch num problem p s).d_trustRadius ≤ s.d_trustRadiusMax) ∧
    (out.2.2 = false →
      out.1.d_isBFGSRestartDueToSmallRadius = true ∨
      (s.d_trustRadiusMin ≤ out.1.d_trustRadius ∧ out.1.d_trustRadius ≤ s.d_trustRadiusMax ∧
        0 ≤ out.1.d_trustRadius)) := by
  have hr : s.d_trustRadiusMin ≤ (resetBranch num problem p s).d_trustRadius ∧
      (resetBranch num problem p s).d_trustRadius ≤ s.d_trustRadiusMax ∧
      0 ≤ (resetBranch num problem p s).d_trustRadius := by
    rw [resetBranch_radius]
    by_cases hf : s.d_isBFGSRestartDueToSmallRadius = true
    · rw [if_pos hf]
      exact ⟨hmin, hmax, by norm_num⟩
    · rw [if_neg hf]
      rcases hinv with hi | hi
      · exact absurd hi hf
      · exact hi
  refine ⟨⟨hr.1, hr.2.1⟩, fun hb => ?_⟩
  rcases solveIteration_cases num problem fuel s p out h with ⟨-, rfl⟩ | ⟨-, a, a1, a2, -, -, -,
    -, -, -, a9, a10, a11, hout⟩
  · simp at hb
  · rw [← a10, ← a1, ← a2] at hr
    have hmm : a.d_trustRadiusMin ≤ a.d_trustRadiusMax := by
      rw [a1, a2]; linarith
    have hm0 : 0 ≤ a.d_trustRadiusMax := by
      rw [a2]; linarith
    rcases hout with rfl | ⟨t, ht, rfl⟩
    · obtain ⟨b1, b2, b3⟩ := acceptedStep_bounds a hmm hm0 hr.1 hr.2.2 a11
      rw [a1, a2] at *
      rcases b3 with b3 | b3
      · exact Or.inl b3
      · exact Or.inr ⟨b3, b1, b2⟩
    · obtain ⟨b1, b2, b3⟩ := rejectedStep_bounds fuel a t ht hr.2.1 hr.2.2
      rw [a1, a2] at *
      rcases b3 with b3 | b3
      · exact Or.inl b3
      · exact Or.inr ⟨b3, b1, b2⟩

theorem solveLoop_radius {σ : Type} (num : NumLib) (problem : nonlinearSolverProblem σ)
    (fuel : Nat) (lo hi : ℚ) (hlo : lo ≤ 1 / 2) (hhi : 1 / 2 ≤ hi) (remaining : Nat)
    (s : BFGSNonLinearSolver) (p : σ) (out : BFGSNonLinearSolver × σ)
    (e1 : s.d_trustRadiusMin = lo) (e2 : s.d_trustRadiusMax = hi)
    (hinv : s.d_isBFGSRestartDueToSmallRadius = true ∨
      (lo ≤ s.d_trustRadius ∧ s.d_trustRadius ≤ hi ∧ 0 ≤ s.d_trustRadius))
    (htr : ∀ r ∈ s.trace, lo ≤ r.radius ∧ r.radius ≤ hi)
    (h : solveLoop num problem fuel remaining s p = some out) :
    ∀ r ∈ out.1.trace, lo ≤ r.radius ∧ r.radius ≤ hi := by
  induction remaining generalizing s p with
  | zero =>
    simp only [solveLoop, Option.some.injEq] at h
    subst h
    exact htr
  | succ n ih =>
    unfold solveLoop at h
    split at h
    · simp at h
    · rename_i s1 p1 b hit
      obtain ⟨f1, f2, -, -, -, -, -, f8, -⟩ := solveIteration_fields num problem fuel s p _ hit
      dsimp only at f1 f2 f8
      obtain ⟨hrec, hnext⟩ := solveIteration_radius num problem fuel s p _
        (by rw [e1]; exact hlo) (by rw [e2]; exact hhi) (by rw [e1, e2]; exact hinv) hit
      rw [e1, e2] at hrec hnext
      have htr1 : ∀ r ∈ s1.trace, lo ≤ r.radius ∧ r.radius ≤ hi := by
        intro r hr
        rw [f8] at hr
        rcases List.mem_cons.mp hr with hr | hr
        · rw [hr]; exact hrec
        · exact htr r hr
      by_cases hb : b = true
      · rw [if_pos hb] at h
        simp only [Option.some.injEq] at h
        subst h
        exact htr1
      · rw [if_neg hb] at h
        have hb2 : b = false := by
          cases b
          · rfl
          · exact absurd rfl hb
        exact ih (incrementIter s1) p1 (f1.trans e1) (f2.trans e2) (hnext hb2) htr1 h

/-- C8, amended: `solve` starts from the literal trust radius `0.5` and resets to it, not
to `trustRadius_initial`.  For every choice of the radii with
`trustRadius_minimum ≤ 0.5 ≤ trustRadius_maximum`, started without restart (or with
restart on a solver whose reset flag is set or whose radius is non-negative and within the
bounds), every iteration of every run runs `computeStep` on a trust radius in
`[trustRadius_minimum, trustRadius_maximum]`, for every sequence of accepted and rejected
steps. -/
theorem trust_radius_within_bounds {σ : Type} (num : NumLib)
    (problem : nonlinearSolverProblem σ) (restart : Bool) (s0 : BFGSNonLinearSolver) (p0 : σ)
    (hmin : s0.d_trustRadiusMin ≤ 1 / 2) (hmax : 1 / 2 ≤ s0.d_trustRadiusMax)
    (hstart : restart = false ∨ s0.d_isBFGSRestartDueToSmallRadius = true ∨
      (s0.d_trustRadiusMin ≤ s0.d_trustRadius ∧ s0.d_trustRadius ≤ s0.d_trustRadiusMax ∧
        0 ≤ s0.d_trustRadius))
    (fuel : Nat) (out : ReturnValueType × BFGSNonLinearSolver × σ)
    (h : solve num problem fuel restart s0 p0 = some out) :
    ∀ r ∈ out.2.1.trace, s0.d_trustRadiusMin ≤ r.radius ∧ r.radius ≤ s0.d_trustRadiusMax := by
  obtain ⟨-, -, i3, i4, i5, i6, i7, i8⟩ := solveInit_fields num problem restart s0 p0
  unfold solve at h
  simp only [] at h
  split at h
  · simp only [Option.some.injEq] at h
    subst h
    dsimp only
    rw [i5]
    intro r hr
    simp at hr
  · split at h
    · simp at h
    · rename_i t q hloop
      simp only [Option.some.injEq] at h
      subst h
      dsimp only
      refine solveLoop_radius num problem fuel _ _ hmin hmax _
        (resetIter (solveInit num problem restart s0 p0)) _ _ i3 i4 ?_ ?_ hloop
      · show (solveInit num problem restart s0 p0).d_isBFGSRestartDueToSmallRadius = true ∨
          (s0.d_trustRadiusMin ≤ (solveInit num problem restart s0 p0).d_trustRadius ∧
            (solveInit num problem restart s0 p0).d_trustRadius ≤ s0.d_trustRadiusMax ∧
            0 ≤ (solveInit num problem restart s0 p0).d_trustRadius)
        rcases hstart with hs | hs | hs
        · rw [i7 hs]
          exact Or.inr ⟨hmin, hmax, by norm_num⟩
        · exact Or.inl (i6.trans hs)
        · cases restart
          · rw [i7 rfl]
            exact Or.inr ⟨hmin, hmax, by norm_num⟩
          · rw [i8 rfl]
            exact Or.inr hs
      · intro r hr
        have e : (resetIter (solveInit num problem restart s0 p0)).trace = [] := i5
        rw [e] at hr
        simp at hr

/-- Witness for C8 (amended): the run of `freshSolver (1/2) (1/2)` on `lineProblem`. -/
theorem trust_radius_within_bounds_witness :
    ∃ out, solve unitNumLib lineProblem 0 false (freshSolver (1 / 2) (1 / 2)) 0 = some out ∧
      out.2.1.trace ≠ [] ∧
      ∀ r ∈ out.2.1.trace, (1 / 2 : ℚ) ≤ r.radius ∧ r.radius ≤ 2 := by
  obtain ⟨t, q, h, ht⟩ := lineRun (1 / 2) (1 / 2) 0
  have hw := trust_radius_within_bounds unitNumLib lineProblem false
    (freshSolver (1 / 2) (1 / 2)) 0
    (by show (1 / 2 : ℚ) ≤ 1 / 2; norm_num) (by show (1 / 2 : ℚ) ≤ 2; norm_num)
    (Or.inl rfl) 0 _ h
  exact ⟨_, h, by dsimp only; rw [ht]; simp, hw⟩

/-! ## Loops of point-wise writes -/

theorem forLoop_at (body : Nat → Buf → Buf) (n x : Nat) (P : Nat → Prop) (g : Nat → ℚ → ℚ)
    (hmiss : ∀ t s, t < n → ¬ P t → body t s x = s x)
    (hhit : ∀ t s, t < n → P t → body t s x = g t (s x)) :
    (∀ s0, (∀ t, t < n → ¬ P t) → forLoop body n s0 x = s0 x) ∧
    (∀ s0 t0, t0 < n → P t0 → (∀ t, t < n → t ≠ t0 → ¬ P t) →
      forLoop body n s0 x = g t0 (s0 x)) := by
  induction n with
  | zero =>
    exact ⟨fun s0 _ => rfl, fun s0 t0 h => absurd h (Nat.not_lt_zero _)⟩
  | succ k ih =>
    obtain ⟨ih1, ih2⟩ := ih (fun t s ht => hmiss t s (Nat.lt_succ_of_lt ht))
      (fun t s ht => hhit t s (Nat.lt_succ_of_lt ht))
    refine ⟨fun s0 h => ?_, fun s0 t0 ht0 hP huniq => ?_⟩
    · rw [forLoop_succ, hmiss k _ (Nat.lt_succ_self k) (h k (Nat.lt_succ_self k))]
      exact ih1 s0 (fun t ht => h t (Nat.lt_succ_of_lt ht))
    · rw [forLoop_succ]
      by_cases hk : t0 = k
      · subst hk
        rw [hhit t0 _ (Nat.lt_succ_self t0) hP]
        rw [ih1 s0 (fun t ht => huniq t (Nat.lt_succ_of_lt ht) (Nat.ne_of_lt ht))]
      · rw [hmiss k _ (Nat.lt_succ_self k) (huniq k (Nat.lt_succ_self k) (Ne.symm hk))]
        exact ih2 s0 t0 (by omega) hP
          (fun t ht hne => huniq t (Nat.lt_succ_of_lt ht) hne)

theorem forRange_at (body : Nat → Buf → Buf) (lo hi x : Nat) (P : Nat → Prop)
    (g : Nat → ℚ → ℚ)
    (hmiss : ∀ t s, lo ≤ t → t < hi → ¬ P t → body t s x = s x)
    (hhit : ∀ t s, lo ≤ t → t < hi → P t → body t s x = g t (s x)) :
    (∀ s0, (∀ t, lo ≤ t → t < hi → ¬ P t) → forRange lo hi body s0 x = s0 x) ∧
    (∀ s0 t0, lo ≤ t0 → t0 < hi → P t0 → (∀ t, lo ≤ t → t < hi → t ≠ t0 → ¬ P t) →
      forRange lo hi body s0 x = g t0 (s0 x)) := by
  obtain ⟨h1, h2⟩ := forLoop_at (fun t => body (lo + t)) (hi - lo) x (fun t => P (lo + t))
    (fun t => g (lo + t))
    (fun t s ht hP => hmiss (lo + t) s (by omega) (by omega) hP)
    (fun t s ht hP => hhit (lo + t) s (by omega) (by omega) hP)
  refine ⟨fun s0 h => ?_, fun s0 t0 hl hh hP huniq => ?_⟩
  · exact h1 s0 (fun t ht => h (lo + t) (by omega) (by omega))
  · have e : lo + (t0 - lo) = t0 := by omega
    have := h2 s0 (t0 - lo) (by omega) (by rw [e]; exact hP)
      (fun t ht hne => huniq (lo + t) (by omega) (by omega) (by omega))
    rw [e] at this
    exact this

theorem index_inj (m i j i2 j2 : Nat) (hi : i < m) (hi2 : i2 < m)
    (h : i + j * m = i2 + j2 * m) : i = i2 ∧ j = j2 := by
  have hm : 0 < m := by omega
  have h1 : (i + j * m) % m = i := by
    rw [Nat.add_mul_mod_self_right, Nat.mod_eq_of_lt hi]
  have h2 : (i2 + j2 * m) % m = i2 := by
    rw [Nat.add_mul_mod_self_right, Nat.mod_eq_of_lt hi2]
  have h3 : (i + j * m) / m = j := by
    rw [Nat.add_mul_div_right _ _ hm, Nat.div_eq_of_lt hi, Nat.zero_add]
  have h4 : (i2 + j2 * m) / m = j2 := by
    rw [Nat.add_mul_div_right _ _ hm, Nat.div_eq_of_lt hi2, Nat.zero_add]
  rw [h] at h1 h3
  exact ⟨h1.symm.trans h2, h3.symm.trans h4⟩

/-! ## The global-to-local index maps -/

theorem fillIdMap_some (glob : Nat → Nat) (m x i : Nat) (h : fillIdMap glob m x = some i) :
    i < m ∧ glob i = x := by
  unfold fillIdMap at h
  induction m with
  | zero => simp [forLoop] at h
  | succ k ih =>
    rw [forLoop_succ] at h
    by_cases hx : x = glob k
    · subst hx
      rw [Function.update_same] at h
      simp only [Option.some.injEq] at h
      subst h
      exact ⟨Nat.lt_succ_self _, rfl⟩
    · rw [Function.update_noteq hx] at h
      obtain ⟨h1, h2⟩ := ih h
      exact ⟨Nat.lt_succ_of_lt h1, h2⟩

theorem fillIdMap_of_inj (glob : Nat → Nat) (m i : Nat) (hi : i < m)
    (hinj : ∀ a b, a < m → b < m → glob a = glob b → a = b) :
    fillIdMap glob m (glob i) = some i := by
  unfold fillIdMap
  induction m with
  | zero => omega
  | succ k ih =>
    rw [forLoop_succ]
    by_cases hk : i = k
    · subst hk
      rw [Function.update_same]
    · have hne : glob i ≠ glob k := by
        intro he
        exact hk (hinj i k hi (Nat.lt_succ_self k) he)
      rw [Function.update_noteq hne]
      exact ih (by omega) (fun a b ha hb => hinj a b (by omega) (by omega))

theorem createMaps_ok (active : Bool) (mat : ScaLAPACKMatrix) :
    MapsOk (createGlobalToLocalIdMapsScaLAPACKMat active mat).1
      (createGlobalToLocalIdMapsScaLAPACKMat active mat).2 mat := by
  unfold createGlobalToLocalIdMapsScaLAPACKMat
  cases active
  · exact ⟨fun r lr h => by simp at h, fun c lc h => by simp at h,
      fun r r2 lr h => by simp at h, fun c c2 lc h => by simp at h⟩
  · simp only [if_true]
    refine ⟨fun r lr h => (fillIdMap_some _ _ _ _ h).1,
      fun c lc h => (fillIdMap_some _ _ _ _ h).1, fun r r2 lr h h2 => ?_,
      fun c c2 lc h h2 => ?_⟩
    · exact (fillIdMap_some _ _ _ _ h).2.symm.trans (fillIdMap_some _ _ _ _ h2).2
    · exact (fillIdMap_some _ _ _ _ h).2.symm.trans (fillIdMap_some _ _ _ _ h2).2

theorem createMaps_inactive (mat : ScaLAPACKMatrix) (x : Nat) :
    (createGlobalToLocalIdMapsScaLAPACKMat false mat).1 x = none ∧
    (createGlobalToLocalIdMapsScaLAPACKMat false mat).2 x = none := by
  unfold createGlobalToLocalIdMapsScaLAPACKMat
  simp

/-! ## The scatter of the overlap block -/

theorem elIndex_inj (mat : ScaLAPACKMatrix) (lr lc lr2 lc2 : Nat) (h1 : lr < mat.local_m)
    (h2 : lr2 < mat.local_m) (h : mat.elIndex lr lc = mat.elIndex lr2 lc2) :
    lr = lr2 ∧ lc = lc2 :=
  index_inj mat.local_m lr lc lr2 lc2 h1 h2 h

theorem overlapScatter_inner (N ivec D i lc2 : Nat) (rowMap colMap : IdMap)
    (mat : ScaLAPACKMatrix) (hm : MapsOk rowMap colMap mat) (block v : Buf) (r lr lc : Nat)
    (hr : rowMap r = some lr) :
    forRange (ivec + i) N (fun j v =>
        match rowMap j with
        | none => v
        | some localRowId =>
          Function.update v (mat.elIndex localRowId lc2) (block (i * D + j - ivec))) v
        (mat.elIndex lr lc)
      = if lc2 = lc ∧ ivec + i ≤ r ∧ r < N then block (i * D + r - ivec)
        else v (mat.elIndex lr lc) := by
  have hlr := hm.row_lt r lr hr
  obtain ⟨h1, h2⟩ := forRange_at (fun j v =>
        match rowMap j with
        | none => v
        | some localRowId =>
          Function.update v (mat.elIndex localRowId lc2) (block (i * D + j - ivec)))
      (ivec + i) N (mat.elIndex lr lc) (fun j => j = r ∧ lc2 = lc)
      (fun j _ => block (i * D + j - ivec))
      (by
        intro t s _ _ hP
        dsimp only
        cases hrt : rowMap t with
        | none => rfl
        | some lr2 =>
          dsimp only
          rw [Function.update_noteq]
          intro he
          obtain ⟨e1, e2⟩ := elIndex_inj mat lr lc lr2 lc2 hlr (hm.row_lt t lr2 hrt) he
          subst e1
          exact hP ⟨hm.row_inj t r lr hrt hr, e2.symm⟩)
      (by
        intro t s _ _ hP
        obtain ⟨rfl, rfl⟩ := hP
        dsimp only
        rw [hr]
        dsimp only
        rw [Function.update_same])
  by_cases hc : lc2 = lc ∧ ivec + i ≤ r ∧ r < N
  · rw [if_pos hc]
    exact h2 v r hc.2.1 hc.2.2 ⟨rfl, hc.1⟩ (fun t _ _ hne hP => hne hP.1)
  · rw [if_neg hc]
    refine h1 v (fun t hl hh hP => hc ⟨hP.2, ?_, ?_⟩)
    · rw [← hP.1]; exact hl
    · rw [← hP.1]; exact hh

theorem overlapScatter_apply (N ivec B D : Nat) (rowMap colMap : IdMap)
    (mat : ScaLAPACKMatrix) (hm : MapsOk rowMap colMap mat) (block values : Buf)
    (r c lr lc : Nat) (hr : rowMap r = some lr) (hc : colMap c = some lc) :
    overlapScatter N ivec B D rowMap colMap mat block values (mat.elIndex lr lc)
      = if ivec ≤ c ∧ c < ivec + B ∧ c ≤ r ∧ r < N then block ((c - ivec) * D + r - ivec)
        else values (mat.elIndex lr lc) := by
  unfold overlapScatter
  obtain ⟨h1, h2⟩ := forLoop_at (fun i v =>
      match colMap (i + ivec) with
      | none => v
      | some localColumnId =>
        forRange (ivec + i) N (fun j v =>
          match rowMap j with
          | none => v
          | some localRowId =>
            Function.update v (mat.elIndex localRowId localColumnId)
              (block (i * D + j - ivec))) v)
    B (mat.elIndex lr lc) (fun i => i + ivec = c ∧ c ≤ r ∧ r < N)
    (fun i _ => block (i * D + r - ivec))
    (by
      intro t s _ hP
      dsimp only
      cases hct : colMap (t + ivec) with
      | none => rfl
      | some lc2 =>
        dsimp only
        rw [overlapScatter_inner N ivec D t lc2 rowMap colMap mat hm block s r lr lc hr,
          if_neg]
        rintro ⟨e1, e2, e3⟩
        subst e1
        have hct2 : t + ivec = c := hm.col_inj _ _ _ hct hc
        exact hP ⟨hct2, by omega, e3⟩)
    (by
      intro t s _ hP
      obtain ⟨e1, e2, e3⟩ := hP
      dsimp only
      rw [e1, hc]
      dsimp only
      rw [overlapScatter_inner N ivec D t lc rowMap colMap mat hm block s r lr lc hr,
        if_pos ⟨rfl, by omega, e3⟩])
  by_cases hcond : ivec ≤ c ∧ c < ivec + B ∧ c ≤ r ∧ r < N
  · rw [if_pos hcond]
    have e : c - ivec + ivec = c := by omega
    exact h2 values (c - ivec) (by omega) ⟨e, hcond.2.2.1, hcond.2.2.2⟩
      (fun t _ hne hP => hne (by omega))
  · rw [if_neg hcond]
    exact h1 values (fun t ht hP => hcond ⟨by omega, by omega, hP.2.1, hP.2.2⟩)

/-! ## `dgemm_` -/

theorem dgemm_apply (transA transB : Char) (m n k : Nat) (alpha : ℚ) (a : Buf)
    (aOff lda : Nat) (b : Buf) (bOff ldb : Nat) (beta : ℚ) (c : Buf) (cOff ldc : Nat)
    (hld : m ≤ ldc) (x : Nat) :
    dgemm transA transB m n k alpha a aOff lda b bOff ldb beta c cOff ldc x
      = if cOff ≤ x ∧ (x - cOff) % ldc < m ∧ (x - cOff) / ldc < n then
          alpha * (∑ l ∈ Finset.range k,
            (if transA = 'N' then a (aOff + (x - cOff) % ldc + l * lda)
              else a (aOff + l + (x - cOff) % ldc * lda)) *
            (if transB = 'N' then b (bOff + l + (x - cOff) / ldc * ldb)
              else b (bOff + (x - cOff) / ldc + l * ldb)))
          + beta * c x
        else c x := by
  unfold dgemm
  -- the inner loop writes the column `j`
  have inner : ∀ j (s : Buf),
      forLoop (fun i ci =>
        Function.update ci (cOff + i + j * ldc)
          (alpha * (∑ l ∈ Finset.range k,
              (if transA = 'N' then a (aOff + i + l * lda) else a (aOff + l + i * lda)) *
              (if transB = 'N' then b (bOff + l + j * ldb) else b (bOff + j + l * ldb)))
            + beta * ci (cOff + i + j * ldc))) m s x
      = if cOff ≤ x ∧ (x - cOff) % ldc < m ∧ (x - cOff) / ldc = j then
          alpha * (∑ l ∈ Finset.range k,
            (if transA = 'N' then a (aOff + (x - cOff) % ldc + l * lda)
              else a (aOff + l + (x - cOff) % ldc * lda)) *
            (if transB = 'N' then b (bOff + l + j * ldb) else b (bOff + j + l * ldb)))
          + beta * s x
        else s x := by
    intro j s
    have key : ∀ i, i < m → (x = cOff + i + j * ldc ↔
        (cOff ≤ x ∧ (x - cOff) % ldc = i ∧ (x - cOff) / ldc = j)) := by
      intro i hi
      have hpos : 0 < ldc := by omega
      constructor
      · intro hx
        have e : x - cOff = i + j * ldc := by omega
        refine ⟨by omega, ?_, ?_⟩
        · rw [e, Nat.add_mul_mod_self_right, Nat.mod_eq_of_lt (by omega)]
        · rw [e, Nat.add_mul_div_right _ _ hpos, Nat.div_eq_of_lt (by omega), Nat.zero_add]
      · rintro ⟨h1, h2, h3⟩
        have := Nat.mod_add_div (x - cOff) ldc
        rw [h2, h3, Nat.mul_comm] at this
        omega
    obtain ⟨h1, h2⟩ := forLoop_at (fun i ci =>
        Function.update ci (cOff + i + j * ldc)
          (alpha * (∑ l ∈ Finset.range k,
              (if transA = 'N' then a (aOff + i + l * lda) else a (aOff + l + i * lda)) *
              (if transB = 'N' then b (bOff + l + j * ldb) else b (bOff + j + l * ldb)))
            + beta * ci (cOff + i + j * ldc))) m x
      (fun i => x = cOff + i + j * ldc)
      (fun i old => alpha * (∑ l ∈ Finset.range k,
              (if transA = 'N' then a (aOff + i + l * lda) else a (aOff + l + i * lda)) *
              (if transB = 'N' then b (bOff + l + j * ldb) else b (bOff + j + l * ldb)))
            + beta * old)
      (fun t s _ hP => by dsimp only; rw [Function.update_noteq hP])
      (fun t s _ hP => by dsimp only; rw [← hP, Function.update_same])
    by_cases hc : cOff ≤ x ∧ (x - cOff) % ldc < m ∧ (x - cOff) / ldc = j
    · rw [if_pos hc]
      have hx := (key _ hc.2.1).mpr ⟨hc.1, rfl, hc.2.2⟩
      exact h2 s _ hc.2.1 hx (fun t ht hne hP => hne (by omega))
    · rw [if_neg hc]
      refine h1 s (fun t ht hP => hc ?_)
      obtain ⟨e1, e2, e3⟩ := (key t ht).mp hP
      exact ⟨e1, by omega, e3⟩
  obtain ⟨h1, h2⟩ := forLoop_at (fun j cj =>
      forLoop (fun i ci =>
        Function.update ci (cOff + i + j * ldc)
          (alpha * (∑ l ∈ Finset.range k,
              (if transA = 'N' then a (aOff + i + l * lda) else a (aOff + l + i * lda)) *
              (if transB = 'N' then b (bOff + l + j * ldb) else b (bOff + j + l * ldb)))
            + beta * ci (cOff + i + j * ldc))) m cj) n x
    (fun j => cOff ≤ x ∧ (x - cOff) % ldc < m ∧ (x - cOff) / ldc = j)
    (fun j old => alpha * (∑ l ∈ Finset.range k,
            (if transA = 'N' then a (aOff + (x - cOff) % ldc + l * lda)
              else a (aOff + l + (x - cOff) % ldc * lda)) *
            (if transB = 'N' then b (bOff + l + j * ldb) else b (bOff + j + l * ldb)))
          + beta * old)
    (fun t s _ hP => by dsimp only; rw [inner, if_neg hP])
    (fun t s _ hP => by dsimp only; rw [inner, if_pos hP])
  by_cases hc : cOff ≤ x ∧ (x - cOff) % ldc < m ∧ (x - cOff) / ldc < n
  · rw [if_pos hc]
    exact h2 c _ hc.2.2 ⟨hc.1, hc.2.1, rfl⟩ (fun t _ hne hP => hne hP.2.2.symm)
  · rw [if_neg hc]
    exact h1 c (fun t ht hP => hc ⟨hP.1, hP.2.1, by rw [hP.2.2]; exact ht⟩)

/-! ## Strided loops -/

theorem stridedLoop_invariant {σ : Type} (n stride : Nat) (body : Nat → σ → σ)
    (I : Nat → σ → Prop) (hs : 0 < stride)
    (hstep : ∀ i t, i < n → I i t → I (i + stride) (body i t))
    (fuel start : Nat) (s : σ) (hfuel : n ≤ start + fuel) (h0 : I start s) :
    ∃ t i, stridedLoop n stride body fuel start s = some t ∧ n ≤ i ∧ I i t := by
  induction fuel generalizing start s with
  | zero =>
    refine ⟨s, start, ?_, by omega, h0⟩
    unfold stridedLoop
    rw [if_neg (by omega)]
  | succ f ih =>
    by_cases hlt : start < n
    · obtain ⟨t, i, h1, h2, h3⟩ := ih (start + stride) (body start s) (by omega)
        (hstep start s hlt h0)
      refine ⟨t, i, ?_, h2, h3⟩
      unfold stridedLoop
      rw [if_pos hlt]
      exact h1
    · refine ⟨s, start, ?_, by omega, h0⟩
      unfold stridedLoop
      rw [if_neg hlt]

/-! ## One block of the overlap matrix -/

theorem rankMaps_ok (d : RankData) : MapsOk d.rowMap d.colMap d.mat :=
  createMaps_ok d.processActive d.mat

theorem rankMaps_inactive (d : RankData) (h : d.processActive = false) (x : Nat) :
    d.rowMap x = none ∧ d.colMap x = none := by
  unfold RankData.rowMap RankData.colMap
  rw [h]
  exact createMaps_inactive d.mat x

theorem block_index (D a b : Nat) (hb : b < D) :
    (a * D + b) % D = b ∧ (a * D + b) / D = a := by
  have hpos : 0 < D := by omega
  constructor
  · rw [Nat.add_comm, Nat.add_mul_mod_self_right, Nat.mod_eq_of_lt hb]
  · rw [Nat.add_comm, Nat.add_mul_div_right _ _ hpos, Nat.div_eq_of_lt hb, Nat.zero_add]

theorem overlap_local_block (N ivec B K : Nat) (X : Buf) (r c : Nat) (h1 : ivec ≤ c)
    (h2 : c < ivec + B) (h3 : c ≤ r) (h4 : r < N) :
    dgemm 'N' 'T' (N - ivec) B K 1 X ivec N X ivec N 0 (fun _ => 0) 0 (N - ivec)
        ((c - ivec) * (N - ivec) + r - ivec)
      = ∑ k ∈ Finset.range K, X (k * N + r) * X (k * N + c) := by
  have e : (c - ivec) * (N - ivec) + r - ivec = (c - ivec) * (N - ivec) + (r - ivec) := by
    omega
  obtain ⟨e1, e2⟩ := block_index (N - ivec) (c - ivec) (r - ivec) (by omega)
  rw [dgemm_apply _ _ _ _ _ _ _ _ _ _ _ _ _ _ _ _ (le_refl _), e, Nat.sub_zero, e1, e2,
    if_pos ⟨Nat.zero_le _, by omega, by omega⟩]
  simp only [if_true, one_mul, zero_mul, add_zero]
  have hTN : ¬ ('T' : Char) = 'N' := by decide
  simp only [hTN, if_false]
  refine Finset.sum_congr rfl (fun k _ => ?_)
  have a1 : ivec + (r - ivec) + k * N = k * N + r := by omega
  have a2 : ivec + (c - ivec) + k * N = k * N + c := by omega
  rw [a1, a2]

theorem overlapBlockStep_values (env : ParallelEnv) (N vbs : Nat) (ranks : Nat → RankData)
    (g ivec : Nat) (st : OverlapState) (p r c lr lc : Nat)
    (hr : (ranks p).rowMap r = some lr) (hc : (ranks p).colMap c = some lc) :
    (overlapBlockStep env N vbs ranks g ivec st).values p ((ranks p).mat.elIndex lr lc)
      = if bandOwns env g (ivec + min vbs (N - ivec)) ∧ ivec ≤ c ∧
            c < ivec + min vbs (N - ivec) ∧ c ≤ r ∧ r < N
        then overlapEntry env.numberDomainRanks N ranks r c
        else st.values p ((ranks p).mat.elIndex lr lc) := by
  unfold overlapBlockStep
  simp only []
  by_cases hown : bandOwns env g (ivec + min vbs (N - ivec))
  · rw [if_pos hown]
    simp only [hown, true_and]
    have hact : (ranks p).processActive = true := by
      by_contra hna
      have := (rankMaps_inactive (ranks p) (by simpa using hna) r).1
      rw [this] at hr
      exact absurd hr (by simp)
    rw [if_pos hact, overlapScatter_apply _ _ _ _ _ _ _ (rankMaps_ok (ranks p)) _ _ r c lr lc
      hr hc]
    by_cases hcond : ivec ≤ c ∧ c < ivec + min vbs (N - ivec) ∧ c ≤ r ∧ r < N
    · rw [if_pos hcond, if_pos hcond]
      obtain ⟨c1, c2, c3, c4⟩ := hcond
      unfold mpiAllreduceSum
      have hidx : (c - ivec) * (N - ivec) + r - ivec < (N - ivec) * min vbs (N - ivec) := by
        have e : (c - ivec) * (N - ivec) + r - ivec
            = (c - ivec) * (N - ivec) + (r - ivec) := by omega
        rw [e]
        have h1 : c - ivec + 1 ≤ min vbs (N - ivec) := by omega
        have h2 : (c - ivec + 1) * (N - ivec) ≤ min vbs (N - ivec) * (N - ivec) :=
          Nat.mul_le_mul_right _ h1
        rw [Nat.add_mul, Nat.one_mul, Nat.mul_comm (min vbs (N - ivec))] at h2
        omega
      rw [if_pos hidx]
      unfold overlapEntry
      refine Finset.sum_congr rfl (fun q _ => ?_)
      exact overlap_local_block N ivec _ _ _ r c c1 c2 c3 c4
    · rw [if_neg hcond, if_neg hcond]
  · rw [if_neg hown, if_neg (fun h => hown h.1)]

theorem columnBlockEnd_of_block (N vbs ivec c : Nat) (hd : vbs ∣ ivec) (h1 : ivec ≤ c)
    (h2 : c < ivec + vbs) : columnBlockEnd N vbs c = ivec + min vbs (N - ivec) := by
  obtain ⟨k, rfl⟩ := hd
  have hq : c / vbs = k :=
    Nat.div_eq_of_lt_le (by rw [Nat.mul_comm]; exact h1)
      (by rw [Nat.add_mul, Nat.one_mul, Nat.mul_comm]; exact h2)
  unfold columnBlockEnd
  rw [hq, Nat.mul_comm k vbs]

/-- The state of the block loop before the block that starts at `ivec`: the columns below
`ivec` that the band group owns hold the entries of `Xᵀ X`, everything else is as at entry. -/
theorem overlapBlockStep_invariant (env : ParallelEnv) (N vbs : Nat) (ranks : Nat → RankData)
    (g ivec : Nat) (st : OverlapState) (hbs : 1 ≤ vbs) (hd : vbs ∣ ivec)
    (hI : ∀ p r c lr lc, (ranks p).rowMap r = some lr → (ranks p).colMap c = some lc →
      st.values p ((ranks p).mat.elIndex lr lc)
        = if c < ivec ∧ c ≤ r ∧ r < N ∧ bandOwns env g (columnBlockEnd N vbs c)
          then overlapEntry env.numberDomainRanks N ranks r c
          else (ranks p).mat.values ((ranks p).mat.elIndex lr lc))
    (p r c lr lc : Nat) (hr : (ranks p).rowMap r = some lr)
    (hc : (ranks p).colMap c = some lc) :
    (overlapBlockStep env N vbs ranks g ivec st).values p ((ranks p).mat.elIndex lr lc)
      = if c < ivec + vbs ∧ c ≤ r ∧ r < N ∧ bandOwns env g (columnBlockEnd N vbs c)
        then overlapEntry env.numberDomainRanks N ranks r c
        else (ranks p).mat.values ((ranks p).mat.elIndex lr lc) := by
  rw [overlapBlockStep_values env N vbs ranks g ivec st p r c lr lc hr hc, hI p r c lr lc hr hc]
  by_cases hlow : c < ivec
  · have hnot : ¬ (bandOwns env g (ivec + min vbs (N - ivec)) ∧ ivec ≤ c ∧
        c < ivec + min vbs (N - ivec) ∧ c ≤ r ∧ r < N) := fun h => by omega
    rw [if_neg hnot]
    have e : (c < ivec + vbs ∧ c ≤ r ∧ r < N ∧ bandOwns env g (columnBlockEnd N vbs c))
        ↔ (c < ivec ∧ c ≤ r ∧ r < N ∧ bandOwns env g (columnBlockEnd N vbs c)) :=
      ⟨fun h => ⟨hlow, h.2⟩, fun h => ⟨by omega, h.2⟩⟩
    rw [if_congr e rfl rfl]
  · have hold : ¬ (c < ivec ∧ c ≤ r ∧ r < N ∧ bandOwns env g (columnBlockEnd N vbs c)) :=
      fun h => hlow h.1
    rw [if_neg hold]
    by_cases hin : c < ivec + vbs ∧ c ≤ r ∧ r < N
    · obtain ⟨h1, h2, h3⟩ := hin
      have hend := columnBlockEnd_of_block N vbs ivec c hd (by omega) h1
      have e : (bandOwns env g (ivec + min vbs (N - ivec)) ∧ ivec ≤ c ∧
          c < ivec + min vbs (N - ivec) ∧ c ≤ r ∧ r < N)
          ↔ (c < ivec + vbs ∧ c ≤ r ∧ r < N ∧ bandOwns env g (columnBlockEnd N vbs c)) := by
        rw [hend]
        constructor
        · intro h
          exact ⟨h1, h2, h3, h.1⟩
        · intro h
          refine ⟨h.2.2.2, by omega, ?_, h2, h3⟩
          have : c - ivec < min vbs (N - ivec) := by
            rw [Nat.lt_min]
            constructor <;> omega
          omega
      rw [if_congr e rfl rfl]
    · have n1 : ¬ (bandOwns env g (ivec + min vbs (N - ivec)) ∧ ivec ≤ c ∧
          c < ivec + min vbs (N - ivec) ∧ c ≤ r ∧ r < N) := by
        intro h
        apply hin
        have : min vbs (N - ivec) ≤ vbs := Nat.min_le_left _ _
        exact ⟨by omega, h.2.2.2.1, h.2.2.2.2⟩
      have n2 : ¬ (c < ivec + vbs ∧ c ≤ r ∧ r < N ∧ bandOwns env g (columnBlockEnd N vbs c)) :=
        fun h => hin ⟨h.1, h.2.1, h.2.2.1⟩
      rw [if_neg n1, if_neg n2]

theorem overlapBandGroup_values (env : ParallelEnv) (N : Nat) (ranks : Nat → RankData)
    (g fuel : Nat)
    (hbs : 1 ≤ min env.wfcBlockSize (env.bandGroupLowHighPlusOneIndices 1))
    (hfuel : N ≤ fuel) :
    ∃ vals, overlapBandGroup env N ranks g fuel = some vals ∧
      ∀ p r c lr lc, (ranks p).rowMap r = some lr → (ranks p).colMap c = some lc →
        vals p ((ranks p).mat.elIndex lr lc)
          = if c ≤ r ∧ r < N ∧ bandOwns env g
                (columnBlockEnd N (min env.wfcBlockSize (env.bandGroupLowHighPlusOneIndices 1)) c)
            then overlapEntry env.numberDomainRanks N ranks r c
            else (ranks p).mat.values ((ranks p).mat.elIndex lr lc) := by
  obtain ⟨t, i, hrun, hle, hdiv, hI⟩ := stridedLoop_invariant N
    (min env.wfcBlockSize (env.bandGroupLowHighPlusOneIndices 1))
    (overlapBlockStep env N (min env.wfcBlockSize (env.bandGroupLowHighPlusOneIndices 1)) ranks g)
    (fun ivec st => min env.wfcBlockSize (env.bandGroupLowHighPlusOneIndices 1) ∣ ivec ∧
      ∀ p r c lr lc, (ranks p).rowMap r = some lr → (ranks p).colMap c = some lc →
        st.values p ((ranks p).mat.elIndex lr lc)
          = if c < ivec ∧ c ≤ r ∧ r < N ∧ bandOwns env g
                (columnBlockEnd N (min env.wfcBlockSize (env.bandGroupLowHighPlusOneIndices 1)) c)
            then overlapEntry env.numberDomainRanks N ranks r c
            else (ranks p).mat.values ((ranks p).mat.elIndex lr lc))
    hbs
    (fun ivec st _ h => ⟨Dvd.dvd.add h.1 (dvd_refl _),
      overlapBlockStep_invariant env N _ ranks g ivec st hbs h.1 h.2⟩)
    fuel 0 ⟨fun _ _ => 0, fun p => (ranks p).mat.values⟩ (by omega)
    ⟨dvd_zero _, fun p r c lr lc _ _ => by
      rw [if_neg (fun h => Nat.not_lt_zero _ h.1)]⟩
  refine ⟨t.values, ?_, ?_⟩
  · unfold overlapBandGroup
    simp only []
    rw [hrun]
    rfl
  · intro p r c lr lc hr hc
    rw [hI p r c lr lc hr hc]
    by_cases h : c ≤ r ∧ r < N
    · have e : (c < i ∧ c ≤ r ∧ r < N ∧ bandOwns env g
          (columnBlockEnd N (min env.wfcBlockSize (env.bandGroupLowHighPlusOneIndices 1)) c))
          ↔ (c ≤ r ∧ r < N ∧ bandOwns env g
          (columnBlockEnd N (min env.wfcBlockSize (env.bandGroupLowHighPlusOneIndices 1)) c)) :=
        ⟨fun x => x.2, fun x => ⟨by omega, x⟩⟩
      rw [if_congr e rfl rfl]
    · rw [if_neg (fun x => h ⟨x.2.1, x.2.2.1⟩), if_neg (fun x => h ⟨x.1, x.2.1⟩)]

/-! ## The band groups -/

theorem allFinished_some {α : Type} (n : Nat) (d : α) (f : Nat → Option α)
    (h : ∀ g, g < n → ∃ v, f g = some v) :
    ∃ vals, allFinished n d f = some vals ∧ ∀ g, g < n → f g = some (vals g) := by
  refine ⟨fun g => (f g).getD d, ?_, ?_⟩
  · unfold allFinished
    rw [if_pos]
    intro g hg
    obtain ⟨v, hv⟩ := h g hg
    rw [hv]
    rfl
  · intro g hg
    obtain ⟨v, hv⟩ := h g hg
    show f g = some ((f g).getD d)
    rw [hv]
    rfl

theorem bandPartition_low_le (env : ParallelEnv) (N : Nat) (hband : BandPartition env N)
    (g d : Nat) (h : g + 1 + d < env.numberBandGroups) :
    env.bandGroupLowHighPlusOneIndices (2 * g + 1)
      ≤ env.bandGroupLowHighPlusOneIndices (2 * (g + 1 + d)) := by
  induction d with
  | zero => exact le_of_eq (hband.contiguous g (by omega)).symm
  | succ d ih =>
    have h1 := ih (by omega)
    have h2 := hband.ordered (g + 1 + d) (by omega)
    have h3 := hband.contiguous (g + 1 + d) (by omega)
    have e : g + 1 + (d + 1) = g + 1 + d + 1 := by omega
    rw [e, h3]
    omega

theorem bandPartition_owner_exists (env : ParallelEnv) (N : Nat) (hband : BandPartition env N)
    (e : Nat) (he : 0 < e) (n : Nat) (hn : n < env.numberBandGroups)
    (hle : e ≤ env.bandGroupLowHighPlusOneIndices (2 * n + 1)) :
    ∃ g, g < env.numberBandGroups ∧ bandOwns env g e := by
  induction n with
  | zero =>
    refine ⟨0, hn, ?_⟩
    unfold bandOwns
    have := hband.first
    constructor
    · exact hle
    · show e > env.bandGroupLowHighPlusOneIndices (2 * 0)
      rw [Nat.mul_zero, this]
      exact he
  | succ n ih =>
    by_cases hlow : e > env.bandGroupLowHighPlusOneIndices (2 * (n + 1))
    · exact ⟨n + 1, hn, hle, hlow⟩
    · have := hband.contiguous n hn
      exact ih (by omega) (by omega)

theorem bandPartition_owner_unique (env : ParallelEnv) (N : Nat) (hband : BandPartition env N)
    (e g1 g2 : Nat) (h1 : g1 < env.numberBandGroups) (h2 : g2 < env.numberBandGroups)
    (o1 : bandOwns env g1 e) (o2 : bandOwns env g2 e) : g1 = g2 := by
  unfold bandOwns at o1 o2
  rcases Nat.lt_trichotomy g1 g2 with h | h | h
  · exfalso
    have := bandPartition_low_le env N hband g1 (g2 - (g1 + 1)) (by omega)
    have e2 : g1 + 1 + (g2 - (g1 + 1)) = g2 := by omega
    rw [e2] at this
    omega
  · exact h
  · exfalso
    have := bandPartition_low_le env N hband g2 (g1 - (g2 + 1)) (by omega)
    have e2 : g2 + 1 + (g1 - (g2 + 1)) = g1 := by omega
    rw [e2] at this
    omega

theorem columnBlockEnd_bounds (N vbs c : Nat) (hbs : 1 ≤ vbs) (hc : c < N) :
    0 < columnBlockEnd N vbs c ∧ columnBlockEnd N vbs c ≤ N := by
  unfold columnBlockEnd
  have h1 : c / vbs * vbs ≤ c := Nat.div_mul_le_self c vbs
  have h2 : 0 < min vbs (N - c / vbs * vbs) := by
    rw [Nat.lt_min]
    constructor <;> omega
  have h3 : min vbs (N - c / vbs * vbs) ≤ N - c / vbs * vbs := Nat.min_le_right _ _
  constructor <;> omega

theorem replicated_maps (d e : RankData) (h : Replicated d e) :
    d.rowMap = e.rowMap ∧ d.colMap = e.colMap ∧
      ∀ i j, d.mat.elIndex i j = e.mat.elIndex i j := by
  refine ⟨?_, ?_, ?_⟩
  · unfold RankData.rowMap createGlobalToLocalIdMapsScaLAPACKMat
    rw [h.active, h.local_m, h.local_n, h.global_row, h.global_column]
  · unfold RankData.colMap createGlobalToLocalIdMapsScaLAPACKMat
    rw [h.active, h.local_m, h.local_n, h.global_row, h.global_column]
  · intro i j
    unfold ScaLAPACKMatrix.elIndex
    rw [h.local_m]

theorem overlapEntry_congr (P N : Nat) (ranks ranks2 : Nat → RankData) (r c : Nat)
    (h : ∀ q, (ranks q).subspaceVectorsArray = (ranks2 q).subspaceVectorsArray ∧
      (ranks q).subspaceVectorsArrayLocalSize = (ranks2 q).subspaceVectorsArrayLocalSize) :
    overlapEntry P N ranks r c = overlapEntry P N ranks2 r c := by
  unfold overlapEntry
  refine Finset.sum_congr rfl (fun q _ => ?_)
  rw [(h q).1, (h q).2]

/-! ## The overlap matrix -/

theorem bandPartition_sum_owner (env : ParallelEnv) (N : Nat) (hband : BandPartition env N)
    (e : Nat) (he : 0 < e) (hle : e ≤ N) (hG : 1 ≤ env.numberBandGroups) (a : ℚ) :
    (∑ g ∈ Finset.range env.numberBandGroups, if bandOwns env g e then a else 0) = a := by
  obtain ⟨g0, hg0, hown⟩ := bandPartition_owner_exists env N hband e he
    (env.numberBandGroups - 1) (by omega) (by rw [hband.last]; exact hle)
  rw [Finset.sum_eq_single g0, if_pos hown]
  · intro g hg hne
    rw [if_neg]
    intro h
    exact hne (bandPartition_owner_unique env N hband e g g0 (Finset.mem_range.mp hg) hg0 h hown)
  · intro h
    exact absurd (Finset.mem_range.mpr hg0) h

/-- C1: `fillParallelOverlapMatrix` returns, and afterwards every entry `S(r, c)` with
`r ≥ c` whose row and column the rank owns in its global-to-local maps is the entry of
`Xᵀ X`: the sum over the ranks of the domain decomposition and their local rows `k` of
`X[k, r] * X[k, c]`. This holds for every effective block size `≥ 1` with one band group,
and with several band groups that hold the same `X` on the same process grid when `S` is
zero before the call. -/
theorem fillParallelOverlapMatrix_lower_triangle (env : ParallelEnv) (N : Nat)
    (ranks : Nat → Nat → RankData) (fuel : Nat)
    (hbs : 1 ≤ min env.wfcBlockSize (env.bandGroupLowHighPlusOneIndices 1))
    (hfuel : N ≤ fuel) (hG : 1 ≤ env.numberBandGroups) (hband : BandPartition env N)
    (hrep : ∀ g p, g < env.numberBandGroups → Replicated (ranks g p) (ranks 0 p))
    (hS : env.numberBandGroups = 1 ∨
      ∀ g p idx, g < env.numberBandGroups → (ranks g p).mat.values idx = 0) :
    ∃ S, fillParallelOverlapMatrix env N ranks fuel = some S ∧
      ∀ g p r c lr lc, g < env.numberBandGroups → c ≤ r → r < N →
        (ranks g p).rowMap r = some lr → (ranks g p).colMap c = some lc →
        (S g p).local_el lr lc = overlapEntry env.numberDomainRanks N (ranks g) r c := by
  have hgrp : ∀ g, g < env.numberBandGroups →
      ∃ v, overlapBandGroup env N (ranks g) g fuel = some v := fun g _ => by
    obtain ⟨v, hv, _⟩ := overlapBandGroup_values env N (ranks g) g fuel hbs hfuel
    exact ⟨v, hv⟩
  obtain ⟨vals, hall, hvals⟩ := allFinished_some env.numberBandGroups
    (fun p => (ranks 0 p).mat.values) _ hgrp
  refine ⟨fun g p => sumAcrossInterCommScaLAPACKMat env.numberBandGroups
    (fun g1 => (ranks g1 p).processActive)
    (fun g1 => (ranks g1 p).mat.withValues (vals g1 p)) g, ?_, ?_⟩
  · unfold fillParallelOverlapMatrix
    rw [hall]
  · intro g p r c lr lc hg hcr hrN hr hc
    obtain ⟨hb1, hb2⟩ := columnBlockEnd_bounds N _ c hbs (by omega)
    have key : ∀ g1, g1 < env.numberBandGroups →
        vals g1 p ((ranks g p).mat.elIndex lr lc)
          = if bandOwns env g1
                (columnBlockEnd N (min env.wfcBlockSize (env.bandGroupLowHighPlusOneIndices 1)) c)
            then overlapEntry env.numberDomainRanks N (ranks g) r c
            else (ranks g1 p).mat.values ((ranks g p).mat.elIndex lr lc) := by
      intro g1 hg1
      obtain ⟨v, hv, hspec⟩ := overlapBandGroup_values env N (ranks g1) g1 fuel hbs hfuel
      have hv2 := hvals g1 hg1
      rw [hv] at hv2
      have hvv : vals g1 = v := (Option.some.inj hv2).symm
      obtain ⟨m1, m2, m3⟩ := replicated_maps _ _ (hrep g1 p hg1)
      obtain ⟨n1, n2, n3⟩ := replicated_maps _ _ (hrep g p hg)
      have hr1 : (ranks g1 p).rowMap r = some lr := by rw [m1, ← n1]; exact hr
      have hc1 : (ranks g1 p).colMap c = some lc := by rw [m2, ← n2]; exact hc
      have hidx : (ranks g p).mat.elIndex lr lc = (ranks g1 p).mat.elIndex lr lc := by
        rw [n3, m3]
      have hent : overlapEntry env.numberDomainRanks N (ranks g1) r c
          = overlapEntry env.numberDomainRanks N (ranks g) r c := by
        apply overlapEntry_congr
        intro q
        have a := hrep g1 q hg1
        have b := hrep g q hg
        exact ⟨by rw [a.vectors, b.vectors], by rw [a.size, b.size]⟩
      rw [hvv, hidx, hspec p r c lr lc hr1 hc1, hent]
      by_cases ho : bandOwns env g1
          (columnBlockEnd N (min env.wfcBlockSize (env.bandGroupLowHighPlusOneIndices 1)) c)
      · rw [if_pos ⟨hcr, hrN, ho⟩, if_pos ho]
      · rw [if_neg (fun h => ho h.2.2), if_neg ho]
    have hel : ScaLAPACKMatrix.elIndex (sumAcrossInterCommScaLAPACKMat env.numberBandGroups
        (fun g1 => (ranks g1 p).processActive)
        (fun g1 => (ranks g1 p).mat.withValues (vals g1 p)) g) lr lc
        = (ranks g p).mat.elIndex lr lc := by
      unfold ScaLAPACKMatrix.elIndex
      rw [sumAcross_local_m]
      rfl
    show (sumAcrossInterCommScaLAPACKMat env.numberBandGroups
        (fun g1 => (ranks g1 p).processActive)
        (fun g1 => (ranks g1 p).mat.withValues (vals g1 p)) g).values
        (ScaLAPACKMatrix.elIndex (sumAcrossInterCommScaLAPACKMat env.numberBandGroups
        (fun g1 => (ranks g1 p).processActive)
        (fun g1 => (ranks g1 p).mat.withValues (vals g1 p)) g) lr lc) = _
    rw [hel, sumAcross_values]
    by_cases hone : env.numberBandGroups = 1
    · rw [if_neg (fun h => by omega)]
      show vals g p ((ranks g p).mat.elIndex lr lc) = _
      rw [key g hg, if_pos]
      have hg0 : g = 0 := by omega
      have hlast := hband.last
      have hfirst := hband.first
      rw [hone] at hlast
      rw [hg0]
      have hlo : env.bandGroupLowHighPlusOneIndices (2 * 0) = 0 := hfirst
      exact ⟨le_of_le_of_eq hb2 hlast.symm, lt_of_eq_of_lt hlo hb1⟩
    · have hzero : ∀ g p idx, g < env.numberBandGroups → (ranks g p).mat.values idx = 0 := by
        rcases hS with h | h
        · exact absurd h hone
        · exact h
      have hact : (ranks g p).processActive = true := by
        by_contra hna
        have := (rankMaps_inactive (ranks g p) (by simpa using hna) r).1
        rw [this] at hr
        exact absurd hr (by simp)
      have hm := rankMaps_ok (ranks g p)
      have hlt : (ranks g p).mat.elIndex lr lc
          < (ranks g p).mat.local_m * (ranks g p).mat.local_n := by
        have a := hm.row_lt r lr hr
        have b := hm.col_lt c lc hc
        unfold ScaLAPACKMatrix.elIndex
        have : (lc + 1) * (ranks g p).mat.local_m
            ≤ (ranks g p).mat.local_n * (ranks g p).mat.local_m := Nat.mul_le_mul_right _ b
        rw [Nat.add_mul, Nat.one_mul, Nat.mul_comm (ranks g p).mat.local_n] at this
        omega
      rw [if_pos ⟨⟨hact, by omega⟩, hlt⟩]
      rw [← bandPartition_sum_owner env N hband _ hb1 hb2 hG
        (overlapEntry env.numberDomainRanks N (ranks g) r c)]
      refine Finset.sum_congr rfl (fun g1 hg1 => ?_)
      have hg1 := Finset.mem_range.mp hg1
      show vals g1 p ((ranks g p).mat.elIndex lr lc) = _
      rw [key g1 hg1, hzero g1 p _ hg1]

theorem oneRankEnv_partition : BandPartition oneRankEnv 2 := by
  refine ⟨rfl, rfl, ?_, ?_⟩
  · intro g hg
    have hg0 : g = 0 := by
      have : g < 1 := hg
      omega
    rw [hg0]
    decide
  · intro g hg
    have : g + 1 < 1 := hg
    omega

theorem oneRankData_replicated (g p : Nat) :
    Replicated (oneRankData g p) (oneRankData 0 p) :=
  ⟨rfl, rfl, rfl, rfl, rfl, rfl, rfl⟩

/-- Witness for C1: one rank with the rows `(1, 2)` and `(3, 4)`, blocks of one vector:
the entry `(1, 0)` of the result is `2 * 1 + 4 * 3 = 14`. -/
theorem fillParallelOverlapMatrix_lower_triangle_witness :
    ∃ S, fillParallelOverlapMatrix oneRankEnv 2 oneRankData 2 = some S ∧
      (S 0 0).local_el 1 0 = 14 := by
  obtain ⟨S, h, hS⟩ := fillParallelOverlapMatrix_lower_triangle oneRankEnv 2 oneRankData 2
    (by decide) (by decide) (by decide) oneRankEnv_partition
    (fun g p _ => oneRankData_replicated g p) (Or.inl rfl)
  refine ⟨S, h, ?_⟩
  rw [hS 0 0 1 0 1 0 (by decide) (by decide) (by decide) rfl rfl]
  simp [overlapEntry, oneRankEnv, oneRankData, Finset.sum_range_succ]
  norm_num

/-! ## The process grid of a square matrix -/

theorem createProcessGrid_thumb (scalapackParalProcs : Nat) (useELPA withELPA : Bool)
    (numberProcs size : Nat) (useOnlyThumbRule : Bool)
    (h : scalapackParalProcs = 0 ∨ useOnlyThumbRule = true) :
    createProcessGridSquareMatrix scalapackParalProcs useELPA withELPA numberProcs size
        useOnlyThumbRule
      = if withELPA = true ∧ useELPA = true then
          (min (Nat.sqrt numberProcs) (min (Nat.sqrt numberProcs) ⌈(size : ℚ) / 1000⌉₊ * 2),
           min (Nat.sqrt numberProcs) (min (Nat.sqrt numberProcs) ⌈(size : ℚ) / 1000⌉₊ * 2))
        else
          (min (Nat.sqrt numberProcs) ⌈(size : ℚ) / 1000⌉₊,
           min (Nat.sqrt numberProcs) ⌈(size : ℚ) / 1000⌉₊) := by
  unfold createProcessGridSquareMatrix
  simp only [if_pos h, h, true_and]
  cases withELPA <;> cases useELPA <;> simp

theorem ceil_two_thousand : ⌈((2000 : Nat) : ℚ) / 1000⌉₊ = 2 := by
  have h : ((2000 : Nat) : ℚ) / 1000 = ((2 : Nat) : ℚ) := by norm_num
  rw [h, Nat.ceil_natCast]

theorem sqrt_four : Nat.sqrt 4 = 2 := Nat.sqrt_eq 2

/-- C11, as stated, fails: with the two-stage (ELPA) solver enabled, 4 ranks and a matrix
of dimension 2000 the grid is `2 × 2`, which is not twice `min(⌊√4⌋, ⌈2000/1000⌉) = 2`. -/
theorem createProcessGrid_not_doubled :
    createProcessGridSquareMatrix 0 true true 4 2000 false = (2, 2) ∧
      (createProcessGridSquareMatrix 0 true true 4 2000 false).1
        ≠ 2 * min (Nat.sqrt 4) ⌈((2000 : Nat) : ℚ) / 1000⌉₊ := by
  have h := createProcessGrid_thumb 0 true true 4 2000 false (Or.inl rfl)
  rw [ceil_two_thousand, sqrt_four] at h
  rw [h, ceil_two_thousand, sqrt_four]
  constructor <;> decide

/-- C11, amended: under the rule of thumb (`scalapackParalProcs = 0` or `useOnlyThumbRule`)
the grid is `R × R` with `R = min(⌊√P⌋, ⌈S/1000⌉)` when the two-stage (ELPA) solver is
not enabled, and `R = min(⌊√P⌋, 2 * min(⌊√P⌋, ⌈S/1000⌉))` when it is: the doubled value is
capped by `⌊√P⌋`, and is twice the former value exactly when that does not exceed `⌊√P⌋`. -/
theorem createProcessGridSquareMatrix_thumb_rule (scalapackParalProcs : Nat)
    (useELPA withELPA : Bool) (numberProcs size : Nat) (useOnlyThumbRule : Bool)
    (h : scalapackParalProcs = 0 ∨ useOnlyThumbRule = true) :
    (createProcessGridSquareMatrix scalapackParalProcs useELPA withELPA numberProcs size
        useOnlyThumbRule).2
      = (createProcessGridSquareMatrix scalapackParalProcs useELPA withELPA numberProcs size
        useOnlyThumbRule).1 ∧
    (¬ (withELPA = true ∧ useELPA = true) →
      (createProcessGridSquareMatrix scalapackParalProcs useELPA withELPA numberProcs size
        useOnlyThumbRule).1 = min (Nat.sqrt numberProcs) ⌈(size : ℚ) / 1000⌉₊) ∧
    (withELPA = true ∧ useELPA = true →
      (createProcessGridSquareMatrix scalapackParalProcs useELPA withELPA numberProcs size
        useOnlyThumbRule).1
        = min (Nat.sqrt numberProcs) (2 * min (Nat.sqrt numberProcs) ⌈(size : ℚ) / 1000⌉₊) ∧
      ((createProcessGridSquareMatrix scalapackParalProcs useELPA withELPA numberProcs size
        useOnlyThumbRule).1 = 2 * min (Nat.sqrt numberProcs) ⌈(size : ℚ) / 1000⌉₊
        ↔ 2 * min (Nat.sqrt numberProcs) ⌈(size : ℚ) / 1000⌉₊ ≤ Nat.sqrt numberProcs)) := by
  rw [createProcessGrid_thumb _ _ _ _ _ _ h]
  refine ⟨?_, ?_, ?_⟩
  · split_ifs <;> rfl
  · intro hn
    rw [if_neg hn]
  · intro hy
    rw [if_pos hy]
    dsimp only
    rw [Nat.mul_comm _ 2]
    constructor
    · rfl
    · constructor
      · intro he
        rw [← he]
        exact Nat.min_le_left _ _
      · intro hle
        exact Nat.min_eq_right hle

/-- Witness for C11: 4 ranks, dimension 2000, ELPA enabled. -/
theorem createProcessGridSquareMatrix_thumb_rule_witness :
    (createProcessGridSquareMatrix 0 true true 4 2000 false).1
      = min (Nat.sqrt 4) (2 * min (Nat.sqrt 4) ⌈((2000 : Nat) : ℚ) / 1000⌉₊) :=
  ((createProcessGridSquareMatrix_thumb_rule 0 true true 4 2000 false (Or.inl rfl)).2.2
    ⟨rfl, rfl⟩).1

/-! ## The lookup of the Chebyshev degree -/

theorem orderLoop_ge (v b : Nat) (t : List (Nat × Nat)) (h : ∀ r ∈ t, v ≤ r.2)
    (hv : v ≤ 1250) : v ≤ orderLoop b t := by
  induction t with
  | nil => exact hv
  | cons row rest ih =>
    unfold orderLoop
    split_ifs
    · exact h row (List.mem_cons_self _ _)
    · exact ih (fun r hr => h r (List.mem_cons_of_mem _ hr))

theorem orderLoop_le (b : Nat) (t : List (Nat × Nat)) (h : ∀ r ∈ t, r.2 ≤ 1250) :
    orderLoop b t ≤ 1250 := by
  induction t with
  | nil => exact le_refl _
  | cons row rest ih =>
    unfold orderLoop
    split_ifs
    · exact h row (List.mem_cons_self _ _)
    · exact ih (fun r hr => h r (List.mem_cons_of_mem _ hr))

theorem orderLoop_mono (t : List (Nat × Nat))
    (hs : t.Pairwise (fun r1 r2 => r1.2 ≤ r2.2)) (hl : ∀ r ∈ t, r.2 ≤ 1250)
    (b1 b2 : Nat) (h : b1 ≤ b2) : orderLoop b1 t ≤ orderLoop b2 t := by
  induction t with
  | nil => exact le_refl _
  | cons row rest ih =>
    rw [List.pairwise_cons] at hs
    have hrest := ih hs.2 (fun r hr => hl r (List.mem_cons_of_mem _ hr))
    unfold orderLoop
    by_cases h1 : b1 ≤ row.1
    · rw [if_pos h1]
      by_cases h2 : b2 ≤ row.1
      · rw [if_pos h2]
      · rw [if_neg h2]
        exact orderLoop_ge _ _ _ hs.1 (hl row (List.mem_cons_self _ _))
    · rw [if_neg h1, if_neg (by omega)]
      exact hrest

theorem order_lookup_sorted : order_lookup.Pairwise (fun r1 r2 => r1.2 ≤ r2.2) := by
  unfold order_lookup
  simp

theorem order_lookup_le : ∀ r ∈ order_lookup, r.2 ≤ 1250 := by
  unfold order_lookup
  simp

theorem setChebyshevOrder_values :
    setChebyshevOrder 200001 = 1000 ∧ setChebyshevOrder 500000 = 1000 ∧
      setChebyshevOrder 500001 = 1250 := by
  simp [setChebyshevOrder, order_lookup, orderLoop]

/-- C12: `internal::setChebyshevOrder` is monotone non-decreasing in the upper spectrum
bound; it returns 24 for every bound `≤ 500`, 1000 for every bound in `(2*10^5, 5*10^5]`
and 1250 for every bound `> 5*10^5`. -/
theorem setChebyshevOrder_monotone :
    (∀ b1 b2, b1 ≤ b2 → setChebyshevOrder b1 ≤ setChebyshevOrder b2) ∧
    (∀ b, b ≤ 500 → setChebyshevOrder b = 24) ∧
    (∀ b, 200000 < b → b ≤ 500000 → setChebyshevOrder b = 1000) ∧
    (∀ b, 500000 < b → setChebyshevOrder b = 1250) := by
  have hmono : ∀ b1 b2, b1 ≤ b2 → setChebyshevOrder b1 ≤ setChebyshevOrder b2 :=
    fun b1 b2 h => orderLoop_mono order_lookup order_lookup_sorted order_lookup_le b1 b2 h
  obtain ⟨v1, v2, v3⟩ := setChebyshevOrder_values
  refine ⟨hmono, ?_, ?_, ?_⟩
  · intro b h
    simp only [setChebyshevOrder, order_lookup, orderLoop, if_pos h]
  · intro b h1 h2
    have a := hmono 200001 b h1
    have c := hmono b 500000 h2
    rw [v1] at a
    rw [v2] at c
    exact le_antisymm c a
  · intro b h
    have a := hmono 500001 b h
    rw [v3] at a
    exact le_antisymm (orderLoop_le b order_lookup order_lookup_le) a

/-- Witness for C12: the bounds 600 and 300000. -/
theorem setChebyshevOrder_monotone_witness :
    setChebyshevOrder 600 ≤ setChebyshevOrder 300000 ∧ setChebyshevOrder 500 = 24 ∧
      setChebyshevOrder 300000 = 1000 ∧ setChebyshevOrder 500001 = 1250 :=
  ⟨setChebyshevOrder_monotone.1 600 300000 (by norm_num),
    setChebyshevOrder_monotone.2.1 500 (le_refl 500),
    setChebyshevOrder_monotone.2.2.1 300000 (by norm_num) (by norm_num),
    setChebyshevOrder_monotone.2.2.2 500001 (by norm_num)⟩

/-! ## The adaptive Chebyshev degree -/

theorem adaptiveOrder_eq (m jvec n : Nat) :
    adaptiveOrder m jvec n = (1 / 2) * (m : ℚ) + (3 / 10) * (m : ℚ) * (jvec : ℚ) / (n : ℚ) := by
  unfold adaptiveOrder
  ring

theorem adaptiveOrder_mono (m j1 j2 n : Nat) (h : j1 ≤ j2) :
    adaptiveOrder m j1 n ≤ adaptiveOrder m j2 n := by
  unfold adaptiveOrder
  have h1 : (j1 : ℚ) ≤ (j2 : ℚ) := by exact_mod_cast h
  have hm : (0 : ℚ) ≤ (m : ℚ) := Nat.cast_nonneg m
  have hn : (0 : ℚ) ≤ (n : ℚ) := Nat.cast_nonneg n
  have h2 : (j1 : ℚ) * (3 / 10) * (m : ℚ) ≤ (j2 : ℚ) * (3 / 10) * (m : ℚ) := by
    apply mul_le_mul_of_nonneg_right _ hm
    apply mul_le_mul_of_nonneg_right h1
    norm_num
  have h3 := div_le_div_of_nonneg_right h2 hn
  linarith

theorem adaptiveOrder_le (m jvec n : Nat) (h : jvec < n) :
    adaptiveOrder m jvec n ≤ (4 / 5) * (m : ℚ) := by
  unfold adaptiveOrder
  have h1 : (jvec : ℚ) ≤ (n : ℚ) := by exact_mod_cast h.le
  have hm : (0 : ℚ) ≤ (m : ℚ) := Nat.cast_nonneg m
  have hn : (0 : ℚ) < (n : ℚ) := by exact_mod_cast (by omega : 0 < n)
  have h2 : (jvec : ℚ) * (3 / 10) * (m : ℚ) / (n : ℚ) ≤ (3 / 10) * (m : ℚ) := by
    rw [div_le_iff₀ hn]
    nlinarith
  linarith

theorem ceil_four_fifths_le (m : Nat) : ⌈(4 / 5) * (m : ℚ)⌉₊ ≤ m := by
  apply Nat.ceil_le.mpr
  have hm : (0 : ℚ) ≤ (m : ℚ) := Nat.cast_nonneg m
  linarith

/-- C20: for a block `[jvec, jvec + BVec)` that ends below `numAdaptiveFilterStates` the
degree passed to the filter is `⌈0.5 m + 0.3 m jvec / numAdaptiveFilterStates⌉`; it is
`⌈0.5 m⌉` at `jvec = 0`, non-decreasing in `jvec`, at most `⌈0.8 m⌉` and so at most `m`.
Every other block is filtered with the full degree `m`. -/
theorem filterDegree_adaptive (m n : Nat) :
    (∀ jvec BVec, jvec + BVec < n →
      filterDegree m n jvec BVec = ⌈(1 / 2) * (m : ℚ) + (3 / 10) * (m : ℚ) * (jvec : ℚ) / (n : ℚ)⌉₊ ∧
      filterDegree m n jvec BVec ≤ ⌈(4 / 5) * (m : ℚ)⌉₊ ∧
      filterDegree m n jvec BVec ≤ m) ∧
    (∀ BVec, 0 + BVec < n → filterDegree m n 0 BVec = ⌈(1 / 2) * (m : ℚ)⌉₊) ∧
    (∀ j1 B1 j2 B2, j1 ≤ j2 → j1 + B1 < n → j2 + B2 < n →
      filterDegree m n j1 B1 ≤ filterDegree m n j2 B2) ∧
    (∀ jvec BVec, n ≤ jvec + BVec → filterDegree m n jvec BVec = m) := by
  refine ⟨?_, ?_, ?_, ?_⟩
  · intro jvec BVec h
    have hle : filterDegree m n jvec BVec ≤ ⌈(4 / 5) * (m : ℚ)⌉₊ := by
      unfold filterDegree
      rw [if_pos h]
      exact Nat.ceil_le_ceil (adaptiveOrder_le m jvec n (by omega))
    refine ⟨?_, hle, le_trans hle (ceil_four_fifths_le m)⟩
    unfold filterDegree
    rw [if_pos h, adaptiveOrder_eq]
  · intro BVec h
    unfold filterDegree
    rw [if_pos h, adaptiveOrder_eq]
    simp
  · intro j1 B1 j2 B2 h h1 h2
    unfold filterDegree
    rw [if_pos h1, if_pos h2]
    exact Nat.ceil_le_ceil (adaptiveOrder_mono m j1 j2 n h)
  · intro jvec BVec h
    unfold filterDegree
    rw [if_neg (by omega)]

theorem adaptiveOrder_sixty : adaptiveOrder 60 0 200 = 30 ∧ adaptiveOrder 60 160 200 = 222 / 5 := by
  unfold adaptiveOrder
  constructor <;> norm_num

theorem ceil_sixty : ⌈adaptiveOrder 60 0 200⌉₊ = 30 ∧ ⌈adaptiveOrder 60 160 200⌉₊ = 45 := by
  rw [adaptiveOrder_sixty.1, adaptiveOrder_sixty.2]
  constructor
  · exact (Nat.ceil_eq_iff (by decide)).mpr ⟨by norm_num, by norm_num⟩
  · exact (Nat.ceil_eq_iff (by decide)).mpr ⟨by norm_num, by norm_num⟩

/-- Witness for C20: nominal degree 60, 200 adaptive states, blocks of 20 vectors at 0 and
at 160, and the block at 180 that ends at the threshold. -/
theorem filterDegree_adaptive_witness :
    filterDegree 60 200 0 20 ≤ filterDegree 60 200 160 20 ∧
      filterDegree 60 200 160 20 ≤ 60 ∧ filterDegree 60 200 180 20 = 60 :=
  ⟨(filterDegree_adaptive 60 200).2.2.1 0 20 160 20 (by decide) (by decide) (by decide),
    ((filterDegree_adaptive 60 200).1 160 20 (by decide)).2.2,
    (filterDegree_adaptive 60 200).2.2.2 180 20 (by decide)⟩

/-- C13, as stated, fails: with 200 adaptive states and nominal degree 60 the block of 20
vectors that starts at 160 is filtered with degree `⌈30 + 14.4⌉ = 45`, not 44. -/
theorem filterDegree_at_160_not_44 :
    filterDegree 60 200 160 20 = 45 ∧ filterDegree 60 200 160 20 ≠ 44 := by
  have h : filterDegree 60 200 160 20 = 45 := by
    unfold filterDegree
    rw [if_pos (by decide)]
    exact ceil_sixty.2
  rw [h]
  exact ⟨rfl, by decide⟩

/-- C13, amended: with `numAdaptiveFilterStates = 200` and nominal degree 60 the degree
passed to the filter is 30 for a block that starts at 0 and 45 for a block that starts at
160, when the blocks end below 200. -/
theorem filterDegree_sixty (BVec0 BVec : Nat) (h0 : 0 + BVec0 < 200)
    (h : 160 + BVec < 200) :
    filterDegree 60 200 0 BVec0 = 30 ∧ filterDegree 60 200 160 BVec = 45 := by
  unfold filterDegree
  rw [if_pos h0, if_pos h]
  exact ceil_sixty

/-- Witness for C13: blocks of 20 vectors. -/
theorem filterDegree_sixty_witness :
    filterDegree 60 200 0 20 = 30 ∧ filterDegree 60 200 160 20 = 45 :=
  filterDegree_sixty 20 20 (by decide) (by decide)

/-! ## The degree of the first SCF iteration -/

theorem two_zpow_pos (e : Int) : (0 : ℚ) < (2 : ℚ) ^ e := zpow_pos (by norm_num) e

theorem two_zpow_add (a b : Int) : (2 : ℚ) ^ a * (2 : ℚ) ^ b = (2 : ℚ) ^ (a + b) :=
  (zpow_add₀ (by norm_num) a b).symm

theorem binade_spec (x : ℚ) (hx : 0 < x) :
    (2 : ℚ) ^ binade x ≤ x ∧ x < (2 : ℚ) ^ (binade x + 1) := by
  have hnum : 0 < x.num := Rat.num_pos.mpr hx
  have hn0 : x.num.toNat ≠ 0 := by omega
  have hd0 : x.den ≠ 0 := x.den_nz
  have hcast : ((x.num.toNat : Nat) : ℚ) = (x.num : ℚ) := by
    have : ((x.num.toNat : Nat) : Int) = x.num := Int.toNat_of_nonneg (le_of_lt hnum)
    exact_mod_cast this
  have hdpos : (0 : ℚ) < (x.den : ℚ) := by exact_mod_cast Nat.pos_of_ne_zero hd0
  have hxd : x * (x.den : ℚ) = ((x.num.toNat : Nat) : ℚ) := by
    rw [hcast]
    exact Rat.mul_den_eq_num x
  have a1 : ((2 : ℚ) ^ (Nat.log2 x.num.toNat : Int)) ≤ ((x.num.toNat : Nat) : ℚ) := by
    rw [zpow_natCast]
    exact_mod_cast Nat.log2_self_le hn0
  have a2 : ((x.num.toNat : Nat) : ℚ) < (2 : ℚ) ^ ((Nat.log2 x.num.toNat : Int) + 1) := by
    have h : x.num.toNat < 2 ^ (Nat.log2 x.num.toNat + 1) := Nat.lt_log2_self
    have e : ((Nat.log2 x.num.toNat : Int) + 1) = ((Nat.log2 x.num.toNat + 1 : Nat) : Int) := by
      push_cast
      rfl
    rw [e, zpow_natCast]
    exact_mod_cast h
  have b1 : ((2 : ℚ) ^ (Nat.log2 x.den : Int)) ≤ (x.den : ℚ) := by
    rw [zpow_natCast]
    exact_mod_cast Nat.log2_self_le hd0
  have b2 : (x.den : ℚ) ≤ (2 : ℚ) ^ ((Nat.log2 x.den : Int) + 1) := by
    have h : x.den < 2 ^ (Nat.log2 x.den + 1) := Nat.lt_log2_self
    have e : ((Nat.log2 x.den : Int) + 1) = ((Nat.log2 x.den + 1 : Nat) : Int) := by
      push_cast
      rfl
    rw [e, zpow_natCast]
    exact_mod_cast le_of_lt h
  have lower : (2 : ℚ) ^ ((Nat.log2 x.num.toNat : Int) - (Nat.log2 x.den : Int) - 1) ≤ x := by
    have h1 : (2 : ℚ) ^ ((Nat.log2 x.num.toNat : Int) - (Nat.log2 x.den : Int) - 1)
        * (x.den : ℚ) ≤ x * (x.den : ℚ) := by
      calc (2 : ℚ) ^ ((Nat.log2 x.num.toNat : Int) - (Nat.log2 x.den : Int) - 1) * (x.den : ℚ)
          ≤ (2 : ℚ) ^ ((Nat.log2 x.num.toNat : Int) - (Nat.log2 x.den : Int) - 1)
            * (2 : ℚ) ^ ((Nat.log2 x.den : Int) + 1) :=
            mul_le_mul_of_nonneg_left b2 (le_of_lt (two_zpow_pos _))
        _ = (2 : ℚ) ^ (Nat.log2 x.num.toNat : Int) := by
            rw [two_zpow_add]
            congr 1
            ring
        _ ≤ ((x.num.toNat : Nat) : ℚ) := a1
        _ = x * (x.den : ℚ) := hxd.symm
    exact le_of_mul_le_mul_right h1 hdpos
  have upper : x < (2 : ℚ) ^ ((Nat.log2 x.num.toNat : Int) - (Nat.log2 x.den : Int) + 1) := by
    have h1 : x * (x.den : ℚ)
        < (2 : ℚ) ^ ((Nat.log2 x.num.toNat : Int) - (Nat.log2 x.den : Int) + 1)
          * (x.den : ℚ) := by
      calc x * (x.den : ℚ) = ((x.num.toNat : Nat) : ℚ) := hxd
        _ < (2 : ℚ) ^ ((Nat.log2 x.num.toNat : Int) + 1) := a2
        _ = (2 : ℚ) ^ ((Nat.log2 x.num.toNat : Int) - (Nat.log2 x.den : Int) + 1)
            * (2 : ℚ) ^ (Nat.log2 x.den : Int) := by
            rw [two_zpow_add]
            congr 1
            ring
        _ ≤ (2 : ℚ) ^ ((Nat.log2 x.num.toNat : Int) - (Nat.log2 x.den : Int) + 1)
            * (x.den : ℚ) :=
            mul_le_mul_of_nonneg_left b1 (le_of_lt (two_zpow_pos _))
    exact lt_of_mul_lt_mul_right h1 (le_of_lt hdpos)
  unfold binade
  split_ifs with hc
  · exact ⟨hc, upper⟩
  · refine ⟨lower, ?_⟩
    rw [sub_add_cancel]
    exact not_le.mp hc

theorem binade_unique (x : ℚ) (e : Int) (hx : 0 < x) (h1 : (2 : ℚ) ^ e ≤ x)
    (h2 : x < (2 : ℚ) ^ (e + 1)) : binade x = e := by
  obtain ⟨s1, s2⟩ := binade_spec x hx
  have l1 : e < binade x + 1 :=
    (zpow_lt_zpow_iff_right₀ (by norm_num : (1 : ℚ) < 2)).mp (lt_of_le_of_lt h1 s2)
  have l2 : binade x < e + 1 :=
    (zpow_lt_zpow_iff_right₀ (by norm_num : (1 : ℚ) < 2)).mp (lt_of_le_of_lt s1 h2)
  omega

theorem roundHalfEven_near (q : ℚ) (hq : 0 ≤ q) :
    |(roundHalfEven q : ℚ) - q| ≤ 1 / 2 := by
  have f1 : (⌊q⌋₊ : ℚ) ≤ q := Nat.floor_le hq
  have f2 : q < (⌊q⌋₊ : ℚ) + 1 := Nat.lt_floor_add_one q
  unfold roundHalfEven
  split_ifs with c1 c2 c3
  · rw [abs_le]
    constructor <;> linarith
  · rw [abs_le]
    push_cast
    constructor <;> linarith
  · rw [abs_le]
    constructor <;> linarith
  · rw [abs_le]
    push_cast
    constructor <;> linarith

theorem roundHalfEven_eq (q : ℚ) (k : Nat) (h1 : (k : ℚ) - 1 / 2 < q)
    (h2 : q < (k : ℚ) + 1 / 2) : roundHalfEven q = k := by
  have hq : 0 ≤ q ∨ q < 0 := le_or_lt 0 q
  rcases hq with hq | hq
  · have f1 : (⌊q⌋₊ : ℚ) ≤ q := Nat.floor_le hq
    have f2 : q < (⌊q⌋₊ : ℚ) + 1 := Nat.lt_floor_add_one q
    have key : ∀ j : Nat, (j : ℚ) - 1 / 2 < q → q < (j : ℚ) + 1 / 2 → j = k := by
      intro j j1 j2
      have u1 : (j : ℚ) < (k : ℚ) + 1 := by linarith
      have u2 : (k : ℚ) < (j : ℚ) + 1 := by linarith
      have v1 : j < k + 1 := by exact_mod_cast u1
      have v2 : k < j + 1 := by exact_mod_cast u2
      omega
    unfold roundHalfEven
    split_ifs with c1 c2 c3
    · exact key _ (by linarith) (by linarith)
    · exact key _ (by push_cast; linarith) (by push_cast; linarith)
    · have e : q - (⌊q⌋₊ : ℚ) = 1 / 2 := le_antisymm (not_lt.mp c2) (not_lt.mp c1)
      have u1 : (⌊q⌋₊ : ℚ) < (k : ℚ) := by linarith
      have u2 : (k : ℚ) < (⌊q⌋₊ : ℚ) + 1 := by linarith
      have v1 : ⌊q⌋₊ < k := by exact_mod_cast u1
      have v2 : k < ⌊q⌋₊ + 1 := by exact_mod_cast u2
      omega
    · have e : q - (⌊q⌋₊ : ℚ) = 1 / 2 := le_antisymm (not_lt.mp c2) (not_lt.mp c1)
      have u1 : (⌊q⌋₊ : ℚ) < (k : ℚ) := by linarith
      have u2 : (k : ℚ) < (⌊q⌋₊ : ℚ) + 1 := by linarith
      have v1 : ⌊q⌋₊ < k := by exact_mod_cast u1
      have v2 : k < ⌊q⌋₊ + 1 := by exact_mod_cast u2
      omega
  · have hk : k = 0 := by
      have u : (k : ℚ) < 1 := by linarith
      have v : k < 1 := by exact_mod_cast u
      omega
    subst hk
    have hfl : ⌊q⌋₊ = 0 := Nat.floor_of_nonpos (le_of_lt hq)
    unfold roundHalfEven
    rw [hfl]
    have c : q - ((0 : Nat) : ℚ) < 1 / 2 := by
      push_cast
      linarith
    rw [if_pos c]

theorem roundMagnitude_eq (x : ℚ) (e : Int) (k : Nat) (hx : 0 < x) (he : -1022 ≤ e)
    (h1 : (2 : ℚ) ^ e ≤ x) (h2 : x < (2 : ℚ) ^ (e + 1))
    (h3 : (k : ℚ) - 1 / 2 < x / (2 : ℚ) ^ (e - 52))
    (h4 : x / (2 : ℚ) ^ (e - 52) < (k : ℚ) + 1 / 2) :
    roundMagnitude x = (k : ℚ) * (2 : ℚ) ^ (e - 52) := by
  unfold roundMagnitude
  rw [binade_unique x e hx h1 h2, max_eq_left he, roundHalfEven_eq _ k h3 h4]

theorem roundToDouble_eq (x : ℚ) (e : Int) (k : Nat) (hx : 0 < x) (he : -1022 ≤ e)
    (h1 : (2 : ℚ) ^ e ≤ x) (h2 : x < (2 : ℚ) ^ (e + 1))
    (h3 : (k : ℚ) - 1 / 2 < x / (2 : ℚ) ^ (e - 52))
    (h4 : x / (2 : ℚ) ^ (e - 52) < (k : ℚ) + 1 / 2)
    (h5 : (k : ℚ) * (2 : ℚ) ^ (e - 52) < (2 : ℚ) ^ (1024 : Int)) :
    roundToDouble x = some ((k : ℚ) * (2 : ℚ) ^ (e - 52)) := by
  unfold roundToDouble
  rw [if_neg (ne_of_gt hx), abs_of_pos hx, roundMagnitude_eq x e k hx he h1 h2 h3 h4,
    if_pos h5, if_neg (not_lt.mpr (le_of_lt hx))]

theorem roundToDouble_natCast (n : Nat) (hn : n < 9007199254740992) :
    roundToDouble (n : ℚ) = some (n : ℚ) := by
  by_cases h0 : n = 0
  · subst h0
    unfold roundToDouble
    rw [if_pos (by norm_num)]
    norm_num
  · have hx : (0 : ℚ) < (n : ℚ) := by exact_mod_cast Nat.pos_of_ne_zero h0
    obtain ⟨s1, s2⟩ := binade_spec (n : ℚ) hx
    have hone : (2 : ℚ) ^ (0 : Int) ≤ (n : ℚ) := by
      rw [zpow_zero]
      exact_mod_cast Nat.pos_of_ne_zero h0
    have hbig : (n : ℚ) < (2 : ℚ) ^ (53 : Int) := by
      have h53 : (2 : ℚ) ^ (53 : Int) = 9007199254740992 := by norm_num
      rw [h53]
      exact_mod_cast hn
    have l1 : (0 : Int) < binade (n : ℚ) + 1 :=
      (zpow_lt_zpow_iff_right₀ (by norm_num : (1 : ℚ) < 2)).mp (lt_of_le_of_lt hone s2)
    have l2 : binade (n : ℚ) < 53 :=
      (zpow_lt_zpow_iff_right₀ (by norm_num : (1 : ℚ) < 2)).mp (lt_of_le_of_lt s1 hbig)
    have hexp : (52 - binade (n : ℚ)) = (((52 - binade (n : ℚ)).toNat : Nat) : Int) :=
      (Int.toNat_of_nonneg (by omega)).symm
    have hq : (n : ℚ) / (2 : ℚ) ^ (binade (n : ℚ) - 52)
        = ((n * 2 ^ (52 - binade (n : ℚ)).toNat : Nat) : ℚ) := by
      rw [div_eq_mul_inv, ← zpow_neg, neg_sub, hexp, zpow_natCast]
      push_cast
      rw [← hexp]
    have hval : ((n * 2 ^ (52 - binade (n : ℚ)).toNat : Nat) : ℚ)
        * (2 : ℚ) ^ (binade (n : ℚ) - 52) = (n : ℚ) := by
      rw [← hq, div_mul_cancel₀]
      exact ne_of_gt (two_zpow_pos _)
    have h := roundToDouble_eq (n : ℚ) (binade (n : ℚ)) (n * 2 ^ (52 - binade (n : ℚ)).toNat)
      hx (by omega) s1 s2 (by rw [hq]; linarith) (by rw [hq]; linarith)
      (by
        rw [hval]
        exact lt_trans hbig
          ((zpow_lt_zpow_iff_right₀ (by norm_num : (1 : ℚ) < 2)).mpr (by norm_num)))
    rw [h, hval]

/-- A normal result is within half a unit in the last place: a relative error of at most
`2^(-53)`. -/
theorem roundToDouble_error (x r : ℚ) (hx : (2 : ℚ) ^ (-1022 : Int) ≤ x)
    (h : roundToDouble x = some r) : |r - x| ≤ x * (2 : ℚ) ^ (-53 : Int) := by
  have hpos : 0 < x := lt_of_lt_of_le (two_zpow_pos _) hx
  obtain ⟨s1, s2⟩ := binade_spec x hpos
  have he : (-1022 : Int) ≤ binade x := by
    have : (-1022 : Int) < binade x + 1 :=
      (zpow_lt_zpow_iff_right₀ (by norm_num : (1 : ℚ) < 2)).mp (lt_of_le_of_lt hx s2)
    omega
  unfold roundToDouble at h
  rw [if_neg (ne_of_gt hpos), abs_of_pos hpos] at h
  split_ifs at h with c1 c2
  · exact absurd c2 (not_lt.mpr (le_of_lt hpos))
  · simp only [Option.some.injEq] at h
    subst h
    unfold roundMagnitude
    rw [max_eq_left he]
    have hu : (0 : ℚ) < (2 : ℚ) ^ (binade x - 52) := two_zpow_pos _
    have hq : 0 ≤ x / (2 : ℚ) ^ (binade x - 52) := le_of_lt (div_pos hpos hu)
    have hr := roundHalfEven_near _ hq
    have e1 : (roundHalfEven (x / (2 : ℚ) ^ (binade x - 52)) : ℚ) * (2 : ℚ) ^ (binade x - 52) - x
        = ((roundHalfEven (x / (2 : ℚ) ^ (binade x - 52)) : ℚ)
            - x / (2 : ℚ) ^ (binade x - 52)) * (2 : ℚ) ^ (binade x - 52) := by
      rw [sub_mul, div_mul_cancel₀ _ (ne_of_gt hu)]
    rw [e1, abs_mul, abs_of_pos hu]
    have e2 : (2 : ℚ) ^ (binade x - 52) = (2 : ℚ) ^ (binade x) * (2 : ℚ) ^ (-52 : Int) := by
      rw [two_zpow_add]
      congr 1
    have e3 : (2 : ℚ) ^ (-53 : Int) = (1 / 2) * (2 : ℚ) ^ (-52 : Int) := by norm_num
    calc |(roundHalfEven (x / (2 : ℚ) ^ (binade x - 52)) : ℚ)
            - x / (2 : ℚ) ^ (binade x - 52)| * (2 : ℚ) ^ (binade x - 52)
        ≤ (1 / 2) * (2 : ℚ) ^ (binade x - 52) := mul_le_mul_of_nonneg_right hr (le_of_lt hu)
      _ = (2 : ℚ) ^ (binade x) * ((1 / 2) * (2 : ℚ) ^ (-52 : Int)) := by rw [e2]; ring
      _ ≤ x * ((1 / 2) * (2 : ℚ) ^ (-52 : Int)) :=
          mul_le_mul_of_nonneg_right s1 (by positivity)
      _ = x * (2 : ℚ) ^ (-53 : Int) := by rw [e3]

theorem roundToDouble_factor :
    roundToDouble (113 / 100) = some (1272266894732165 / 1125899906842624) := by
  have h := roundToDouble_eq (113 / 100) 0 5089067578928660 (by norm_num) (by norm_num)
    (by norm_num) (by norm_num) (by norm_num) (by norm_num) (by norm_num)
  rw [h]
  norm_num

theorem doubleToUnsigned_natCast (n : Nat) (hn : n < 4294967296) :
    doubleToUnsigned (n : ℚ) = some n := by
  unfold doubleToUnsigned
  have h1 : (-1 : ℚ) < (n : ℚ) := lt_of_lt_of_le (by norm_num) (Nat.cast_nonneg n)
  have h2 : (n : ℚ) < 4294967296 := by exact_mod_cast hn
  rw [if_pos ⟨h1, h2⟩, Nat.floor_natCast]

theorem unsigned_round_trip (n : Nat) (hn : n < 4294967296) :
    (roundToDouble (n : ℚ)).bind doubleToUnsigned = some n := by
  rw [roundToDouble_natCast n (by omega)]
  exact doubleToUnsigned_natCast n hn

theorem orderLoop_range (u : Nat) (table : List (Nat × Nat))
    (h : ∀ row ∈ table, 24 ≤ row.2 ∧ row.2 ≤ 1250) :
    24 ≤ orderLoop u table ∧ orderLoop u table ≤ 1250 := by
  induction table with
  | nil =>
    unfold orderLoop
    omega
  | cons row rest ih =>
    unfold orderLoop
    split_ifs
    · exact h row (List.mem_cons_self _ _)
    · exact ih (fun r hr => h r (List.mem_cons_of_mem _ hr))

theorem setChebyshevOrder_range (u : Nat) :
    24 ≤ setChebyshevOrder u ∧ setChebyshevOrder u ≤ 1250 :=
  orderLoop_range u order_lookup (by decide)

theorem nominalChebyshevOrder_range (configuredOrder : Nat) (upperBound : ℚ) (m : Nat)
    (hm : configuredOrder < 4294967296)
    (h : nominalChebyshevOrder configuredOrder upperBound = some m) :
    1 ≤ m ∧ m < 4294967296 := by
  unfold nominalChebyshevOrder at h
  split_ifs at h with h0
  · rw [Option.map_eq_some'] at h
    obtain ⟨u, -, hu⟩ := h
    have := setChebyshevOrder_range u
    omega
  · simp only [Option.some.injEq] at h
    omega

theorem firstScf_product_500 :
    roundToDouble (((500 : Nat) : ℚ) * (1272266894732165 / 1125899906842624)) = some 565 := by
  have h := roundToDouble_eq (((500 : Nat) : ℚ) * (1272266894732165 / 1125899906842624)) 9
    4969792557547520 (by norm_num) (by norm_num) (by norm_num) (by norm_num) (by norm_num)
    (by norm_num) (by norm_num)
  rw [h]
  norm_num

theorem firstScf_product_300 :
    roundToDouble (((300 : Nat) : ℚ) * (1272266894732165 / 1125899906842624))
      = some (5963751069057023 / 17592186044416) := by
  have h := roundToDouble_eq (((300 : Nat) : ℚ) * (1272266894732165 / 1125899906842624)) 8
    5963751069057023 (by norm_num) (by norm_num) (by norm_num) (by norm_num) (by norm_num)
    (by norm_num) (by norm_num)
  rw [h]
  norm_num

theorem firstScf_truncation_300 :
    doubleToUnsigned (5963751069057023 / 17592186044416) = some 338 := by
  unfold doubleToUnsigned
  rw [if_pos (by norm_num)]
  have h : ⌊(5963751069057023 / 17592186044416 : ℚ)⌋₊ = 338 :=
    (Nat.floor_eq_iff (by norm_num)).mpr ⟨by norm_num, by norm_num⟩
  rw [h]

/-- C19, as stated, fails: in an all-electron calculation (`isPseudopotential` false) with
configured degree 10 and scaling factor 2 the first SCF iteration filters with degree 10,
not 20. -/
theorem first_scf_not_scaled :
    solveChebyshevOrder 10 0 true false 2 = some 10 ∧
    solveChebyshevOrder 10 0 true false 2
      ≠ (nominalChebyshevOrder 10 0).map (fun m => m * 2) := by
  have h2 : nominalChebyshevOrder 10 0 = some 10 := by
    simp [nominalChebyshevOrder]
  have h : solveChebyshevOrder 10 0 true false 2 = some 10 := by
    unfold solveChebyshevOrder
    rw [h2]
    exact unsigned_round_trip 10 (by norm_num)
  rw [h, h2]
  exact ⟨rfl, by decide⟩

/-- C19, amended: with `dftParameters::chebyshevOrder` an `unsigned int`, the nominal
degree `m` is the configured one, or the one looked up for the upper bound converted to
`unsigned int` when the configured one is 0 (no degree is defined when that conversion is
not). The degree used for filtering is `m` unless `isFirstScf` and `isPseudopotential`
both hold; in that case it is the `double` product of `m` and the scaling factor truncated
to `unsigned int` (undefined when the truncated product is not representable): this is
`m * k` for a whole-number factor `k` with `m * k < 2^32`, and in general the integer part
of a `double` `p` that differs from `m * f`, `f` being the factor as a `double`, by a
relative error of at most `2^(-53)`, which can fall below a whole-number exact product. -/
theorem solveChebyshevOrder_first_scf (configuredOrder : Nat) (upperBound : ℚ)
    (isFirstScf isPseudopotential : Bool) (factor : ℚ)
    (hm : configuredOrder < 4294967296) :
    (configuredOrder ≠ 0 →
      nominalChebyshevOrder configuredOrder upperBound = some configuredOrder) ∧
    (configuredOrder = 0 → nominalChebyshevOrder configuredOrder upperBound
      = ((roundToDouble upperBound).bind doubleToUnsigned).map setChebyshevOrder) ∧
    (nominalChebyshevOrder configuredOrder upperBound = none →
      solveChebyshevOrder configuredOrder upperBound isFirstScf isPseudopotential factor
        = none) ∧
    ∀ m, nominalChebyshevOrder configuredOrder upperBound = some m →
      1 ≤ m ∧ m < 4294967296 ∧
      ((isFirstScf = false ∨ isPseudopotential = false) →
        solveChebyshevOrder configuredOrder upperBound isFirstScf isPseudopotential factor
          = some m) ∧
      (isFirstScf = true → isPseudopotential = true →
        solveChebyshevOrder configuredOrder upperBound isFirstScf isPseudopotential factor
          = ((roundToDouble factor).bind
              (fun f => roundToDouble ((m : ℚ) * f))).bind doubleToUnsigned ∧
        (∀ k : Nat, factor = (k : ℚ) → m * k < 4294967296 →
          solveChebyshevOrder configuredOrder upperBound isFirstScf isPseudopotential factor
            = some (m * k)) ∧
        (∀ d, solveChebyshevOrder configuredOrder upperBound isFirstScf isPseudopotential
            factor = some d →
          ∃ f p, roundToDouble factor = some f ∧ roundToDouble ((m : ℚ) * f) = some p ∧
            -1 < p ∧ p < 4294967296 ∧ d = ⌊p⌋₊ ∧
            ((2 : ℚ) ^ (-1022 : Int) ≤ factor →
              |f - factor| ≤ factor * (2 : ℚ) ^ (-53 : Int)) ∧
            ((2 : ℚ) ^ (-1022 : Int) ≤ (m : ℚ) * f →
              |p - (m : ℚ) * f| ≤ (m : ℚ) * f * (2 : ℚ) ^ (-53 : Int)))) := by
  refine ⟨?_, ?_, ?_, ?_⟩
  · intro h
    unfold nominalChebyshevOrder
    rw [if_neg h]
  · intro h
    unfold nominalChebyshevOrder
    rw [if_pos h]
  · intro h
    unfold solveChebyshevOrder
    rw [h]
  · intro m hnom
    obtain ⟨m1, m2⟩ := nominalChebyshevOrder_range configuredOrder upperBound m hm hnom
    refine ⟨m1, m2, ?_, ?_⟩
    · intro h
      have hc : (isFirstScf && isPseudopotential) = false := by
        rcases h with h | h <;> rw [h] <;> simp
      unfold solveChebyshevOrder
      rw [hnom]
      simp only [hc, Bool.false_eq_true, if_false]
      exact unsigned_round_trip m m2
    · intro h1 h2
      have hval : solveChebyshevOrder configuredOrder upperBound isFirstScf isPseudopotential
          factor = ((roundToDouble factor).bind
              (fun f => roundToDouble ((m : ℚ) * f))).bind doubleToUnsigned := by
        unfold solveChebyshevOrder
        rw [hnom, h1, h2]
        simp
      refine ⟨hval, ?_, ?_⟩
      · intro k hk hmk
        have hk2 : k < 4294967296 := by
          rcases Nat.eq_zero_or_pos k with h0 | h0
          · omega
          · calc k ≤ m * k := Nat.le_mul_of_pos_left k m1
              _ < 4294967296 := hmk
        rw [hval, hk, roundToDouble_natCast k (by omega)]
        have e : ((m : ℚ) * (k : ℚ)) = ((m * k : Nat) : ℚ) := by push_cast; rfl
        show (roundToDouble ((m : ℚ) * (k : ℚ))).bind doubleToUnsigned = some (m * k)
        rw [e]
        exact unsigned_round_trip (m * k) hmk
      · intro d hd
        rw [hval] at hd
        rw [Option.bind_eq_some] at hd
        obtain ⟨p, hp, hd⟩ := hd
        rw [Option.bind_eq_some] at hp
        obtain ⟨f, hf, hp⟩ := hp
        refine ⟨f, p, hf, hp, ?_⟩
        unfold doubleToUnsigned at hd
        split_ifs at hd with hc
        simp only [Option.some.injEq] at hd
        exact ⟨hc.1, hc.2, hd.symm, fun hx => roundToDouble_error factor f hx hf,
          fun hx => roundToDouble_error _ p hx hp⟩

/-- Witness for C19 (amended): a pseudopotential calculation filters the first SCF
iteration with degree 20 for the configured degree 10 and the factor 2, with degree 565
for the degree 500 and the factor 1.13, and with degree 338, not 339, for the degree 300
and the factor 1.13. -/
theorem solveChebyshevOrder_first_scf_witness :
    solveChebyshevOrder 10 0 true true 2 = some 20 ∧
    solveChebyshevOrder 500 0 true true (113 / 100) = some 565 ∧
    solveChebyshevOrder 300 0 true true (113 / 100) = some 338 := by
  refine ⟨?_, ?_, ?_⟩
  · exact (((solveChebyshevOrder_first_scf 10 0 true true 2 (by norm_num)).2.2.2 10
      (by simp [nominalChebyshevOrder])).2.2.2 rfl rfl).2.1 2 (by norm_num) (by norm_num)
  · rw [(((solveChebyshevOrder_first_scf 500 0 true true (113 / 100) (by norm_num)).2.2.2 500
      (by simp [nominalChebyshevOrder])).2.2.2 rfl rfl).1, roundToDouble_factor]
    rw [Option.some_bind, firstScf_product_500, Option.some_bind]
    exact doubleToUnsigned_natCast 565 (by norm_num)
  · rw [(((solveChebyshevOrder_first_scf 300 0 true true (113 / 100) (by norm_num)).2.2.2 300
      (by simp [nominalChebyshevOrder])).2.2.2 rfl rfl).1, roundToDouble_factor]
    rw [Option.some_bind, firstScf_product_300, Option.some_bind]
    exact firstScf_truncation_300

/-! ## The orthogonalization fallback -/

/-- C14, as stated, fails: when pseudo-Gram-Schmidt fails and the Gram-Schmidt fallback
fails too, the driver has called these two routines and nothing else; Lowdin
orthogonalization is not run. -/
theorem no_lowdin_fallback :
    (failingOrthoLib.pseudoGramSchmidtOrthogonalization ()).1 = 1 ∧
    (failingOrthoLib.gramSchmidtOrthogonalization ()).1 = 1 ∧
    (orthogonalize failingOrthoLib "PGS" ()).2
      = [OrthoCall.pseudoGramSchmidtOrthogonalization, OrthoCall.gramSchmidtOrthogonalization] ∧
    OrthoCall.lowdenOrthogonalization ∉ (orthogonalize failingOrthoLib "PGS" ()).2 := by
  have h : (orthogonalize failingOrthoLib "PGS" ()).2
      = [OrthoCall.pseudoGramSchmidtOrthogonalization,
          OrthoCall.gramSchmidtOrthogonalization] := by
    unfold orthogonalize
    rw [if_neg (by decide), if_pos rfl]
    rfl
  rw [h]
  exact ⟨rfl, rfl, rfl, by decide⟩

/-- C14, amended: with `orthogType = PGS` the driver calls
`pseudoGramSchmidtOrthogonalization` first; when it reports failure (flag 1) the driver
then calls `gramSchmidtOrthogonalization` once and keeps its result whatever flag that
call returns, and when it succeeds no fallback runs. Lowdin orthogonalization is never
called. -/
theorem orthogonalize_pgs {σ : Type} (lib : OrthoLib σ) (x : σ) :
    ((lib.pseudoGramSchmidtOrthogonalization x).1 = 1 →
      orthogonalize lib "PGS" x
        = ((lib.gramSchmidtOrthogonalization (lib.pseudoGramSchmidtOrthogonalization x).2).2,
          [OrthoCall.pseudoGramSchmidtOrthogonalization,
            OrthoCall.gramSchmidtOrthogonalization])) ∧
    ((lib.pseudoGramSchmidtOrthogonalization x).1 ≠ 1 →
      orthogonalize lib "PGS" x
        = ((lib.pseudoGramSchmidtOrthogonalization x).2,
          [OrthoCall.pseudoGramSchmidtOrthogonalization])) ∧
    OrthoCall.lowdenOrthogonalization ∉ (orthogonalize lib "PGS" x).2 := by
  have hne : ¬ ("PGS" : String) = "LW" := by decide
  by_cases h : (lib.pseudoGramSchmidtOrthogonalization x).1 = 1
  · have hv : orthogonalize lib "PGS" x
        = ((lib.gramSchmidtOrthogonalization (lib.pseudoGramSchmidtOrthogonalization x).2).2,
          [OrthoCall.pseudoGramSchmidtOrthogonalization,
            OrthoCall.gramSchmidtOrthogonalization]) := by
      unfold orthogonalize
      rw [if_neg hne, if_pos rfl]
      dsimp only
      rw [if_pos h]
    rw [hv]
    refine ⟨fun _ => rfl, fun hn => absurd h hn, ?_⟩
    show OrthoCall.lowdenOrthogonalization ∉ [OrthoCall.pseudoGramSchmidtOrthogonalization,
      OrthoCall.gramSchmidtOrthogonalization]
    decide
  · have hv : orthogonalize lib "PGS" x
        = ((lib.pseudoGramSchmidtOrthogonalization x).2,
          [OrthoCall.pseudoGramSchmidtOrthogonalization]) := by
      unfold orthogonalize
      rw [if_neg hne, if_pos rfl]
      dsimp only
      rw [if_neg h]
    rw [hv]
    refine ⟨fun hy => absurd hy h, fun _ => rfl, ?_⟩
    show OrthoCall.lowdenOrthogonalization ∉ [OrthoCall.pseudoGramSchmidtOrthogonalization]
    decide

/-- Witness for C14: the routines that all fail. -/
theorem orthogonalize_pgs_witness :
    orthogonalize failingOrthoLib "PGS" ()
      = ((failingOrthoLib.gramSchmidtOrthogonalization
            (failingOrthoLib.pseudoGramSchmidtOrthogonalization ()).2).2,
          [OrthoCall.pseudoGramSchmidtOrthogonalization,
            OrthoCall.gramSchmidtOrthogonalization]) :=
  (orthogonalize_pgs failingOrthoLib ()).1 rfl

/-! ## Nested loops of point-wise writes -/

theorem forLoop_congr {σ : Type} (body body2 : Nat → σ → σ) (n : Nat) (s0 : σ)
    (h : ∀ t s, t < n → body t s = body2 t s) : forLoop body n s0 = forLoop body2 n s0 := by
  induction n with
  | zero => rfl
  | succ k ih =>
    rw [forLoop_succ, forLoop_succ, ih (fun t s ht => h t s (Nat.lt_succ_of_lt ht)),
      h k _ (Nat.lt_succ_self k)]

theorem forLoop_id {σ : Type} (n : Nat) (s0 : σ) : forLoop (fun _ s => s) n s0 = s0 := by
  induction n with
  | zero => rfl
  | succ k ih => rw [forLoop_succ, ih]

/-- A loop whose step `t` writes at most the element `key t`. -/
theorem forLoop_writes (body : Nat → Buf → Buf) (n : Nat) (key : Nat → Nat)
    (val : Nat → Option ℚ)
    (hbody : ∀ t s x, t < n → body t s x = if x = key t then (val t).getD (s x) else s x)
    (hinj : ∀ t t2, t < n → t2 < n → key t = key t2 → t = t2) :
    (∀ s0 t, t < n → forLoop body n s0 (key t) = (val t).getD (s0 (key t))) ∧
    (∀ s0 x, (∀ t, t < n → x ≠ key t) → forLoop body n s0 x = s0 x) := by
  refine ⟨fun s0 t ht => ?_, fun s0 x hx => ?_⟩
  · obtain ⟨_, h2⟩ := forLoop_at body n (key t) (fun u => key t = key u)
      (fun u v => (val u).getD v)
      (fun u s hu hP => by rw [hbody u s _ hu, if_neg hP])
      (fun u s hu hP => by rw [hbody u s _ hu, if_pos hP])
    have := h2 s0 t ht rfl (fun u hu hne hP => hne (hinj u t hu ht hP.symm))
    exact this
  · obtain ⟨h1, _⟩ := forLoop_at body n x (fun u => x = key u)
      (fun u v => (val u).getD v)
      (fun u s hu hP => by rw [hbody u s _ hu, if_neg hP])
      (fun u s hu hP => by rw [hbody u s _ hu, if_pos hP])
    exact h1 s0 (fun u hu => hx u hu)

/-- Two nested loops whose step `(i, j)` writes at most the element `key i j`. -/
theorem forLoop_writes2 (inner : Nat → Nat → Buf → Buf) (n m : Nat) (key : Nat → Nat → Nat)
    (val : Nat → Nat → Option ℚ)
    (hbody : ∀ i j s x, i < n → j < m →
      inner i j s x = if x = key i j then (val i j).getD (s x) else s x)
    (hinj : ∀ i j i2 j2, i < n → j < m → i2 < n → j2 < m → key i j = key i2 j2 →
      i = i2 ∧ j = j2) :
    (∀ s0 i j, i < n → j < m →
      forLoop (fun i s => forLoop (inner i) m s) n s0 (key i j)
        = (val i j).getD (s0 (key i j))) ∧
    (∀ s0 x, (∀ i j, i < n → j < m → x ≠ key i j) →
      forLoop (fun i s => forLoop (inner i) m s) n s0 x = s0 x) := by
  have hin : ∀ i, i < n →
      (∀ s0 j, j < m → forLoop (inner i) m s0 (key i j) = (val i j).getD (s0 (key i j))) ∧
      (∀ s0 x, (∀ j, j < m → x ≠ key i j) → forLoop (inner i) m s0 x = s0 x) :=
    fun i hi => forLoop_writes (inner i) m (key i) (val i)
      (fun j s x hj => hbody i j s x hi hj)
      (fun j j2 hj hj2 he => (hinj i j i j2 hi hj hi hj2 he).2)
  refine ⟨fun s0 i j hi hj => ?_, fun s0 x hx => ?_⟩
  · obtain ⟨_, h2⟩ := forLoop_at (fun i s => forLoop (inner i) m s) n (key i j)
      (fun u => u = i) (fun _ v => (val i j).getD v)
      (fun u s hu hP => (hin u hu).2 s _
        (fun j2 hj2 he => hP (hinj i j u j2 hi hj hu hj2 he).1.symm))
      (fun u s hu hP => by
        subst hP
        exact (hin u hu).1 s j hj)
    exact h2 s0 i hi rfl (fun u _ hne hP => hne hP)
  · obtain ⟨h1, _⟩ := forLoop_at (fun i s => forLoop (inner i) m s) n x
      (fun _ => False) (fun _ v => v)
      (fun u s hu _ => (hin u hu).2 s x (fun j hj => hx u j hu hj))
      (fun u s _ hP => absurd hP id)
    exact h1 s0 (fun _ _ h => h)

theorem stridedLoop_done {σ : Type} (n stride : Nat) (body : Nat → σ → σ)
    (fuel start : Nat) (s : σ) (h : n ≤ start) :
    stridedLoop n stride body fuel start s = some s := by
  unfold stridedLoop
  rw [if_neg (by omega)]

theorem mpiMax_ge (n : Nat) (value : Nat → Nat) (p : Nat) (hp : p < n) :
    value p ≤ mpiMax n value := by
  unfold mpiMax
  induction n with
  | zero => omega
  | succ k ih =>
    rw [forLoop_succ]
    by_cases h : p = k
    · subst h
      exact Nat.le_max_right _ _
    · exact le_trans (ih (by omega)) (Nat.le_max_left _ _)

theorem mpiMax_le (n : Nat) (value : Nat → Nat) (b : Nat) (h : ∀ p, p < n → value p ≤ b) :
    mpiMax n value ≤ b := by
  unfold mpiMax
  induction n with
  | zero => exact Nat.zero_le _
  | succ k ih =>
    rw [forLoop_succ]
    exact Nat.max_le.mpr ⟨ih (fun p hp => h p (Nat.lt_succ_of_lt hp)), h k (Nat.lt_succ_self k)⟩

/-! ## The panel of the rotation matrix -/

theorem panel_index_inj (m i j i2 j2 : Nat) (hj : j < m) (hj2 : j2 < m)
    (h : i * m + j = i2 * m + j2) : i = i2 ∧ j = j2 := by
  have := index_inj m j i j2 i2 hj hj2 (by omega)
  exact ⟨this.2, this.1⟩

theorem panel_index_lt (D m i j : Nat) (hi : i < D) (hj : j < m) : i * m + j < m * D := by
  have h : (i + 1) * m ≤ D * m := Nat.mul_le_mul_right _ hi
  rw [Nat.add_mul, Nat.one_mul, Nat.mul_comm D m] at h
  omega

theorem gatherLoop_apply (D BVec : Nat) (f g : Nat → Option Nat) (el : Nat → Nat → ℚ)
    (init : Buf) (i j : Nat) (hi : i < D) (hj : j < BVec) :
    forLoop (fun i blk =>
        match f i with
        | none => blk
        | some a =>
          forLoop (fun j blk =>
            match g j with
            | none => blk
            | some b => Function.update blk (i * BVec + j) (el a b)) BVec blk) D init
        (i * BVec + j)
      = match f i, g j with
        | some a, some b => el a b
        | _, _ => init (i * BVec + j) := by
  have hform : forLoop (fun i blk =>
        match f i with
        | none => blk
        | some a =>
          forLoop (fun j blk =>
            match g j with
            | none => blk
            | some b => Function.update blk (i * BVec + j) (el a b)) BVec blk) D init
      = forLoop (fun i s => forLoop (fun j blk =>
          match f i, g j with
          | some a, some b => Function.update blk (i * BVec + j) (el a b)
          | _, _ => blk) BVec s) D init := by
    apply forLoop_congr
    intro t s _
    cases hf : f t with
    | none =>
      dsimp only
      rw [forLoop_id]
    | some a =>
      dsimp only
      apply forLoop_congr
      intro u v _
      cases hg : g u <;> rfl
  rw [hform]
  obtain ⟨h1, _⟩ := forLoop_writes2 (fun i j blk =>
      match f i, g j with
      | some a, some b => Function.update blk (i * BVec + j) (el a b)
      | _, _ => blk) D BVec (fun i j => i * BVec + j)
    (fun i j => match f i, g j with
      | some a, some b => some (el a b)
      | _, _ => none)
    (by
      intro i j s x _ _
      dsimp only
      cases hf : f i with
      | none =>
        dsimp only
        split_ifs <;> rfl
      | some a =>
        cases hg : g j with
        | none =>
          dsimp only
          split_ifs <;> rfl
        | some b =>
          dsimp only
          rw [Function.update_apply]
          split_ifs <;> rfl)
    (fun i j i2 j2 _ hj _ hj2 he => panel_index_inj BVec i j i2 j2 hj hj2 he)
  rw [h1 init i j hi hj]
  cases hf : f i with
  | none => rfl
  | some a =>
    cases hg : g j <;> rfl

theorem rotationGather_apply (rotationMatTranspose : Bool) (D BVec jvec : Nat) (d : RankData)
    (i j : Nat) (hi : i < D) (hj : j < BVec) :
    rotationGather rotationMatTranspose d.processActive D BVec jvec d.rowMap d.colMap d.mat
        (fun _ => 0) (i * BVec + j)
      = if rotationMatTranspose then ownedEntry d i (j + jvec)
        else ownedEntry d (j + jvec) i := by
  unfold rotationGather
  cases hact : d.processActive with
  | false =>
    have h1 := fun x => (rankMaps_inactive d hact x).1
    have h2 := fun x => (rankMaps_inactive d hact x).2
    unfold ownedEntry
    cases rotationMatTranspose <;> simp [h1, h2]
  | true =>
    cases rotationMatTranspose with
    | true =>
      simp only [if_true]
      rw [gatherLoop_apply D BVec d.rowMap (fun j => d.colMap (j + jvec))
        (fun a b => d.mat.local_el a b) (fun _ => 0) i j hi hj]
      unfold ownedEntry
      rfl
    | false =>
      simp only [Bool.false_eq_true, if_false, if_true]
      rw [gatherLoop_apply D BVec d.colMap (fun j => d.rowMap (j + jvec))
        (fun a b => d.mat.local_el b a) (fun _ => 0) i j hi hj]
      unfold ownedEntry
      cases d.colMap i <;> cases d.rowMap (j + jvec) <;> rfl

theorem rotationPanel_apply (rotationMatTranspose : Bool) (P D BVec jvec : Nat)
    (ranks : Nat → RankData) (q i j : Nat) (hi : i < D) (hj : j < BVec) :
    mpiAllreduceSum P (BVec * D) (fun p =>
        rotationGather rotationMatTranspose (ranks p).processActive D BVec jvec
          (ranks p).rowMap (ranks p).colMap (ranks p).mat (fun _ => 0)) q (i * BVec + j)
      = rotationEntry rotationMatTranspose P ranks (j + jvec) i := by
  unfold mpiAllreduceSum
  rw [if_pos (panel_index_lt D BVec i j hi hj)]
  unfold rotationEntry globalEntry
  cases rotationMatTranspose with
  | true =>
    simp only [if_true]
    exact Finset.sum_congr rfl (fun p _ => by
      rw [rotationGather_apply true D BVec jvec (ranks p) i j hi hj]
      rfl)
  | false =>
    simp only [Bool.false_eq_true, if_false]
    exact Finset.sum_congr rfl (fun p _ => by
      rw [rotationGather_apply false D BVec jvec (ranks p) i j hi hj]
      rfl)

/-! ## One vector block of the rotation -/

theorem rotationVectorStep_vectors (env : ParallelEnv) (N vbs dbs idof : Nat)
    (ranks : Nat → RankData) (g : Nat) (tr tria : Bool) (jvec : Nat) (st : RotationState) :
    (rotationVectorStep env N vbs dbs idof ranks g tr tria jvec st).subspaceVectorsArray
      = st.subspaceVectorsArray := by
  unfold rotationVectorStep
  dsimp only
  split_ifs <;> rfl

theorem rotationVectorStep_rotated (env : ParallelEnv) (N vbs dbs idof : Nat)
    (ranks : Nat → RankData) (g : Nat) (tr tria : Bool) (jvec : Nat) (st : RotationState)
    (p d c : Nat) (hc : c < N)
    (hd : d < blockDofs dbs ((ranks p).subspaceVectorsArrayLocalSize / N) idof) :
    (rotationVectorStep env N vbs dbs idof ranks g tr tria jvec st).rotatedVectorsMatBlock p
        (d * N + c)
      = if bandOwns env g (jvec + min vbs (N - jvec)) ∧ jvec ≤ c ∧
            c < jvec + min vbs (N - jvec) then
          ∑ l ∈ Finset.range (if tria then jvec + min vbs (N - jvec) else N),
            rotationEntry tr env.numberDomainRanks ranks c l
              * st.subspaceVectorsArray p ((idof + d) * N + l)
        else st.rotatedVectorsMatBlock p (d * N + c) := by
  unfold rotationVectorStep
  dsimp only
  by_cases hown : bandOwns env g (jvec + min vbs (N - jvec))
  · rw [if_pos hown]
    dsimp only
    have hB : (if (ranks p).subspaceVectorsArrayLocalSize / N ≥ idof then
        min dbs ((ranks p).subspaceVectorsArrayLocalSize / N - idof) else 0) ≠ 0 := by
      unfold blockDofs at hd
      omega
    rw [if_pos hB]
    rw [dgemm_apply _ _ _ _ _ _ _ _ _ _ _ _ _ _ _ _ (Nat.le_trans (Nat.min_le_right _ _)
      (Nat.sub_le _ _))]
    have hNN : ('N' : Char) = 'N' := rfl
    simp only [hNN, if_true, hown, true_and]
    by_cases hin : jvec ≤ c ∧ c < jvec + min vbs (N - jvec)
    · obtain ⟨h1, h2⟩ := hin
      have e : d * N + c - jvec = d * N + (c - jvec) := by omega
      obtain ⟨e1, e2⟩ := block_index N d (c - jvec) (by omega)
      have hcond : jvec ≤ d * N + c ∧ c - jvec < min vbs (N - jvec) ∧
          d < (if (ranks p).subspaceVectorsArrayLocalSize / N ≥ idof then
            min dbs ((ranks p).subspaceVectorsArrayLocalSize / N - idof) else 0) :=
        ⟨by omega, by omega, hd⟩
      have hin2 : jvec ≤ c ∧ c < jvec + min vbs (N - jvec) := ⟨h1, h2⟩
      rw [e, e1, e2, if_pos hcond, if_pos hin2]
      rw [one_mul, zero_mul, add_zero]
      refine Finset.sum_congr rfl (fun l hl => ?_)
      have hl2 := Finset.mem_range.mp hl
      have a1 : 0 + (c - jvec) + l * min vbs (N - jvec) = l * min vbs (N - jvec) + (c - jvec) := by
        omega
      have a2 : idof * N + l + d * N = (idof + d) * N + l := by
        rw [Nat.add_mul]
        omega
      rw [a1, a2, rotationPanel_apply tr env.numberDomainRanks _ _ jvec ranks p l (c - jvec)
        hl2 (by omega)]
      have a3 : c - jvec + jvec = c := by omega
      rw [a3]
    · rw [if_neg hin, if_neg]
      rintro ⟨c1, c2, _⟩
      apply hin
      by_cases hlow : jvec ≤ c
      · have e : d * N + c - jvec = d * N + (c - jvec) := by omega
        obtain ⟨e1, _⟩ := block_index N d (c - jvec) (by omega)
        rw [e, e1] at c2
        omega
      · exfalso
        have hd1 : 1 ≤ d := by
          by_contra h0
          have : d = 0 := by omega
          subst this
          omega
        have hmul : d * N = (d - 1) * N + N := by
          have : d = (d - 1) + 1 := by omega
          nth_rewrite 1 [this]
          rw [Nat.add_mul, Nat.one_mul]
        have e : d * N + c - jvec = (d - 1) * N + (N + c - jvec) := by omega
        obtain ⟨e1, _⟩ := block_index N (d - 1) (N + c - jvec) (by omega)
        rw [e, e1] at c2
        have : min vbs (N - jvec) ≤ N - jvec := Nat.min_le_right _ _
        omega
  · rw [if_neg hown, if_neg (fun h => hown h.1)]

theorem rotationVectorStep_invariant (env : ParallelEnv) (N vbs dbs idof : Nat)
    (ranks : Nat → RankData) (g : Nat) (tr tria : Bool) (jvec : Nat) (st : RotationState)
    (X0 : Nat → Buf) (hd : vbs ∣ jvec) (hX : st.subspaceVectorsArray = X0)
    (hI : ∀ p d c, c < N → d < blockDofs dbs ((ranks p).subspaceVectorsArrayLocalSize / N) idof →
      st.rotatedVectorsMatBlock p (d * N + c)
        = if c < jvec then rotatedValue env N vbs ranks g tr tria (X0 p) (idof + d) c else 0)
    (p d c : Nat) (hc : c < N)
    (hdd : d < blockDofs dbs ((ranks p).subspaceVectorsArrayLocalSize / N) idof) :
    (rotationVectorStep env N vbs dbs idof ranks g tr tria jvec st).rotatedVectorsMatBlock p
        (d * N + c)
      = if c < jvec + vbs then rotatedValue env N vbs ranks g tr tria (X0 p) (idof + d) c
        else 0 := by
  rw [rotationVectorStep_rotated env N vbs dbs idof ranks g tr tria jvec st p d c hc hdd,
    hI p d c hc hdd, hX]
  by_cases hlow : c < jvec
  · rw [if_neg (fun h => by omega), if_pos hlow, if_pos (by omega)]
  · rw [if_neg hlow]
    by_cases hhigh : c < jvec + vbs
    · rw [if_pos hhigh]
      have hend := columnBlockEnd_of_block N vbs jvec c hd (by omega) hhigh
      have hcB : c < jvec + min vbs (N - jvec) := by
        have : c - jvec < min vbs (N - jvec) := by
          rw [Nat.lt_min]
          constructor <;> omega
        omega
      unfold rotatedValue rotationDepth
      rw [hend]
      by_cases hown : bandOwns env g (jvec + min vbs (N - jvec))
      · rw [if_pos ⟨hown, by omega, hcB⟩, if_pos hown]
      · rw [if_neg (fun h => hown h.1), if_neg hown]
    · rw [if_neg hhigh, if_neg]
      intro h
      have : min vbs (N - jvec) ≤ vbs := Nat.min_le_left _ _
      omega

theorem rotationVectorLoop (env : ParallelEnv) (N vbs dbs idof : Nat)
    (ranks : Nat → RankData) (g : Nat) (tr tria : Bool) (fuel : Nat) (st0 : RotationState)
    (hbs : 1 ≤ vbs) (hfuel : N ≤ fuel) (hz : st0.rotatedVectorsMatBlock = fun _ _ => 0) :
    ∃ st, stridedLoop N vbs (rotationVectorStep env N vbs dbs idof ranks g tr tria) fuel 0 st0
        = some st ∧
      st.subspaceVectorsArray = st0.subspaceVectorsArray ∧
      ∀ p d c, c < N → d < blockDofs dbs ((ranks p).subspaceVectorsArrayLocalSize / N) idof →
        st.rotatedVectorsMatBlock p (d * N + c)
          = rotatedValue env N vbs ranks g tr tria (st0.subspaceVectorsArray p) (idof + d) c := by
  obtain ⟨t, i, hrun, hle, hdiv, hX, hI⟩ := stridedLoop_invariant N vbs
    (rotationVectorStep env N vbs dbs idof ranks g tr tria)
    (fun jvec st => vbs ∣ jvec ∧ st.subspaceVectorsArray = st0.subspaceVectorsArray ∧
      ∀ p d c, c < N → d < blockDofs dbs ((ranks p).subspaceVectorsArrayLocalSize / N) idof →
        st.rotatedVectorsMatBlock p (d * N + c)
          = if c < jvec then
              rotatedValue env N vbs ranks g tr tria (st0.subspaceVectorsArray p) (idof + d) c
            else 0)
    hbs
    (fun jvec st _ h => ⟨Dvd.dvd.add h.1 (dvd_refl _),
      (rotationVectorStep_vectors env N vbs dbs idof ranks g tr tria jvec st).trans h.2.1,
      rotationVectorStep_invariant env N vbs dbs idof ranks g tr tria jvec st
        st0.subspaceVectorsArray h.1 h.2.1 h.2.2⟩)
    fuel 0 st0 (by omega)
    ⟨dvd_zero _, rfl, fun p d c _ _ => by
      rw [hz, if_neg (Nat.not_lt_zero _)]⟩
  refine ⟨t, hrun, hX, fun p d c hc hd => ?_⟩
  rw [hI p d c hc hd, if_pos (by omega)]

/-! ## One dof block of the rotation -/

theorem copyBack_apply (N idof BDof : Nat) (rot x0 : Buf) :
    (∀ i j, i < BDof → j < N →
      forLoop (fun i x =>
        forLoop (fun j x => Function.update x (N * (i + idof) + j) (rot (i * N + j))) N x)
        BDof x0 (N * (i + idof) + j) = rot (i * N + j)) ∧
    (∀ x, (∀ i j, i < BDof → j < N → x ≠ N * (i + idof) + j) →
      forLoop (fun i x =>
        forLoop (fun j x => Function.update x (N * (i + idof) + j) (rot (i * N + j))) N x)
        BDof x0 x = x0 x) := by
  obtain ⟨h1, h2⟩ := forLoop_writes2
    (fun i j x => Function.update x (N * (i + idof) + j) (rot (i * N + j))) BDof N
    (fun i j => N * (i + idof) + j) (fun i j => some (rot (i * N + j)))
    (by
      intro i j s x _ _
      dsimp only
      rw [Function.update_apply]
      rfl)
    (by
      intro i j i2 j2 _ hj _ hj2 he
      have := panel_index_inj N (i + idof) j (i2 + idof) j2 hj hj2
        (by rw [Nat.mul_comm _ N, Nat.mul_comm _ N]; exact he)
      exact ⟨by omega, this.2⟩)
  exact ⟨fun i j hi hj => h1 x0 i j hi hj, fun x hx => h2 x0 x hx⟩

theorem rotationDofStep_apply (env : ParallelEnv) (N vbs dbs : Nat) (ranks : Nat → RankData)
    (g : Nat) (tr tria : Bool) (fuel idof : Nat) (st : RotationState) (hbs : 1 ≤ vbs)
    (hfuel : N ≤ fuel) :
    ∃ st2, rotationDofStep env N vbs dbs ranks g tr tria fuel idof (some st) = some st2 ∧
      (∀ p k j, j < N →
        st2.subspaceVectorsArray p (N * k + j)
          = if idof ≤ k ∧
                k < idof + blockDofs dbs ((ranks p).subspaceVectorsArrayLocalSize / N) idof then
              rotatedValue env N vbs ranks g tr tria (st.subspaceVectorsArray p) k j
            else st.subspaceVectorsArray p (N * k + j)) ∧
      (∀ p x, (∀ k j, j < N → x ≠ N * k + j) →
        st2.subspaceVectorsArray p x = st.subspaceVectorsArray p x) := by
  obtain ⟨t, hrun, hX, hrot⟩ := rotationVectorLoop env N vbs dbs idof ranks g tr tria fuel
    { st with rotatedVectorsMatBlock := fun _ _ => 0 } hbs hfuel rfl
  have hX2 : t.subspaceVectorsArray = st.subspaceVectorsArray := hX
  refine ⟨{ t with
      subspaceVectorsArray := fun p =>
        if (if (ranks p).subspaceVectorsArrayLocalSize / N ≥ idof then
            min dbs ((ranks p).subspaceVectorsArrayLocalSize / N - idof) else 0) ≠ 0 then
          forLoop (fun i x =>
            forLoop (fun j x =>
              Function.update x (N * (i + idof) + j) (t.rotatedVectorsMatBlock p (i * N + j)))
              N x)
            (if (ranks p).subspaceVectorsArrayLocalSize / N ≥ idof then
              min dbs ((ranks p).subspaceVectorsArrayLocalSize / N - idof) else 0)
            (t.subspaceVectorsArray p)
        else t.subspaceVectorsArray p }, ?_, ?_, ?_⟩
  · unfold rotationDofStep
    dsimp only
    rw [hrun]
  · intro p k j hj
    dsimp only
    have hB : (if (ranks p).subspaceVectorsArrayLocalSize / N ≥ idof then
        min dbs ((ranks p).subspaceVectorsArrayLocalSize / N - idof) else 0)
        = blockDofs dbs ((ranks p).subspaceVectorsArrayLocalSize / N) idof := rfl
    rw [hB]
    obtain ⟨c1, c2⟩ := copyBack_apply N idof
      (blockDofs dbs ((ranks p).subspaceVectorsArrayLocalSize / N) idof)
      (t.rotatedVectorsMatBlock p) (t.subspaceVectorsArray p)
    by_cases hin : idof ≤ k ∧
        k < idof + blockDofs dbs ((ranks p).subspaceVectorsArrayLocalSize / N) idof
    · have hne : blockDofs dbs ((ranks p).subspaceVectorsArrayLocalSize / N) idof ≠ 0 := by
        omega
      rw [if_pos hne, if_pos hin]
      obtain ⟨k1, k2⟩ := hin
      have hc := c1 (k - idof) j (by omega) hj
      rw [Nat.sub_add_cancel k1] at hc
      rw [hc, hrot p (k - idof) j hj (by omega)]
      have e2 : idof + (k - idof) = k := by omega
      rw [e2]
    · rw [if_neg hin]
      by_cases hB0 : blockDofs dbs ((ranks p).subspaceVectorsArrayLocalSize / N) idof ≠ 0
      · rw [if_pos hB0, c2, hX2]
        intro i j2 hi hj2 he
        have := panel_index_inj N k j (i + idof) j2 hj hj2
          (by rw [Nat.mul_comm _ N, Nat.mul_comm _ N]; exact he)
        omega
      · rw [if_neg hB0, hX2]
  · intro p x hx
    dsimp only
    have hB : (if (ranks p).subspaceVectorsArrayLocalSize / N ≥ idof then
        min dbs ((ranks p).subspaceVectorsArrayLocalSize / N - idof) else 0)
        = blockDofs dbs ((ranks p).subspaceVectorsArrayLocalSize / N) idof := rfl
    rw [hB]
    obtain ⟨_, c2⟩ := copyBack_apply N idof
      (blockDofs dbs ((ranks p).subspaceVectorsArrayLocalSize / N) idof)
      (t.rotatedVectorsMatBlock p) (t.subspaceVectorsArray p)
    split_ifs
    · rw [c2, hX2]
      intro i j _ hj
      exact hx (i + idof) j hj
    · rw [hX2]

/-! ## The loop over the dof blocks -/

theorem rotationDepth_le (tria : Bool) (N vbs j : Nat) (hbs : 1 ≤ vbs) (hj : j < N) :
    rotationDepth tria N vbs j ≤ N := by
  unfold rotationDepth
  cases tria with
  | false => exact le_refl _
  | true => exact (columnBlockEnd_bounds N vbs j hbs hj).2

theorem rotatedValue_congr (env : ParallelEnv) (N vbs : Nat) (ranks : Nat → RankData)
    (g : Nat) (tr tria : Bool) (X X2 : Buf) (k j : Nat) (hbs : 1 ≤ vbs) (hj : j < N)
    (h : ∀ i, i < N → X (N * k + i) = X2 (N * k + i)) :
    rotatedValue env N vbs ranks g tr tria X k j = rotatedValue env N vbs ranks g tr tria X2 k j := by
  unfold rotatedValue
  split_ifs
  · refine Finset.sum_congr rfl (fun i hi => ?_)
    have hi2 := Finset.mem_range.mp hi
    have hle := rotationDepth_le tria N vbs j hbs hj
    rw [Nat.mul_comm k N, h i (by omega)]
  · rfl

theorem rotationDofStep_invariant (env : ParallelEnv) (N vbs dbs : Nat)
    (ranks : Nat → RankData) (g : Nat) (tr tria : Bool) (fuel idof : Nat) (X0 : Nat → Buf)
    (ost : Option RotationState) (hbs : 1 ≤ vbs) (hfuel : N ≤ fuel)
    (hI : ∃ st, ost = some st ∧ ∀ p k j, j < N →
      st.subspaceVectorsArray p (N * k + j)
        = if k < idof ∧ k < (ranks p).subspaceVectorsArrayLocalSize / N then
            rotatedValue env N vbs ranks g tr tria (X0 p) k j
          else X0 p (N * k + j)) :
    ∃ st, rotationDofStep env N vbs dbs ranks g tr tria fuel idof ost = some st ∧
      ∀ p k j, j < N →
        st.subspaceVectorsArray p (N * k + j)
          = if k < idof + dbs ∧ k < (ranks p).subspaceVectorsArrayLocalSize / N then
              rotatedValue env N vbs ranks g tr tria (X0 p) k j
            else X0 p (N * k + j) := by
  obtain ⟨st, rfl, hst⟩ := hI
  obtain ⟨st2, hrun, hval, _⟩ := rotationDofStep_apply env N vbs dbs ranks g tr tria fuel idof
    st hbs hfuel
  refine ⟨st2, hrun, fun p k j hj => ?_⟩
  rw [hval p k j hj]
  by_cases hin : idof ≤ k ∧
      k < idof + blockDofs dbs ((ranks p).subspaceVectorsArrayLocalSize / N) idof
  · rw [if_pos hin]
    have hb : k < idof + dbs ∧ k < (ranks p).subspaceVectorsArrayLocalSize / N := by
      obtain ⟨h1, h2⟩ := hin
      unfold blockDofs at h2
      split_ifs at h2 <;> omega
    rw [if_pos hb]
    apply rotatedValue_congr env N vbs ranks g tr tria _ _ k j hbs hj
    intro i hi
    rw [hst p k i hi, if_neg (fun h => by omega)]
  · rw [if_neg hin, hst p k j hj]
    have e : (k < idof ∧ k < (ranks p).subspaceVectorsArrayLocalSize / N)
        ↔ (k < idof + dbs ∧ k < (ranks p).subspaceVectorsArrayLocalSize / N) := by
      unfold blockDofs at hin
      split_ifs at hin <;> constructor <;> intro h <;> constructor <;> omega
    rw [if_congr e rfl rfl]

theorem rotationBandGroup_apply (env : ParallelEnv) (N : Nat) (ranks : Nat → RankData)
    (g : Nat) (tr tria : Bool) (fuel : Nat)
    (hbs : 1 ≤ min env.wfcBlockSize (env.bandGroupLowHighPlusOneIndices 1))
    (hdof : 1 ≤ env.subspaceRotDofsBlockSize) (hfuel : N ≤ fuel)
    (hfuel2 : ∀ p, p < env.numberDomainRanks →
      (ranks p).subspaceVectorsArrayLocalSize / N ≤ fuel) :
    ∃ st, rotationBandGroup env N ranks g tr tria fuel = some st ∧
      ∀ p k j, p < env.numberDomainRanks → j < N →
        k < (ranks p).subspaceVectorsArrayLocalSize / N →
        st.subspaceVectorsArray p (N * k + j)
          = rotatedValue env N (min env.wfcBlockSize (env.bandGroupLowHighPlusOneIndices 1))
              ranks g tr tria (ranks p).subspaceVectorsArray k j := by
  have hmax := mpiMax_le env.numberDomainRanks
    (fun p => (ranks p).subspaceVectorsArrayLocalSize / N) fuel hfuel2
  by_cases hzero : mpiMax env.numberDomainRanks
      (fun p => (ranks p).subspaceVectorsArrayLocalSize / N) = 0
  · refine ⟨⟨fun p => (ranks p).subspaceVectorsArray, fun _ _ => 0, fun _ _ => 0, N, 0⟩, ?_, ?_⟩
    · unfold rotationBandGroup
      dsimp only
      rw [stridedLoop_done _ _ _ _ _ _ (by omega)]
    · intro p k j hp _ hk
      have := mpiMax_ge env.numberDomainRanks
        (fun p => (ranks p).subspaceVectorsArrayLocalSize / N) p hp
      dsimp only at this
      omega
  · obtain ⟨t, i, hrun, hle, _, st, hst, hI⟩ := stridedLoop_invariant
      (mpiMax env.numberDomainRanks (fun p => (ranks p).subspaceVectorsArrayLocalSize / N))
      (min (mpiMax env.numberDomainRanks (fun p => (ranks p).subspaceVectorsArrayLocalSize / N))
        env.subspaceRotDofsBlockSize)
      (rotationDofStep env N (min env.wfcBlockSize (env.bandGroupLowHighPlusOneIndices 1))
        (min (mpiMax env.numberDomainRanks (fun p => (ranks p).subspaceVectorsArrayLocalSize / N))
          env.subspaceRotDofsBlockSize) ranks g tr tria fuel)
      (fun idof ost => True ∧ ∃ st, ost = some st ∧ ∀ p k j, j < N →
        st.subspaceVectorsArray p (N * k + j)
          = if k < idof ∧ k < (ranks p).subspaceVectorsArrayLocalSize / N then
              rotatedValue env N (min env.wfcBlockSize (env.bandGroupLowHighPlusOneIndices 1))
                ranks g tr tria (ranks p).subspaceVectorsArray k j
            else (ranks p).subspaceVectorsArray (N * k + j))
      (by
        rw [Nat.lt_min]
        constructor <;> omega)
      (fun idof ost _ h => ⟨trivial,
        rotationDofStep_invariant env N _ _ ranks g tr tria fuel idof
          (fun p => (ranks p).subspaceVectorsArray) ost hbs hfuel h.2⟩)
      fuel 0 (some ⟨fun p => (ranks p).subspaceVectorsArray, fun _ _ => 0, fun _ _ => 0, N, 0⟩)
      (by omega)
      ⟨trivial, _, rfl, fun p k j _ => by rw [if_neg (fun h => Nat.not_lt_zero _ h.1)]⟩
    refine ⟨st, ?_, ?_⟩
    · unfold rotationBandGroup
      dsimp only
      rw [hrun, hst]
    · intro p k j hp hj hk
      have := mpiMax_ge env.numberDomainRanks
        (fun p => (ranks p).subspaceVectorsArrayLocalSize / N) p hp
      dsimp only at this
      rw [hI p k j hj, if_pos ⟨by omega, hk⟩]

/-! ## The full rotation on one band group -/

theorem bandOwns_single (env : ParallelEnv) (N : Nat) (hG : env.numberBandGroups = 1)
    (hband : BandPartition env N) (e : Nat) (h1 : 0 < e) (h2 : e ≤ N) : bandOwns env 0 e := by
  have hlast := hband.last
  have hfirst := hband.first
  rw [hG] at hlast
  have hlo : env.bandGroupLowHighPlusOneIndices (2 * 0) = 0 := hfirst
  exact ⟨le_of_le_of_eq h2 hlast.symm, lt_of_eq_of_lt hlo h1⟩

/-- C2: with `isRotationMatLowerTria = false` and a single band group `subspaceRotation`
returns, and it overwrites `X` with the rotated block: for every local row `k` and every
column `j < N`, `X_new[k, j]` is the sum over `i < N` of `Q(j, i) * X_old[k, i]` when
`rotationMatTranspose` is false and of `Q(i, j) * X_old[k, i]` when it is true, with
`X_old` the content before the call, for all block sizes `≥ 1`. -/
theorem subspaceRotation_full (env : ParallelEnv) (N : Nat) (ranks : Nat → Nat → RankData)
    (rotationMatTranspose doCommAfterBandParal : Bool) (fuel : Nat)
    (hG : env.numberBandGroups = 1) (hband : BandPartition env N)
    (hbs : 1 ≤ min env.wfcBlockSize (env.bandGroupLowHighPlusOneIndices 1))
    (hdof : 1 ≤ env.subspaceRotDofsBlockSize) (hfuel : N ≤ fuel)
    (hfuel2 : ∀ p, p < env.numberDomainRanks →
      (ranks 0 p).subspaceVectorsArrayLocalSize / N ≤ fuel) :
    ∃ Xnew, subspaceRotation env N ranks rotationMatTranspose false doCommAfterBandParal fuel
        = some Xnew ∧
      ∀ p k j, p < env.numberDomainRanks →
        k < (ranks 0 p).subspaceVectorsArrayLocalSize / N → j < N →
        Xnew 0 p (N * k + j)
          = ∑ i ∈ Finset.range N,
              (if rotationMatTranspose then globalEntry env.numberDomainRanks (ranks 0) i j
                else globalEntry env.numberDomainRanks (ranks 0) j i)
                * (ranks 0 p).subspaceVectorsArray (N * k + i) := by
  obtain ⟨st, hst, hval⟩ := rotationBandGroup_apply env N (ranks 0) 0 rotationMatTranspose
    false fuel hbs hdof hfuel hfuel2
  obtain ⟨vals, hall, hvals⟩ := allFinished_some env.numberBandGroups
    (⟨fun p => (ranks 0 p).subspaceVectorsArray, fun _ _ => 0, fun _ _ => 0, N, 0⟩ :
      RotationState)
    (fun g => rotationBandGroup env N (ranks g) g rotationMatTranspose false fuel)
    (fun g hg => by
      have hg0 : g = 0 := by omega
      rw [hg0]
      exact ⟨st, hst⟩)
  have h0 : vals 0 = st := by
    have := hvals 0 (by omega)
    rw [hst] at this
    exact (Option.some.inj this).symm
  refine ⟨fun g p => (vals g).subspaceVectorsArray p, ?_, ?_⟩
  · unfold subspaceRotation
    rw [hall]
    dsimp only
    rw [if_neg (fun h => by omega)]
  · intro p k j hp hk hj
    show (vals 0).subspaceVectorsArray p (N * k + j) = _
    rw [h0, hval p k j hp hj hk]
    obtain ⟨hb1, hb2⟩ := columnBlockEnd_bounds N _ j hbs hj
    unfold rotatedValue rotationDepth rotationEntry
    rw [if_pos (bandOwns_single env N hG hband _ hb1 hb2)]
    simp only [Bool.false_eq_true, if_false]
    refine Finset.sum_congr rfl (fun i _ => ?_)
    rw [Nat.mul_comm k N]

theorem oneRank_globalEntry :
    globalEntry 1 (oneRankData 0) 0 0 = 1 ∧ globalEntry 1 (oneRankData 0) 1 0 = 2 ∧
      globalEntry 1 (oneRankData 0) 0 1 = 3 ∧ globalEntry 1 (oneRankData 0) 1 1 = 4 := by
  have r0 : (oneRankData 0 0).rowMap 0 = some 0 := rfl
  have r1 : (oneRankData 0 0).rowMap 1 = some 1 := rfl
  have c0 : (oneRankData 0 0).colMap 0 = some 0 := rfl
  have c1 : (oneRankData 0 0).colMap 1 = some 1 := rfl
  unfold globalEntry ownedEntry
  simp only [Finset.sum_range_one, r0, r1, c0, c1]
  simp only [ScaLAPACKMatrix.local_el, ScaLAPACKMatrix.elIndex, oneRankData]
  norm_num

/-- Witness for C2: one rank with the rows `(1, 2)` and `(3, 4)` and the matrix
`Q = [[1, 3], [2, 4]]`, blocks of one vector and one row: the entry `(0, 0)` of the result
is `Q(0,0) * 1 + Q(0,1) * 2 = 7`. -/
theorem subspaceRotation_full_witness :
    ∃ Xnew, subspaceRotation oneRankEnv 2 oneRankData false false false 2 = some Xnew ∧
      Xnew 0 0 0 = 7 := by
  obtain ⟨Xnew, h, hX⟩ := subspaceRotation_full oneRankEnv 2 oneRankData false false 2 rfl
    oneRankEnv_partition (by decide) (by decide) (by decide)
    (fun p _ => by
      show 4 / 2 ≤ 2
      decide)
  refine ⟨Xnew, h, ?_⟩
  have h0 := hX 0 0 0 (by decide) (by show 0 < 4 / 2; decide) (by decide)
  rw [Nat.mul_zero, Nat.zero_add] at h0
  rw [h0]
  have env1 : oneRankEnv.numberDomainRanks = 1 := rfl
  rw [env1]
  simp only [Bool.false_eq_true, if_false, Finset.sum_range_succ, Finset.sum_range_zero,
    oneRank_globalEntry.1, oneRank_globalEntry.2.2.1]
  simp [oneRankData]
  norm_num

/-! ## Two loops in lockstep -/

theorem stridedLoop_rel {σ τ : Type} (n stride : Nat) (b1 : Nat → σ → σ) (b2 : Nat → τ → τ)
    (R : σ → τ → Prop) (hstep : ∀ i s t, i < n → R s t → R (b1 i s) (b2 i t))
    (fuel start : Nat) (s : σ) (t : τ) (h0 : R s t) :
    (stridedLoop n stride b1 fuel start s = none ∧ stridedLoop n stride b2 fuel start t = none) ∨
    ∃ s2 t2, stridedLoop n stride b1 fuel start s = some s2 ∧
      stridedLoop n stride b2 fuel start t = some t2 ∧ R s2 t2 := by
  induction fuel generalizing start s t with
  | zero =>
    by_cases h : start < n
    · left
      constructor <;> (unfold stridedLoop; rw [if_pos h])
    · right
      refine ⟨s, t, ?_, ?_, h0⟩ <;> (unfold stridedLoop; rw [if_neg h])
  | succ f ih =>
    by_cases h : start < n
    · rcases ih (start + stride) (b1 start s) (b2 start t) (hstep start s t h h0) with h1 | h1
      · left
        obtain ⟨a, b⟩ := h1
        constructor
        · unfold stridedLoop
          rw [if_pos h]
          exact a
        · unfold stridedLoop
          rw [if_pos h]
          exact b
      · right
        obtain ⟨s2, t2, a, b, c⟩ := h1
        refine ⟨s2, t2, ?_, ?_, c⟩
        · unfold stridedLoop
          rw [if_pos h]
          exact a
        · unfold stridedLoop
          rw [if_pos h]
          exact b
    · right
      refine ⟨s, t, ?_, ?_, h0⟩ <;> (unfold stridedLoop; rw [if_neg h])

/-! ## The truncated rotation -/

theorem triangular_sum (N D c : Nat) (f : Nat → ℚ) (hD : D ≤ N) (hc : c < D)
    (hz : ∀ l, c < l → l < N → f l = 0) :
    ∑ l ∈ Finset.range D, f l = ∑ l ∈ Finset.range N, f l := by
  apply Finset.sum_subset
  · intro x hx
    rw [Finset.mem_range] at hx ⊢
    omega
  · intro x hx hnx
    rw [Finset.mem_range] at hx hnx
    exact hz x (by omega) hx

theorem rotationVectorStep_counters (env : ParallelEnv) (N vbs dbs idof : Nat)
    (ranks : Nat → RankData) (g : Nat) (tr tria tria2 : Bool) (jvec : Nat)
    (s t : RotationState) (h1 : s.startIndexBandParal = t.startIndexBandParal)
    (h2 : s.numVectorsBandParal = t.numVectorsBandParal) :
    (rotationVectorStep env N vbs dbs idof ranks g tr tria jvec s).startIndexBandParal
      = (rotationVectorStep env N vbs dbs idof ranks g tr tria2 jvec t).startIndexBandParal ∧
    (rotationVectorStep env N vbs dbs idof ranks g tr tria jvec s).numVectorsBandParal
      = (rotationVectorStep env N vbs dbs idof ranks g tr tria2 jvec t).numVectorsBandParal := by
  unfold rotationVectorStep
  dsimp only
  by_cases hown : bandOwns env g (jvec + min vbs (N - jvec))
  · rw [if_pos hown, if_pos hown]
    dsimp only
    rw [h1]
    exact ⟨rfl, rfl⟩
  · rw [if_neg hown, if_neg hown]
    exact ⟨h1, h2⟩

/-- The states of the two runs agree on what the rest of the computation reads. -/
theorem rotationVectorStep_tria (env : ParallelEnv) (N vbs dbs idof : Nat)
    (ranks : Nat → RankData) (g : Nat) (tr : Bool) (jvec : Nat) (s t : RotationState)
    (hjv : jvec < N)
    (htri : ∀ j i, j < i → i < N → rotationEntry tr env.numberDomainRanks ranks j i = 0)
    (hX : s.subspaceVectorsArray = t.subspaceVectorsArray)
    (hrot : ∀ p d c, c < N →
      d < blockDofs dbs ((ranks p).subspaceVectorsArrayLocalSize / N) idof →
      s.rotatedVectorsMatBlock p (d * N + c) = t.rotatedVectorsMatBlock p (d * N + c))
    (p d c : Nat) (hc : c < N)
    (hd : d < blockDofs dbs ((ranks p).subspaceVectorsArrayLocalSize / N) idof) :
    (rotationVectorStep env N vbs dbs idof ranks g tr true jvec s).rotatedVectorsMatBlock p
        (d * N + c)
      = (rotationVectorStep env N vbs dbs idof ranks g tr false jvec t).rotatedVectorsMatBlock p
        (d * N + c) := by
  rw [rotationVectorStep_rotated env N vbs dbs idof ranks g tr true jvec s p d c hc hd,
    rotationVectorStep_rotated env N vbs dbs idof ranks g tr false jvec t p d c hc hd,
    hX, hrot p d c hc hd]
  by_cases hin : bandOwns env g (jvec + min vbs (N - jvec)) ∧ jvec ≤ c ∧
      c < jvec + min vbs (N - jvec)
  · rw [if_pos hin, if_pos hin]
    simp only [if_true, Bool.false_eq_true, if_false]
    have hB : min vbs (N - jvec) ≤ N - jvec := Nat.min_le_right _ _
    apply triangular_sum N _ c _ (by omega) hin.2.2
    intro l hl hlN
    rw [htri c l hl hlN, zero_mul]
  · rw [if_neg hin, if_neg hin]

theorem rotationDofStep_tria (env : ParallelEnv) (N vbs dbs : Nat) (ranks : Nat → RankData)
    (g : Nat) (tr : Bool) (fuel idof : Nat) (a b : Option RotationState)
    (htri : ∀ j i, j < i → i < N → rotationEntry tr env.numberDomainRanks ranks j i = 0)
    (hab : runsAgree a b) :
    runsAgree (rotationDofStep env N vbs dbs ranks g tr true fuel idof a)
      (rotationDofStep env N vbs dbs ranks g tr false fuel idof b) := by
  cases a with
  | none =>
    cases b with
    | none => exact trivial
    | some t => exact absurd hab id
  | some s =>
    cases b with
    | none => exact absurd hab id
    | some t =>
      obtain ⟨hX, hs, hn⟩ : s.agree t := hab
      have hrel := stridedLoop_rel N vbs
        (rotationVectorStep env N vbs dbs idof ranks g tr true)
        (rotationVectorStep env N vbs dbs idof ranks g tr false)
        (fun s t => s.agree t ∧ ∀ p d c, c < N →
          d < blockDofs dbs ((ranks p).subspaceVectorsArrayLocalSize / N) idof →
          s.rotatedVectorsMatBlock p (d * N + c) = t.rotatedVectorsMatBlock p (d * N + c))
        (fun jvec s t hjv h => by
          obtain ⟨⟨a1, a2, a3⟩, a4⟩ := h
          obtain ⟨c1, c2⟩ := rotationVectorStep_counters env N vbs dbs idof ranks g tr true
            false jvec s t a2 a3
          refine ⟨⟨?_, c1, c2⟩, ?_⟩
          · rw [rotationVectorStep_vectors, rotationVectorStep_vectors]
            exact a1
          · exact rotationVectorStep_tria env N vbs dbs idof ranks g tr jvec s t hjv htri a1 a4)
        fuel 0 { s with rotatedVectorsMatBlock := fun _ _ => 0 }
        { t with rotatedVectorsMatBlock := fun _ _ => 0 }
        ⟨⟨hX, hs, hn⟩, fun _ _ _ _ _ => rfl⟩
      rcases hrel with ⟨h1, h2⟩ | ⟨s2, t2, h1, h2, ⟨b1, b2, b3⟩, b4⟩
      · unfold rotationDofStep
        dsimp only
        rw [h1, h2]
        exact trivial
      · unfold rotationDofStep
        dsimp only
        rw [h1, h2]
        refine ⟨?_, b2, b3⟩
        funext p
        dsimp only
        have hB : (if (ranks p).subspaceVectorsArrayLocalSize / N ≥ idof then
            min dbs ((ranks p).subspaceVectorsArrayLocalSize / N - idof) else 0)
            = blockDofs dbs ((ranks p).subspaceVectorsArrayLocalSize / N) idof := rfl
        rw [hB]
        by_cases hB0 : blockDofs dbs ((ranks p).subspaceVectorsArrayLocalSize / N) idof ≠ 0
        · rw [if_pos hB0, if_pos hB0]
          funext x
          obtain ⟨c1, c2⟩ := copyBack_apply N idof
            (blockDofs dbs ((ranks p).subspaceVectorsArrayLocalSize / N) idof)
            (s2.rotatedVectorsMatBlock p) (s2.subspaceVectorsArray p)
          obtain ⟨e1, e2⟩ := copyBack_apply N idof
            (blockDofs dbs ((ranks p).subspaceVectorsArrayLocalSize / N) idof)
            (t2.rotatedVectorsMatBlock p) (t2.subspaceVectorsArray p)
          by_cases hx : ∃ i j,
              i < blockDofs dbs ((ranks p).subspaceVectorsArrayLocalSize / N) idof ∧ j < N ∧
                x = N * (i + idof) + j
          · obtain ⟨i, j, hi, hj, rfl⟩ := hx
            rw [c1 i j hi hj, e1 i j hi hj, b4 p i j hj hi]
          · have hx2 : ∀ i j,
                i < blockDofs dbs ((ranks p).subspaceVectorsArrayLocalSize / N) idof → j < N →
                  x ≠ N * (i + idof) + j := fun i j hi hj he => hx ⟨i, j, hi, hj, he⟩
            rw [c2 x hx2, e2 x hx2, b1]
        · rw [if_neg hB0, if_neg hB0, b1]

theorem rotationBandGroup_tria (env : ParallelEnv) (N : Nat) (ranks : Nat → RankData)
    (g : Nat) (tr : Bool) (fuel : Nat)
    (htri : ∀ j i, j < i → i < N → rotationEntry tr env.numberDomainRanks ranks j i = 0) :
    runsAgree (rotationBandGroup env N ranks g tr true fuel)
      (rotationBandGroup env N ranks g tr false fuel) := by
  have hrel := stridedLoop_rel
    (mpiMax env.numberDomainRanks (fun p => (ranks p).subspaceVectorsArrayLocalSize / N))
    (min (mpiMax env.numberDomainRanks (fun p => (ranks p).subspaceVectorsArrayLocalSize / N))
      env.subspaceRotDofsBlockSize)
    (rotationDofStep env N (min env.wfcBlockSize (env.bandGroupLowHighPlusOneIndices 1))
      (min (mpiMax env.numberDomainRanks (fun p => (ranks p).subspaceVectorsArrayLocalSize / N))
        env.subspaceRotDofsBlockSize) ranks g tr true fuel)
    (rotationDofStep env N (min env.wfcBlockSize (env.bandGroupLowHighPlusOneIndices 1))
      (min (mpiMax env.numberDomainRanks (fun p => (ranks p).subspaceVectorsArrayLocalSize / N))
        env.subspaceRotDofsBlockSize) ranks g tr false fuel)
    runsAgree
    (fun idof a b _ h => rotationDofStep_tria env N _ _ ranks g tr fuel idof a b htri h)
    fuel 0
    (some ⟨fun p => (ranks p).subspaceVectorsArray, fun _ _ => 0, fun _ _ => 0, N, 0⟩)
    (some ⟨fun p => (ranks p).subspaceVectorsArray, fun _ _ => 0, fun _ _ => 0, N, 0⟩)
    ⟨rfl, rfl, rfl⟩
  rcases hrel with ⟨h1, h2⟩ | ⟨a, b, h1, h2, hab⟩
  · unfold rotationBandGroup
    dsimp only
    rw [h1, h2]
    exact trivial
  · unfold rotationBandGroup
    dsimp only
    rw [h1, h2]
    exact hab

/-! ## The rotation by a lower triangular matrix -/

theorem rotationBandCommunication_congr (env : ParallelEnv) (N : Nat)
    (ranks : Nat → Nat → RankData) (states states2 : Nat → RotationState)
    (h : ∀ g, (states g).agree (states2 g)) (g p fuel : Nat) :
    rotationBandCommunication env N ranks states g p fuel
      = rotationBandCommunication env N ranks states2 g p fuel := by
  have hX : ∀ g, (states g).subspaceVectorsArray = (states2 g).subspaceVectorsArray :=
    fun g => (h g).1
  have hs : ∀ g, (states g).startIndexBandParal = (states2 g).startIndexBandParal :=
    fun g => (h g).2.1
  have hn : ∀ g, (states g).numVectorsBandParal = (states2 g).numVectorsBandParal :=
    fun g => (h g).2.2
  unfold rotationBandCommunication
  simp only [hX, hs, hn]

theorem allFinished_agree (n : Nat) (d : RotationState) (f f2 : Nat → Option RotationState)
    (h : ∀ g, runsAgree (f g) (f2 g)) :
    (allFinished n d f = none ∧ allFinished n d f2 = none) ∨
    ∃ states states2, allFinished n d f = some states ∧ allFinished n d f2 = some states2 ∧
      ∀ g, (states g).agree (states2 g) := by
  have hsome : ∀ g, (f g).isSome = (f2 g).isSome := by
    intro g
    have := h g
    cases hf : f g <;> cases hf2 : f2 g <;> rw [hf, hf2] at this <;>
      first | rfl | exact absurd this id
  by_cases hall : ∀ g, g < n → (f g).isSome = true
  · right
    refine ⟨fun g => (f g).getD d, fun g => (f2 g).getD d, ?_, ?_, ?_⟩
    · unfold allFinished
      rw [if_pos hall]
    · unfold allFinished
      rw [if_pos (fun g hg => by rw [← hsome g]; exact hall g hg)]
    · intro g
      have := h g
      show ((f g).getD d).agree ((f2 g).getD d)
      cases hf : f g <;> cases hf2 : f2 g <;> rw [hf, hf2] at this
      · exact ⟨rfl, rfl, rfl⟩
      · exact absurd this id
      · exact absurd this id
      · exact this
  · left
    constructor
    · unfold allFinished
      rw [if_neg hall]
    · unfold allFinished
      rw [if_neg (fun h2 => hall (fun g hg => by rw [hsome g]; exact h2 g hg))]

theorem rotationBandCommunication_returns (env : ParallelEnv) (N : Nat)
    (ranks : Nat → Nat → RankData) (states : Nat → RotationState) (g p fuel : Nat)
    (h : env.bandParalOpt = true ∨ (1 ≤ env.allReduceBlockSize ∧
      N * ((ranks g p).subspaceVectorsArrayLocalSize / N) ≤ fuel)) :
    ∃ v, rotationBandCommunication env N ranks states g p fuel = some v := by
  unfold rotationBandCommunication
  dsimp only
  by_cases hopt : env.bandParalOpt = true
  · rw [if_neg (fun hn => hn hopt)]
    exact ⟨_, rfl⟩
  · rw [if_pos hopt]
    rcases h with h | ⟨h1, h2⟩
    · exact absurd h hopt
    · obtain ⟨t, _, hrun, _, _⟩ := stridedLoop_invariant
        (N * ((ranks g p).subspaceVectorsArrayLocalSize / N)) env.allReduceBlockSize
        (fun i bufs =>
          mpiAllreduceSumAt env.numberBandGroups i
            (min env.allReduceBlockSize (N * ((ranks g p).subspaceVectorsArrayLocalSize / N) - i))
            bufs)
        (fun _ _ => True) h1 (fun _ _ _ _ => trivial) fuel 0
        (fun g1 => (states g1).subspaceVectorsArray p) (by omega) trivial
      rw [hrun]
      exact ⟨_, rfl⟩

theorem subspaceRotation_returns (env : ParallelEnv) (N : Nat) (ranks : Nat → Nat → RankData)
    (tr tria doComm : Bool) (fuel : Nat)
    (hbs : 1 ≤ min env.wfcBlockSize (env.bandGroupLowHighPlusOneIndices 1))
    (hdof : 1 ≤ env.subspaceRotDofsBlockSize) (hfuel : N ≤ fuel)
    (hfuel2 : ∀ g p, g < env.numberBandGroups → p < env.numberDomainRanks →
      (ranks g p).subspaceVectorsArrayLocalSize / N ≤ fuel)
    (hcomm : env.numberBandGroups > 1 ∧ doComm = true →
      env.bandParalOpt = true ∨ (1 ≤ env.allReduceBlockSize ∧
        ∀ g p, g < env.numberBandGroups → p < env.numberDomainRanks →
          N * ((ranks g p).subspaceVectorsArrayLocalSize / N) ≤ fuel)) :
    ∃ Xnew, subspaceRotation env N ranks tr tria doComm fuel = some Xnew := by
  obtain ⟨states, hall, _⟩ := allFinished_some env.numberBandGroups
    (⟨fun p => (ranks 0 p).subspaceVectorsArray, fun _ _ => 0, fun _ _ => 0, N, 0⟩ :
      RotationState)
    (fun g => rotationBandGroup env N (ranks g) g tr tria fuel)
    (fun g hg => by
      obtain ⟨st, hst, _⟩ := rotationBandGroup_apply env N (ranks g) g tr tria fuel hbs hdof
        hfuel (fun p hp => hfuel2 g p hg hp)
      exact ⟨st, hst⟩)
  unfold subspaceRotation
  rw [hall]
  dsimp only
  by_cases hc : env.numberBandGroups > 1 ∧ doComm = true
  · rw [if_pos hc]
    obtain ⟨v, hv, _⟩ := allFinished_some env.numberBandGroups
      (fun p => (ranks 0 p).subspaceVectorsArray)
      (fun g => allFinished env.numberDomainRanks (ranks g 0).subspaceVectorsArray
        (fun p => rotationBandCommunication env N ranks states g p fuel))
      (fun g hg => by
        obtain ⟨w, hw, _⟩ := allFinished_some env.numberDomainRanks
          (ranks g 0).subspaceVectorsArray
          (fun p => rotationBandCommunication env N ranks states g p fuel)
          (fun p hp => rotationBandCommunication_returns env N ranks states g p fuel (by
            rcases hcomm hc with h | ⟨h1, h2⟩
            · exact Or.inl h
            · exact Or.inr ⟨h1, h2 g p hg hp⟩))
        exact ⟨w, hw⟩)
    exact ⟨v, hv⟩
  · rw [if_neg hc]
    exact ⟨_, rfl⟩

/-- C15: when the effective rotation matrix is lower triangular (the coefficient of
`X[k, i]` in `X_new[k, j]` vanishes for `i > j`: `Q(j, i) = 0` without the transpose flag,
`Q(i, j) = 0` with it), `subspaceRotation` with `isRotationMatLowerTria = true` (inner
dimension `D = jvec + BVec`) gives the result of `subspaceRotation` with
`isRotationMatLowerTria = false` (`D = N`), for every `X`, `N`, block sizes and band
groups: both runs exhaust the same fuel or return the same arrays, and they return when
the block sizes are `≥ 1` and the fuel covers the loops. -/
theorem subspaceRotation_lower_triangular (env : ParallelEnv) (N : Nat)
    (ranks : Nat → Nat → RankData) (rotationMatTranspose doCommAfterBandParal : Bool)
    (fuel : Nat)
    (htri : ∀ g j i, j < i → i < N →
      rotationEntry rotationMatTranspose env.numberDomainRanks (ranks g) j i = 0) :
    subspaceRotation env N ranks rotationMatTranspose true doCommAfterBandParal fuel
      = subspaceRotation env N ranks rotationMatTranspose false doCommAfterBandParal fuel ∧
    (1 ≤ min env.wfcBlockSize (env.bandGroupLowHighPlusOneIndices 1) →
      1 ≤ env.subspaceRotDofsBlockSize → N ≤ fuel →
      (∀ g p, g < env.numberBandGroups → p < env.numberDomainRanks →
        (ranks g p).subspaceVectorsArrayLocalSize / N ≤ fuel) →
      (env.numberBandGroups > 1 ∧ doCommAfterBandParal = true →
        env.bandParalOpt = true ∨ (1 ≤ env.allReduceBlockSize ∧
          ∀ g p, g < env.numberBandGroups → p < env.numberDomainRanks →
            N * ((ranks g p).subspaceVectorsArrayLocalSize / N) ≤ fuel)) →
      ∃ Xnew, subspaceRotation env N ranks rotationMatTranspose true doCommAfterBandParal fuel
        = some Xnew) := by
  refine ⟨?_, fun hbs hdof hfuel hfuel2 hcomm =>
    subspaceRotation_returns env N ranks rotationMatTranspose true doCommAfterBandParal fuel
      hbs hdof hfuel hfuel2 hcomm⟩
  rcases allFinished_agree env.numberBandGroups
      ⟨fun p => (ranks 0 p).subspaceVectorsArray, fun _ _ => 0, fun _ _ => 0, N, 0⟩
      (fun g => rotationBandGroup env N (ranks g) g rotationMatTranspose true fuel)
      (fun g => rotationBandGroup env N (ranks g) g rotationMatTranspose false fuel)
      (fun g => rotationBandGroup_tria env N (ranks g) g rotationMatTranspose fuel (htri g))
    with ⟨h1, h2⟩ | ⟨states, states2, h1, h2, hag⟩
  · unfold subspaceRotation
    rw [h1, h2]
  · unfold subspaceRotation
    rw [h1, h2]
    dsimp only
    have hcomm : ∀ g p, rotationBandCommunication env N ranks states g p fuel
        = rotationBandCommunication env N ranks states2 g p fuel :=
      fun g p => rotationBandCommunication_congr env N ranks states states2 hag g p fuel
    have hX : ∀ g, (states g).subspaceVectorsArray = (states2 g).subspaceVectorsArray :=
      fun g => (hag g).1
    simp only [hcomm, hX]

theorem triaRankData_lower (g j i : Nat) (hji : j < i) (hi : i < 2) :
    rotationEntry false oneRankEnv.numberDomainRanks (triaRankData g) j i = 0 := by
  have hj0 : j = 0 := by omega
  have hi1 : i = 1 := by omega
  subst hj0 hi1
  have r0 : (triaRankData g 0).rowMap 0 = some 0 := rfl
  have c1 : (triaRankData g 0).colMap 1 = some 1 := rfl
  have env1 : oneRankEnv.numberDomainRanks = 1 := rfl
  rw [env1]
  unfold rotationEntry globalEntry ownedEntry
  simp only [Bool.false_eq_true, if_false, Finset.sum_range_one, r0, c1]
  simp [ScaLAPACKMatrix.local_el, ScaLAPACKMatrix.elIndex, triaRankData]

/-- Witness for C15: one rank, `Q = [[1, 0], [2, 4]]`, blocks of one vector and one row. -/
theorem subspaceRotation_lower_triangular_witness :
    subspaceRotation oneRankEnv 2 triaRankData false true false 2
      = subspaceRotation oneRankEnv 2 triaRankData false false false 2 ∧
    ∃ Xnew, subspaceRotation oneRankEnv 2 triaRankData false true false 2 = some Xnew :=
  ⟨(subspaceRotation_lower_triangular oneRankEnv 2 triaRankData false false 2
      triaRankData_lower).1,
    (subspaceRotation_lower_triangular oneRankEnv 2 triaRankData false false 2
      triaRankData_lower).2 (by decide) (by decide) (by decide)
      (fun g p _ _ => by show 4 / 2 ≤ 2; decide)
      (fun h => absurd h.1 (by decide))⟩

/-! ## The tiles of the mixed-precision overlap -/

theorem forRange_congr {σ : Type} (lo hi : Nat) (body body2 : Nat → σ → σ) (s0 : σ)
    (h : ∀ t s, lo ≤ t → t < hi → body t s = body2 t s) :
    forRange lo hi body s0 = forRange lo hi body2 s0 := by
  unfold forRange
  exact forLoop_congr _ _ _ _ (fun t s ht => h (lo + t) s (by omega) (by omega))

theorem overlapScatter_congr (N ivec B D : Nat) (rowMap colMap : IdMap)
    (mat : ScaLAPACKMatrix) (block block2 values : Buf)
    (h : ∀ i j, i < B → ivec + i ≤ j → j < N →
      block (i * D + j - ivec) = block2 (i * D + j - ivec)) :
    overlapScatter N ivec B D rowMap colMap mat block values
      = overlapScatter N ivec B D rowMap colMap mat block2 values := by
  unfold overlapScatter
  apply forLoop_congr
  intro i v hi
  cases hc : colMap (i + ivec) with
  | none => rfl
  | some lc =>
    dsimp only
    apply forRange_congr
    intro j w hj1 hj2
    cases hr : rowMap j with
    | none => rfl
    | some lr =>
      dsimp only
      rw [h i j hi hj1 hj2]

theorem row_index_lt (N size a k : Nat) (ha : a < N) (hk : k < size / N) :
    a + k * N < size := by
  have h1 : (k + 1) * N ≤ size / N * N := Nat.mul_le_mul_right _ hk
  have h2 : size / N * N ≤ size := Nat.div_mul_le_self size N
  rw [Nat.add_mul, Nat.one_mul] at h1
  omega

/-- The entry `(row, col)` of a product `A Bᵀ` computed by `dgemm_` with `'N'`, `'T'` into
a tile with leading dimension `m`. -/
theorem dgemm_NT_entry (m n K : Nat) (a : Buf) (aOff lda : Nat) (b : Buf) (bOff ldb : Nat)
    (c : Buf) (row col : Nat) (hrow : row < m) (hcol : col < n) :
    dgemm 'N' 'T' m n K 1 a aOff lda b bOff ldb 0 c 0 m (col * m + row)
      = ∑ k ∈ Finset.range K, a (aOff + row + k * lda) * b (bOff + col + k * ldb) := by
  obtain ⟨e1, e2⟩ := block_index m col row hrow
  have hcond : 0 ≤ col * m + row ∧ (col * m + row - 0) % m < m ∧ (col * m + row - 0) / m < n := by
    rw [Nat.sub_zero, e1, e2]
    exact ⟨Nat.zero_le _, hrow, hcol⟩
  rw [dgemm_apply _ _ _ _ _ _ _ _ _ _ _ _ _ _ _ _ (le_refl _), if_pos hcond, Nat.sub_zero,
    e1, e2]
  have hTN : ¬ ('T' : Char) = 'N' := by decide
  simp only [hTN, if_true, if_false, one_mul, zero_mul, add_zero]

theorem overlapStitch_apply (B D : Nat) (dbl low init : Buf) (hBD : B ≤ D) (i r : Nat)
    (hi : i < B) (hr : r < D) :
    overlapStitch B D (D - B) dbl low init (i * D + r)
      = if r < B then dbl (i * B + r) else low (i * (D - B) + (r - B)) := by
  unfold overlapStitch
  obtain ⟨_, h2⟩ := forLoop_at (fun i blk =>
      forLoop (fun j blk =>
        Function.update blk (i * D + j + B) (low (i * (D - B) + j))) (D - B)
        (forLoop (fun j blk => Function.update blk (i * D + j) (dbl (i * B + j))) B blk))
    B (i * D + r) (fun u => u = i)
    (fun _ _ => if r < B then dbl (i * B + r) else low (i * (D - B) + (r - B)))
    (by
      intro u s hu hne
      obtain ⟨_, a2⟩ := forLoop_writes (fun j blk =>
          Function.update blk (u * D + j + B) (low (u * (D - B) + j))) (D - B)
        (fun j => u * D + j + B) (fun j => some (low (u * (D - B) + j)))
        (fun j s x _ => by
          dsimp only
          rw [Function.update_apply]
          rfl)
        (fun j j2 _ _ he => by dsimp only at he; omega)
      obtain ⟨_, b2⟩ := forLoop_writes (fun j blk =>
          Function.update blk (u * D + j) (dbl (u * B + j))) B
        (fun j => u * D + j) (fun j => some (dbl (u * B + j)))
        (fun j s x _ => by
          dsimp only
          rw [Function.update_apply]
          rfl)
        (fun j j2 _ _ he => by dsimp only at he; omega)
      dsimp only
      rw [a2, b2]
      · intro j hj he
        exact hne (panel_index_inj D i r u j hr (by omega) he).1.symm
      · intro j hj he
        have e2 : i * D + r = u * D + (j + B) := by omega
        exact hne (panel_index_inj D i r u (j + B) hr (by omega) e2).1.symm)
    (by
      intro u s _ hu
      subst hu
      obtain ⟨a1, a2⟩ := forLoop_writes (fun j blk =>
          Function.update blk (u * D + j + B) (low (u * (D - B) + j))) (D - B)
        (fun j => u * D + j + B) (fun j => some (low (u * (D - B) + j)))
        (fun j s x _ => by
          dsimp only
          rw [Function.update_apply]
          rfl)
        (fun j j2 _ _ he => by dsimp only at he; omega)
      obtain ⟨b1, _⟩ := forLoop_writes (fun j blk =>
          Function.update blk (u * D + j) (dbl (u * B + j))) B
        (fun j => u * D + j) (fun j => some (dbl (u * B + j)))
        (fun j s x _ => by
          dsimp only
          rw [Function.update_apply]
          rfl)
        (fun j j2 _ _ he => by dsimp only at he; omega)
      dsimp only
      by_cases hrB : r < B
      · rw [if_pos hrB, a2, b1 _ r hrB]
        · rfl
        · intro j _ he
          omega
      · rw [if_neg hrB]
        have e : u * D + r = u * D + (r - B) + B := by omega
        rw [e, a1 _ (r - B) (by omega)]
        rfl)
  exact h2 init i hi rfl (fun t _ hne he => hne he)

theorem lowPrecCopy_row (X : Buf) (size N a k : Nat) (ha : a < N) (hk : k < size / N) :
    lowPrecCopy X size (a + k * N) = X (a + k * N) := by
  unfold lowPrecCopy
  rw [if_pos (row_index_lt N size a k ha hk)]

/-- The stitched tile of the mixed-precision assembly and the tile of the single product
agree on every entry `(row r, column i)` of the tile, `i < B`, `r < D`. -/
theorem stitched_tile_eq (P N ivec B : Nat) (ranks : Nat → RankData) (dbl0 : Nat → Buf)
    (hB : B ≤ N - ivec) (p i r : Nat) (hi : i < B) (hr : r < N - ivec) :
    overlapStitch B (N - ivec) (N - ivec - B)
        (mpiAllreduceSum P (B * B) (fun q =>
          dgemm 'N' 'T' B B ((ranks q).subspaceVectorsArrayLocalSize / N) 1
            (ranks q).subspaceVectorsArray ivec N (ranks q).subspaceVectorsArray ivec N
            0 (dbl0 q) 0 B) p)
        (mpiAllreduceSum P ((N - ivec - B) * B) (fun q =>
          if N - ivec - B ≠ 0 then
            sgemm 'N' 'T' (N - ivec - B) B ((ranks q).subspaceVectorsArrayLocalSize / N) 1
              (lowPrecCopy (ranks q).subspaceVectorsArray (ranks q).subspaceVectorsArrayLocalSize)
              (ivec + B) N
              (lowPrecCopy (ranks q).subspaceVectorsArray (ranks q).subspaceVectorsArrayLocalSize)
              ivec N 0 (fun _ => 0) 0 (N - ivec - B)
          else fun _ => 0) p)
        (fun _ => 0) (i * (N - ivec) + r)
      = mpiAllreduceSum P ((N - ivec) * B) (fun q =>
          dgemm 'N' 'T' (N - ivec) B ((ranks q).subspaceVectorsArrayLocalSize / N) 1
            (ranks q).subspaceVectorsArray ivec N (ranks q).subspaceVectorsArray ivec N
            0 (fun _ => 0) 0 (N - ivec)) p (i * (N - ivec) + r) := by
  rw [overlapStitch_apply B (N - ivec) _ _ _ hB i r hi hr]
  unfold mpiAllreduceSum
  rw [if_pos (panel_index_lt B (N - ivec) i r hi hr)]
  by_cases hrB : r < B
  · rw [if_pos hrB, if_pos (panel_index_lt B B i r hi hrB)]
    refine Finset.sum_congr rfl (fun q _ => ?_)
    dsimp only
    rw [dgemm_NT_entry B B _ _ _ _ _ _ _ _ r i hrB hi,
      dgemm_NT_entry (N - ivec) B _ _ _ _ _ _ _ _ r i hr hi]
  · rw [if_neg hrB, if_pos (panel_index_lt B (N - ivec - B) i (r - B) hi (by omega))]
    refine Finset.sum_congr rfl (fun q _ => ?_)
    have hne : N - ivec - B ≠ 0 := by omega
    dsimp only
    rw [if_pos hne]
    unfold sgemm
    rw [dgemm_NT_entry (N - ivec - B) B _ _ _ _ _ _ _ _ (r - B) i (by omega) hi,
      dgemm_NT_entry (N - ivec) B _ _ _ _ _ _ _ _ r i hr hi]
    refine Finset.sum_congr rfl (fun k hk => ?_)
    have hk2 := Finset.mem_range.mp hk
    have e1 : ivec + B + (r - B) + k * N = (ivec + r) + k * N := by omega
    have e2 : ivec + i + k * N = (ivec + i) + k * N := rfl
    rw [e1, lowPrecCopy_row _ _ N (ivec + r) k (by omega) hk2,
      lowPrecCopy_row _ _ N (ivec + i) k (by omega) hk2]

theorem overlapBlockStepMixedPrec_values (env : ParallelEnv) (N vbs : Nat)
    (ranks : Nat → RankData) (g ivec : Nat) (s : OverlapMixedState) (t : OverlapState)
    (h : s.values = t.values) :
    (overlapBlockStepMixedPrec env N vbs ranks g ivec s).values
      = (overlapBlockStep env N vbs ranks g ivec t).values := by
  unfold overlapBlockStepMixedPrec overlapBlockStep
  dsimp only
  by_cases hown : bandOwns env g (ivec + min vbs (N - ivec))
  · rw [if_pos hown, if_pos hown]
    dsimp only
    funext p
    rw [h]
    by_cases hact : (ranks p).processActive = true
    · rw [if_pos hact, if_pos hact]
      apply overlapScatter_congr
      intro i j hi hj1 hj2
      have e : i * (N - ivec) + j - ivec = i * (N - ivec) + (j - ivec) := by omega
      rw [e]
      exact stitched_tile_eq env.numberDomainRanks N ivec (min vbs (N - ivec)) ranks
        s.overlapMatrixBlockDoublePrec (Nat.min_le_right _ _) p i (j - ivec) hi (by omega)
    · rw [if_neg hact, if_neg hact]
  · rw [if_neg hown, if_neg hown]
    exact h

theorem overlapBlockStepMixedPrec_tile (env : ParallelEnv) (N vbs : Nat)
    (ranks : Nat → RankData) (g ivec : Nat) (s : OverlapMixedState) (t : OverlapState)
    (hown : bandOwns env g (ivec + min vbs (N - ivec))) (p i r : Nat)
    (hi : i < min vbs (N - ivec)) (hr : r < N - ivec) :
    (overlapBlockStepMixedPrec env N vbs ranks g ivec s).overlapMatrixBlock p
        (i * (N - ivec) + r)
      = (overlapBlockStep env N vbs ranks g ivec t).overlapMatrixBlock p
        (i * (N - ivec) + r) := by
  unfold overlapBlockStepMixedPrec overlapBlockStep
  dsimp only
  rw [if_pos hown, if_pos hown]
  exact stitched_tile_eq env.numberDomainRanks N ivec (min vbs (N - ivec)) ranks
    s.overlapMatrixBlockDoublePrec (Nat.min_le_right _ _) p i r hi hr

theorem overlapBandGroupMixedPrec_eq (env : ParallelEnv) (N : Nat) (ranks : Nat → RankData)
    (g fuel : Nat) :
    overlapBandGroupMixedPrec env N ranks g fuel = overlapBandGroup env N ranks g fuel := by
  have hrel := stridedLoop_rel N (min env.wfcBlockSize (env.bandGroupLowHighPlusOneIndices 1))
    (overlapBlockStepMixedPrec env N
      (min env.wfcBlockSize (env.bandGroupLowHighPlusOneIndices 1)) ranks g)
    (overlapBlockStep env N (min env.wfcBlockSize (env.bandGroupLowHighPlusOneIndices 1))
      ranks g)
    (fun s t => s.values = t.values)
    (fun ivec s t _ h => overlapBlockStepMixedPrec_values env N _ ranks g ivec s t h)
    fuel 0 ⟨fun _ _ => 0, fun _ _ => 0, fun _ _ => 0, fun p => (ranks p).mat.values⟩
    ⟨fun _ _ => 0, fun p => (ranks p).mat.values⟩ rfl
  unfold overlapBandGroupMixedPrec overlapBandGroup
  dsimp only
  rcases hrel with ⟨h1, h2⟩ | ⟨s2, t2, h1, h2, h3⟩
  · rw [h1, h2]
    rfl
  · rw [h1, h2]
    show some s2.values = some t2.values
    rw [h3]

theorem fillParallelOverlapMatrix_returns (env : ParallelEnv) (N : Nat)
    (ranks : Nat → Nat → RankData) (fuel : Nat)
    (hbs : 1 ≤ min env.wfcBlockSize (env.bandGroupLowHighPlusOneIndices 1))
    (hfuel : N ≤ fuel) : ∃ S, fillParallelOverlapMatrix env N ranks fuel = some S := by
  obtain ⟨vals, hall, _⟩ := allFinished_some env.numberBandGroups
    (fun p => (ranks 0 p).mat.values) (fun g => overlapBandGroup env N (ranks g) g fuel)
    (fun g _ => by
      obtain ⟨v, hv, _⟩ := overlapBandGroup_values env N (ranks g) g fuel hbs hfuel
      exact ⟨v, hv⟩)
  unfold fillParallelOverlapMatrix
  rw [hall]
  exact ⟨_, rfl⟩

/-- C17: in exact arithmetic `fillParallelOverlapMatrixMixedPrec` writes into `S` what
`fillParallelOverlapMatrix` writes, for every `X`, `N`, block size and band group: the two
calls return the same matrices (and they return when the block size is `≥ 1`), because
for each owned column block the stitched `D × B` tile (per column the `B` leading entries
of the `B × B` block, then the `D - B` entries of the trailing block) equals the tile of
the single `D × B` product on every entry. -/
theorem fillParallelOverlapMatrixMixedPrec_refines (env : ParallelEnv) (N : Nat)
    (ranks : Nat → Nat → RankData) (fuel : Nat) :
    fillParallelOverlapMatrixMixedPrec env N ranks fuel
      = fillParallelOverlapMatrix env N ranks fuel ∧
    (∀ g vbs ivec (s : OverlapMixedState) (t : OverlapState) p i r,
      bandOwns env g (ivec + min vbs (N - ivec)) → i < min vbs (N - ivec) → r < N - ivec →
      (overlapBlockStepMixedPrec env N vbs (ranks g) g ivec s).overlapMatrixBlock p
          (i * (N - ivec) + r)
        = (overlapBlockStep env N vbs (ranks g) g ivec t).overlapMatrixBlock p
          (i * (N - ivec) + r)) ∧
    (1 ≤ min env.wfcBlockSize (env.bandGroupLowHighPlusOneIndices 1) → N ≤ fuel →
      ∃ S, fillParallelOverlapMatrixMixedPrec env N ranks fuel = some S) := by
  have heq : fillParallelOverlapMatrixMixedPrec env N ranks fuel
      = fillParallelOverlapMatrix env N ranks fuel := by
    unfold fillParallelOverlapMatrixMixedPrec fillParallelOverlapMatrix
    have hf : (fun g => overlapBandGroupMixedPrec env N (ranks g) g fuel)
        = (fun g => overlapBandGroup env N (ranks g) g fuel) :=
      funext (fun g => overlapBandGroupMixedPrec_eq env N (ranks g) g fuel)
    rw [hf]
  refine ⟨heq, ?_, ?_⟩
  · intro g vbs ivec s t p i r hown hi hr
    exact overlapBlockStepMixedPrec_tile env N vbs (ranks g) g ivec s t hown p i r hi hr
  · intro hbs hfuel
    rw [heq]
    exact fillParallelOverlapMatrix_returns env N ranks fuel hbs hfuel

/-- Witness for C17: one rank with the rows `(1, 2)` and `(3, 4)`, blocks of one vector. -/
theorem fillParallelOverlapMatrixMixedPrec_refines_witness :
    fillParallelOverlapMatrixMixedPrec oneRankEnv 2 oneRankData 2
      = fillParallelOverlapMatrix oneRankEnv 2 oneRankData 2 ∧
    ∃ S, fillParallelOverlapMatrixMixedPrec oneRankEnv 2 oneRankData 2 = some S :=
  ⟨(fillParallelOverlapMatrixMixedPrec_refines oneRankEnv 2 oneRankData 2).1,
    (fillParallelOverlapMatrixMixedPrec_refines oneRankEnv 2 oneRankData 2).2.2
      (by decide) (by decide)⟩

/-! ## Nested loops of point-wise updates -/

/-- A loop whose step `t` changes at most the element `key t`, to a function of its
previous value. -/
theorem forLoop_updates (body : Nat → Buf → Buf) (n : Nat) (key : Nat → Nat)
    (upd : Nat → ℚ → ℚ)
    (hbody : ∀ t s x, t < n → body t s x = if x = key t then upd t (s x) else s x)
    (hinj : ∀ t t2, t < n → t2 < n → key t = key t2 → t = t2) :
    (∀ s0 t, t < n → forLoop body n s0 (key t) = upd t (s0 (key t))) ∧
    (∀ s0 x, (∀ t, t < n → x ≠ key t) → forLoop body n s0 x = s0 x) := by
  refine ⟨fun s0 t ht => ?_, fun s0 x hx => ?_⟩
  · obtain ⟨_, h2⟩ := forLoop_at body n (key t) (fun u => key t = key u) upd
      (fun u s hu hP => by rw [hbody u s _ hu, if_neg hP])
      (fun u s hu hP => by rw [hbody u s _ hu, if_pos hP])
    exact h2 s0 t ht rfl (fun u hu hne hP => hne (hinj u t hu ht hP.symm))
  · obtain ⟨h1, _⟩ := forLoop_at body n x (fun u => x = key u) upd
      (fun u s hu hP => by rw [hbody u s _ hu, if_neg hP])
      (fun u s hu hP => by rw [hbody u s _ hu, if_pos hP])
    exact h1 s0 (fun u hu => hx u hu)

/-- Two nested loops whose step `(i, j)` changes at most the element `key i j`, to a
function of its previous value. -/
theorem forLoop_updates2 (inner : Nat → Nat → Buf → Buf) (n m : Nat) (key : Nat → Nat → Nat)
    (upd : Nat → Nat → ℚ → ℚ)
    (hbody : ∀ i j s x, i < n → j < m →
      inner i j s x = if x = key i j then upd i j (s x) else s x)
    (hinj : ∀ i j i2 j2, i < n → j < m → i2 < n → j2 < m → key i j = key i2 j2 →
      i = i2 ∧ j = j2) :
    (∀ s0 i j, i < n → j < m →
      forLoop (fun i s => forLoop (inner i) m s) n s0 (key i j) = upd i j (s0 (key i j))) ∧
    (∀ s0 x, (∀ i j, i < n → j < m → x ≠ key i j) →
      forLoop (fun i s => forLoop (inner i) m s) n s0 x = s0 x) := by
  have hin : ∀ i, i < n →
      (∀ s0 j, j < m → forLoop (inner i) m s0 (key i j) = upd i j (s0 (key i j))) ∧
      (∀ s0 x, (∀ j, j < m → x ≠ key i j) → forLoop (inner i) m s0 x = s0 x) :=
    fun i hi => forLoop_updates (inner i) m (key i) (upd i)
      (fun j s x hj => hbody i j s x hi hj)
      (fun j j2 hj hj2 he => (hinj i j i j2 hi hj hi hj2 he).2)
  refine ⟨fun s0 i j hi hj => ?_, fun s0 x hx => ?_⟩
  · obtain ⟨_, h2⟩ := forLoop_at (fun i s => forLoop (inner i) m s) n (key i j)
      (fun u => u = i) (fun _ v => upd i j v)
      (fun u s hu hP => (hin u hu).2 s _
        (fun j2 hj2 he => hP (hinj i j u j2 hi hj hu hj2 he).1.symm))
      (fun u s hu hP => by
        subst hP
        exact (hin u hu).1 s j hj)
    exact h2 s0 i hi rfl (fun u _ hne hP => hne hP)
  · obtain ⟨h1, _⟩ := forLoop_at (fun i s => forLoop (inner i) m s) n x
      (fun _ => False) (fun _ v => v)
      (fun u s hu _ => (hin u hu).2 s x (fun j hj => hx u j hu hj))
      (fun u s _ hP => absurd hP id)
    exact h1 s0 (fun _ _ h => h)

theorem forLoop_pair {α β : Type} (body : Nat → α × β → α × β) (f : Nat → α → α)
    (h : Nat → β → β) (n : Nat) (a : α) (b : β)
    (hbody : ∀ t x y, t < n → body t (x, y) = (f t x, h t y)) :
    forLoop body n (a, b) = (forLoop f n a, forLoop h n b) := by
  induction n with
  | zero => rfl
  | succ k ih =>
    rw [forLoop_succ, forLoop_succ, forLoop_succ,
      ih (fun t x y ht => hbody t x y (Nat.lt_succ_of_lt ht)), hbody k _ _ (Nat.lt_succ_self k)]

/-! ## The panel and the diagonal of the mixed-precision rotation -/

theorem pgsInner_apply (BVec jvec u : Nat) (g : Nat → Option Nat) (row : Nat → ℚ) (s : Buf) :
    (∀ j, j < BVec →
      forLoop (fun j blk =>
          match g (j + jvec) with
          | none => blk
          | some b => Function.update blk (u * BVec + j) (row b)) BVec s (u * BVec + j)
        = match g (j + jvec) with
          | some b => row b
          | none => s (u * BVec + j)) ∧
    (∀ x, (∀ j, j < BVec → x ≠ u * BVec + j) →
      forLoop (fun j blk =>
          match g (j + jvec) with
          | none => blk
          | some b => Function.update blk (u * BVec + j) (row b)) BVec s x = s x) := by
  obtain ⟨h1, h2⟩ := forLoop_writes (fun j blk =>
      match g (j + jvec) with
      | none => blk
      | some b => Function.update blk (u * BVec + j) (row b)) BVec (fun j => u * BVec + j)
    (fun j => (g (j + jvec)).map row)
    (by
      intro j s x _
      dsimp only
      cases hg : g (j + jvec) with
      | none =>
        dsimp only [Option.map, Option.getD]
        split_ifs <;> rfl
      | some b =>
        dsimp only [Option.map, Option.getD]
        rw [Function.update_apply])
    (fun j j2 _ _ he => by dsimp only at he; omega)
  refine ⟨fun j hj => ?_, fun x hx => h2 s x hx⟩
  rw [h1 s j hj]
  cases hg : g (j + jvec) <;> rfl

/-- The first component of the loop body of `rotationGatherPGS`. -/
theorem pgsRow_apply (BVec jvec u : Nat) (f g : Nat → Option Nat) (el : Nat → Nat → ℚ)
    (s : Buf) :
    (∀ j, j < BVec →
      (match f u with
        | none => s
        | some a =>
          if u ≥ jvec ∧ u < jvec + BVec then
            match g u with
            | none => forLoop (fun j blk =>
                match g (j + jvec) with
                | none => blk
                | some b => Function.update blk (u * BVec + j) (el a b)) BVec s
            | some _ => Function.update (forLoop (fun j blk =>
                match g (j + jvec) with
                | none => blk
                | some b => Function.update blk (u * BVec + j) (el a b)) BVec s)
                (u * BVec + u - jvec) 0
          else forLoop (fun j blk =>
                match g (j + jvec) with
                | none => blk
                | some b => Function.update blk (u * BVec + j) (el a b)) BVec s)
        (u * BVec + j)
        = match f u, g (j + jvec) with
          | some a, some b => if u = j + jvec then 0 else el a b
          | _, _ => s (u * BVec + j)) ∧
    (∀ x, (∀ j, j < BVec → x ≠ u * BVec + j) →
      (match f u with
        | none => s
        | some a =>
          if u ≥ jvec ∧ u < jvec + BVec then
            match g u with
            | none => forLoop (fun j blk =>
                match g (j + jvec) with
                | none => blk
                | some b => Function.update blk (u * BVec + j) (el a b)) BVec s
            | some _ => Function.update (forLoop (fun j blk =>
                match g (j + jvec) with
                | none => blk
                | some b => Function.update blk (u * BVec + j) (el a b)) BVec s)
                (u * BVec + u - jvec) 0
          else forLoop (fun j blk =>
                match g (j + jvec) with
                | none => blk
                | some b => Function.update blk (u * BVec + j) (el a b)) BVec s) x = s x) := by
  cases hf : f u with
  | none => exact ⟨fun j _ => rfl, fun x _ => rfl⟩
  | some a =>
    obtain ⟨h1, h2⟩ := pgsInner_apply BVec jvec u g (el a) s
    dsimp only
    by_cases hcond : u ≥ jvec ∧ u < jvec + BVec
    · rw [if_pos hcond]
      cases hg : g u with
      | none =>
        dsimp only
        refine ⟨fun j hj => ?_, fun x hx => h2 x hx⟩
        rw [h1 j hj]
        cases hgj : g (j + jvec) with
        | none => rfl
        | some b =>
          dsimp only
          rw [if_neg]
          intro he
          rw [← he, hg] at hgj
          exact absurd hgj (by simp)
      | some b0 =>
        dsimp only
        refine ⟨fun j hj => ?_, fun x hx => ?_⟩
        · rw [Function.update_apply]
          by_cases he : u = j + jvec
          · have hk : u * BVec + j = u * BVec + u - jvec := by omega
            rw [if_pos hk]
            rw [← he, hg]
            dsimp only
            rw [if_pos rfl]
          · have hk : ¬ u * BVec + j = u * BVec + u - jvec := by omega
            rw [if_neg hk, h1 j hj]
            cases hgj : g (j + jvec) with
            | none => rfl
            | some b =>
              dsimp only
              rw [if_neg he]
        · rw [Function.update_apply, if_neg, h2 x hx]
          have := hx (u - jvec) (by omega)
          omega
    · rw [if_neg hcond]
      refine ⟨fun j hj => ?_, fun x hx => h2 x hx⟩
      rw [h1 j hj]
      cases hgj : g (j + jvec) with
      | none => rfl
      | some b =>
        dsimp only
        rw [if_neg]
        omega

theorem gatherPGSLoop_apply (D BVec jvec : Nat) (f g : Nat → Option Nat)
    (el : Nat → Nat → ℚ) :
    (∀ i j, i < D → j < BVec →
      (forLoop (fun i (st : Buf × Buf) =>
          match f i with
          | none => st
          | some a =>
            let blk := forLoop (fun j blk =>
              match g (j + jvec) with
              | none => blk
              | some b => Function.update blk (i * BVec + j) (el a b)) BVec st.1
            if i ≥ jvec ∧ i < jvec + BVec then
              match g i with
              | none => (blk, st.2)
              | some b =>
                (Function.update blk (i * BVec + i - jvec) 0,
                  Function.update st.2 (i - jvec) (el a b))
            else (blk, st.2)) D ((fun _ => 0), (fun _ => 0))).1 (i * BVec + j)
        = match f i, g (j + jvec) with
          | some a, some b => if i = j + jvec then 0 else el a b
          | _, _ => 0) ∧
    (∀ j, j < BVec → j + jvec < D →
      (forLoop (fun i (st : Buf × Buf) =>
          match f i with
          | none => st
          | some a =>
            let blk := forLoop (fun j blk =>
              match g (j + jvec) with
              | none => blk
              | some b => Function.update blk (i * BVec + j) (el a b)) BVec st.1
            if i ≥ jvec ∧ i < jvec + BVec then
              match g i with
              | none => (blk, st.2)
              | some b =>
                (Function.update blk (i * BVec + i - jvec) 0,
                  Function.update st.2 (i - jvec) (el a b))
            else (blk, st.2)) D ((fun _ => 0), (fun _ => 0))).2 j
        = match f (j + jvec), g (j + jvec) with
          | some a, some b => el a b
          | _, _ => 0) := by
  have hpair := forLoop_pair (fun i (st : Buf × Buf) =>
      match f i with
      | none => st
      | some a =>
        let blk := forLoop (fun j blk =>
          match g (j + jvec) with
          | none => blk
          | some b => Function.update blk (i * BVec + j) (el a b)) BVec st.1
        if i ≥ jvec ∧ i < jvec + BVec then
          match g i with
          | none => (blk, st.2)
          | some b =>
            (Function.update blk (i * BVec + i - jvec) 0,
              Function.update st.2 (i - jvec) (el a b))
        else (blk, st.2))
    (fun u s =>
      match f u with
      | none => s
      | some a =>
        if u ≥ jvec ∧ u < jvec + BVec then
          match g u with
          | none => forLoop (fun j blk =>
              match g (j + jvec) with
              | none => blk
              | some b => Function.update blk (u * BVec + j) (el a b)) BVec s
          | some _ => Function.update (forLoop (fun j blk =>
              match g (j + jvec) with
              | none => blk
              | some b => Function.update blk (u * BVec + j) (el a b)) BVec s)
              (u * BVec + u - jvec) 0
        else forLoop (fun j blk =>
              match g (j + jvec) with
              | none => blk
              | some b => Function.update blk (u * BVec + j) (el a b)) BVec s)
    (fun u dg =>
      match f u with
      | none => dg
      | some a =>
        if u ≥ jvec ∧ u < jvec + BVec then
          match g u with
          | none => dg
          | some b => Function.update dg (u - jvec) (el a b)
        else dg)
    D (fun _ => 0) (fun _ => 0)
    (by
      intro t x y _
      dsimp only
      cases hf : f t with
      | none => rfl
      | some a =>
        dsimp only
        by_cases hcond : t ≥ jvec ∧ t < jvec + BVec
        · rw [if_pos hcond, if_pos hcond, if_pos hcond]
          cases hg : g t <;> rfl
        · rw [if_neg hcond, if_neg hcond, if_neg hcond])
  rw [hpair]
  dsimp only
  refine ⟨fun i j hi hj => ?_, fun j hj hjD => ?_⟩
  · obtain ⟨_, h2⟩ := forLoop_at (fun u s =>
        match f u with
        | none => s
        | some a =>
          if u ≥ jvec ∧ u < jvec + BVec then
            match g u with
            | none => forLoop (fun j blk =>
                match g (j + jvec) with
                | none => blk
                | some b => Function.update blk (u * BVec + j) (el a b)) BVec s
            | some _ => Function.update (forLoop (fun j blk =>
                match g (j + jvec) with
                | none => blk
                | some b => Function.update blk (u * BVec + j) (el a b)) BVec s)
                (u * BVec + u - jvec) 0
          else forLoop (fun j blk =>
                match g (j + jvec) with
                | none => blk
                | some b => Function.update blk (u * BVec + j) (el a b)) BVec s)
      D (i * BVec + j) (fun u => u = i)
      (fun _ v => match f i, g (j + jvec) with
        | some a, some b => if i = j + jvec then 0 else el a b
        | _, _ => v)
      (fun u s _ hne => (pgsRow_apply BVec jvec u f g el s).2 _
        (fun j2 hj2 he => hne (panel_index_inj BVec i j u j2 hj hj2 he).1.symm))
      (fun u s _ hu => by
        subst hu
        exact (pgsRow_apply BVec jvec u f g el s).1 j hj)
    rw [h2 (fun _ => 0) i hi rfl (fun t _ hne he => hne he)]
  · obtain ⟨_, h2⟩ := forLoop_at (fun u dg =>
        match f u with
        | none => dg
        | some a =>
          if u ≥ jvec ∧ u < jvec + BVec then
            match g u with
            | none => dg
            | some b => Function.update dg (u - jvec) (el a b)
          else dg) D j (fun u => u = j + jvec)
      (fun _ v => match f (j + jvec), g (j + jvec) with
        | some a, some b => el a b
        | _, _ => v)
      (by
        intro u s _ hne
        dsimp only
        cases hf : f u with
        | none => rfl
        | some a =>
          dsimp only
          by_cases hcond : u ≥ jvec ∧ u < jvec + BVec
          · rw [if_pos hcond]
            cases hg : g u with
            | none => rfl
            | some b =>
              dsimp only
              rw [Function.update_apply, if_neg]
              omega
          · rw [if_neg hcond])
      (by
        intro u s _ hu
        subst hu
        dsimp only
        cases hf : f (j + jvec) with
        | none => rfl
        | some a =>
          dsimp only
          rw [if_pos ⟨by omega, by omega⟩]
          cases hg : g (j + jvec) with
          | none => rfl
          | some b =>
            dsimp only
            rw [Function.update_apply, if_pos (by omega)])
    rw [h2 (fun _ => 0) (j + jvec) hjD rfl (fun t _ hne he => hne he)]

theorem rotationGatherPGS_apply (tr : Bool) (D BVec jvec : Nat) (d : RankData) :
    (∀ i j, i < D → j < BVec →
      (rotationGatherPGS tr d.processActive D BVec jvec d.rowMap d.colMap d.mat
          (fun _ => 0) (fun _ => 0)).1 (i * BVec + j)
        = if i = j + jvec then 0
          else if tr then ownedEntry d i (j + jvec) else ownedEntry d (j + jvec) i) ∧
    (∀ j, j < BVec → j + jvec < D →
      (rotationGatherPGS tr d.processActive D BVec jvec d.rowMap d.colMap d.mat
          (fun _ => 0) (fun _ => 0)).2 j = ownedEntry d (j + jvec) (j + jvec)) := by
  unfold rotationGatherPGS
  cases hact : d.processActive with
  | false =>
    have h1 := fun x => (rankMaps_inactive d hact x).1
    have h2 := fun x => (rankMaps_inactive d hact x).2
    unfold ownedEntry
    refine ⟨fun i j _ _ => ?_, fun j _ _ => ?_⟩
    · cases tr <;> simp [h1, h2]
    · cases tr <;> simp [h1, h2]
  | true =>
    cases tr with
    | true =>
      simp only [if_true]
      obtain ⟨a1, a2⟩ := gatherPGSLoop_apply D BVec jvec d.rowMap d.colMap
        (fun a b => d.mat.local_el a b)
      refine ⟨fun i j hi hj => ?_, fun j hj hjD => ?_⟩
      · rw [a1 i j hi hj]
        unfold ownedEntry
        cases d.rowMap i <;> cases d.colMap (j + jvec) <;> simp
      · rw [a2 j hj hjD]
        unfold ownedEntry
        rfl
    | false =>
      simp only [Bool.false_eq_true, if_false, if_true]
      obtain ⟨a1, a2⟩ := gatherPGSLoop_apply D BVec jvec d.colMap d.rowMap
        (fun a b => d.mat.local_el b a)
      refine ⟨fun i j hi hj => ?_, fun j hj hjD => ?_⟩
      · rw [a1 i j hi hj]
        unfold ownedEntry
        cases d.colMap i <;> cases d.rowMap (j + jvec) <;> simp
      · rw [a2 j hj hjD]
        unfold ownedEntry
        cases d.colMap (j + jvec) <;> cases d.rowMap (j + jvec) <;> rfl

theorem rotationPanelPGS_apply (tr : Bool) (P D BVec jvec : Nat) (ranks : Nat → RankData)
    (q : Nat) :
    (∀ i j, i < D → j < BVec →
      mpiAllreduceSum P (BVec * D) (fun p =>
          (rotationGatherPGS tr (ranks p).processActive D BVec jvec (ranks p).rowMap
            (ranks p).colMap (ranks p).mat (fun _ => 0) (fun _ => 0)).1) q (i * BVec + j)
        = if i = j + jvec then 0 else rotationEntry tr P ranks (j + jvec) i) ∧
    (∀ j, j < BVec → j + jvec < D →
      mpiAllreduceSum P BVec (fun p =>
          (rotationGatherPGS tr (ranks p).processActive D BVec jvec (ranks p).rowMap
            (ranks p).colMap (ranks p).mat (fun _ => 0) (fun _ => 0)).2) q j
        = globalEntry P ranks (j + jvec) (j + jvec)) := by
  refine ⟨fun i j hi hj => ?_, fun j hj hjD => ?_⟩
  · unfold mpiAllreduceSum
    rw [if_pos (panel_index_lt D BVec i j hi hj)]
    by_cases he : i = j + jvec
    · rw [if_pos he]
      apply Finset.sum_eq_zero
      intro p _
      dsimp only
      rw [(rotationGatherPGS_apply tr D BVec jvec (ranks p)).1 i j hi hj, if_pos he]
    · rw [if_neg he]
      unfold rotationEntry globalEntry
      cases tr with
      | true =>
        simp only [if_true]
        refine Finset.sum_congr rfl (fun p _ => ?_)
        rw [(rotationGatherPGS_apply true D BVec jvec (ranks p)).1 i j hi hj, if_neg he]
        rfl
      | false =>
        simp only [Bool.false_eq_true, if_false]
        refine Finset.sum_congr rfl (fun p _ => ?_)
        rw [(rotationGatherPGS_apply false D BVec jvec (ranks p)).1 i j hi hj, if_neg he]
        rfl
  · unfold mpiAllreduceSum
    rw [if_pos hj]
    unfold globalEntry
    refine Finset.sum_congr rfl (fun p _ => ?_)
    dsimp only
    rw [(rotationGatherPGS_apply tr D BVec jvec (ranks p)).2 j hj hjD]

/-! ## One vector block of the mixed-precision rotation -/

theorem dgemm_NN_entry (m n K : Nat) (a : Buf) (aOff lda : Nat) (b : Buf) (bOff ldb : Nat)
    (c : Buf) (row col : Nat) (hrow : row < m) (hcol : col < n) :
    dgemm 'N' 'N' m n K 1 a aOff lda b bOff ldb 0 c 0 m (col * m + row)
      = ∑ k ∈ Finset.range K, a (aOff + row + k * lda) * b (bOff + k + col * ldb) := by
  obtain ⟨e1, e2⟩ := block_index m col row hrow
  have hcond : 0 ≤ col * m + row ∧ (col * m + row - 0) % m < m ∧ (col * m + row - 0) / m < n := by
    rw [Nat.sub_zero, e1, e2]
    exact ⟨Nat.zero_le _, hrow, hcol⟩
  rw [dgemm_apply _ _ _ _ _ _ _ _ _ _ _ _ _ _ _ _ (le_refl _), if_pos hcond, Nat.sub_zero,
    e1, e2]
  simp only [if_true, one_mul, zero_mul, add_zero]

theorem pgsKey_inj (N idof jvec BVec i j i2 j2 : Nat) (hj : j < BVec) (hj2 : j2 < BVec)
    (hB : BVec ≤ N - jvec) (hjv : jvec < N)
    (he : N * (idof + i) + j + jvec = N * (idof + i2) + j2 + jvec) : i = i2 ∧ j = j2 := by
  have := panel_index_inj N (idof + i) (j + jvec) (idof + i2) (j2 + jvec) (by omega) (by omega)
    (by rw [Nat.mul_comm _ N, Nat.mul_comm _ N]; omega)
  omega

theorem rotationPGSVectorStep_apply (env : ParallelEnv) (N vbs dbs idof : Nat)
    (ranks : Nat → RankData) (g : Nat) (tr : Bool) (single : Nat → Buf) (jvec : Nat)
    (st : RotationPGSState) (hjv : jvec < N) (p k c : Nat) (hc : c < N) :
    (rotationPGSVectorStep env N vbs dbs idof ranks g tr single jvec st).subspaceVectorsArray p
        (N * k + c)
      = if jvec ≤ c ∧ c < jvec + min vbs (N - jvec) ∧ idof ≤ k ∧
            k < idof + blockDofs dbs ((ranks p).subspaceVectorsArrayLocalSize / N) idof then
          if bandOwns env g (jvec + min vbs (N - jvec)) then
            st.subspaceVectorsArray p (N * k + c) * globalEntry env.numberDomainRanks ranks c c
              + ∑ l ∈ Finset.range (jvec + min vbs (N - jvec)),
                  (if l = c then 0 else rotationEntry tr env.numberDomainRanks ranks c l)
                    * single p (k * N + l)
          else 0
        else st.subspaceVectorsArray p (N * k + c) := by
  have hBle : min vbs (N - jvec) ≤ N - jvec := Nat.min_le_right _ _
  unfold rotationPGSVectorStep
  dsimp only
  have hB : (if (ranks p).subspaceVectorsArrayLocalSize / N ≥ idof then
      min dbs ((ranks p).subspaceVectorsArrayLocalSize / N - idof) else 0)
      = blockDofs dbs ((ranks p).subspaceVectorsArrayLocalSize / N) idof := rfl
  by_cases hown : bandOwns env g (jvec + min vbs (N - jvec))
  · rw [if_pos hown]
    dsimp only
    rw [hB]
    obtain ⟨u1, u2⟩ := forLoop_updates2
      (fun i j x => Function.update x (N * (idof + i) + j + jvec)
        (x (N * (idof + i) + j + jvec)
          * mpiAllreduceSum env.numberDomainRanks (min vbs (N - jvec)) (fun p =>
              (rotationGatherPGS tr (ranks p).processActive (jvec + min vbs (N - jvec))
                (min vbs (N - jvec)) jvec (ranks p).rowMap (ranks p).colMap (ranks p).mat
                (fun _ => 0) (fun _ => 0)).2) p j
          + sgemm 'N' 'N' (min vbs (N - jvec))
              (blockDofs dbs ((ranks p).subspaceVectorsArrayLocalSize / N) idof)
              (jvec + min vbs (N - jvec)) 1
              (mpiAllreduceSum env.numberDomainRanks
                (min vbs (N - jvec) * (jvec + min vbs (N - jvec))) (fun p =>
                  (rotationGatherPGS tr (ranks p).processActive (jvec + min vbs (N - jvec))
                    (min vbs (N - jvec)) jvec (ranks p).rowMap (ranks p).colMap (ranks p).mat
                    (fun _ => 0) (fun _ => 0)).1) p)
              0 (min vbs (N - jvec)) (single p) (idof * N) N 0
              (st.rotatedVectorsMatBlockTemp p) 0 (min vbs (N - jvec))
              (i * min vbs (N - jvec) + j)))
      (blockDofs dbs ((ranks p).subspaceVectorsArrayLocalSize / N) idof) (min vbs (N - jvec))
      (fun i j => N * (idof + i) + j + jvec)
      (fun i j v => v
          * mpiAllreduceSum env.numberDomainRanks (min vbs (N - jvec)) (fun p =>
              (rotationGatherPGS tr (ranks p).processActive (jvec + min vbs (N - jvec))
                (min vbs (N - jvec)) jvec (ranks p).rowMap (ranks p).colMap (ranks p).mat
                (fun _ => 0) (fun _ => 0)).2) p j
          + sgemm 'N' 'N' (min vbs (N - jvec))
              (blockDofs dbs ((ranks p).subspaceVectorsArrayLocalSize / N) idof)
              (jvec + min vbs (N - jvec)) 1
              (mpiAllreduceSum env.numberDomainRanks
                (min vbs (N - jvec) * (jvec + min vbs (N - jvec))) (fun p =>
                  (rotationGatherPGS tr (ranks p).processActive (jvec + min vbs (N - jvec))
                    (min vbs (N - jvec)) jvec (ranks p).rowMap (ranks p).colMap (ranks p).mat
                    (fun _ => 0) (fun _ => 0)).1) p)
              0 (min vbs (N - jvec)) (single p) (idof * N) N 0
              (st.rotatedVectorsMatBlockTemp p) 0 (min vbs (N - jvec))
              (i * min vbs (N - jvec) + j))
      (by
        intro i j s x _ _
        dsimp only
        rw [Function.update_apply]
        split_ifs with hx
        · rw [hx]
        · rfl)
      (fun i j i2 j2 _ hj _ hj2 he =>
        pgsKey_inj N idof jvec (min vbs (N - jvec)) i j i2 j2 hj hj2 hBle hjv he)
    by_cases hin : jvec ≤ c ∧ c < jvec + min vbs (N - jvec) ∧ idof ≤ k ∧
        k < idof + blockDofs dbs ((ranks p).subspaceVectorsArrayLocalSize / N) idof
    · obtain ⟨c1, c2, k1, k2⟩ := hin
      have hin2 : jvec ≤ c ∧ c < jvec + min vbs (N - jvec) ∧ idof ≤ k ∧
        k < idof + blockDofs dbs ((ranks p).subspaceVectorsArrayLocalSize / N) idof :=
        ⟨c1, c2, k1, k2⟩
      have hne : blockDofs dbs ((ranks p).subspaceVectorsArrayLocalSize / N) idof ≠ 0 := by
        omega
      rw [if_pos hin2, if_pos hne, if_pos hown]
      have hkey : N * k + c = N * (idof + (k - idof)) + (c - jvec) + jvec := by
        have : idof + (k - idof) = k := by omega
        rw [this]
        omega
      have hval := u1 (st.subspaceVectorsArray p) (k - idof) (c - jvec) (by omega) (by omega)
      rw [← hkey] at hval
      rw [hval]
      obtain ⟨q1, q2⟩ := rotationPanelPGS_apply tr env.numberDomainRanks
        (jvec + min vbs (N - jvec)) (min vbs (N - jvec)) jvec ranks p
      have hcc : c - jvec + jvec = c := by omega
      rw [q2 (c - jvec) (by omega) (by omega), hcc]
      unfold sgemm
      rw [dgemm_NN_entry _ _ _ _ _ _ _ _ _ _ (c - jvec) (k - idof) (by omega) (by omega)]
      congr 1
      refine Finset.sum_congr rfl (fun l hl => ?_)
      have hl2 := Finset.mem_range.mp hl
      have a1 : 0 + (c - jvec) + l * min vbs (N - jvec) = l * min vbs (N - jvec) + (c - jvec) := by
        omega
      have a2 : idof * N + l + (k - idof) * N = k * N + l := by
        have : k = idof + (k - idof) := by omega
        nth_rewrite 2 [this]
        rw [Nat.add_mul]
        omega
      rw [a1, a2, q1 l (c - jvec) hl2 (by omega), hcc]
    · rw [if_neg hin]
      by_cases hne : blockDofs dbs ((ranks p).subspaceVectorsArrayLocalSize / N) idof ≠ 0
      · rw [if_pos hne, u2]
        intro i j hi hj he
        apply hin
        have := panel_index_inj N k c (idof + i) (j + jvec) hc (by omega)
          (by rw [Nat.mul_comm _ N, Nat.mul_comm _ N]; omega)
        omega
      · rw [if_neg hne]
  · rw [if_neg hown]
    dsimp only
    rw [hB]
    obtain ⟨u1, u2⟩ := forLoop_writes2
      (fun i j x => Function.update x (N * (idof + i) + j + jvec) 0)
      (blockDofs dbs ((ranks p).subspaceVectorsArrayLocalSize / N) idof) (min vbs (N - jvec))
      (fun i j => N * (idof + i) + j + jvec) (fun _ _ => some 0)
      (by
        intro i j s x _ _
        dsimp only
        rw [Function.update_apply]
        rfl)
      (fun i j i2 j2 _ hj _ hj2 he =>
        pgsKey_inj N idof jvec (min vbs (N - jvec)) i j i2 j2 hj hj2 hBle hjv he)
    by_cases hin : jvec ≤ c ∧ c < jvec + min vbs (N - jvec) ∧ idof ≤ k ∧
        k < idof + blockDofs dbs ((ranks p).subspaceVectorsArrayLocalSize / N) idof
    · obtain ⟨c1, c2, k1, k2⟩ := hin
      have hin2 : jvec ≤ c ∧ c < jvec + min vbs (N - jvec) ∧ idof ≤ k ∧
        k < idof + blockDofs dbs ((ranks p).subspaceVectorsArrayLocalSize / N) idof :=
        ⟨c1, c2, k1, k2⟩
      rw [if_pos hin2]
      have hkey : N * k + c = N * (idof + (k - idof)) + (c - jvec) + jvec := by
        have : idof + (k - idof) = k := by omega
        rw [this]
        omega
      have hval := u1 (st.subspaceVectorsArray p) (k - idof) (c - jvec) (by omega) (by omega)
      rw [← hkey] at hval
      rw [hval, if_neg hown]
      rfl
    · rw [if_neg hin, u2]
      intro i j hi hj he
      apply hin
      have := panel_index_inj N k c (idof + i) (j + jvec) hc (by omega)
        (by rw [Nat.mul_comm _ N, Nat.mul_comm _ N]; omega)
      omega

theorem rotationPGSVectorStep_invariant (env : ParallelEnv) (N vbs dbs idof : Nat)
    (ranks : Nat → RankData) (g : Nat) (tr : Bool) (single : Nat → Buf) (jvec : Nat)
    (st : RotationPGSState) (X0 : Nat → Buf) (hjv : jvec < N) (hd : vbs ∣ jvec)
    (hI : ∀ p k c, c < N → st.subspaceVectorsArray p (N * k + c)
      = if c < jvec ∧ idof ≤ k ∧
            k < idof + blockDofs dbs ((ranks p).subspaceVectorsArrayLocalSize / N) idof then
          pgsBlockValue env N vbs ranks g tr (X0 p) (single p) k c
        else X0 p (N * k + c))
    (p k c : Nat) (hc : c < N) :
    (rotationPGSVectorStep env N vbs dbs idof ranks g tr single jvec st).subspaceVectorsArray p
        (N * k + c)
      = if c < jvec + vbs ∧ idof ≤ k ∧
            k < idof + blockDofs dbs ((ranks p).subspaceVectorsArrayLocalSize / N) idof then
          pgsBlockValue env N vbs ranks g tr (X0 p) (single p) k c
        else X0 p (N * k + c) := by
  have hBle : min vbs (N - jvec) ≤ N - jvec := Nat.min_le_right _ _
  have hBle2 : min vbs (N - jvec) ≤ vbs := Nat.min_le_left _ _
  rw [rotationPGSVectorStep_apply env N vbs dbs idof ranks g tr single jvec st hjv p k c hc,
    hI p k c hc]
  by_cases hin : jvec ≤ c ∧ c < jvec + min vbs (N - jvec) ∧ idof ≤ k ∧
      k < idof + blockDofs dbs ((ranks p).subspaceVectorsArrayLocalSize / N) idof
  · rw [if_pos hin]
    obtain ⟨c1, c2, k1, k2⟩ := hin
    have hend := columnBlockEnd_of_block N vbs jvec c hd c1 (by omega)
    have ht : c < jvec + vbs ∧ idof ≤ k ∧
        k < idof + blockDofs dbs ((ranks p).subspaceVectorsArrayLocalSize / N) idof :=
      ⟨by omega, k1, k2⟩
    have hlow : ¬ (c < jvec ∧ idof ≤ k ∧
        k < idof + blockDofs dbs ((ranks p).subspaceVectorsArrayLocalSize / N) idof) :=
      fun h => by omega
    rw [if_pos ht, if_neg hlow]
    unfold pgsBlockValue
    rw [hend]
  · rw [if_neg hin]
    have e : (c < jvec ∧ idof ≤ k ∧
        k < idof + blockDofs dbs ((ranks p).subspaceVectorsArrayLocalSize / N) idof)
        ↔ (c < jvec + vbs ∧ idof ≤ k ∧
        k < idof + blockDofs dbs ((ranks p).subspaceVectorsArrayLocalSize / N) idof) := by
      constructor
      · intro h
        exact ⟨by omega, h.2⟩
      · intro h
        refine ⟨?_, h.2⟩
        by_contra hge
        apply hin
        refine ⟨by omega, ?_, h.2⟩
        have : c - jvec < min vbs (N - jvec) := by
          rw [Nat.lt_min]
          constructor <;> omega
        omega
    rw [if_congr e rfl rfl]

theorem rotationPGSDofStep_apply (env : ParallelEnv) (N vbs dbs : Nat)
    (ranks : Nat → RankData) (g : Nat) (tr : Bool) (single : Nat → Buf) (fuel idof : Nat)
    (st : RotationPGSState) (hbs : 1 ≤ vbs) (hfuel : N ≤ fuel) :
    ∃ st2, rotationPGSDofStep env N vbs dbs ranks g tr single fuel idof (some st) = some st2 ∧
      ∀ p k c, c < N →
        st2.subspaceVectorsArray p (N * k + c)
          = if idof ≤ k ∧
                k < idof + blockDofs dbs ((ranks p).subspaceVectorsArrayLocalSize / N) idof then
              pgsBlockValue env N vbs ranks g tr (st.subspaceVectorsArray p) (single p) k c
            else st.subspaceVectorsArray p (N * k + c) := by
  obtain ⟨t, i, hrun, hle, _, hI⟩ := stridedLoop_invariant N vbs
    (rotationPGSVectorStep env N vbs dbs idof ranks g tr single)
    (fun jvec s => vbs ∣ jvec ∧ ∀ p k c, c < N → s.subspaceVectorsArray p (N * k + c)
      = if c < jvec ∧ idof ≤ k ∧
            k < idof + blockDofs dbs ((ranks p).subspaceVectorsArrayLocalSize / N) idof then
          pgsBlockValue env N vbs ranks g tr (st.subspaceVectorsArray p) (single p) k c
        else st.subspaceVectorsArray p (N * k + c))
    hbs
    (fun jvec s hjv h => ⟨Dvd.dvd.add h.1 (dvd_refl _),
      rotationPGSVectorStep_invariant env N vbs dbs idof ranks g tr single jvec s
        st.subspaceVectorsArray hjv h.1 h.2⟩)
    fuel 0 st (by omega)
    ⟨dvd_zero _, fun p k c _ => by rw [if_neg (fun h => Nat.not_lt_zero _ h.1)]⟩
  refine ⟨t, hrun, fun p k c hc => ?_⟩
  rw [hI p k c hc]
  have e : (c < i ∧ idof ≤ k ∧
      k < idof + blockDofs dbs ((ranks p).subspaceVectorsArrayLocalSize / N) idof)
      ↔ (idof ≤ k ∧
      k < idof + blockDofs dbs ((ranks p).subspaceVectorsArrayLocalSize / N) idof) :=
    ⟨fun h => h.2, fun h => ⟨by omega, h⟩⟩
  rw [if_congr e rfl rfl]

theorem pgsBlockValue_congr (env : ParallelEnv) (N vbs : Nat) (ranks : Nat → RankData)
    (g : Nat) (tr : Bool) (X X2 single : Buf) (k j : Nat)
    (h : X (N * k + j) = X2 (N * k + j)) :
    pgsBlockValue env N vbs ranks g tr X single k j
      = pgsBlockValue env N vbs ranks g tr X2 single k j := by
  unfold pgsBlockValue
  rw [h]

theorem rotationPGSDofStep_invariant (env : ParallelEnv) (N vbs dbs : Nat)
    (ranks : Nat → RankData) (g : Nat) (tr : Bool) (single : Nat → Buf) (fuel idof : Nat)
    (X0 : Nat → Buf) (ost : Option RotationPGSState) (hbs : 1 ≤ vbs) (hfuel : N ≤ fuel)
    (hI : ∃ st, ost = some st ∧ ∀ p k j, j < N →
      st.subspaceVectorsArray p (N * k + j)
        = if k < idof ∧ k < (ranks p).subspaceVectorsArrayLocalSize / N then
            pgsBlockValue env N vbs ranks g tr (X0 p) (single p) k j
          else X0 p (N * k + j)) :
    ∃ st, rotationPGSDofStep env N vbs dbs ranks g tr single fuel idof ost = some st ∧
      ∀ p k j, j < N →
        st.subspaceVectorsArray p (N * k + j)
          = if k < idof + dbs ∧ k < (ranks p).subspaceVectorsArrayLocalSize / N then
              pgsBlockValue env N vbs ranks g tr (X0 p) (single p) k j
            else X0 p (N * k + j) := by
  obtain ⟨st, rfl, hst⟩ := hI
  obtain ⟨st2, hrun, hval⟩ := rotationPGSDofStep_apply env N vbs dbs ranks g tr single fuel
    idof st hbs hfuel
  refine ⟨st2, hrun, fun p k j hj => ?_⟩
  rw [hval p k j hj]
  by_cases hin : idof ≤ k ∧
      k < idof + blockDofs dbs ((ranks p).subspaceVectorsArrayLocalSize / N) idof
  · rw [if_pos hin]
    have hb : k < idof + dbs ∧ k < (ranks p).subspaceVectorsArrayLocalSize / N := by
      obtain ⟨h1, h2⟩ := hin
      unfold blockDofs at h2
      split_ifs at h2 <;> omega
    rw [if_pos hb]
    apply pgsBlockValue_congr
    have hlow : ¬ (k < idof ∧ k < (ranks p).subspaceVectorsArrayLocalSize / N) :=
      fun h => by omega
    rw [hst p k j hj, if_neg hlow]
  · rw [if_neg hin, hst p k j hj]
    have e : (k < idof ∧ k < (ranks p).subspaceVectorsArrayLocalSize / N)
        ↔ (k < idof + dbs ∧ k < (ranks p).subspaceVectorsArrayLocalSize / N) := by
      unfold blockDofs at hin
      split_ifs at hin <;> constructor <;> intro h <;> constructor <;> omega
    rw [if_congr e rfl rfl]

/-! ## The band group of the mixed-precision rotation -/

theorem columnBlockEnd_gt (N vbs j : Nat) (hbs : 1 ≤ vbs) (hj : j < N) :
    j < columnBlockEnd N vbs j := by
  unfold columnBlockEnd
  have h1 : j / vbs * vbs ≤ j := Nat.div_mul_le_self j vbs
  have h4 : j % vbs < vbs := Nat.mod_lt j (by omega)
  have h5 : vbs * (j / vbs) + j % vbs = j := Nat.div_add_mod j vbs
  have h2 : j < j / vbs * vbs + vbs := by
    rw [Nat.mul_comm] at h5
    omega
  have h3 : j - j / vbs * vbs < min vbs (N - j / vbs * vbs) := by
    rw [Nat.lt_min]
    constructor <;> omega
  omega

theorem rotationPGSBandGroup_apply (env : ParallelEnv) (N : Nat) (ranks : Nat → RankData)
    (g : Nat) (tr : Bool) (fuel : Nat)
    (hbs : 1 ≤ min env.wfcBlockSize (env.bandGroupLowHighPlusOneIndices 1))
    (hdof : 1 ≤ env.subspaceRotDofsBlockSize) (hfuel : N ≤ fuel)
    (hfuel2 : ∀ p, p < env.numberDomainRanks →
      (ranks p).subspaceVectorsArrayLocalSize / N ≤ fuel) :
    ∃ st, rotationPGSBandGroup env N ranks g tr fuel = some st ∧
      ∀ p k j, p < env.numberDomainRanks → j < N →
        k < (ranks p).subspaceVectorsArrayLocalSize / N →
        st.subspaceVectorsArray p (N * k + j)
          = pgsValue env N (min env.wfcBlockSize (env.bandGroupLowHighPlusOneIndices 1))
              ranks g tr (ranks p).subspaceVectorsArray k j := by
  have hmax := mpiMax_le env.numberDomainRanks
    (fun p => (ranks p).subspaceVectorsArrayLocalSize / N) fuel hfuel2
  have hconv : ∀ p k j, j < N → k < (ranks p).subspaceVectorsArrayLocalSize / N →
      pgsBlockValue env N (min env.wfcBlockSize (env.bandGroupLowHighPlusOneIndices 1)) ranks g
          tr (ranks p).subspaceVectorsArray
          (lowPrecCopy (ranks p).subspaceVectorsArray (ranks p).subspaceVectorsArrayLocalSize)
          k j
        = pgsValue env N (min env.wfcBlockSize (env.bandGroupLowHighPlusOneIndices 1)) ranks g
          tr (ranks p).subspaceVectorsArray k j := by
    intro p k j hj hk
    unfold pgsBlockValue pgsValue
    split_ifs
    · congr 1
      refine Finset.sum_congr rfl (fun i hi => ?_)
      have hi2 := Finset.mem_range.mp hi
      have hle := (columnBlockEnd_bounds N _ j hbs hj).2
      have e : k * N + i = i + k * N := Nat.add_comm _ _
      rw [e, lowPrecCopy_row _ _ N i k (by omega) hk, Nat.mul_comm N k, Nat.add_comm]
    · rfl
  by_cases hzero : mpiMax env.numberDomainRanks
      (fun p => (ranks p).subspaceVectorsArrayLocalSize / N) = 0
  · refine ⟨⟨fun p => (ranks p).subspaceVectorsArray, fun _ _ => 0, fun _ _ => 0,
      fun _ _ => 0⟩, ?_, ?_⟩
    · unfold rotationPGSBandGroup
      dsimp only
      rw [stridedLoop_done _ _ _ _ _ _ (by omega)]
    · intro p k j hp _ hk
      have := mpiMax_ge env.numberDomainRanks
        (fun p => (ranks p).subspaceVectorsArrayLocalSize / N) p hp
      dsimp only at this
      omega
  · obtain ⟨t, i, hrun, hle, _, st, hst, hI⟩ := stridedLoop_invariant
      (mpiMax env.numberDomainRanks (fun p => (ranks p).subspaceVectorsArrayLocalSize / N))
      (min (mpiMax env.numberDomainRanks (fun p => (ranks p).subspaceVectorsArrayLocalSize / N))
        env.subspaceRotDofsBlockSize)
      (rotationPGSDofStep env N (min env.wfcBlockSize (env.bandGroupLowHighPlusOneIndices 1))
        (min (mpiMax env.numberDomainRanks (fun p => (ranks p).subspaceVectorsArrayLocalSize / N))
          env.subspaceRotDofsBlockSize) ranks g tr
        (fun p => lowPrecCopy (ranks p).subspaceVectorsArray
          (ranks p).subspaceVectorsArrayLocalSize) fuel)
      (fun idof ost => True ∧ ∃ st, ost = some st ∧ ∀ p k j, j < N →
        st.subspaceVectorsArray p (N * k + j)
          = if k < idof ∧ k < (ranks p).subspaceVectorsArrayLocalSize / N then
              pgsBlockValue env N (min env.wfcBlockSize (env.bandGroupLowHighPlusOneIndices 1))
                ranks g tr (ranks p).subspaceVectorsArray
                (lowPrecCopy (ranks p).subspaceVectorsArray
                  (ranks p).subspaceVectorsArrayLocalSize) k j
            else (ranks p).subspaceVectorsArray (N * k + j))
      (by
        rw [Nat.lt_min]
        constructor <;> omega)
      (fun idof ost _ h => ⟨trivial,
        rotationPGSDofStep_invariant env N _ _ ranks g tr _ fuel idof
          (fun p => (ranks p).subspaceVectorsArray) ost hbs hfuel h.2⟩)
      fuel 0
      (some ⟨fun p => (ranks p).subspaceVectorsArray, fun _ _ => 0, fun _ _ => 0,
        fun _ _ => 0⟩)
      (by omega)
      ⟨trivial, _, rfl, fun p k j _ => by rw [if_neg (fun h => Nat.not_lt_zero _ h.1)]⟩
    refine ⟨st, ?_, ?_⟩
    · unfold rotationPGSBandGroup
      dsimp only
      rw [hrun, hst]
    · intro p k j hp hj hk
      have := mpiMax_ge env.numberDomainRanks
        (fun p => (ranks p).subspaceVectorsArrayLocalSize / N) p hp
      dsimp only at this
      have hcond : k < i ∧ k < (ranks p).subspaceVectorsArrayLocalSize / N := ⟨by omega, hk⟩
      rw [hI p k j hj, if_pos hcond]
      exact hconv p k j hj hk

/-- The diagonal term plus the product without the diagonal is the product with inner
dimension `D = jvec + BVec`. -/
theorem pgsValue_eq_rotatedValue (env : ParallelEnv) (N vbs : Nat) (ranks : Nat → RankData)
    (g : Nat) (tr : Bool) (X : Buf) (k j : Nat) (hbs : 1 ≤ vbs) (hj : j < N) :
    pgsValue env N vbs ranks g tr X k j = rotatedValue env N vbs ranks g tr true X k j := by
  unfold pgsValue rotatedValue rotationDepth
  simp only [if_true]
  split_ifs
  · have hjD := columnBlockEnd_gt N vbs j hbs hj
    have hdiag : rotationEntry tr env.numberDomainRanks ranks j j
        = globalEntry env.numberDomainRanks ranks j j := by
      unfold rotationEntry
      split_ifs <;> rfl
    have hsplit : ∀ i, rotationEntry tr env.numberDomainRanks ranks j i * X (k * N + i)
        = (if i = j then X (N * k + j) * globalEntry env.numberDomainRanks ranks j j else 0)
          + (if i = j then 0 else rotationEntry tr env.numberDomainRanks ranks j i)
            * X (N * k + i) := by
      intro i
      by_cases hij : i = j
      · subst hij
        rw [if_pos rfl, if_pos rfl, hdiag, zero_mul, add_zero, Nat.mul_comm k N, mul_comm]
      · rw [if_neg hij, if_neg hij, zero_add, Nat.mul_comm k N]
    rw [Finset.sum_congr rfl (fun i _ => hsplit i), Finset.sum_add_distrib,
      Finset.sum_ite_eq', if_pos (Finset.mem_range.mpr hjD)]
  · rfl

/-! ## The sum across band groups -/

theorem allreduceLoop_apply (G n bs fuel : Nat) (bufs0 : Nat → Buf) (hbs : 1 ≤ bs)
    (hfuel : n ≤ fuel) :
    ∃ bufs, stridedLoop n bs (fun i bufs => mpiAllreduceSumAt G i (min bs (n - i)) bufs)
        fuel 0 bufs0 = some bufs ∧
      ∀ g x, bufs g x = if x < n then ∑ g1 ∈ Finset.range G, bufs0 g1 x else bufs0 g x := by
  obtain ⟨t, i, hrun, hle, hI⟩ := stridedLoop_invariant n bs
    (fun i bufs => mpiAllreduceSumAt G i (min bs (n - i)) bufs)
    (fun i bufs => ∀ g x, bufs g x
      = if x < i ∧ x < n then ∑ g1 ∈ Finset.range G, bufs0 g1 x else bufs0 g x)
    hbs
    (by
      intro i bufs hi h g x
      unfold mpiAllreduceSumAt
      dsimp only
      by_cases hin : i ≤ x ∧ x < i + min bs (n - i)
      · have hc : x < i + bs ∧ x < n := by
          have h1 : min bs (n - i) ≤ bs := Nat.min_le_left _ _
          have h2 : min bs (n - i) ≤ n - i := Nat.min_le_right _ _
          omega
        rw [if_pos hin, if_pos hc]
        refine Finset.sum_congr rfl (fun g1 _ => ?_)
        have hlow : ¬ (x < i ∧ x < n) := fun h => by omega
        rw [h g1 x, if_neg hlow]
      · rw [if_neg hin, h g x]
        have e : (x < i ∧ x < n) ↔ (x < i + bs ∧ x < n) := by
          constructor
          · intro h
            exact ⟨by omega, h.2⟩
          · intro h
            refine ⟨?_, h.2⟩
            by_contra hge
            apply hin
            have : x - i < min bs (n - i) := by
              rw [Nat.lt_min]
              constructor <;> omega
            omega
        rw [if_congr e rfl rfl])
    fuel 0 bufs0 (by omega)
    (fun g x => by rw [if_neg (fun h => Nat.not_lt_zero _ h.1)])
  refine ⟨t, hrun, fun g x => ?_⟩
  rw [hI g x]
  have e : (x < i ∧ x < n) ↔ x < n := ⟨fun h => h.2, fun h => ⟨by omega, h⟩⟩
  rw [if_congr e rfl rfl]

theorem bandAllreduce_apply (G P : Nat) (size : Nat → Nat → Nat) (bs fuel : Nat)
    (Xs : Nat → Nat → Buf) (d : Nat → Buf) (d2 : Nat → Buf) (hbs : 1 ≤ bs)
    (hfuel : ∀ g p, g < G → p < P → size g p ≤ fuel) :
    ∃ R, allFinished G d (fun g => allFinished P (d2 g) (fun p =>
          (stridedLoop (size g p) bs
            (fun i bufs => mpiAllreduceSumAt G i (min bs (size g p - i)) bufs)
            fuel 0 (fun g1 => Xs g1 p)).map (fun bufs => bufs g))) = some R ∧
      ∀ g p x, g < G → p < P →
        R g p x = if x < size g p then ∑ g1 ∈ Finset.range G, Xs g1 p x else Xs g p x := by
  have hinner : ∀ g p, g < G → p < P → ∃ v,
      (stridedLoop (size g p) bs
        (fun i bufs => mpiAllreduceSumAt G i (min bs (size g p - i)) bufs)
        fuel 0 (fun g1 => Xs g1 p)).map (fun bufs => bufs g) = some v ∧
      ∀ x, v x = if x < size g p then ∑ g1 ∈ Finset.range G, Xs g1 p x else Xs g p x := by
    intro g p hg hp
    obtain ⟨bufs, hrun, hb⟩ := allreduceLoop_apply G (size g p) bs fuel (fun g1 => Xs g1 p)
      hbs (hfuel g p hg hp)
    refine ⟨bufs g, ?_, fun x => hb g x⟩
    rw [hrun]
    rfl
  have hmid : ∀ g, g < G → ∃ w, allFinished P (d2 g) (fun p =>
        (stridedLoop (size g p) bs
          (fun i bufs => mpiAllreduceSumAt G i (min bs (size g p - i)) bufs)
          fuel 0 (fun g1 => Xs g1 p)).map (fun bufs => bufs g)) = some w ∧
      ∀ p x, p < P →
        w p x = if x < size g p then ∑ g1 ∈ Finset.range G, Xs g1 p x else Xs g p x := by
    intro g hg
    obtain ⟨w, hw, hwv⟩ := allFinished_some P (d2 g) (fun p =>
        (stridedLoop (size g p) bs
          (fun i bufs => mpiAllreduceSumAt G i (min bs (size g p - i)) bufs)
          fuel 0 (fun g1 => Xs g1 p)).map (fun bufs => bufs g))
      (fun p hp => by
        obtain ⟨v, hv, _⟩ := hinner g p hg hp
        exact ⟨v, hv⟩)
    refine ⟨w, hw, fun p x hp => ?_⟩
    obtain ⟨v, hv, hvx⟩ := hinner g p hg hp
    have := hwv p hp
    rw [hv] at this
    rw [← Option.some.inj this]
    exact hvx x
  obtain ⟨R, hR, hRv⟩ := allFinished_some G d (fun g => allFinished P (d2 g) (fun p =>
        (stridedLoop (size g p) bs
          (fun i bufs => mpiAllreduceSumAt G i (min bs (size g p - i)) bufs)
          fuel 0 (fun g1 => Xs g1 p)).map (fun bufs => bufs g)))
    (fun g hg => by
      obtain ⟨w, hw, _⟩ := hmid g hg
      exact ⟨w, hw⟩)
  refine ⟨R, hR, fun g p x hg hp => ?_⟩
  obtain ⟨w, hw, hwx⟩ := hmid g hg
  have := hRv g hg
  rw [hw] at this
  rw [← Option.some.inj this]
  exact hwx p x hp

/-! ## The mixed-precision rotation against the truncated rotation -/

theorem rotationBandCommunication_plain (env : ParallelEnv) (N : Nat)
    (ranks : Nat → Nat → RankData) (states : Nat → RotationState) (g p fuel : Nat)
    (hopt : env.bandParalOpt = false) :
    rotationBandCommunication env N ranks states g p fuel
      = (stridedLoop (N * ((ranks g p).subspaceVectorsArrayLocalSize / N))
          env.allReduceBlockSize
          (fun i bufs =>
            mpiAllreduceSumAt env.numberBandGroups i
              (min env.allReduceBlockSize
                (N * ((ranks g p).subspaceVectorsArrayLocalSize / N) - i)) bufs)
          fuel 0 (fun g1 => (states g1).subspaceVectorsArray p)).map (fun bufs => bufs g) := by
  unfold rotationBandCommunication
  dsimp only
  rw [if_pos (by rw [hopt]; decide)]

theorem row_entry_lt (N n k j : Nat) (hk : k < n) (hj : j < N) : N * k + j < N * n := by
  have h : N * (k + 1) ≤ N * n := Nat.mul_le_mul_left _ hk
  rw [Nat.mul_add, Nat.mul_one] at h
  omega

/-- C16: in exact arithmetic and with `bandParalOpt` off, `subspaceRotationPGSMixedPrec`
and `subspaceRotation` with `isRotationMatLowerTria = true` return, for the same `Q`, `X`,
transpose flag and block sizes, arrays with the same entries `X_new[k, j]`; on the band
group that owns the vector block of `j` the entry is the diagonal entry `(j, j)` of `Q`
times `X_old[k, j]` plus the sum over `i ≠ j`, `i < jvec + BVec`, of the off-diagonal
coefficient times `X_old[k, i]`, all read from the original `X` (and the sum of these
over the band groups after the communication). -/
theorem subspaceRotationPGSMixedPrec_refines (env : ParallelEnv) (N : Nat)
    (ranks : Nat → Nat → RankData) (rotationMatTranspose doCommAfterBandParal : Bool)
    (fuel : Nat) (hopt : env.bandParalOpt = false)
    (hbs : 1 ≤ min env.wfcBlockSize (env.bandGroupLowHighPlusOneIndices 1))
    (hdof : 1 ≤ env.subspaceRotDofsBlockSize) (hfuel : N ≤ fuel)
    (hfuel2 : ∀ g p, g < env.numberBandGroups → p < env.numberDomainRanks →
      (ranks g p).subspaceVectorsArrayLocalSize / N ≤ fuel)
    (hsize : ∀ g p, g < env.numberBandGroups →
      (ranks g p).subspaceVectorsArrayLocalSize = (ranks 0 p).subspaceVectorsArrayLocalSize)
    (hcomm : env.numberBandGroups > 1 ∧ doCommAfterBandParal = true →
      1 ≤ env.allReduceBlockSize ∧
        ∀ g p, g < env.numberBandGroups → p < env.numberDomainRanks →
          N * ((ranks g p).subspaceVectorsArrayLocalSize / N) ≤ fuel) :
    ∃ Xpgs Xrot,
      subspaceRotationPGSMixedPrec env N ranks rotationMatTranspose doCommAfterBandParal fuel
        = some Xpgs ∧
      subspaceRotation env N ranks rotationMatTranspose true doCommAfterBandParal fuel
        = some Xrot ∧
      ∀ g p k j, g < env.numberBandGroups → p < env.numberDomainRanks →
        k < (ranks g p).subspaceVectorsArrayLocalSize / N → j < N →
        Xpgs g p (N * k + j) = Xrot g p (N * k + j) ∧
        Xpgs g p (N * k + j)
          = if env.numberBandGroups > 1 ∧ doCommAfterBandParal = true then
              ∑ g1 ∈ Finset.range env.numberBandGroups,
                pgsValue env N (min env.wfcBlockSize (env.bandGroupLowHighPlusOneIndices 1))
                  (ranks g1) g1 rotationMatTranspose (ranks g1 p).subspaceVectorsArray k j
            else
              pgsValue env N (min env.wfcBlockSize (env.bandGroupLowHighPlusOneIndices 1))
                (ranks g) g rotationMatTranspose (ranks g p).subspaceVectorsArray k j := by
  obtain ⟨sP, hallP, hsP⟩ := allFinished_some env.numberBandGroups
    (⟨fun p => (ranks 0 p).subspaceVectorsArray, fun _ _ => 0, fun _ _ => 0, fun _ _ => 0⟩ :
      RotationPGSState)
    (fun g => rotationPGSBandGroup env N (ranks g) g rotationMatTranspose fuel)
    (fun g hg => by
      obtain ⟨st, hst, _⟩ := rotationPGSBandGroup_apply env N (ranks g) g rotationMatTranspose
        fuel hbs hdof hfuel (fun p hp => hfuel2 g p hg hp)
      exact ⟨st, hst⟩)
  obtain ⟨sR, hallR, hsR⟩ := allFinished_some env.numberBandGroups
    (⟨fun p => (ranks 0 p).subspaceVectorsArray, fun _ _ => 0, fun _ _ => 0, N, 0⟩ :
      RotationState)
    (fun g => rotationBandGroup env N (ranks g) g rotationMatTranspose true fuel)
    (fun g hg => by
      obtain ⟨st, hst, _⟩ := rotationBandGroup_apply env N (ranks g) g rotationMatTranspose
        true fuel hbs hdof hfuel (fun p hp => hfuel2 g p hg hp)
      exact ⟨st, hst⟩)
  have hPv : ∀ g p k j, g < env.numberBandGroups → p < env.numberDomainRanks →
      k < (ranks g p).subspaceVectorsArrayLocalSize / N → j < N →
      (sP g).subspaceVectorsArray p (N * k + j)
        = pgsValue env N (min env.wfcBlockSize (env.bandGroupLowHighPlusOneIndices 1))
            (ranks g) g rotationMatTranspose (ranks g p).subspaceVectorsArray k j := by
    intro g p k j hg hp hk hj
    obtain ⟨st, hst, hv⟩ := rotationPGSBandGroup_apply env N (ranks g) g rotationMatTranspose
      fuel hbs hdof hfuel (fun p hp => hfuel2 g p hg hp)
    have := hsP g hg
    rw [hst] at this
    rw [← Option.some.inj this]
    exact hv p k j hp hj hk
  have hRv : ∀ g p k j, g < env.numberBandGroups → p < env.numberDomainRanks →
      k < (ranks g p).subspaceVectorsArrayLocalSize / N → j < N →
      (sR g).subspaceVectorsArray p (N * k + j)
        = pgsValue env N (min env.wfcBlockSize (env.bandGroupLowHighPlusOneIndices 1))
            (ranks g) g rotationMatTranspose (ranks g p).subspaceVectorsArray k j := by
    intro g p k j hg hp hk hj
    obtain ⟨st, hst, hv⟩ := rotationBandGroup_apply env N (ranks g) g rotationMatTranspose
      true fuel hbs hdof hfuel (fun p hp => hfuel2 g p hg hp)
    have := hsR g hg
    rw [hst] at this
    rw [← Option.some.inj this, hv p k j hp hj hk]
    exact (pgsValue_eq_rotatedValue env N _ (ranks g) g rotationMatTranspose _ k j hbs hj).symm
  by_cases hc : env.numberBandGroups > 1 ∧ doCommAfterBandParal = true
  · obtain ⟨hab, hfuel3⟩ := hcomm hc
    obtain ⟨RP, hRP, hRPv⟩ := bandAllreduce_apply env.numberBandGroups env.numberDomainRanks
      (fun g p => N * ((ranks g p).subspaceVectorsArrayLocalSize / N)) env.allReduceBlockSize
      fuel (fun g1 p => (sP g1).subspaceVectorsArray p)
      (fun p => (ranks 0 p).subspaceVectorsArray) (fun g => (ranks g 0).subspaceVectorsArray)
      hab hfuel3
    obtain ⟨RR, hRR, hRRv⟩ := bandAllreduce_apply env.numberBandGroups env.numberDomainRanks
      (fun g p => N * ((ranks g p).subspaceVectorsArrayLocalSize / N)) env.allReduceBlockSize
      fuel (fun g1 p => (sR g1).subspaceVectorsArray p)
      (fun p => (ranks 0 p).subspaceVectorsArray) (fun g => (ranks g 0).subspaceVectorsArray)
      hab hfuel3
    have hsum : ∀ (S : Nat → Nat → Buf) g p k j, g < env.numberBandGroups →
        k < (ranks g p).subspaceVectorsArrayLocalSize / N →
        (∀ g1 p k j, g1 < env.numberBandGroups → p < env.numberDomainRanks →
          k < (ranks g1 p).subspaceVectorsArrayLocalSize / N → j < N →
          S g1 p (N * k + j)
            = pgsValue env N (min env.wfcBlockSize (env.bandGroupLowHighPlusOneIndices 1))
              (ranks g1) g1 rotationMatTranspose (ranks g1 p).subspaceVectorsArray k j) →
        p < env.numberDomainRanks → j < N →
        ∑ g1 ∈ Finset.range env.numberBandGroups, S g1 p (N * k + j)
          = ∑ g1 ∈ Finset.range env.numberBandGroups,
              pgsValue env N (min env.wfcBlockSize (env.bandGroupLowHighPlusOneIndices 1))
                (ranks g1) g1 rotationMatTranspose (ranks g1 p).subspaceVectorsArray k j := by
      intro S g p k j hg hk hS hp hj
      refine Finset.sum_congr rfl (fun g1 hg1 => ?_)
      have hg1' := Finset.mem_range.mp hg1
      exact hS g1 p k j hg1' hp (by rw [hsize g1 p hg1', ← hsize g p hg]; exact hk) hj
    refine ⟨RP, RR, ?_, ?_, ?_⟩
    · unfold subspaceRotationPGSMixedPrec
      rw [hallP]
      dsimp only
      rw [if_pos hc]
      exact hRP
    · unfold subspaceRotation
      rw [hallR]
      dsimp only
      rw [if_pos hc]
      simp only [rotationBandCommunication_plain env N ranks sR _ _ fuel hopt]
      exact hRR
    · intro g p k j hg hp hk hj
      have hlt := row_entry_lt N _ k j hk hj
      have e1 := hRPv g p (N * k + j) hg hp
      have e2 := hRRv g p (N * k + j) hg hp
      rw [if_pos hlt] at e1 e2
      rw [e1, e2, if_pos hc,
        hsum (fun g1 p => (sP g1).subspaceVectorsArray p) g p k j hg hk hPv hp hj,
        hsum (fun g1 p => (sR g1).subspaceVectorsArray p) g p k j hg hk hRv hp hj]
      exact ⟨rfl, rfl⟩
  · refine ⟨fun g p => (sP g).subspaceVectorsArray p, fun g p => (sR g).subspaceVectorsArray p,
      ?_, ?_, ?_⟩
    · unfold subspaceRotationPGSMixedPrec
      rw [hallP]
      dsimp only
      rw [if_neg hc]
    · unfold subspaceRotation
      rw [hallR]
      dsimp only
      rw [if_neg hc]
    · intro g p k j hg hp hk hj
      dsimp only
      rw [hPv g p k j hg hp hk hj, hRv g p k j hg hp hk hj, if_neg hc]
      exact ⟨rfl, rfl⟩

/-- Witness for C16: one rank with the rows `(1, 2)` and `(3, 4)`, blocks of one vector
and one row. -/
theorem subspaceRotationPGSMixedPrec_refines_witness :
    ∃ Xpgs Xrot,
      subspaceRotationPGSMixedPrec oneRankEnv 2 oneRankData false false 2 = some Xpgs ∧
      subspaceRotation oneRankEnv 2 oneRankData false true false 2 = some Xrot ∧
      Xpgs 0 0 0 = Xrot 0 0 0 := by
  obtain ⟨Xp, Xr, h1, h2, h3⟩ := subspaceRotationPGSMixedPrec_refines oneRankEnv 2 oneRankData
    false false 2 rfl (by decide) (by decide) (by decide)
    (fun g p _ _ => by show 4 / 2 ≤ 2; decide) (fun g p _ => rfl)
    (fun h => absurd h.1 (by decide))
  exact ⟨Xp, Xr, h1, h2,
    (h3 0 0 0 0 (by decide) (by decide) (by show 0 < 4 / 2; decide) (by decide)).1⟩

/-! ## The block loop of the Chebyshev filtering -/

theorem columnBlockEnd_mono (N vbs c c2 : Nat) (h : c ≤ c2) :
    columnBlockEnd N vbs c ≤ columnBlockEnd N vbs c2 := by
  have hq : c / vbs ≤ c2 / vbs := Nat.div_le_div_right h
  rcases Nat.eq_or_lt_of_le hq with he | hlt
  · unfold columnBlockEnd
    rw [he]
  · have h1 : (c / vbs + 1) * vbs ≤ c2 / vbs * vbs := Nat.mul_le_mul_right _ hlt
    have h2 : c2 / vbs * vbs ≤ c2 := Nat.div_mul_le_self c2 vbs
    rw [Nat.add_mul, Nat.one_mul] at h1
    unfold columnBlockEnd
    have h3 : min vbs (N - c / vbs * vbs) ≤ vbs := Nat.min_le_left _ _
    omega

theorem waveKey_inj (N jvec BVec i j i2 j2 : Nat) (hj : j < BVec) (hj2 : j2 < BVec)
    (hB : BVec ≤ N - jvec) (hjv : jvec < N)
    (he : i * N + jvec + j = i2 * N + jvec + j2) : i = i2 ∧ j = j2 := by
  have := panel_index_inj N i (jvec + j) i2 (jvec + j2) (by omega) (by omega) (by omega)
  omega

theorem chebyshevBlockStep_counters {σ : Type} (lib : FilterLib σ) (env : ParallelEnv)
    (N vbs order nA : Nat) (nloc : Nat → Nat) (g jvec : Nat) (st : ChebyshevState σ) :
    (bandOwns env g (jvec + min vbs (N - jvec)) →
      (chebyshevBlockStep lib env N vbs order nA nloc g jvec st).startIndexBandParal
        = (if jvec < st.startIndexBandParal then jvec else st.startIndexBandParal) ∧
      (chebyshevBlockStep lib env N vbs order nA nloc g jvec st).numVectorsBandParal
        = jvec + min vbs (N - jvec)
          - (if jvec < st.startIndexBandParal then jvec else st.startIndexBandParal)) ∧
    (¬ bandOwns env g (jvec + min vbs (N - jvec)) →
      (chebyshevBlockStep lib env N vbs order nA nloc g jvec st).startIndexBandParal
        = st.startIndexBandParal ∧
      (chebyshevBlockStep lib env N vbs order nA nloc g jvec st).numVectorsBandParal
        = st.numVectorsBandParal) := by
  unfold chebyshevBlockStep
  dsimp only
  constructor
  · intro h
    rw [if_pos h]
    exact ⟨rfl, rfl⟩
  · intro h
    rw [if_neg h]
    exact ⟨rfl, rfl⟩

theorem chebyshevBlockStep_vectors {σ : Type} (lib : FilterLib σ) (env : ParallelEnv)
    (N vbs order nA : Nat) (nloc : Nat → Nat) (g jvec : Nat) (st : ChebyshevState σ)
    (hjv : jvec < N) (p iNode c : Nat) (hc : c < N) (hi : iNode < nloc p) :
    (¬ (jvec ≤ c ∧ c < jvec + min vbs (N - jvec)) →
      (chebyshevBlockStep lib env N vbs order nA nloc g jvec st).eigenVectorsFlattened p
          (iNode * N + c) = st.eigenVectorsFlattened p (iNode * N + c)) ∧
    (jvec ≤ c ∧ c < jvec + min vbs (N - jvec) →
      ¬ bandOwns env g (jvec + min vbs (N - jvec)) →
      (chebyshevBlockStep lib env N vbs order nA nloc g jvec st).eigenVectorsFlattened p
          (iNode * N + c) = 0) := by
  have hBle : min vbs (N - jvec) ≤ N - jvec := Nat.min_le_right _ _
  have hmiss : ∀ i j, i < nloc p → j < min vbs (N - jvec) →
      ¬ (jvec ≤ c ∧ c < jvec + min vbs (N - jvec)) → iNode * N + c ≠ i * N + jvec + j := by
    intro i j _ hj hout he
    apply hout
    have := panel_index_inj N iNode c i (jvec + j) hc (by omega) (by omega)
    omega
  unfold chebyshevBlockStep
  dsimp only
  constructor
  · intro hout
    by_cases hown : bandOwns env g (jvec + min vbs (N - jvec))
    · rw [if_pos hown]
      dsimp only
      obtain ⟨_, u2⟩ := forLoop_writes2
        (fun iNode iWave x => Function.update x (iNode * N + jvec + iWave)
          ((lib.chebyshevFilterOpt
            (if min vbs (N - jvec) ≠ vbs then
              lib.reinit st.operatorMatrix (min vbs (N - jvec))
                st.eigenVectorsFlattenedArrayBlock
            else (st.operatorMatrix, st.eigenVectorsFlattenedArrayBlock)).1
            (min vbs (N - jvec)) (filterDegree order nA jvec (min vbs (N - jvec)))
            (fun p =>
              forLoop (fun iNode blk =>
                forLoop (fun iWave blk =>
                  Function.update blk (iNode * min vbs (N - jvec) + iWave)
                    (st.eigenVectorsFlattened p (iNode * N + jvec + iWave)))
                  (min vbs (N - jvec)) blk)
                (nloc p)
                ((if min vbs (N - jvec) ≠ vbs then
                  lib.reinit st.operatorMatrix (min vbs (N - jvec))
                    st.eigenVectorsFlattenedArrayBlock
                else (st.operatorMatrix, st.eigenVectorsFlattenedArrayBlock)).2 p))).2 p
            (iNode * min vbs (N - jvec) + iWave)))
        (nloc p) (min vbs (N - jvec)) (fun i j => i * N + jvec + j)
        (fun i j => some ((lib.chebyshevFilterOpt
            (if min vbs (N - jvec) ≠ vbs then
              lib.reinit st.operatorMatrix (min vbs (N - jvec))
                st.eigenVectorsFlattenedArrayBlock
            else (st.operatorMatrix, st.eigenVectorsFlattenedArrayBlock)).1
            (min vbs (N - jvec)) (filterDegree order nA jvec (min vbs (N - jvec)))
            (fun p =>
              forLoop (fun iNode blk =>
                forLoop (fun iWave blk =>
                  Function.update blk (iNode * min vbs (N - jvec) + iWave)
                    (st.eigenVectorsFlattened p (iNode * N + jvec + iWave)))
                  (min vbs (N - jvec)) blk)
                (nloc p)
                ((if min vbs (N - jvec) ≠ vbs then
                  lib.reinit st.operatorMatrix (min vbs (N - jvec))
                    st.eigenVectorsFlattenedArrayBlock
                else (st.operatorMatrix, st.eigenVectorsFlattenedArrayBlock)).2 p))).2 p
            (i * min vbs (N - jvec) + j)))
        (by
          intro i j s x _ _
          dsimp only
          rw [Function.update_apply]
          rfl)
        (fun i j i2 j2 _ hj _ hj2 he =>
          waveKey_inj N jvec (min vbs (N - jvec)) i j i2 j2 hj hj2 hBle hjv he)
      exact u2 _ _ (fun i j hi2 hj => hmiss i j hi2 hj hout)
    · rw [if_neg hown]
      dsimp only
      obtain ⟨_, u2⟩ := forLoop_writes2
        (fun iNode iWave x => Function.update x (iNode * N + jvec + iWave) 0)
        (nloc p) (min vbs (N - jvec)) (fun i j => i * N + jvec + j) (fun _ _ => some 0)
        (by
          intro i j s x _ _
          dsimp only
          rw [Function.update_apply]
          rfl)
        (fun i j i2 j2 _ hj _ hj2 he =>
          waveKey_inj N jvec (min vbs (N - jvec)) i j i2 j2 hj hj2 hBle hjv he)
      exact u2 _ _ (fun i j hi2 hj => hmiss i j hi2 hj hout)
  · intro hin hown
    rw [if_neg hown]
    dsimp only
    obtain ⟨u1, _⟩ := forLoop_writes2
      (fun iNode iWave x => Function.update x (iNode * N + jvec + iWave) 0)
      (nloc p) (min vbs (N - jvec)) (fun i j => i * N + jvec + j) (fun _ _ => some 0)
      (by
        intro i j s x _ _
        dsimp only
        rw [Function.update_apply]
        rfl)
      (fun i j i2 j2 _ hj _ hj2 he =>
        waveKey_inj N jvec (min vbs (N - jvec)) i j i2 j2 hj hj2 hBle hjv he)
    have hkey : iNode * N + c = iNode * N + jvec + (c - jvec) := by omega
    have := u1 (st.eigenVectorsFlattened p) iNode (c - jvec) hi (by omega)
    rw [← hkey] at this
    rw [this]
    rfl

theorem bandRange_step (env : ParallelEnv) (N vbs g jvec start num : Nat) (hbs : 1 ≤ vbs)
    (hd : vbs ∣ jvec) (hjv : jvec < N) (h : bandRange env N vbs g start num jvec) :
    (bandOwns env g (jvec + min vbs (N - jvec)) →
      bandRange env N vbs g (if jvec < start then jvec else start)
        (jvec + min vbs (N - jvec) - (if jvec < start then jvec else start)) (jvec + vbs)) ∧
    (¬ bandOwns env g (jvec + min vbs (N - jvec)) →
      bandRange env N vbs g start num (jvec + vbs)) := by
  have hB1 : 1 ≤ min vbs (N - jvec) := by
    rw [Nat.le_min]
    constructor <;> omega
  have hB2 : min vbs (N - jvec) ≤ vbs := Nat.min_le_left _ _
  have hB3 : min vbs (N - jvec) ≤ N - jvec := Nat.min_le_right _ _
  have hblock : ∀ c, jvec ≤ c → c < jvec + vbs →
      columnBlockEnd N vbs c = jvec + min vbs (N - jvec) :=
    fun c h1 h2 => columnBlockEnd_of_block N vbs jvec c hd h1 h2
  have hinB : ∀ c, jvec ≤ c → c < jvec + vbs → c < N → c < jvec + min vbs (N - jvec) := by
    intro c h1 h2 h3
    have : c - jvec < min vbs (N - jvec) := by
      rw [Nat.lt_min]
      constructor <;> omega
    omega
  constructor
  · intro hown
    rcases h with ⟨h1, h2, h3⟩ | ⟨h1, h2, h3, h4, h5, h6, h7⟩
    · right
      have hs : (if jvec < start then jvec else start) = jvec := by
        rw [if_pos (by omega)]
      rw [hs]
      refine ⟨hjv, by omega, ?_, by omega, by omega, by omega, ?_⟩
      · rw [hblock jvec (le_refl _) (by omega)]
        exact hown
      · intro c hc hcN
        by_cases hlow : c < jvec
        · constructor
          · intro ho
            exact absurd ho (h3 c hlow hcN)
          · intro hr
            omega
        · rw [hblock c (by omega) hc]
          constructor
          · intro _
            have := hinB c (by omega) hc hcN
            omega
          · intro _
            exact hown
    · right
      have hs : (if jvec < start then jvec else start) = start := by
        rw [if_neg (by omega)]
      rw [hs]
      refine ⟨h1, by omega, h3, by omega, by omega, by omega, ?_⟩
      intro c hc hcN
      by_cases hlow : c < jvec
      · constructor
        · intro ho
          have := (h7 c hlow hcN).mp ho
          omega
        · intro hr
          have m1 := columnBlockEnd_mono N vbs start c hr.1
          have m2 := columnBlockEnd_mono N vbs c jvec (by omega)
          rw [hblock jvec (le_refl _) (by omega)] at m2
          unfold bandOwns at h3 hown ⊢
          constructor <;> omega
      · rw [hblock c (by omega) hc]
        constructor
        · intro _
          have := hinB c (by omega) hc hcN
          omega
        · intro _
          exact hown
  · intro hown
    rcases h with ⟨h1, h2, h3⟩ | ⟨h1, h2, h3, h4, h5, h6, h7⟩
    · left
      refine ⟨h1, h2, ?_⟩
      intro c hc hcN
      by_cases hlow : c < jvec
      · exact h3 c hlow hcN
      · rw [hblock c (by omega) hc]
        exact hown
    · right
      refine ⟨h1, by omega, h3, h4, by omega, h6, ?_⟩
      intro c hc hcN
      by_cases hlow : c < jvec
      · exact h7 c hlow hcN
      · rw [hblock c (by omega) hc]
        constructor
        · intro ho
          exact absurd ho hown
        · intro hr
          omega

theorem chebyshevBlockStep_invariant {σ : Type} (lib : FilterLib σ) (env : ParallelEnv)
    (N vbs order nA : Nat) (nloc : Nat → Nat) (g jvec : Nat) (st : ChebyshevState σ)
    (hbs : 1 ≤ vbs) (hjv : jvec < N) (hd : vbs ∣ jvec)
    (hZ : ∀ p iNode c, c < jvec → c < N → iNode < nloc p →
      ¬ bandOwns env g (columnBlockEnd N vbs c) →
      st.eigenVectorsFlattened p (iNode * N + c) = 0)
    (hR : bandRange env N vbs g st.startIndexBandParal st.numVectorsBandParal jvec) :
    (∀ p iNode c, c < jvec + vbs → c < N → iNode < nloc p →
      ¬ bandOwns env g (columnBlockEnd N vbs c) →
      (chebyshevBlockStep lib env N vbs order nA nloc g jvec st).eigenVectorsFlattened p
        (iNode * N + c) = 0) ∧
    bandRange env N vbs g
      (chebyshevBlockStep lib env N vbs order nA nloc g jvec st).startIndexBandParal
      (chebyshevBlockStep lib env N vbs order nA nloc g jvec st).numVectorsBandParal
      (jvec + vbs) := by
  constructor
  · intro p iNode c hc hcN hi hno
    obtain ⟨v1, v2⟩ := chebyshevBlockStep_vectors lib env N vbs order nA nloc g jvec st hjv
      p iNode c hcN hi
    by_cases hlow : c < jvec
    · rw [v1 (fun h => by omega)]
      exact hZ p iNode c hlow hcN hi hno
    · have hend := columnBlockEnd_of_block N vbs jvec c hd (by omega) hc
      have hcB : c < jvec + min vbs (N - jvec) := by
        have : c - jvec < min vbs (N - jvec) := by
          rw [Nat.lt_min]
          constructor <;> omega
        omega
      rw [hend] at hno
      exact v2 ⟨by omega, hcB⟩ hno
  · obtain ⟨c1, c2⟩ := chebyshevBlockStep_counters lib env N vbs order nA nloc g jvec st
    obtain ⟨r1, r2⟩ := bandRange_step env N vbs g jvec st.startIndexBandParal
      st.numVectorsBandParal hbs hd hjv hR
    by_cases hown : bandOwns env g (jvec + min vbs (N - jvec))
    · rw [(c1 hown).1, (c1 hown).2]
      exact r1 hown
    · rw [(c2 hown).1, (c2 hown).2]
      exact r2 hown

theorem chebyshevBandGroup_apply {σ : Type} (lib : FilterLib σ) (env : ParallelEnv)
    (N cw order nA : Nat) (X0 : Nat → Buf) (nloc : Nat → Nat) (op0 : σ) (g fuel : Nat)
    (hbs : 1 ≤ min cw (env.bandGroupLowHighPlusOneIndices 1)) (hfuel : N ≤ fuel) :
    ∃ st, chebyshevBandGroup lib env N cw order nA X0 nloc op0 g fuel = some st ∧
      (∀ p iNode c, c < N → iNode < nloc p →
        ¬ bandOwns env g
          (columnBlockEnd N (min cw (env.bandGroupLowHighPlusOneIndices 1)) c) →
        st.eigenVectorsFlattened p (iNode * N + c) = 0) ∧
      (∀ c, c < N →
        (bandOwns env g (columnBlockEnd N (min cw (env.bandGroupLowHighPlusOneIndices 1)) c)
          ↔ st.startIndexBandParal ≤ c ∧
            c < st.startIndexBandParal + st.numVectorsBandParal)) := by
  obtain ⟨t, i, hrun, hle, _, hZ, hR⟩ := stridedLoop_invariant N
    (min cw (env.bandGroupLowHighPlusOneIndices 1))
    (chebyshevBlockStep lib env N (min cw (env.bandGroupLowHighPlusOneIndices 1)) order nA
      nloc g)
    (fun jvec st => min cw (env.bandGroupLowHighPlusOneIndices 1) ∣ jvec ∧
      (∀ p iNode c, c < jvec → c < N → iNode < nloc p →
        ¬ bandOwns env g
          (columnBlockEnd N (min cw (env.bandGroupLowHighPlusOneIndices 1)) c) →
        st.eigenVectorsFlattened p (iNode * N + c) = 0) ∧
      bandRange env N (min cw (env.bandGroupLowHighPlusOneIndices 1)) g
        st.startIndexBandParal st.numVectorsBandParal jvec)
    hbs
    (fun jvec st hjv h => ⟨Dvd.dvd.add h.1 (dvd_refl _),
      chebyshevBlockStep_invariant lib env N _ order nA nloc g jvec st hbs hjv h.1 h.2.1
        h.2.2⟩)
    fuel 0
    ⟨X0, (lib.reinit op0 (min cw (env.bandGroupLowHighPlusOneIndices 1)) (fun _ _ => 0)).2,
      (lib.reinit op0 (min cw (env.bandGroupLowHighPlusOneIndices 1)) (fun _ _ => 0)).1, N, 0⟩
    (by omega)
    ⟨dvd_zero _, fun _ _ c hc => absurd hc (Nat.not_lt_zero _),
      Or.inl ⟨rfl, rfl, fun c hc => absurd hc (Nat.not_lt_zero _)⟩⟩
  refine ⟨t, ?_, ?_, ?_⟩
  · unfold chebyshevBandGroup
    exact hrun
  · intro p iNode c hc hi hno
    exact hZ p iNode c (by omega) hc hi hno
  · intro c hc
    rcases hR with ⟨h1, h2, h3⟩ | ⟨_, _, _, _, _, _, h7⟩
    · constructor
      · intro ho
        exact absurd ho (h3 c (by omega) hc)
      · intro hr
        omega
    · exact h7 c (by omega) hc

/-! ## The transpose and `MPI_Allgatherv` path -/

theorem mpiAllgatherv_apply (n : Nat) (send : Nat → Buf) (recvcounts displs : Nat → Nat)
    (recv : Buf) (g0 t : Nat) (hg0 : g0 < n) (ht : t < recvcounts g0)
    (hdisj : ∀ g1 t1, g1 < n → g1 ≠ g0 → t1 < recvcounts g1 →
      displs g0 + t ≠ displs g1 + t1) :
    mpiAllgatherv n send recvcounts displs recv (displs g0 + t) = send g0 t := by
  unfold mpiAllgatherv
  have hin : ∀ u,
      (∀ s0 t1, t1 < recvcounts u →
        forLoop (fun t (r : Buf) => Function.update r (displs u + t) (send u t)) (recvcounts u) s0
          (displs u + t1) = send u t1) ∧
      (∀ s0 x, (∀ t1, t1 < recvcounts u → x ≠ displs u + t1) →
        forLoop (fun t (r : Buf) => Function.update r (displs u + t) (send u t)) (recvcounts u) s0 x
          = s0 x) := by
    intro u
    obtain ⟨a1, a2⟩ := forLoop_writes
      (fun t (r : Buf) => Function.update r (displs u + t) (send u t)) (recvcounts u)
      (fun t => displs u + t) (fun t => some (send u t))
      (by
        intro t1 s x _
        dsimp only
        rw [Function.update_apply]
        rfl)
      (fun t1 t2 _ _ he => by dsimp only at he; omega)
    exact ⟨fun s0 t1 h1 => a1 s0 t1 h1, a2⟩
  obtain ⟨_, h2⟩ := forLoop_at (fun g (r : Buf) =>
      forLoop (fun t (r : Buf) => Function.update r (displs g + t) (send g t)) (recvcounts g) r)
    n (displs g0 + t) (fun u => u = g0) (fun _ _ => send g0 t)
    (fun u s hu hne => (hin u).2 s _ (fun t1 ht1 => hdisj u t1 hu hne ht1))
    (fun u s _ hu => by
      subst hu
      exact (hin u).1 s t ht)
  exact h2 recv g0 hg0 rfl (fun u _ hne he => hne he)

theorem chebyshevBandCommunication_opt {σ : Type} (env : ParallelEnv) (N : Nat)
    (localVectorSize : Nat → Nat → Nat) (states : Nat → ChebyshevState σ) (g p fuel : Nat)
    (hsz : ∀ g1, g1 < env.numberBandGroups → localVectorSize g1 p = localVectorSize g p) :
    ∃ v, chebyshevBandCommunication env true N localVectorSize states g p fuel = some v ∧
      ∀ iNode c g0, iNode < localVectorSize g p → c < N → g0 < env.numberBandGroups →
        (states g0).startIndexBandParal ≤ c →
        c < (states g0).startIndexBandParal + (states g0).numVectorsBandParal →
        (∀ g1, g1 < env.numberBandGroups → (states g1).startIndexBandParal ≤ c →
          c < (states g1).startIndexBandParal + (states g1).numVectorsBandParal → g1 = g0) →
        v (iNode * N + c) = (states g0).eigenVectorsFlattened p (iNode * N + c) := by
  unfold chebyshevBandCommunication
  dsimp only
  rw [if_neg (fun hn => hn rfl)]
  refine ⟨_, rfl, ?_⟩
  intro iNode c g0 hi hc hg0 hlo hhi huniq
  obtain ⟨f1, _⟩ := forLoop_writes2
    (fun iNode iWave (x : Buf) => Function.update x (iNode * N + iWave)
      (mpiAllgatherv env.numberBandGroups
        (fun g1 =>
          forLoop (fun iNode (v : Buf) =>
            forLoop (fun iWave (v : Buf) =>
              Function.update v (iWave * localVectorSize g1 p + iNode)
                (forLoop (fun iNode (v : Buf) =>
                  forLoop (fun iWave (v : Buf) =>
                    Function.update v (iNode * (states g1).numVectorsBandParal + iWave)
                      ((states g1).eigenVectorsFlattened p
                        (iNode * N + (states g1).startIndexBandParal + iWave)))
                    (states g1).numVectorsBandParal v)
                  (localVectorSize g1 p) (fun _ => 0)
                  (iNode * (states g1).numVectorsBandParal + iWave)))
              (states g1).numVectorsBandParal v)
            (localVectorSize g1 p) (fun _ => 0))
        (fun g1 => (states g1).numVectorsBandParal * localVectorSize g1 p)
        (fun g1 => (states g1).startIndexBandParal * localVectorSize g1 p)
        (fun _ => 0) (iWave * localVectorSize g p + iNode)))
    (localVectorSize g p) N (fun i j => i * N + j)
    (fun i j => some (mpiAllgatherv env.numberBandGroups
        (fun g1 =>
          forLoop (fun iNode (v : Buf) =>
            forLoop (fun iWave (v : Buf) =>
              Function.update v (iWave * localVectorSize g1 p + iNode)
                (forLoop (fun iNode (v : Buf) =>
                  forLoop (fun iWave (v : Buf) =>
                    Function.update v (iNode * (states g1).numVectorsBandParal + iWave)
                      ((states g1).eigenVectorsFlattened p
                        (iNode * N + (states g1).startIndexBandParal + iWave)))
                    (states g1).numVectorsBandParal v)
                  (localVectorSize g1 p) (fun _ => 0)
                  (iNode * (states g1).numVectorsBandParal + iWave)))
              (states g1).numVectorsBandParal v)
            (localVectorSize g1 p) (fun _ => 0))
        (fun g1 => (states g1).numVectorsBandParal * localVectorSize g1 p)
        (fun g1 => (states g1).startIndexBandParal * localVectorSize g1 p)
        (fun _ => 0) (j * localVectorSize g p + i)))
    (by
      intro i j s x _ _
      dsimp only
      rw [Function.update_apply]
      rfl)
    (fun i j i2 j2 _ hj _ hj2 he => panel_index_inj N i j i2 j2 hj hj2 he)
  rw [f1 _ iNode c hi hc]
  rw [Option.getD_some]
  have hn0 := hsz g0 hg0
  have hkey : c * localVectorSize g p + iNode
      = (states g0).startIndexBandParal * localVectorSize g0 p
        + ((c - (states g0).startIndexBandParal) * localVectorSize g0 p + iNode) := by
    rw [hn0, ← Nat.add_assoc, ← Nat.add_mul]
    have : (states g0).startIndexBandParal + (c - (states g0).startIndexBandParal) = c := by
      omega
    rw [this]
  rw [hkey]
  have hi0 : iNode < localVectorSize g0 p := by rw [hn0]; exact hi
  have hw : c - (states g0).startIndexBandParal < (states g0).numVectorsBandParal := by omega
  rw [mpiAllgatherv_apply env.numberBandGroups _ _
    (fun g1 => (states g1).startIndexBandParal * localVectorSize g1 p) _ g0
    ((c - (states g0).startIndexBandParal) * localVectorSize g0 p + iNode) hg0
    (by
      have := panel_index_lt (states g0).numVectorsBandParal (localVectorSize g0 p)
        (c - (states g0).startIndexBandParal) iNode hw hi0
      rw [Nat.mul_comm (localVectorSize g0 p)] at this
      exact this)
    (by
      intro g1 t1 hg1 hne ht1 he
      dsimp only at he ht1
      apply hne
      have hn1 := hsz g1 hg1
      rw [hn1] at ht1
      have A0 : (states g0).startIndexBandParal * localVectorSize g0 p
          = (states g0).startIndexBandParal * localVectorSize g p := by rw [hn0]
      have A1 : (c - (states g0).startIndexBandParal) * localVectorSize g0 p
          = (c - (states g0).startIndexBandParal) * localVectorSize g p := by rw [hn0]
      have A2 : (states g1).startIndexBandParal * localVectorSize g1 p
          = (states g1).startIndexBandParal * localVectorSize g p := by rw [hn1]
      have hpos : 0 < localVectorSize g p := by omega
      have hdecomp : t1 = t1 / localVectorSize g p * localVectorSize g p
          + t1 % localVectorSize g p := by
        have := Nat.div_add_mod t1 (localVectorSize g p)
        rw [Nat.mul_comm] at this
        omega
      have hmod : t1 % localVectorSize g p < localVectorSize g p := Nat.mod_lt _ hpos
      have hdiv : t1 / localVectorSize g p < (states g1).numVectorsBandParal := by
        rw [Nat.div_lt_iff_lt_mul hpos]
        exact ht1
      have he2 : ((states g0).startIndexBandParal + (c - (states g0).startIndexBandParal))
            * localVectorSize g p + iNode
          = ((states g1).startIndexBandParal + t1 / localVectorSize g p)
            * localVectorSize g p + t1 % localVectorSize g p := by
        rw [Nat.add_mul, Nat.add_mul]
        omega
      have hthis := (panel_index_inj (localVectorSize g p) _ _ _ _ hi hmod he2).1
      generalize t1 / localVectorSize g p = q at hthis hdiv
      exact huniq g1 hg1 (by omega) (by omega))]
  obtain ⟨t1, _⟩ := forLoop_writes2
    (fun iNode iWave (v : Buf) =>
      Function.update v (iWave * localVectorSize g0 p + iNode)
        (forLoop (fun iNode (v : Buf) =>
          forLoop (fun iWave (v : Buf) =>
            Function.update v (iNode * (states g0).numVectorsBandParal + iWave)
              ((states g0).eigenVectorsFlattened p
                (iNode * N + (states g0).startIndexBandParal + iWave)))
            (states g0).numVectorsBandParal v)
          (localVectorSize g0 p) (fun _ => 0)
          (iNode * (states g0).numVectorsBandParal + iWave)))
    (localVectorSize g0 p) (states g0).numVectorsBandParal
    (fun i j => j * localVectorSize g0 p + i)
    (fun i j => some (forLoop (fun iNode (v : Buf) =>
          forLoop (fun iWave (v : Buf) =>
            Function.update v (iNode * (states g0).numVectorsBandParal + iWave)
              ((states g0).eigenVectorsFlattened p
                (iNode * N + (states g0).startIndexBandParal + iWave)))
            (states g0).numVectorsBandParal v)
          (localVectorSize g0 p) (fun _ => 0)
          (i * (states g0).numVectorsBandParal + j)))
    (by
      intro i j s x _ _
      dsimp only
      rw [Function.update_apply]
      rfl)
    (fun i j i2 j2 hi1 _ hi2 _ he => by
      have := panel_index_inj (localVectorSize g0 p) j i j2 i2 hi1 hi2 he
      exact ⟨this.2, this.1⟩)
  rw [t1 _ iNode (c - (states g0).startIndexBandParal) hi0 hw]
  rw [Option.getD_some]
  obtain ⟨b1, _⟩ := forLoop_writes2
    (fun iNode iWave (v : Buf) =>
      Function.update v (iNode * (states g0).numVectorsBandParal + iWave)
        ((states g0).eigenVectorsFlattened p
          (iNode * N + (states g0).startIndexBandParal + iWave)))
    (localVectorSize g0 p) (states g0).numVectorsBandParal
    (fun i j => i * (states g0).numVectorsBandParal + j)
    (fun i j => some ((states g0).eigenVectorsFlattened p
      (i * N + (states g0).startIndexBandParal + j)))
    (by
      intro i j s x _ _
      dsimp only
      rw [Function.update_apply]
      rfl)
    (fun i j i2 j2 _ hj _ hj2 he =>
      panel_index_inj (states g0).numVectorsBandParal i j i2 j2 hj hj2 he)
  rw [b1 _ iNode (c - (states g0).startIndexBandParal) hi0 hw]
  rw [Option.getD_some]
  have : iNode * N + (states g0).startIndexBandParal + (c - (states g0).startIndexBandParal)
      = iNode * N + c := by omega
  rw [this]

theorem copyLoop_outside (n m : Nat) (key : Nat → Nat → Nat) (w : Nat → Nat → ℚ)
    (hinj : ∀ i j i2 j2, i < n → j < m → i2 < n → j2 < m → key i j = key i2 j2 →
      i = i2 ∧ j = j2) (x0 : Buf) (x : Nat) (hx : ∀ i j, i < n → j < m → x ≠ key i j) :
    forLoop (fun i (y : Buf) =>
      forLoop (fun j (y : Buf) => Function.update y (key i j) (w i j)) m y) n x0 x = x0 x := by
  obtain ⟨_, h2⟩ := forLoop_writes2
    (fun i j (y : Buf) => Function.update y (key i j) (w i j)) n m key
    (fun i j => some (w i j))
    (by
      intro i j s y _ _
      dsimp only
      rw [Function.update_apply]
      rfl)
    hinj
  exact h2 x0 x hx

theorem chebyshevBandCommunication_opt_outside {σ : Type} (env : ParallelEnv) (N : Nat)
    (localVectorSize : Nat → Nat → Nat) (states : Nat → ChebyshevState σ) (g p fuel : Nat)
    (v : Buf)
    (hv : chebyshevBandCommunication env true N localVectorSize states g p fuel = some v)
    (x : Nat) (hx : ∀ iNode c, iNode < localVectorSize g p → c < N → x ≠ iNode * N + c) :
    v x = (states g).eigenVectorsFlattened p x := by
  unfold chebyshevBandCommunication at hv
  dsimp only at hv
  rw [if_neg (fun hn => hn rfl)] at hv
  rw [← Option.some.inj hv]
  exact copyLoop_outside (localVectorSize g p) N (fun i j => i * N + j) _
    (fun i j i2 j2 _ hj _ hj2 he => panel_index_inj N i j i2 j2 hj hj2 he) _ x hx

theorem chebyshevBandCommunication_plain {σ : Type} (env : ParallelEnv) (N : Nat)
    (localVectorSize : Nat → Nat → Nat) (states : Nat → ChebyshevState σ) (g p fuel : Nat) :
    chebyshevBandCommunication env false N localVectorSize states g p fuel
      = (stridedLoop (N * localVectorSize g p) env.allReduceBlockSize
          (fun i bufs =>
            mpiAllreduceSumAt env.numberBandGroups i
              (min env.allReduceBlockSize (N * localVectorSize g p - i)) bufs)
          fuel 0 (fun g1 => (states g1).eigenVectorsFlattened p)).map (fun bufs => bufs g) := by
  unfold chebyshevBandCommunication
  dsimp only
  rw [if_pos (by decide)]

theorem row_decompose (N n x : Nat) (hx : x < N * n) :
    ∃ iNode c, iNode < n ∧ c < N ∧ x = iNode * N + c := by
  have hN : 0 < N := by
    rcases Nat.eq_zero_or_pos N with h | h
    · rw [h, Nat.zero_mul] at hx
      exact absurd hx (Nat.not_lt_zero _)
    · exact h
  refine ⟨x / N, x % N, ?_, Nat.mod_lt _ hN, ?_⟩
  · rw [Nat.div_lt_iff_lt_mul hN, Nat.mul_comm]
    exact hx
  · have := Nat.div_add_mod x N
    rw [Nat.mul_comm] at this
    omega

theorem allFinished_nested {α : Type} (G P : Nat) (d : Nat → α) (d2 : Nat → α)
    (f : Nat → Nat → Option α) (h : ∀ g p, g < G → p < P → ∃ v, f g p = some v) :
    ∃ R, allFinished G d (fun g => allFinished P (d2 g) (fun p => f g p)) = some R ∧
      ∀ g p, g < G → p < P → f g p = some (R g p) := by
  have hmid : ∀ g, g < G → ∃ w, allFinished P (d2 g) (fun p => f g p) = some w := by
    intro g hg
    obtain ⟨w, hw, _⟩ := allFinished_some P (d2 g) (fun p => f g p) (fun p hp => h g p hg hp)
    exact ⟨w, hw⟩
  obtain ⟨R, hR, hRv⟩ := allFinished_some G d
    (fun g => allFinished P (d2 g) (fun p => f g p)) hmid
  refine ⟨R, hR, ?_⟩
  intro g p hg hp
  obtain ⟨w, hw, hwv⟩ := allFinished_some P (d2 g) (fun p => f g p)
    (fun p hp => h g p hg hp)
  have hRg : allFinished P (d2 g) (fun p => f g p) = some (R g) := hRv g hg
  have hwR : w = R g := Option.some.inj (hw.symm.trans hRg)
  rw [← hwR]
  exact hwv p hp

/-- C18: with more than one band group, when every column block has exactly one owning
band group (groups that own no block are allowed), `solve` with `bandParalOpt` (copy of
the owned columns, transpose, `MPI_Allgatherv`, transpose back) and `solve` without it
(blocked `MPI_Allreduce` sum) both finish and leave the same `eigenVectorsFlattened` on
every rank of every band group; its entry at the local row `iNode` and the column `c` is
the entry that the band group owning the block of `c` holds after its block loop, that is
the filtered value. -/
theorem chebyshevFiltering_bandParalOpt_refines {σ : Type} (lib : FilterLib σ)
    (env : ParallelEnv) (N chebyWfcBlockSize chebyshevOrder numAdaptiveFilterStates : Nat)
    (eigenVectorsFlattened : Nat → Nat → Buf) (localVectorSize : Nat → Nat → Nat)
    (operatorMatrix : Nat → σ) (fuel : Nat)
    (hG : 1 < env.numberBandGroups)
    (hbs : 1 ≤ min chebyWfcBlockSize (env.bandGroupLowHighPlusOneIndices 1))
    (hab : 1 ≤ env.allReduceBlockSize)
    (hfuel : N ≤ fuel)
    (hfuel2 : ∀ g p, g < env.numberBandGroups → p < env.numberDomainRanks →
      N * localVectorSize g p ≤ fuel)
    (hsz : ∀ g p, g < env.numberBandGroups → p < env.numberDomainRanks →
      localVectorSize g p = localVectorSize 0 p)
    (hpart : ∀ c, c < N → ∃ g0, g0 < env.numberBandGroups ∧
      bandOwns env g0 (columnBlockEnd N
        (min chebyWfcBlockSize (env.bandGroupLowHighPlusOneIndices 1)) c) ∧
      ∀ g, g < env.numberBandGroups →
        bandOwns env g (columnBlockEnd N
          (min chebyWfcBlockSize (env.bandGroupLowHighPlusOneIndices 1)) c) → g = g0) :
    ∃ (states : Nat → ChebyshevState σ) (opt plain : Nat → Nat → Buf),
      (∀ g, g < env.numberBandGroups →
        chebyshevBandGroup lib env N chebyWfcBlockSize chebyshevOrder numAdaptiveFilterStates
          (eigenVectorsFlattened g) (localVectorSize g) (operatorMatrix g) g fuel
          = some (states g)) ∧
      chebyshevFiltering lib env true N chebyWfcBlockSize chebyshevOrder
        numAdaptiveFilterStates eigenVectorsFlattened localVectorSize operatorMatrix fuel
        = some opt ∧
      chebyshevFiltering lib env false N chebyWfcBlockSize chebyshevOrder
        numAdaptiveFilterStates eigenVectorsFlattened localVectorSize operatorMatrix fuel
        = some plain ∧
      (∀ g p, g < env.numberBandGroups → p < env.numberDomainRanks →
        opt g p = plain g p) ∧
      (∀ g p iNode c g0, g < env.numberBandGroups → p < env.numberDomainRanks →
        iNode < localVectorSize g p → c < N → g0 < env.numberBandGroups →
        bandOwns env g0 (columnBlockEnd N
          (min chebyWfcBlockSize (env.bandGroupLowHighPlusOneIndices 1)) c) →
        opt g p (iNode * N + c) = (states g0).eigenVectorsFlattened p (iNode * N + c)) := by
  obtain ⟨states, hall, hs⟩ := allFinished_some env.numberBandGroups
    (⟨eigenVectorsFlattened 0, fun _ _ => 0, operatorMatrix 0, N, 0⟩ : ChebyshevState σ)
    (fun g => chebyshevBandGroup lib env N chebyWfcBlockSize chebyshevOrder
      numAdaptiveFilterStates (eigenVectorsFlattened g) (localVectorSize g)
      (operatorMatrix g) g fuel)
    (fun g _ => by
      obtain ⟨st, h1, _⟩ := chebyshevBandGroup_apply lib env N chebyWfcBlockSize
        chebyshevOrder numAdaptiveFilterStates (eigenVectorsFlattened g) (localVectorSize g)
        (operatorMatrix g) g fuel hbs hfuel
      exact ⟨st, h1⟩)
  have hprop : ∀ g, g < env.numberBandGroups →
      (∀ p iNode c, c < N → iNode < localVectorSize g p →
        ¬ bandOwns env g (columnBlockEnd N
          (min chebyWfcBlockSize (env.bandGroupLowHighPlusOneIndices 1)) c) →
        (states g).eigenVectorsFlattened p (iNode * N + c) = 0) ∧
      (∀ c, c < N →
        (bandOwns env g (columnBlockEnd N
          (min chebyWfcBlockSize (env.bandGroupLowHighPlusOneIndices 1)) c)
          ↔ (states g).startIndexBandParal ≤ c ∧
            c < (states g).startIndexBandParal + (states g).numVectorsBandParal)) := by
    intro g hg
    obtain ⟨st, h1, h2, h3⟩ := chebyshevBandGroup_apply lib env N chebyWfcBlockSize
      chebyshevOrder numAdaptiveFilterStates (eigenVectorsFlattened g) (localVectorSize g)
      (operatorMatrix g) g fuel hbs hfuel
    have hst : st = states g := Option.some.inj (h1.symm.trans (hs g hg))
    rw [← hst]
    exact ⟨h2, h3⟩
  have hszp : ∀ g g1 p, g < env.numberBandGroups → g1 < env.numberBandGroups →
      p < env.numberDomainRanks → localVectorSize g1 p = localVectorSize g p := by
    intro g g1 p hg hg1 hp
    rw [hsz g1 p hg1 hp, hsz g p hg hp]
  -- the values of the two paths on one rank
  have hoptv : ∀ g p, g < env.numberBandGroups → p < env.numberDomainRanks →
      ∀ v, chebyshevBandCommunication env true N localVectorSize states g p fuel = some v →
      (∀ iNode c g0, iNode < localVectorSize g p → c < N → g0 < env.numberBandGroups →
        bandOwns env g0 (columnBlockEnd N
          (min chebyWfcBlockSize (env.bandGroupLowHighPlusOneIndices 1)) c) →
        v (iNode * N + c) = (states g0).eigenVectorsFlattened p (iNode * N + c)) ∧
      (∀ x, ¬ x < N * localVectorSize g p → v x = (states g).eigenVectorsFlattened p x) := by
    intro g p hg hp v hv
    constructor
    · intro iNode c g0 hi hc hg0 hown
      obtain ⟨v2, hv2, hval⟩ := chebyshevBandCommunication_opt env N localVectorSize states
        g p fuel (fun g1 hg1 => hszp g g1 p hg hg1 hp)
      have hvv : v2 = v := Option.some.inj (hv2.symm.trans hv)
      rw [← hvv]
      obtain ⟨g2, _, hown2, huniq⟩ := hpart c hc
      have hg02 : g0 = g2 := huniq g0 hg0 hown
      have hr := ((hprop g0 hg0).2 c hc).1 hown
      refine hval iNode c g0 hi hc hg0 hr.1 hr.2 ?_
      intro g1 hg1 hlo hhi
      have hown1 := ((hprop g1 hg1).2 c hc).2 ⟨hlo, hhi⟩
      rw [hg02]
      exact huniq g1 hg1 hown1
    · intro x hx
      refine chebyshevBandCommunication_opt_outside env N localVectorSize states g p fuel v
        hv x ?_
      intro iNode c hi hc he
      have hlt := row_entry_lt N (localVectorSize g p) iNode c hi hc
      rw [Nat.mul_comm N iNode] at hlt
      omega
  have hsum : ∀ g p iNode c g0, g < env.numberBandGroups → p < env.numberDomainRanks →
      iNode < localVectorSize g p → c < N → g0 < env.numberBandGroups →
      bandOwns env g0 (columnBlockEnd N
        (min chebyWfcBlockSize (env.bandGroupLowHighPlusOneIndices 1)) c) →
      ∑ g1 ∈ Finset.range env.numberBandGroups,
          (states g1).eigenVectorsFlattened p (iNode * N + c)
        = (states g0).eigenVectorsFlattened p (iNode * N + c) := by
    intro g p iNode c g0 hg hp hi hc hg0 hown
    obtain ⟨g2, _, _, huniq⟩ := hpart c hc
    have hg02 : g0 = g2 := huniq g0 hg0 hown
    refine Finset.sum_eq_single g0 ?_ ?_
    · intro g1 hg1 hne
      have hg1lt : g1 < env.numberBandGroups := Finset.mem_range.mp hg1
      refine (hprop g1 hg1lt).1 p iNode c hc ?_ ?_
      · rw [hszp g g1 p hg hg1lt hp]
        exact hi
      · intro hown1
        exact hne ((huniq g1 hg1lt hown1).trans hg02.symm)
    · intro hnot
      exact absurd (Finset.mem_range.mpr hg0) hnot
  -- the path with `bandParalOpt`
  obtain ⟨opt, hopt, hoptc⟩ := allFinished_nested env.numberBandGroups env.numberDomainRanks
    (eigenVectorsFlattened 0) (fun g => eigenVectorsFlattened g 0)
    (fun g p => chebyshevBandCommunication env true N localVectorSize states g p fuel)
    (fun g p hg hp => by
      obtain ⟨v, hv, _⟩ := chebyshevBandCommunication_opt env N localVectorSize states
        g p fuel (fun g1 hg1 => hszp g g1 p hg hg1 hp)
      exact ⟨v, hv⟩)
  -- the path with the blocked all-reduce
  obtain ⟨plain, hplain, hplainv⟩ := bandAllreduce_apply env.numberBandGroups
    env.numberDomainRanks (fun g p => N * localVectorSize g p) env.allReduceBlockSize fuel
    (fun g1 p => (states g1).eigenVectorsFlattened p)
    (eigenVectorsFlattened 0) (fun g => eigenVectorsFlattened g 0) hab hfuel2
  have hvalopt : ∀ g p iNode c g0, g < env.numberBandGroups → p < env.numberDomainRanks →
      iNode < localVectorSize g p → c < N → g0 < env.numberBandGroups →
      bandOwns env g0 (columnBlockEnd N
        (min chebyWfcBlockSize (env.bandGroupLowHighPlusOneIndices 1)) c) →
      opt g p (iNode * N + c) = (states g0).eigenVectorsFlattened p (iNode * N + c) := by
    intro g p iNode c g0 hg hp hi hc hg0 hown
    exact (hoptv g p hg hp (opt g p) (hoptc g p hg hp)).1 iNode c g0 hi hc hg0 hown
  refine ⟨states, opt, plain, hs, ?_, ?_, ?_, hvalopt⟩
  · unfold chebyshevFiltering
    rw [hall]
    dsimp only
    rw [if_pos hG]
    exact hopt
  · unfold chebyshevFiltering
    rw [hall]
    dsimp only
    rw [if_pos hG]
    simp only [chebyshevBandCommunication_plain]
    exact hplain
  · intro g p hg hp
    funext x
    rw [hplainv g p x hg hp]
    by_cases hx : x < N * localVectorSize g p
    · rw [if_pos hx]
      obtain ⟨iNode, c, hi, hc, hxe⟩ := row_decompose N (localVectorSize g p) x hx
      obtain ⟨g0, hg0, hown, _⟩ := hpart c hc
      rw [hxe, hvalopt g p iNode c g0 hg hp hi hc hg0 hown,
        hsum g p iNode c g0 hg hp hi hc hg0 hown]
    · rw [if_neg hx]
      exact (hoptv g p hg hp (opt g p) (hoptc g p hg hp)).2 x hx

/-- Witness for C18: two band groups of one rank with one local row, two columns in
blocks of one; the first group owns the column `0`, the second the column `1`. -/
theorem chebyshevFiltering_bandParalOpt_refines_witness :
    1 < twoBandEnv.numberBandGroups ∧
    ∃ (states : Nat → ChebyshevState Unit) (opt plain : Nat → Nat → Buf),
      (∀ g, g < twoBandEnv.numberBandGroups →
        chebyshevBandGroup doublingFilterLib twoBandEnv 2 1 10 0
          (fun _ idx => (idx : ℚ) + 1) (fun _ => 1) () g 2 = some (states g)) ∧
      chebyshevFiltering doublingFilterLib twoBandEnv true 2 1 10 0
        (fun _ _ idx => (idx : ℚ) + 1) (fun _ _ => 1) (fun _ => ()) 2 = some opt ∧
      chebyshevFiltering doublingFilterLib twoBandEnv false 2 1 10 0
        (fun _ _ idx => (idx : ℚ) + 1) (fun _ _ => 1) (fun _ => ()) 2 = some plain ∧
      (∀ g p, g < twoBandEnv.numberBandGroups → p < twoBandEnv.numberDomainRanks →
        opt g p = plain g p) ∧
      (∀ g p iNode c g0, g < twoBandEnv.numberBandGroups →
        p < twoBandEnv.numberDomainRanks → iNode < 1 → c < 2 →
        g0 < twoBandEnv.numberBandGroups →
        bandOwns twoBandEnv g0 (columnBlockEnd 2
          (min 1 (twoBandEnv.bandGroupLowHighPlusOneIndices 1)) c) →
        opt g p (iNode * 2 + c) = (states g0).eigenVectorsFlattened p (iNode * 2 + c)) :=
  ⟨by decide,
    chebyshevFiltering_bandParalOpt_refines doublingFilterLib twoBandEnv 2 1 10 0
      (fun _ _ idx => (idx : ℚ) + 1) (fun _ _ => 1) (fun _ => ()) 2
      (by decide) (by decide) (by decide) (by decide)
      (fun _ _ _ _ => Nat.le_refl 2) (fun _ _ _ _ => rfl) (by decide)⟩

/-! ## The trust-radius update of an accepted step -/

theorem acceptedStep_radius (s : BFGSNonLinearSolver) :
    (acceptedStep s).d_trustRadius
      = if wolfeSatisfied s = true then
          (if 2 * ampfactor s * s.d_trustRadius > s.d_trustRadiusMax then s.d_trustRadiusMax
            else 2 * ampfactor s * s.d_trustRadius)
        else
          (if (if ampfactor s * s.d_trustRadius < s.d_normDelaXnew
                then ampfactor s * s.d_trustRadius else s.d_normDelaXnew) < s.d_trustRadiusMax
            then (if ampfactor s * s.d_trustRadius < s.d_normDelaXnew
                then ampfactor s * s.d_trustRadius else s.d_normDelaXnew)
            else s.d_trustRadiusMax) := by
  unfold acceptedStep updateHessian computepredDec wolfeSatisfied ampfactor wolfeSufficientDec
    wolfeCurvature
  simp only []
  split_ifs <;> simp_all

theorem wolfeSatisfied_iff (s : BFGSNonLinearSolver) :
    wolfeSatisfied s = true ↔
      (s.d_valueNew - s.d_value
          < (1 / 10) * ddot s.d_numberUnknowns s.d_deltaXNew.data s.d_gradient.data ∧
        ddot s.d_numberUnknowns s.d_deltaXNew.data s.d_gradientNew.data
          > (1 / 2) * ddot s.d_numberUnknowns s.d_deltaXNew.data s.d_gradient.data) := by
  unfold wolfeSatisfied wolfeSufficientDec wolfeCurvature
  simp only [Bool.and_eq_true, decide_eq_true_eq]

theorem solverExample_gtdx :
    ddot 2 solverExample.d_deltaXNew.data solverExample.d_gradient.data = 0 := by
  rw [ddot_eq_sum]
  simp [Finset.sum_range_succ, solverExample]

theorem solverExample_gntdx :
    ddot 2 solverExample.d_deltaXNew.data solverExample.d_gradientNew.data = 1 := by
  rw [ddot_eq_sum]
  simp [Finset.sum_range_succ, solverExample]

theorem solverExample_wolfe : wolfeSatisfied solverExample = true := by
  rw [wolfeSatisfied_iff]
  have hU : solverExample.d_numberUnknowns = 2 := rfl
  rw [hU, solverExample_gtdx, solverExample_gntdx]
  constructor
  · show (0 : ℚ) - 1 < 1 / 10 * 0
    norm_num
  · norm_num

theorem equalDecreaseExample_wolfe : wolfeSatisfied equalDecreaseExample = false := by
  rw [Bool.eq_false_iff]
  intro h
  rw [wolfeSatisfied_iff] at h
  have h1 := h.1
  have hU : equalDecreaseExample.d_numberUnknowns = 2 := rfl
  have hx : equalDecreaseExample.d_deltaXNew = solverExample.d_deltaXNew := rfl
  have hg : equalDecreaseExample.d_gradient = solverExample.d_gradient := rfl
  rw [hU, hx, hg, solverExample_gtdx] at h1
  have h2 : ((1 : ℚ) - 1 < 1 / 10 * 0) := h1
  norm_num at h2

theorem acceptedStep_radius_min (s : BFGSNonLinearSolver) :
    (acceptedStep s).d_trustRadius
      = (if wolfeSatisfied s = true then
          min (2 * ampfactor s * s.d_trustRadius) s.d_trustRadiusMax
        else min (min (ampfactor s * s.d_trustRadius) s.d_normDelaXnew) s.d_trustRadiusMax) := by
  rw [acceptedStep_radius]
  by_cases hw : wolfeSatisfied s = true
  · rw [if_pos hw, if_pos hw]
    by_cases hc : 2 * ampfactor s * s.d_trustRadius > s.d_trustRadiusMax
    · rw [if_pos hc, min_eq_right (le_of_lt hc)]
    · rw [if_neg hc, min_eq_left (not_lt.mp hc)]
  · rw [if_neg hw, if_neg hw]
    have hin : (if ampfactor s * s.d_trustRadius < s.d_normDelaXnew
          then ampfactor s * s.d_trustRadius else s.d_normDelaXnew)
        = min (ampfactor s * s.d_trustRadius) s.d_normDelaXnew := by
      by_cases hc : ampfactor s * s.d_trustRadius < s.d_normDelaXnew
      · rw [if_pos hc, min_eq_left (le_of_lt hc)]
      · rw [if_neg hc, min_eq_right (not_lt.mp hc)]
    rw [hin]
    by_cases hc : min (ampfactor s * s.d_trustRadius) s.d_normDelaXnew < s.d_trustRadiusMax
    · rw [if_pos hc, min_eq_left (le_of_lt hc)]
    · rw [if_neg hc, min_eq_right (not_lt.mp hc)]

/-- C23, as stated, fails: in the state `equalDecreaseExample` the decrease `f_new - f = 0`
equals `0.1 * <g, dx> = 0` and the curvature `<g_new, dx> = 1` exceeds `0.5 * <g, dx> = 0`,
so both non-strict inequalities hold, but the flag `wolfeSatisfied` is false. -/
theorem wolfe_equality_not_flagged :
    ¬ ∀ s : BFGSNonLinearSolver,
      (wolfeSatisfied s = true ↔
        (s.d_valueNew - s.d_value
            ≤ (1 / 10) * ddot s.d_numberUnknowns s.d_deltaXNew.data s.d_gradient.data ∧
          ddot s.d_numberUnknowns s.d_deltaXNew.data s.d_gradientNew.data
            ≥ (1 / 2) * ddot s.d_numberUnknowns s.d_deltaXNew.data s.d_gradient.data)) := by
  intro h
  have h1 := (h equalDecreaseExample).mpr
  have hU : equalDecreaseExample.d_numberUnknowns = 2 := rfl
  have hx : equalDecreaseExample.d_deltaXNew = solverExample.d_deltaXNew := rfl
  have hg : equalDecreaseExample.d_gradient = solverExample.d_gradient := rfl
  have hgn : equalDecreaseExample.d_gradientNew = solverExample.d_gradientNew := rfl
  rw [hU, hx, hg, hgn, solverExample_gtdx, solverExample_gntdx] at h1
  have h2 := h1 ⟨by show (1 : ℚ) - 1 ≤ 1 / 10 * 0; norm_num, by norm_num⟩
  rw [equalDecreaseExample_wolfe] at h2
  exact absurd h2 (by decide)

/-- C23, amended: in the accepted branch of `solve` the flag `wolfeSatisfied` is set exactly
when `f_new - f < 0.1 * <g, dx>` and `<g_new, dx> > 0.5 * <g, dx>`; both inequalities are
strict, so equality in either one leaves the flag clear. The flag selects the trust-radius
update: with it the radius becomes `min(2 * ampfactor * rho, rho_max)`, without it
`min(min(ampfactor * rho, norm), rho_max)`. -/
theorem wolfe_flag_strict (s : BFGSNonLinearSolver) :
    (wolfeSatisfied s = true ↔
      (s.d_valueNew - s.d_value
          < (1 / 10) * ddot s.d_numberUnknowns s.d_deltaXNew.data s.d_gradient.data ∧
        ddot s.d_numberUnknowns s.d_deltaXNew.data s.d_gradientNew.data
          > (1 / 2) * ddot s.d_numberUnknowns s.d_deltaXNew.data s.d_gradient.data)) ∧
    (s.d_valueNew - s.d_value
        = (1 / 10) * ddot s.d_numberUnknowns s.d_deltaXNew.data s.d_gradient.data →
      wolfeSatisfied s = false) ∧
    (ddot s.d_numberUnknowns s.d_deltaXNew.data s.d_gradientNew.data
        = (1 / 2) * ddot s.d_numberUnknowns s.d_deltaXNew.data s.d_gradient.data →
      wolfeSatisfied s = false) ∧
    (acceptedStep s).d_trustRadius
      = (if wolfeSatisfied s = true then
          min (2 * ampfactor s * s.d_trustRadius) s.d_trustRadiusMax
        else min (min (ampfactor s * s.d_trustRadius) s.d_normDelaXnew) s.d_trustRadiusMax) := by
  refine ⟨wolfeSatisfied_iff s, ?_, ?_, ?_⟩
  · intro he
    rw [Bool.eq_false_iff]
    intro h
    have := ((wolfeSatisfied_iff s).mp h).1
    rw [he] at this
    exact lt_irrefl _ this
  · intro he
    rw [Bool.eq_false_iff]
    intro h
    have := ((wolfeSatisfied_iff s).mp h).2
    rw [he] at this
    exact lt_irrefl _ this
  · exact acceptedStep_radius_min s

/-- Witness for C23 (amended): in `equalDecreaseExample` the decrease equals
`0.1 * <g, dx>` and the flag is clear. -/
theorem wolfe_flag_strict_witness :
    equalDecreaseExample.d_valueNew - equalDecreaseExample.d_value
      = (1 / 10) * ddot equalDecreaseExample.d_numberUnknowns
          equalDecreaseExample.d_deltaXNew.data equalDecreaseExample.d_gradient.data ∧
    wolfeSatisfied equalDecreaseExample = false := by
  have he : equalDecreaseExample.d_valueNew - equalDecreaseExample.d_value
      = (1 / 10) * ddot equalDecreaseExample.d_numberUnknowns
          equalDecreaseExample.d_deltaXNew.data equalDecreaseExample.d_gradient.data := by
    have hU : equalDecreaseExample.d_numberUnknowns = 2 := rfl
    have hx : equalDecreaseExample.d_deltaXNew = solverExample.d_deltaXNew := rfl
    have hg : equalDecreaseExample.d_gradient = solverExample.d_gradient := rfl
    rw [hU, hx, hg, solverExample_gtdx]
    show (1 : ℚ) - 1 = 1 / 10 * 0
    norm_num
  exact ⟨he, (wolfe_flag_strict equalDecreaseExample).2.1 he⟩

/-- C24, as stated, fails: with the Wolfe conditions read as the two tests
`f_new - f <= 0.1 * <g, dx>` and `<g_new, dx> >= 0.5 * <g, dx>`, the state
`equalDecreaseExample` satisfies both (the first with equality) and has
`d_normDelaXnew = 1 >= rho = 1`, yet the accepted branch leaves the trust radius at `1`,
not at `min(3 * 1, 2) = 2`. -/
theorem wolfe_equality_radius_not_tripled :
    ¬ ∀ s : BFGSNonLinearSolver,
      (s.d_valueNew - s.d_value
          ≤ (1 / 10) * ddot s.d_numberUnknowns s.d_deltaXNew.data s.d_gradient.data ∧
        ddot s.d_numberUnknowns s.d_deltaXNew.data s.d_gradientNew.data
          ≥ (1 / 2) * ddot s.d_numberUnknowns s.d_deltaXNew.data s.d_gradient.data) →
      s.d_normDelaXnew ≥ s.d_trustRadius →
      (acceptedStep s).d_trustRadius = min (3 * s.d_trustRadius) s.d_trustRadiusMax := by
  intro h
  have hU : equalDecreaseExample.d_numberUnknowns = 2 := rfl
  have hx : equalDecreaseExample.d_deltaXNew = solverExample.d_deltaXNew := rfl
  have hg : equalDecreaseExample.d_gradient = solverExample.d_gradient := rfl
  have hgn : equalDecreaseExample.d_gradientNew = solverExample.d_gradientNew := rfl
  have hcond : (equalDecreaseExample.d_valueNew - equalDecreaseExample.d_value
        ≤ (1 / 10) * ddot equalDecreaseExample.d_numberUnknowns
            equalDecreaseExample.d_deltaXNew.data equalDecreaseExample.d_gradient.data ∧
      ddot equalDecreaseExample.d_numberUnknowns equalDecreaseExample.d_deltaXNew.data
          equalDecreaseExample.d_gradientNew.data
        ≥ (1 / 2) * ddot equalDecreaseExample.d_numberUnknowns
            equalDecreaseExample.d_deltaXNew.data equalDecreaseExample.d_gradient.data) := by
    rw [hU, hx, hg, hgn, solverExample_gtdx, solverExample_gntdx]
    constructor
    · show (1 : ℚ) - 1 ≤ 1 / 10 * 0
      norm_num
    · norm_num
  have hn : equalDecreaseExample.d_normDelaXnew ≥ equalDecreaseExample.d_trustRadius := by
    show (1 : ℚ) ≥ 1
    norm_num
  have h1 := h equalDecreaseExample hcond hn
  rw [acceptedStep_radius_min, if_neg (by rw [equalDecreaseExample_wolfe]; decide)] at h1
  have ha : ampfactor equalDecreaseExample = 1 := by
    unfold ampfactor
    rw [if_neg]
    intro hc
    have h2 := hc.1
    unfold wolfeSufficientDec at h2
    rw [decide_eq_true_eq, hU, hx, hg, solverExample_gtdx] at h2
    have h3 : ((1 : ℚ) - 1 < 1 / 10 * 0) := h2
    norm_num at h3
  rw [ha] at h1
  have h4 : min (min (1 * (1 : ℚ)) 1) 2 = min (3 * 1) 2 := h1
  norm_num at h4

/-- C24, amended: in the accepted branch of `solve`, for a step whose unscaled norm
`d_normDelaXnew` is at least the trust radius `rho`: when both Wolfe inequalities hold
strictly (`f_new - f < 0.1 * <g, dx>` and `<g_new, dx> > 0.5 * <g, dx>`) the new trust
radius is `min(3 * rho, rho_max)`; when the decrease only equals `0.1 * <g, dx>` the new
radius is `min(rho, rho_max)`; and when the decrease is strict but the curvature test is
not, the new radius is `min(min(1.5 * rho, d_normDelaXnew), rho_max)`. -/
theorem acceptedStep_wolfe_long_step (s : BFGSNonLinearSolver)
    (hn : s.d_normDelaXnew ≥ s.d_trustRadius) :
    ((s.d_valueNew - s.d_value
          < (1 / 10) * ddot s.d_numberUnknowns s.d_deltaXNew.data s.d_gradient.data ∧
        ddot s.d_numberUnknowns s.d_deltaXNew.data s.d_gradientNew.data
          > (1 / 2) * ddot s.d_numberUnknowns s.d_deltaXNew.data s.d_gradient.data) →
      (acceptedStep s).d_trustRadius = min (3 * s.d_trustRadius) s.d_trustRadiusMax) ∧
    (s.d_valueNew - s.d_value
          = (1 / 10) * ddot s.d_numberUnknowns s.d_deltaXNew.data s.d_gradient.data →
      (acceptedStep s).d_trustRadius = min s.d_trustRadius s.d_trustRadiusMax) ∧
    ((s.d_valueNew - s.d_value
          < (1 / 10) * ddot s.d_numberUnknowns s.d_deltaXNew.data s.d_gradient.data ∧
        ddot s.d_numberUnknowns s.d_deltaXNew.data s.d_gradientNew.data
          ≤ (1 / 2) * ddot s.d_numberUnknowns s.d_deltaXNew.data s.d_gradient.data) →
      (acceptedStep s).d_trustRadius
        = min (min (3 / 2 * s.d_trustRadius) s.d_normDelaXnew) s.d_trustRadiusMax) := by
  refine ⟨?_, ?_, ?_⟩
  · intro hw0
    have hw : wolfeSatisfied s = true := (wolfeSatisfied_iff s).mpr hw0
    rw [acceptedStep_radius_min, if_pos hw]
    have hsd : wolfeSufficientDec s = true := by
      unfold wolfeSatisfied at hw
      rw [Bool.and_eq_true] at hw
      exact hw.1
    have ha : ampfactor s = 3 / 2 := by
      unfold ampfactor
      rw [if_pos ⟨hsd, hn⟩]
    rw [ha]
    have e : 2 * (3 / 2 : ℚ) * s.d_trustRadius = 3 * s.d_trustRadius := by ring
    rw [e]
  · intro he
    have hw : ¬ wolfeSatisfied s = true := by
      intro hw
      have h1 := ((wolfeSatisfied_iff s).mp hw).1
      rw [he] at h1
      exact lt_irrefl _ h1
    have ha : ampfactor s = 1 := by
      unfold ampfactor
      rw [if_neg]
      intro hc
      have h2 := hc.1
      unfold wolfeSufficientDec at h2
      rw [decide_eq_true_eq, he] at h2
      exact lt_irrefl _ h2
    rw [acceptedStep_radius_min, if_neg hw, ha, one_mul, min_eq_left hn]
  · intro hc
    have hw : ¬ wolfeSatisfied s = true := by
      intro hw
      have h1 := ((wolfeSatisfied_iff s).mp hw).2
      exact absurd h1 (not_lt.mpr hc.2)
    have ha : ampfactor s = 3 / 2 := by
      unfold ampfactor
      rw [if_pos]
      refine ⟨?_, hn⟩
      unfold wolfeSufficientDec
      rw [decide_eq_true_eq]
      exact hc.1
    rw [acceptedStep_radius_min, if_neg hw, ha]

theorem acceptedExample_wolfe : wolfeSatisfied acceptedExample = true := by
  rw [wolfeSatisfied_iff]
  have hU : acceptedExample.d_numberUnknowns = 2 := rfl
  have hg : ddot 2 acceptedExample.d_deltaXNew.data acceptedExample.d_gradient.data = 0 := by
    rw [ddot_eq_sum]
    simp [Finset.sum_range_succ, acceptedExample, solverExample]
  have hgn : ddot 2 acceptedExample.d_deltaXNew.data acceptedExample.d_gradientNew.data
      = 1 / 2 := by
    rw [ddot_eq_sum]
    simp [Finset.sum_range_succ, acceptedExample, solverExample]
  rw [hU, hg, hgn]
  constructor
  · show (0 : ℚ) - 1 < 1 / 10 * 0
    norm_num
  · norm_num

/-- Witness for C24 (amended): `acceptedExample` satisfies both Wolfe inequalities
strictly, with the unscaled step norm `1` and the trust radius `1/2`; the new radius is
`min(3/2, 2) = 3/2`. -/
theorem acceptedStep_wolfe_long_step_witness :
    wolfeSatisfied acceptedExample = true ∧
    acceptedExample.d_normDelaXnew ≥ acceptedExample.d_trustRadius ∧
    (acceptedStep acceptedExample).d_trustRadius = 3 / 2 := by
  have hn : acceptedExample.d_normDelaXnew ≥ acceptedExample.d_trustRadius := by
    show (1 : ℚ) ≥ 1 / 2
    norm_num
  refine ⟨acceptedExample_wolfe, hn, ?_⟩
  rw [(acceptedStep_wolfe_long_step acceptedExample hn).1
    ((wolfeSatisfied_iff acceptedExample).mp acceptedExample_wolfe)]
  show min (3 * (1 / 2 : ℚ)) 2 = 3 / 2
  norm_num

theorem shortStepExample_wolfe : wolfeSatisfied shortStepExample = true :=
  solverExample_wolfe

theorem longStepExample_wolfe :
    wolfeSatisfied longStepExample = false ∧ wolfeSufficientDec longStepExample = true := by
  have hgn : ddot 2 longStepExample.d_deltaXNew.data longStepExample.d_gradientNew.data
      = -1 := by
    rw [ddot_eq_sum]
    simp [Finset.sum_range_succ, longStepExample, solverExample]
  have hg : ddot 2 longStepExample.d_deltaXNew.data longStepExample.d_gradient.data
      = 0 := solverExample_gtdx
  have hU : longStepExample.d_numberUnknowns = 2 := rfl
  constructor
  · rw [Bool.eq_false_iff]
    intro h
    have h2 := ((wolfeSatisfied_iff longStepExample).mp h).2
    rw [hU, hgn, hg] at h2
    norm_num at h2
  · unfold wolfeSufficientDec
    rw [hU, hg, decide_eq_true_eq]
    show (0 : ℚ) - 1 < 1 / 10 * 0
    norm_num

/-- C25, as stated, fails: in `shortStepExample` the step is accepted with the Wolfe flag
set and the unscaled step norm `1/4` below the trust radius `1`, and the new trust radius is
`min(2 * 1, 2) = 2`, not `min(2, min(1/4, 1)) = 1/4`; it exceeds the old radius. -/
theorem accepted_short_step_radius_grows :
    ¬ ∀ s : BFGSNonLinearSolver,
      ¬ (wolfeSatisfied s = true ∧ s.d_normDelaXnew ≥ s.d_trustRadius) →
      (acceptedStep s).d_trustRadius
        = min s.d_trustRadiusMax (min s.d_normDelaXnew s.d_trustRadius) := by
  intro h
  have hnot : ¬ (wolfeSatisfied shortStepExample = true ∧
      shortStepExample.d_normDelaXnew ≥ shortStepExample.d_trustRadius) := by
    intro hc
    have h2 : (1 / 4 : ℚ) ≥ 1 := hc.2
    norm_num at h2
  have h1 := h shortStepExample hnot
  rw [acceptedStep_radius_min, if_pos shortStepExample_wolfe] at h1
  have ha : ampfactor shortStepExample = 1 := by
    unfold ampfactor
    rw [if_neg]
    intro hc
    have h2 : (1 / 4 : ℚ) ≥ 1 := hc.2
    norm_num at h2
  rw [ha] at h1
  have h3 : min (2 * 1 * (1 : ℚ)) 2 = min 2 (min (1 / 4) 1) := h1
  norm_num at h3

/-- C25, amended: in the accepted branch of `solve`, outside the case "Wolfe flag set and
`d_normDelaXnew >= rho`": with the Wolfe flag set (and `d_normDelaXnew < rho`) the new trust
radius is `min(2 * rho, rho_max)`; with the flag clear it is
`min(min(ampfactor * rho, d_normDelaXnew), rho_max)`, where `ampfactor` is `1.5` when the
sufficient-decrease test holds and `d_normDelaXnew >= rho`, and `1` otherwise. Only in the
last case (flag clear, `ampfactor = 1`) is it `min(rho_max, min(d_normDelaXnew, rho))`, which
does not exceed `rho`. -/
theorem acceptedStep_other_cases (s : BFGSNonLinearSolver)
    (h : ¬ (wolfeSatisfied s = true ∧ s.d_normDelaXnew ≥ s.d_trustRadius)) :
    (wolfeSatisfied s = true →
      (acceptedStep s).d_trustRadius = min (2 * s.d_trustRadius) s.d_trustRadiusMax) ∧
    (wolfeSatisfied s = false → wolfeSufficientDec s = true →
      s.d_normDelaXnew ≥ s.d_trustRadius →
      (acceptedStep s).d_trustRadius
        = min (min (3 / 2 * s.d_trustRadius) s.d_normDelaXnew) s.d_trustRadiusMax) ∧
    (wolfeSatisfied s = false →
      ¬ (wolfeSufficientDec s = true ∧ s.d_normDelaXnew ≥ s.d_trustRadius) →
      (acceptedStep s).d_trustRadius
          = min s.d_trustRadiusMax (min s.d_normDelaXnew s.d_trustRadius) ∧
        (acceptedStep s).d_trustRadius ≤ s.d_trustRadius) := by
  refine ⟨fun hw => ?_, fun hw hsd hn => ?_, fun hw hno => ?_⟩
  · have hn : ¬ s.d_normDelaXnew ≥ s.d_trustRadius := fun hn => h ⟨hw, hn⟩
    have ha : ampfactor s = 1 := by
      unfold ampfactor
      rw [if_neg (fun hc => hn hc.2)]
    rw [acceptedStep_radius_min, if_pos hw, ha, mul_one]
  · have hw2 : ¬ wolfeSatisfied s = true := by
      rw [hw]
      decide
    have ha : ampfactor s = 3 / 2 := by
      unfold ampfactor
      rw [if_pos ⟨hsd, hn⟩]
    rw [acceptedStep_radius_min, if_neg hw2, ha]
  · have hw2 : ¬ wolfeSatisfied s = true := by
      rw [hw]
      decide
    have ha : ampfactor s = 1 := by
      unfold ampfactor
      rw [if_neg hno]
    have e : (acceptedStep s).d_trustRadius
        = min s.d_trustRadiusMax (min s.d_normDelaXnew s.d_trustRadius) := by
      rw [acceptedStep_radius_min, if_neg hw2, ha, one_mul, min_comm,
        min_comm s.d_trustRadius]
    refine ⟨e, ?_⟩
    rw [e]
    exact le_trans (min_le_right _ _) (min_le_right _ _)

/-- Witness for C25 (amended): in `longStepExample` the step is accepted with the Wolfe flag
clear, the sufficient-decrease test holds and the unscaled step norm `2` is above the trust
radius `1`; the new radius is `min(min(3/2, 2), 2) = 3/2`, above the old one. -/
theorem acceptedStep_other_cases_witness :
    ¬ (wolfeSatisfied longStepExample = true ∧
      longStepExample.d_normDelaXnew ≥ longStepExample.d_trustRadius) ∧
    (acceptedStep longStepExample).d_trustRadius = 3 / 2 := by
  have hnot : ¬ (wolfeSatisfied longStepExample = true ∧
      longStepExample.d_normDelaXnew ≥ longStepExample.d_trustRadius) := by
    intro hc
    rw [longStepExample_wolfe.1] at hc
    exact absurd hc.1 (by decide)
  refine ⟨hnot, ?_⟩
  rw [(acceptedStep_other_cases longStepExample hnot).2.1 longStepExample_wolfe.1
    longStepExample_wolfe.2 (by show (2 : ℚ) ≥ 1; norm_num)]
  show min (min (3 / 2 * (1 : ℚ)) 2) 2 = 3 / 2
  norm_num

/-! ## The halving loop of a rejected step -/

theorem halveTrustRadius_pow (norm : ℚ) (n : Nat) (tr : ℚ) (h : tr ≤ norm * 2 ^ n) :
    ∃ m, m ≤ n ∧ (∀ fuel, n ≤ fuel → halveTrustRadius norm fuel tr = some (tr / 2 ^ m)) ∧
      tr / 2 ^ m ≤ norm ∧ ∀ j, j < m → norm < tr / 2 ^ j := by
  induction n generalizing tr with
  | zero =>
    simp only [pow_zero, mul_one] at h
    refine ⟨0, le_refl _, fun fuel _ => ?_, ?_, fun j hj => absurd hj (Nat.not_lt_zero _)⟩
    · unfold halveTrustRadius
      rw [if_neg (not_lt.mpr h), pow_zero, div_one]
    · rw [pow_zero, div_one]
      exact h
  | succ k ih =>
    by_cases hc : tr > norm
    · have hb : tr * (1 / 2) ≤ norm * 2 ^ k := by
        rw [pow_succ] at h
        linarith
      obtain ⟨m, hm, hrun, hle, hmin⟩ := ih (tr * (1 / 2)) hb
      have e : ∀ j : Nat, tr * (1 / 2) / 2 ^ j = tr / 2 ^ (j + 1) := by
        intro j
        rw [pow_succ]
        field_simp
        left
        ring
      refine ⟨m + 1, by omega, fun fuel hf => ?_, ?_, fun j hj => ?_⟩
      · obtain ⟨f, rfl⟩ : ∃ f, fuel = f + 1 := ⟨fuel - 1, by omega⟩
        unfold halveTrustRadius
        rw [if_pos hc, ← e m]
        exact hrun f (by omega)
      · rw [← e m]
        exact hle
      · rcases Nat.eq_zero_or_pos j with h0 | h0
        · rw [h0, pow_zero, div_one]
          exact hc
        · obtain ⟨i, rfl⟩ : ∃ i, j = i + 1 := ⟨j - 1, by omega⟩
          rw [← e i]
          exact hmin i (by omega)
    · refine ⟨0, Nat.zero_le _, fun fuel _ => ?_, ?_, fun j hj => absurd hj (Nat.not_lt_zero _)⟩
      · unfold halveTrustRadius
        rw [if_neg hc, pow_zero, div_one]
      · rw [pow_zero, div_one]
        exact not_lt.mp hc

theorem rejectedStep_of_halving (fuel : Nat) (s : BFGSNonLinearSolver) (r : ℚ)
    (h : halveTrustRadius s.d_normDelaXnew fuel (s.d_trustRadius * (1 / 2)) = some r) :
    ∃ t, rejectedStep fuel s = some t ∧ t.d_trustRadius = r ∧ t.d_deltaX = s.d_deltaXNew ∧
      (t.d_isBFGSRestartDueToSmallRadius = true ↔
        (r < s.d_trustRadiusMin ∨ s.d_isBFGSRestartDueToSmallRadius = true)) := by
  unfold rejectedStep
  simp only []
  rw [h]
  simp only []
  by_cases hlt : r < s.d_trustRadiusMin
  · rw [if_pos hlt]
    exact ⟨_, rfl, rfl, rfl, ⟨fun _ => Or.inl hlt, fun _ => rfl⟩⟩
  · rw [if_neg hlt]
    refine ⟨_, rfl, rfl, rfl, ⟨fun hf => Or.inr hf, fun hf => ?_⟩⟩
    rcases hf with hf | hf
    · exact absurd hf hlt
    · exact hf

/-- C26, as stated, fails: in `halvingExample` the rejected step has `rho = 1` and the step
norm `1/2`; the loop `while (d_trustRadius > d_normDelaXnew)` stops at `1/2`, which is not
strictly below the step norm. -/
theorem halving_stops_at_equality :
    ¬ ∀ (s t : BFGSNonLinearSolver) (fuel : Nat), 0 < s.d_trustRadius →
      0 < s.d_normDelaXnew → rejectedStep fuel s = some t →
      ∃ k, 1 ≤ k ∧ t.d_trustRadius = s.d_trustRadius / 2 ^ k ∧
        s.d_trustRadius / 2 ^ k < s.d_normDelaXnew := by
  intro h
  have hrun : halveTrustRadius halvingExample.d_normDelaXnew 0
      (halvingExample.d_trustRadius * (1 / 2)) = some (1 / 2) := by
    unfold halveTrustRadius
    show (if (1 : ℚ) * (1 / 2) > 1 / 2 then none else some ((1 : ℚ) * (1 / 2))) = some (1 / 2)
    rw [if_neg (by norm_num)]
    norm_num
  obtain ⟨t, ht, hr, -, -⟩ := rejectedStep_of_halving 0 halvingExample (1 / 2) hrun
  obtain ⟨k, -, hk, hlt⟩ := h halvingExample t 0
    (by show (0 : ℚ) < 1; norm_num) (by show (0 : ℚ) < 1 / 2; norm_num) ht
  rw [← hk, hr] at hlt
  have h2 : (1 / 2 : ℚ) < 1 / 2 := hlt
  exact lt_irrefl _ h2

/-- C26, amended: for a rejected step with unscaled step norm `d_normDelaXnew > 0` the
halving loop of `solve` terminates (every sufficiently large bound on the number of halvings
gives the same result), and the new trust radius is `rho / 2^k` for the smallest `k >= 1`
with `rho / 2^k <= d_normDelaXnew` (non-strict: the loop runs while
`d_trustRadius > d_normDelaXnew`); the rejected step is stored in `d_deltaX`, and the reset
flag is set afterwards exactly when that radius is strictly below `rho_min` or the flag was
set before. -/
theorem rejectedStep_halving (s : BFGSNonLinearSolver) (hn : 0 < s.d_normDelaXnew) :
    ∃ k F t, 1 ≤ k ∧ (∀ fuel, F ≤ fuel → rejectedStep fuel s = some t) ∧
      t.d_trustRadius = s.d_trustRadius / 2 ^ k ∧
      s.d_trustRadius / 2 ^ k ≤ s.d_normDelaXnew ∧
      (∀ j, 1 ≤ j → j < k → s.d_normDelaXnew < s.d_trustRadius / 2 ^ j) ∧
      t.d_deltaX = s.d_deltaXNew ∧
      (t.d_isBFGSRestartDueToSmallRadius = true ↔
        (s.d_trustRadius / 2 ^ k < s.d_trustRadiusMin ∨
          s.d_isBFGSRestartDueToSmallRadius = true)) := by
  obtain ⟨n, hlt⟩ := pow_unbounded_of_one_lt (s.d_trustRadius * (1 / 2) / s.d_normDelaXnew)
    (one_lt_two : (1 : ℚ) < 2)
  have hb : s.d_trustRadius * (1 / 2) ≤ s.d_normDelaXnew * 2 ^ n := by
    have := (div_lt_iff₀ hn).mp hlt
    linarith
  obtain ⟨m, -, hrun, hle, hmin⟩ := halveTrustRadius_pow s.d_normDelaXnew n _ hb
  have e : ∀ j : Nat, s.d_trustRadius * (1 / 2) / 2 ^ j = s.d_trustRadius / 2 ^ (j + 1) := by
    intro j
    rw [pow_succ]
    field_simp
    left
    ring
  obtain ⟨t, ht, hr, hdx, hflag⟩ := rejectedStep_of_halving n s _ (hrun n (le_refl _))
  refine ⟨m + 1, n, t, by omega, fun fuel hf => ?_, ?_, ?_, fun j hj1 hj2 => ?_, hdx, ?_⟩
  · obtain ⟨t2, ht2, hr2, hdx2, hflag2⟩ := rejectedStep_of_halving fuel s _ (hrun fuel hf)
    rw [ht2]
    unfold rejectedStep at ht ht2
    simp only [] at ht ht2
    rw [hrun n (le_refl _)] at ht
    rw [hrun fuel hf] at ht2
    rw [← ht, ← ht2]
  · rw [hr, e m]
  · rw [← e m]
    exact hle
  · obtain ⟨i, rfl⟩ : ∃ i, j = i + 1 := ⟨j - 1, by omega⟩
    rw [← e i]
    exact hmin i (by omega)
  · rw [← e m]
    exact hflag

/-- Witness for C26 (amended): `halvingExample` has the step norm `1/2 > 0`. -/
theorem rejectedStep_halving_witness :
    0 < halvingExample.d_normDelaXnew ∧
    ∃ k F t, 1 ≤ k ∧ (∀ fuel, F ≤ fuel → rejectedStep fuel halvingExample = some t) ∧
      t.d_trustRadius = halvingExample.d_trustRadius / 2 ^ k ∧
      halvingExample.d_trustRadius / 2 ^ k ≤ halvingExample.d_normDelaXnew :=
  ⟨by show (0 : ℚ) < 1 / 2; norm_num,
    (rejectedStep_halving halvingExample (by show (0 : ℚ) < 1 / 2; norm_num)).imp
      (fun _ h => h.imp (fun _ h2 => h2.imp (fun _ h3 => ⟨h3.1, h3.2.1, h3.2.2.1, h3.2.2.2.1⟩)))⟩

/-! ## The rescaling of the step in `computeStep` -/

theorem computeStep_unscaled (num : NumLib) (s : BFGSNonLinearSolver) :
    (computeStep num s).d_normDelaXnew = computeLInfNorm s (unscaledStep num s) ∧
    (computeStep num s).d_deltaXNew.data
      = forLoop (fun i v =>
          Function.update v i
            (v i * (s.d_trustRadius / computeLInfNorm s (unscaledStep num s))))
          s.d_numberUnknowns (unscaledStep num s) :=
  ⟨rfl, rfl⟩

theorem scaleLoop_apply (n : Nat) (c : ℚ) (v0 : Buf) (k : Nat) :
    forLoop (fun i (v : Buf) => Function.update v i (v i * c)) n v0 k
      = if k < n then v0 k * c else v0 k := by
  induction n with
  | zero => simp [forLoop]
  | succ m ih =>
    rw [forLoop_succ]
    by_cases h : k = m
    · subst h
      rw [Function.update_same, ih, if_neg (lt_irrefl _), if_pos (Nat.lt_succ_self _)]
    · rw [Function.update_noteq h, ih]
      have : (k < m + 1) ↔ k < m := by omega
      simp only [this]

theorem computeStep_component (num : NumLib) (s : BFGSNonLinearSolver) (i : Nat) :
    (computeStep num s).d_deltaXNew.data i
      = if i < s.d_numberUnknowns then
          unscaledStep num s i * (s.d_trustRadius / computeLInfNorm s (unscaledStep num s))
        else unscaledStep num s i := by
  rw [(computeStep_unscaled num s).2, scaleLoop_apply]

theorem wideRadiusExample_unscaled (i : Nat) :
    unscaledStep unitNumLib wideRadiusExample i
      = if i = 0 then -1 else if i = 1 then 1 else 0 := by
  unfold unscaledStep
  have hU : wideRadiusExample.d_numberUnknowns = 2 := rfl
  rw [hU, forLoop_fill]
  by_cases h0 : i = 0
  · subst h0
    simp [unitNumLib]
  · by_cases h1 : i = 1
    · subst h1
      simp [unitNumLib]
    · have : ¬ i < 2 := by omega
      rw [if_neg this, if_neg h0, if_neg h1]
      show (if i = 0 then (1 : ℚ) else 0) = 0
      rw [if_neg h0]

theorem wideRadiusExample_norm :
    computeLInfNorm wideRadiusExample (unscaledStep unitNumLib wideRadiusExample) = 1 := by
  unfold computeLInfNorm
  have hU : wideRadiusExample.d_numberUnknowns = 2 := rfl
  rw [hU]
  simp only [forLoop, wideRadiusExample_unscaled]
  have hf : ∀ k, wideRadiusExample.d_unknownCountFlag.data k = 1 := fun _ => rfl
  rw [hf, hf]
  norm_num

theorem linfLoop_scale (flags v w : Buf) (c : ℚ) (hc : 0 ≤ c) (n : Nat)
    (h : ∀ i, i < n → w i = v i * c) :
    forLoop (fun i norm => if norm > flags i * |w i| then norm else flags i * |w i|) n 0
      = c * forLoop (fun i norm => if norm > flags i * |v i| then norm else flags i * |v i|)
          n 0 := by
  induction n with
  | zero => simp [forLoop]
  | succ m ih =>
    rw [forLoop_succ, forLoop_succ, ih (fun i hi => h i (by omega)), h m (Nat.lt_succ_self _)]
    have e : flags m * |v m * c| = c * (flags m * |v m|) := by
      rw [abs_mul, abs_of_nonneg hc]
      ring
    rw [e]
    generalize forLoop (fun i norm => if norm > flags i * |v i| then norm else flags i * |v i|)
      m 0 = a
    generalize flags m * |v m| = b
    rcases eq_or_lt_of_le hc with h0 | hpos
    · rw [← h0]
      simp
    · by_cases hab : a > b
      · rw [if_pos hab, if_pos (mul_lt_mul_of_pos_left hab hpos)]
      · rw [if_neg hab, if_neg]
        intro hcab
        exact hab (lt_of_mul_lt_mul_left hcab hc)

theorem computeStep_norm (num : NumLib) (s : BFGSNonLinearSolver)
    (hr : 0 ≤ s.d_trustRadius) (hn : 0 < computeLInfNorm s (unscaledStep num s)) :
    computeLInfNorm s (computeStep num s).d_deltaXNew.data = s.d_trustRadius := by
  have hc : 0 ≤ s.d_trustRadius / computeLInfNorm s (unscaledStep num s) :=
    div_nonneg hr (le_of_lt hn)
  have h := linfLoop_scale s.d_unknownCountFlag.data (unscaledStep num s)
    (computeStep num s).d_deltaXNew.data _ hc s.d_numberUnknowns
    (fun i hi => by rw [computeStep_component, if_pos hi])
  have e1 : computeLInfNorm s (computeStep num s).d_deltaXNew.data
      = forLoop (fun i norm =>
          if norm > s.d_unknownCountFlag.data i * |(computeStep num s).d_deltaXNew.data i|
          then norm
          else s.d_unknownCountFlag.data i * |(computeStep num s).d_deltaXNew.data i|)
        s.d_numberUnknowns 0 := rfl
  have e2 : forLoop (fun i norm =>
          if norm > s.d_unknownCountFlag.data i * |unscaledStep num s i| then norm
          else s.d_unknownCountFlag.data i * |unscaledStep num s i|)
        s.d_numberUnknowns 0 = computeLInfNorm s (unscaledStep num s) := rfl
  rw [e1, h, e2]
  exact div_mul_cancel₀ _ (ne_of_gt hn)

/-- C22, as stated, fails: in `wideRadiusExample` the unscaled step `(-1, 1)` has the norm
`1`, below the trust radius `2`, and `computeStep` returns `(-2, 2)`. -/
theorem computeStep_short_step_rescaled :
    ¬ ∀ (num : NumLib) (s : BFGSNonLinearSolver),
      computeLInfNorm s (unscaledStep num s) ≤ s.d_trustRadius →
      ∀ i, i < s.d_numberUnknowns →
        (computeStep num s).d_deltaXNew.data i = unscaledStep num s i := by
  intro h
  have hle : computeLInfNorm wideRadiusExample (unscaledStep unitNumLib wideRadiusExample)
      ≤ wideRadiusExample.d_trustRadius := by
    rw [wideRadiusExample_norm]
    show (1 : ℚ) ≤ 2
    norm_num
  have h0 := h unitNumLib wideRadiusExample hle 0 (by decide)
  rw [computeStep_component, if_pos (by decide), wideRadiusExample_norm,
    wideRadiusExample_unscaled, if_pos rfl] at h0
  have h2 : (-1 : ℚ) * (2 / 1) = -1 := h0
  norm_num at h2

/-- C22, amended: `computeStep` stores in `d_normDelaXnew` the norm of the unscaled step
`eigenVector[i] / eigenVector[U]` and multiplies every component of it by
`d_trustRadius / d_normDelaXnew`, whether or not the norm exceeds the trust radius (the
guard is commented out); so for a trust radius `>= 0` and an unscaled norm `> 0` the step
it returns has the norm `d_trustRadius`, and a step with a norm below the trust radius is
scaled up. -/
theorem computeStep_always_rescales (num : NumLib) (s : BFGSNonLinearSolver) :
    (computeStep num s).d_normDelaXnew = computeLInfNorm s (unscaledStep num s) ∧
    (∀ i, i < s.d_numberUnknowns →
      unscaledStep num s i
        = num.dsygvx_vector (s.d_numberUnknowns + 1) (augmentedHessian s) (augmentedSrfo s) i
          / num.dsygvx_vector (s.d_numberUnknowns + 1) (augmentedHessian s) (augmentedSrfo s)
              s.d_numberUnknowns) ∧
    (∀ i, i < s.d_numberUnknowns →
      (computeStep num s).d_deltaXNew.data i
        = unscaledStep num s i
            * (s.d_trustRadius / computeLInfNorm s (unscaledStep num s))) ∧
    (0 ≤ s.d_trustRadius → 0 < computeLInfNorm s (unscaledStep num s) →
      computeLInfNorm s (computeStep num s).d_deltaXNew.data = s.d_trustRadius) := by
  refine ⟨rfl, fun i hi => ?_, fun i hi => ?_, computeStep_norm num s⟩
  · unfold unscaledStep
    rw [forLoop_fill, if_pos hi]
  · rw [computeStep_component, if_pos hi]

/-- Witness for C22 (amended): in `wideRadiusExample` (trust radius `2`, unscaled norm `1`)
the step returned by `computeStep` has the norm `2`. -/
theorem computeStep_always_rescales_witness :
    0 ≤ wideRadiusExample.d_trustRadius ∧
    0 < computeLInfNorm wideRadiusExample (unscaledStep unitNumLib wideRadiusExample) ∧
    computeLInfNorm wideRadiusExample
      (computeStep unitNumLib wideRadiusExample).d_deltaXNew.data = 2 := by
  have h1 : 0 ≤ wideRadiusExample.d_trustRadius := by
    show (0 : ℚ) ≤ 2
    norm_num
  have h2 : 0 < computeLInfNorm wideRadiusExample
      (unscaledStep unitNumLib wideRadiusExample) := by
    rw [wideRadiusExample_norm]
    norm_num
  exact ⟨h1, h2, (computeStep_always_rescales unitNumLib wideRadiusExample).2.2.2 h1 h2⟩

/-! ## The symmetric product `dsymv_` -/

theorem dsymv_inner (a x : Buf) (lda j : Nat) (temp1 : ℚ) (yj : Buf) (m : Nat) :
    forLoop (fun i (st : Buf × ℚ) =>
        (Function.update st.1 i (st.1 i + temp1 * a (i + j * lda)),
          st.2 + a (i + j * lda) * x i)) m (yj, 0)
      = (fun k => if k < m then yj k + temp1 * a (k + j * lda) else yj k,
          ∑ i ∈ Finset.range m, a (i + j * lda) * x i) := by
  induction m with
  | zero => simp [forLoop]
  | succ n ih =>
    rw [forLoop_succ, ih]
    refine Prod.ext ?_ ?_
    · funext k
      dsimp only
      by_cases hk : k = n
      · subst hk
        rw [Function.update_same, if_neg (lt_irrefl _), if_pos (Nat.lt_succ_self _)]
      · rw [Function.update_noteq hk]
        have : (k < n + 1) ↔ k < n := by omega
        simp only [this]
    · dsimp only
      rw [Finset.sum_range_succ]

theorem dsymv_columns (alpha : ℚ) (a x y0 : Buf) (lda m k : Nat) :
    forLoop (fun j yj =>
        let temp1 := alpha * x j
        let inner := forLoop (fun i (st : Buf × ℚ) =>
            (Function.update st.1 i (st.1 i + temp1 * a (i + j * lda)),
              st.2 + a (i + j * lda) * x i)) j (yj, 0)
        Function.update inner.1 j (inner.1 j + temp1 * a (j + j * lda) + alpha * inner.2))
        m y0 k
      = y0 k + (if k < m then
          alpha * ∑ i ∈ Finset.range m, symmetricEntry lda a k i * x i else 0) := by
  induction m generalizing k with
  | zero => simp [forLoop]
  | succ n ih =>
    rw [forLoop_succ]
    dsimp only
    rw [dsymv_inner]
    dsimp only
    by_cases hk : k = n
    · subst hk
      rw [Function.update_same, if_neg (lt_irrefl _), ih, if_neg (lt_irrefl _),
        if_pos (Nat.lt_succ_self _), Finset.sum_range_succ]
      have e1 : symmetricEntry lda a k k = a (k + k * lda) := by
        unfold symmetricEntry
        rw [if_pos (le_refl _)]
      have e2 : ∑ i ∈ Finset.range k, symmetricEntry lda a k i * x i
          = ∑ i ∈ Finset.range k, a (i + k * lda) * x i := by
        refine Finset.sum_congr rfl (fun i hi => ?_)
        have hik : i < k := Finset.mem_range.mp hi
        unfold symmetricEntry
        rw [if_neg (by omega)]
      rw [e1, e2]
      ring
    · rw [Function.update_noteq hk]
      by_cases hlt : k < n
      · rw [if_pos hlt, ih, if_pos hlt, if_pos (by omega), Finset.sum_range_succ]
        have e1 : symmetricEntry lda a k n = a (k + n * lda) := by
          unfold symmetricEntry
          rw [if_pos (by omega)]
        rw [e1]
        ring
      · rw [if_neg hlt, ih, if_neg hlt, if_neg (by omega)]

theorem hessianTimesStep_apply (s : BFGSNonLinearSolver) (k : Nat) :
    hessianTimesStep s k
      = if k < s.d_numberUnknowns then
          ∑ i ∈ Finset.range s.d_numberUnknowns,
            symmetricEntry s.d_numberUnknowns s.d_hessian k i * s.d_deltaXNew.data i
        else 0 := by
  unfold hessianTimesStep dsymv
  dsimp only
  rw [if_pos rfl, if_neg one_ne_zero, dsymv_columns]
  by_cases hk : k < s.d_numberUnknowns
  · rw [if_pos hk, if_pos hk]
    ring
  · rw [if_neg hk, if_neg hk]
    ring

/-! ## The damped BFGS formula -/

/-- C21, as stated, fails for the stored array: `updateHessian` applied to `solverExample`
(identity Hessian, `dx = (1, 0)`, `dg = (1, 1)`) leaves the stored entry `(1, 0)` at `0`,
while the formula gives `0 + 1 * 1 / 1 - 0 * 1 / 1 = 1`. -/
theorem updateHessian_lower_entry_stale :
    ¬ ∀ (s : BFGSNonLinearSolver) (i j : Nat), i < s.d_numberUnknowns →
      j < s.d_numberUnknowns →
      (updateHessian s).d_hessian (i + j * s.d_numberUnknowns)
        = s.d_hessian (i + j * s.d_numberUnknowns)
          + dampedR s i * dampedR s j / rtdx s
          - hessianTimesStep s i * hessianTimesStep s j / dxtHdx s := by
  intro h
  have h10 := h solverExample 1 0 (by decide) (by decide)
  rw [updateHessian_entry solverExample 1 0 (by decide) (by decide), if_neg (by decide),
    solverExample_rtdx, solverExample_dxtHdx, solverExample_r, solverExample_r,
    solverExample_Hdx, solverExample_Hdx] at h10
  simp [solverExample] at h10

/-- C21, amended: `updateHessian` replaces the symmetric matrix `H` that the upper triangle
of `d_hessian` represents by `H + r rᵀ / (rᵀ dx) - (H dx)(H dx)ᵀ / (dxᵀ H dx)`, with
`dx = d_deltaXNew`, `dg = g_new - g`, `H dx` the product with that symmetric matrix,
`theta = 1` if `dgᵀ dx >= 0.2 * dxᵀ H dx` and `0.8 * dxᵀ H dx / (dxᵀ H dx - dgᵀ dx)`
otherwise, and `r = theta * dg + (1 - theta) * H dx`; the equality holds for every entry
`(i, j)` of the represented `U × U` matrix. In the stored array only the entries with
`i <= j` are written; a stored entry with `i > j` keeps its value. (A quotient by zero is
zero.) -/
theorem updateHessian_formula (s : BFGSNonLinearSolver) (i j : Nat)
    (hi : i < s.d_numberUnknowns) (hj : j < s.d_numberUnknowns) :
    symmetricEntry s.d_numberUnknowns (updateHessian s).d_hessian i j
      = symmetricEntry s.d_numberUnknowns s.d_hessian i j
        + dampedR s i * dampedR s j / rtdx s
        - hessianTimesStep s i * hessianTimesStep s j / dxtHdx s ∧
    (j < i → (updateHessian s).d_hessian (i + j * s.d_numberUnknowns)
      = s.d_hessian (i + j * s.d_numberUnknowns)) ∧
    hessianTimesStep s i
      = ∑ k ∈ Finset.range s.d_numberUnknowns,
          symmetricEntry s.d_numberUnknowns s.d_hessian i k * s.d_deltaXNew.data k ∧
    deltaG s i = s.d_gradientNew.data i - s.d_gradient.data i ∧
    dampedR s i = theta s * deltaG s i + (1 - theta s) * hessianTimesStep s i ∧
    theta s = (if dgtdx s ≥ (2 / 10) * dxtHdx s then 1
      else (8 / 10) * dxtHdx s / (dxtHdx s - dgtdx s)) ∧
    dxtHdx s = ∑ k ∈ Finset.range s.d_numberUnknowns,
      s.d_deltaXNew.data k * hessianTimesStep s k ∧
    dgtdx s = ∑ k ∈ Finset.range s.d_numberUnknowns, s.d_deltaXNew.data k * deltaG s k ∧
    rtdx s = ∑ k ∈ Finset.range s.d_numberUnknowns, s.d_deltaXNew.data k * dampedR s k := by
  refine ⟨?_, fun hji => ?_, ?_, ?_, ?_, rfl, ?_, ?_, ?_⟩
  · unfold symmetricEntry
    by_cases hij : i ≤ j
    · rw [if_pos hij, if_pos hij, updateHessian_entry s i j hi hj, if_pos hij]
      ring
    · rw [if_neg hij, if_neg hij, updateHessian_entry s j i hj hi, if_pos (by omega)]
      ring
  · rw [updateHessian_entry s i j hi hj, if_neg (by omega)]
  · rw [hessianTimesStep_apply, if_pos hi]
  · rw [deltaG_apply, if_pos hi]
  · rw [dampedR_apply, if_pos hi]
  · unfold dxtHdx
    rw [ddot_eq_sum]
  · unfold dgtdx
    rw [ddot_eq_sum]
  · unfold rtdx
    rw [ddot_eq_sum]

/-- Witness for C21 (amended): the entry `(1, 0)` of the matrix represented after
`updateHessian solverExample` is `1`, while the stored entry `(1, 0)` is still `0`. -/
theorem updateHessian_formula_witness :
    symmetricEntry 2 (updateHessian solverExample).d_hessian 1 0 = 1 ∧
    (updateHessian solverExample).d_hessian (1 + 0 * 2) = 0 := by
  obtain ⟨h1, h2, -⟩ := updateHessian_formula solverExample 1 0 (by decide) (by decide)
  constructor
  · have e : symmetricEntry 2 (updateHessian solverExample).d_hessian 1 0
        = symmetricEntry solverExample.d_numberUnknowns
            (updateHessian solverExample).d_hessian 1 0 := rfl
    rw [e, h1, solverExample_rtdx, solverExample_dxtHdx, solverExample_r, solverExample_r,
      solverExample_Hdx, solverExample_Hdx]
    simp [symmetricEntry, solverExample]
  · have e : (updateHessian solverExample).d_hessian (1 + 0 * 2)
        = (updateHessian solverExample).d_hessian
            (1 + 0 * solverExample.d_numberUnknowns) := rfl
    rw [e, h2 (by decide)]
    simp [solverExample]

/-! ## The rows of `readBasisFile` -/

theorem rowLoop_length (n : Nat) (ws : List (List Char)) (cc : Nat) (row : List Int) :
    (rowLoop n ws cc row).length = row.length := by
  induction ws generalizing cc row with
  | nil => rfl
  | cons w rest ih =>
    unfold rowLoop
    by_cases h : cc < n
    · rw [if_pos h, ih, List.length_set]
    · rw [if_neg h]

theorem getD_set_int (row : List Int) (i c : Nat) (v : Int) (hi : i < row.length) :
    (row.set i v).getD c 0 = if c = i then v else row.getD c 0 := by
  rw [List.getD_eq_getElem?_getD, List.getD_eq_getElem?_getD, List.getElem?_set]
  by_cases h : c = i
  · subst h
    rw [if_pos rfl, if_pos rfl, if_pos hi]
    rfl
  · rw [if_neg (fun e => h e.symm), if_neg h]

theorem rowLoop_apply (n : Nat) (ws : List (List Char)) (cc : Nat) (row : List Int)
    (hlen : row.length = n) (c : Nat) (hc : c < n) :
    (rowLoop n ws cc row).getD c 0
      = if cc ≤ c ∧ c < cc + ws.length then atoi (ws.getD (c - cc) []) else row.getD c 0 := by
  induction ws generalizing cc row with
  | nil =>
    unfold rowLoop
    rw [if_neg]
    intro h
    have := h.2
    simp only [List.length_nil, Nat.add_zero] at this
    omega
  | cons w rest ih =>
    unfold rowLoop
    by_cases h : cc < n
    · rw [if_pos h, ih (cc + 1) _ (by rw [List.length_set]; exact hlen),
        getD_set_int row cc c (atoi w) (by omega)]
      have hl : (w :: rest).length = rest.length + 1 := rfl
      rw [hl]
      by_cases h1 : c = cc
      · subst h1
        rw [if_neg (by omega), if_pos rfl, if_pos ⟨le_refl _, by omega⟩, Nat.sub_self]
        rfl
      · rw [if_neg h1]
        by_cases h2 : cc + 1 ≤ c ∧ c < cc + 1 + rest.length
        · rw [if_pos h2, if_pos ⟨by omega, by omega⟩]
          have e : c - cc = (c - (cc + 1)) + 1 := by omega
          rw [e]
          rfl
        · rw [if_neg h2, if_neg (fun h3 => h2 ⟨by omega, by omega⟩)]
    · rw [if_neg h, if_neg (fun h3 => h (by omega))]

theorem readLines_apply (n : Nat) (lines : List (List Char)) (row : List Int)
    (data : List (List Int)) (hlen : row.length = n) :
    ∃ rows, readLines n lines row data = data ++ rows ∧ rows.length = lines.length ∧
      ∀ k, k < lines.length →
        (rows.getD k []).length = n ∧
        ∀ c, c < n →
          (rows.getD k []).getD c 0
            = if c < (extractWords [] (lines.getD k [])).length
              then atoi ((extractWords [] (lines.getD k [])).getD c [])
              else (if k = 0 then row.getD c 0 else (rows.getD (k - 1) []).getD c 0) := by
  induction lines generalizing row data with
  | nil => exact ⟨[], by simp [readLines], rfl, fun k hk => absurd hk (Nat.not_lt_zero _)⟩
  | cons l rest ih =>
    have hlen1 : (rowLoop n (extractWords [] l) 0 row).length = n := by
      rw [rowLoop_length]
      exact hlen
    obtain ⟨rows, hrun, hrl, hrows⟩ := ih (rowLoop n (extractWords [] l) 0 row)
      (data ++ [rowLoop n (extractWords [] l) 0 row]) hlen1
    refine ⟨rowLoop n (extractWords [] l) 0 row :: rows, ?_, ?_, ?_⟩
    · unfold readLines
      rw [hrun, List.append_assoc]
      rfl
    · simp only [List.length_cons, hrl]
    · intro k hk
      rcases Nat.eq_zero_or_pos k with h0 | h0
      · subst h0
        refine ⟨hlen1, fun c hc => ?_⟩
        show (rowLoop n (extractWords [] l) 0 row).getD c 0 = _
        rw [rowLoop_apply n _ 0 row hlen c hc, if_pos rfl]
        have e : (0 ≤ c ∧ c < 0 + (extractWords [] l).length)
            ↔ c < (extractWords [] l).length := by
          constructor
          · intro h
            omega
          · intro h
            omega
        rw [if_congr e rfl rfl, Nat.sub_zero]
        rfl
      · obtain ⟨j, rfl⟩ : ∃ j, k = j + 1 := ⟨k - 1, by omega⟩
        have hj : j < rest.length := by
          simp only [List.length_cons] at hk
          omega
        obtain ⟨r1, r2⟩ := hrows j hj
        refine ⟨r1, fun c hc => ?_⟩
        show (rows.getD j []).getD c 0 = _
        rw [r2 c hc, if_neg (Nat.succ_ne_zero j), Nat.add_sub_cancel]
        have e1 : (l :: rest).getD (j + 1) [] = rest.getD j [] := rfl
        rw [e1]
        by_cases hj0 : j = 0
        · subst hj0
          rw [if_pos rfl]
          rfl
        · rw [if_neg hj0]
          obtain ⟨i, rfl⟩ : ∃ i, j = i + 1 := ⟨j - 1, by omega⟩
          rfl

/-- C30: `readBasisFile` on a file that opens appends to `data` exactly one row of
`numColumns` integers per line that `std::getline` reads, in line order; the column `c` of
the row of the line `k` is `atoi` of the `c`-th white-space separated word of that line
when the line has one, and otherwise the column `c` of the row of the line `k - 1` (`0` for
the first line), so words beyond the first `numColumns` are ignored and a short or blank
line inherits entries. When the file does not open the function exits. The value `atoi`
of a word is an `int`, in `[-2^31, 2^31)`: it is the decimal value of the word when that
value fits an `int`, and otherwise the low 32 bits of that value clamped to the range of
`long`. -/
theorem readBasisFile_rows (numColumns : Nat) (data : List (List Int))
    (content : List Char) :
    readBasisFile numColumns data none = none ∧
    (∃ rows, readBasisFile numColumns data (some content) = some (data ++ rows) ∧
      rows.length = (getlineLoop [] content).length ∧
      ∀ k, k < (getlineLoop [] content).length →
        (rows.getD k []).length = numColumns ∧
        ∀ c, c < numColumns →
          (rows.getD k []).getD c 0
            = if c < (extractWords [] ((getlineLoop [] content).getD k [])).length
              then atoi ((extractWords [] ((getlineLoop [] content).getD k [])).getD c [])
              else (if k = 0 then 0 else (rows.getD (k - 1) []).getD c 0)) ∧
    (∀ word : List Char,
      -2147483648 ≤ atoi word ∧ atoi word < 2147483648 ∧
      (-2147483648 ≤ decimalValue word → decimalValue word < 2147483648 →
        atoi word = decimalValue word) ∧
      (∃ q : Int, atoi word
        = max (-9223372036854775808) (min (decimalValue word) 9223372036854775807)
          + q * 4294967296)) := by
  refine ⟨rfl, ?_, ?_⟩
  · obtain ⟨rows, hrun, hlen, hrows⟩ := readLines_apply numColumns (getlineLoop [] content)
      (List.replicate numColumns 0) data (List.length_replicate _ _)
    refine ⟨rows, ?_, hlen, fun k hk => ?_⟩
    · show some (readLines numColumns (getlineLoop [] content)
          (List.replicate numColumns 0) data) = some (data ++ rows)
      rw [hrun]
    · obtain ⟨r1, r2⟩ := hrows k hk
      refine ⟨r1, fun c hc => ?_⟩
      rw [r2 c hc]
      have e : (List.replicate numColumns (0 : Int)).getD c 0 = 0 := by
        rw [List.getD_eq_getElem?_getD, List.getElem?_replicate, if_pos hc]
        rfl
      rw [e]
  · intro word
    unfold atoi strtol
    refine ⟨by omega, by omega, fun h1 h2 => ?_, ?_⟩
    · rw [min_eq_left (by omega), max_eq_right (by omega)]
      omega
    · refine ⟨-((max (-9223372036854775808) (min (decimalValue word) 9223372036854775807)
          + 2147483648) / 4294967296), ?_⟩
      omega

/-- Witness for C30: the four lines `1 2`, `3`, an empty line and `-4 5 6` read with two
columns into a table that holds the row `(7)` give the rows `(1, 2)`, `(3, 2)`, `(3, 2)`
and `(-4, 5)`; the lines `2147483648 -2147483649` and `99999999999999999999 2147483647`
give the rows `(-2147483648, 2147483647)` and `(-1, 2147483647)`. -/
theorem readBasisFile_rows_witness :
    readBasisFile 2 [[7]] (some basisFileExample)
      = some [[7], [1, 2], [3, 2], [3, 2], [-4, 5]] ∧
    readBasisFile 2 [] (some wideTokenExample)
      = some [[-2147483648, 2147483647], [-1, 2147483647]] ∧
    ∃ rows, readBasisFile 2 [[7]] (some basisFileExample) = some ([[7]] ++ rows) ∧
      rows.length = (getlineLoop [] basisFileExample).length :=
  ⟨by decide, by decide,
    (readBasisFile_rows 2 [[7]] basisFileExample).2.1.imp (fun _ h => ⟨h.1, h.2.1⟩)⟩

/-! ## The overlap matrix on a panel that is not zero -/

theorem sum_owner_shift (env : ParallelEnv) (N : Nat) (hband : BandPartition env N)
    (e : Nat) (he : 0 < e) (hle : e ≤ N) (hG : 1 ≤ env.numberBandGroups) (a b : ℚ) :
    (∑ g ∈ Finset.range env.numberBandGroups, if bandOwns env g e then a else b)
      = a + ((env.numberBandGroups : ℚ) - 1) * b := by
  have hsplit : ∀ g, (if bandOwns env g e then a else b)
      = b + (if bandOwns env g e then a - b else 0) := by
    intro g
    by_cases h : bandOwns env g e
    · rw [if_pos h, if_pos h]
      ring
    · rw [if_neg h, if_neg h]
      ring
  rw [Finset.sum_congr rfl (fun g _ => hsplit g), Finset.sum_add_distrib,
    bandPartition_sum_owner env N hband e he hle hG (a - b), Finset.sum_const,
    Finset.card_range, nsmul_eq_mul]
  ring

/-- C28: with `G >= 1` band groups whose ranges split `[0, N)` and that hold the same `X`
and the same overlap matrix `S0` on the same process grid before the call,
`fillParallelOverlapMatrix` returns and afterwards every owned entry on or below the
diagonal is `(Xᵀ X)(r, c) + (G - 1) * S0(r, c)` and every other owned entry (strictly above
the diagonal) is `G * S0(r, c)`, which for `G = 1` is the untouched `S0(r, c)`; hence an entry
on or below the diagonal equals `(Xᵀ X)(r, c)` exactly when `G = 1` or `S0(r, c) = 0`. -/
theorem fillParallelOverlapMatrix_previous_content (env : ParallelEnv) (N : Nat)
    (ranks : Nat → Nat → RankData) (fuel : Nat)
    (hbs : 1 ≤ min env.wfcBlockSize (env.bandGroupLowHighPlusOneIndices 1))
    (hfuel : N ≤ fuel) (hG : 1 ≤ env.numberBandGroups) (hband : BandPartition env N)
    (hrep : ∀ g p, g < env.numberBandGroups → Replicated (ranks g p) (ranks 0 p))
    (hS0 : ∀ g p, g < env.numberBandGroups →
      (ranks g p).mat.values = (ranks 0 p).mat.values) :
    ∃ S, fillParallelOverlapMatrix env N ranks fuel = some S ∧
      ∀ g p r c lr lc, g < env.numberBandGroups →
        (ranks g p).rowMap r = some lr → (ranks g p).colMap c = some lc →
        (S g p).local_el lr lc
          = (if c ≤ r ∧ r < N then
              overlapEntry env.numberDomainRanks N (ranks g) r c
                + ((env.numberBandGroups : ℚ) - 1) * (ranks g p).mat.local_el lr lc
            else (env.numberBandGroups : ℚ) * (ranks g p).mat.local_el lr lc) ∧
        (c ≤ r → r < N →
          ((S g p).local_el lr lc = overlapEntry env.numberDomainRanks N (ranks g) r c
            ↔ (env.numberBandGroups = 1 ∨ (ranks g p).mat.local_el lr lc = 0))) := by
  have hgrp : ∀ g, g < env.numberBandGroups →
      ∃ v, overlapBandGroup env N (ranks g) g fuel = some v := fun g _ => by
    obtain ⟨v, hv, _⟩ := overlapBandGroup_values env N (ranks g) g fuel hbs hfuel
    exact ⟨v, hv⟩
  obtain ⟨vals, hall, hvals⟩ := allFinished_some env.numberBandGroups
    (fun p => (ranks 0 p).mat.values) _ hgrp
  have hmain : ∀ g p r c lr lc, g < env.numberBandGroups →
      (ranks g p).rowMap r = some lr → (ranks g p).colMap c = some lc →
      (sumAcrossInterCommScaLAPACKMat env.numberBandGroups
          (fun g1 => (ranks g1 p).processActive)
          (fun g1 => (ranks g1 p).mat.withValues (vals g1 p)) g).local_el lr lc
        = (if c ≤ r ∧ r < N then
            overlapEntry env.numberDomainRanks N (ranks g) r c
              + ((env.numberBandGroups : ℚ) - 1) * (ranks g p).mat.local_el lr lc
          else (env.numberBandGroups : ℚ) * (ranks g p).mat.local_el lr lc) := by
    intro g p r c lr lc hg hr hc
    have key : ∀ g1, g1 < env.numberBandGroups →
        vals g1 p ((ranks g p).mat.elIndex lr lc)
          = if c ≤ r ∧ r < N ∧ bandOwns env g1
                (columnBlockEnd N (min env.wfcBlockSize (env.bandGroupLowHighPlusOneIndices 1)) c)
            then overlapEntry env.numberDomainRanks N (ranks g) r c
            else (ranks g p).mat.local_el lr lc := by
      intro g1 hg1
      obtain ⟨v, hv, hspec⟩ := overlapBandGroup_values env N (ranks g1) g1 fuel hbs hfuel
      have hv2 := hvals g1 hg1
      rw [hv] at hv2
      have hvv : vals g1 = v := (Option.some.inj hv2).symm
      obtain ⟨m1, m2, m3⟩ := replicated_maps _ _ (hrep g1 p hg1)
      obtain ⟨n1, n2, n3⟩ := replicated_maps _ _ (hrep g p hg)
      have hr1 : (ranks g1 p).rowMap r = some lr := by rw [m1, ← n1]; exact hr
      have hc1 : (ranks g1 p).colMap c = some lc := by rw [m2, ← n2]; exact hc
      have hidx : (ranks g p).mat.elIndex lr lc = (ranks g1 p).mat.elIndex lr lc := by
        rw [n3, m3]
      have hent : overlapEntry env.numberDomainRanks N (ranks g1) r c
          = overlapEntry env.numberDomainRanks N (ranks g) r c := by
        apply overlapEntry_congr
        intro q
        have a := hrep g1 q hg1
        have b := hrep g q hg
        exact ⟨by rw [a.vectors, b.vectors], by rw [a.size, b.size]⟩
      have hold : (ranks g1 p).mat.values ((ranks g1 p).mat.elIndex lr lc)
          = (ranks g p).mat.local_el lr lc := by
        unfold ScaLAPACKMatrix.local_el
        rw [hS0 g1 p hg1, hS0 g p hg, hidx]
      rw [hvv, hidx, hspec p r c lr lc hr1 hc1, hent, hold]
    have hel : ScaLAPACKMatrix.elIndex (sumAcrossInterCommScaLAPACKMat env.numberBandGroups
        (fun g1 => (ranks g1 p).processActive)
        (fun g1 => (ranks g1 p).mat.withValues (vals g1 p)) g) lr lc
        = (ranks g p).mat.elIndex lr lc := by
      unfold ScaLAPACKMatrix.elIndex
      rw [sumAcross_local_m]
      rfl
    show (sumAcrossInterCommScaLAPACKMat env.numberBandGroups
        (fun g1 => (ranks g1 p).processActive)
        (fun g1 => (ranks g1 p).mat.withValues (vals g1 p)) g).values
        (ScaLAPACKMatrix.elIndex (sumAcrossInterCommScaLAPACKMat env.numberBandGroups
        (fun g1 => (ranks g1 p).processActive)
        (fun g1 => (ranks g1 p).mat.withValues (vals g1 p)) g) lr lc) = _
    rw [hel, sumAcross_values]
    by_cases hone : env.numberBandGroups = 1
    · rw [if_neg (fun h => by omega)]
      show vals g p ((ranks g p).mat.elIndex lr lc) = _
      rw [key g hg, hone]
      have hg0 : g = 0 := by omega
      by_cases hlow : c ≤ r ∧ r < N
      · obtain ⟨hb1, hb2⟩ := columnBlockEnd_bounds N
          (min env.wfcBlockSize (env.bandGroupLowHighPlusOneIndices 1)) c hbs (by omega)
        have hlast := hband.last
        have hfirst := hband.first
        rw [hone] at hlast
        have hlo : env.bandGroupLowHighPlusOneIndices (2 * 0) = 0 := hfirst
        have hown : bandOwns env g
            (columnBlockEnd N (min env.wfcBlockSize (env.bandGroupLowHighPlusOneIndices 1))
              c) := by
          rw [hg0]
          exact ⟨le_of_le_of_eq hb2 hlast.symm, lt_of_eq_of_lt hlo hb1⟩
        rw [if_pos ⟨hlow.1, hlow.2, hown⟩, if_pos hlow]
        norm_num
      · rw [if_neg (fun h => hlow ⟨h.1, h.2.1⟩), if_neg hlow]
        norm_num
    · have hact : (ranks g p).processActive = true := by
        by_contra hna
        have := (rankMaps_inactive (ranks g p) (by simpa using hna) r).1
        rw [this] at hr
        exact absurd hr (by simp)
      have hm := rankMaps_ok (ranks g p)
      have hlt : (ranks g p).mat.elIndex lr lc
          < (ranks g p).mat.local_m * (ranks g p).mat.local_n := by
        have a := hm.row_lt r lr hr
        have b := hm.col_lt c lc hc
        unfold ScaLAPACKMatrix.elIndex
        have : (lc + 1) * (ranks g p).mat.local_m
            ≤ (ranks g p).mat.local_n * (ranks g p).mat.local_m := Nat.mul_le_mul_right _ b
        rw [Nat.add_mul, Nat.one_mul, Nat.mul_comm (ranks g p).mat.local_n] at this
        omega
      rw [if_pos ⟨⟨hact, by omega⟩, hlt⟩]
      have hsum : (∑ g1 ∈ Finset.range env.numberBandGroups,
            ((ranks g1 p).mat.withValues (vals g1 p)).values ((ranks g p).mat.elIndex lr lc))
          = ∑ g1 ∈ Finset.range env.numberBandGroups,
              (if c ≤ r ∧ r < N ∧ bandOwns env g1
                (columnBlockEnd N (min env.wfcBlockSize (env.bandGroupLowHighPlusOneIndices 1)) c)
              then overlapEntry env.numberDomainRanks N (ranks g) r c
              else (ranks g p).mat.local_el lr lc) := by
        refine Finset.sum_congr rfl (fun g1 hg1 => ?_)
        exact key g1 (Finset.mem_range.mp hg1)
      rw [hsum]
      by_cases hlow : c ≤ r ∧ r < N
      · obtain ⟨hb1, hb2⟩ := columnBlockEnd_bounds N
          (min env.wfcBlockSize (env.bandGroupLowHighPlusOneIndices 1)) c hbs (by omega)
        rw [if_pos hlow, ← sum_owner_shift env N hband _ hb1 hb2 hG]
        refine Finset.sum_congr rfl (fun g1 _ => ?_)
        by_cases ho : bandOwns env g1
            (columnBlockEnd N (min env.wfcBlockSize (env.bandGroupLowHighPlusOneIndices 1)) c)
        · rw [if_pos ⟨hlow.1, hlow.2, ho⟩, if_pos ho]
        · rw [if_neg (fun h => ho h.2.2), if_neg ho]
      · rw [if_neg hlow]
        have : ∀ g1 ∈ Finset.range env.numberBandGroups,
            (if c ≤ r ∧ r < N ∧ bandOwns env g1
                (columnBlockEnd N (min env.wfcBlockSize (env.bandGroupLowHighPlusOneIndices 1)) c)
              then overlapEntry env.numberDomainRanks N (ranks g) r c
              else (ranks g p).mat.local_el lr lc) = (ranks g p).mat.local_el lr lc := by
          intro g1 _
          rw [if_neg (fun h => hlow ⟨h.1, h.2.1⟩)]
        rw [Finset.sum_congr rfl this, Finset.sum_const, Finset.card_range, nsmul_eq_mul]
  refine ⟨fun g p => sumAcrossInterCommScaLAPACKMat env.numberBandGroups
    (fun g1 => (ranks g1 p).processActive)
    (fun g1 => (ranks g1 p).mat.withValues (vals g1 p)) g, ?_, ?_⟩
  · unfold fillParallelOverlapMatrix
    rw [hall]
  · intro g p r c lr lc hg hr hc
    refine ⟨hmain g p r c lr lc hg hr hc, fun hcr hrN => ?_⟩
    rw [hmain g p r c lr lc hg hr hc, if_pos ⟨hcr, hrN⟩]
    constructor
    · intro h
      have h0 : ((env.numberBandGroups : ℚ) - 1) * (ranks g p).mat.local_el lr lc = 0 := by
        linarith
      rcases mul_eq_zero.mp h0 with h1 | h1
      · left
        have h2 : (env.numberBandGroups : ℚ) = 1 := by linarith
        exact_mod_cast h2
      · right
        exact h1
    · intro h
      rcases h with h | h
      · rw [h]
        norm_num
      · rw [h]
        ring

theorem twoBandEnv_partition : BandPartition twoBandEnv 2 := by
  refine ⟨rfl, rfl, ?_, ?_⟩
  · intro g hg
    have hg2 : g < 2 := hg
    interval_cases g <;> decide
  · intro g hg
    have hg2 : g + 1 < 2 := hg
    have hg0 : g = 0 := by omega
    rw [hg0]
    rfl

/-- Witness for C28: two band groups that both hold the rows `(1, 2)` and `(3, 4)` of `X`
and the panel `S0 = [[1, 3], [2, 4]]`: the entry `(1, 0)` becomes `14 + (2 - 1) * 2 = 16` and
the entry `(0, 1)` becomes `2 * 3 = 6`. -/
theorem fillParallelOverlapMatrix_previous_content_witness :
    ∃ S, fillParallelOverlapMatrix twoBandEnv 2 oneRankData 2 = some S ∧
      (S 0 0).local_el 1 0 = 16 ∧ (S 0 0).local_el 0 1 = 6 := by
  obtain ⟨S, h, hS⟩ := fillParallelOverlapMatrix_previous_content twoBandEnv 2 oneRankData 2
    (by decide) (by decide) (by decide) twoBandEnv_partition
    (fun g p _ => oneRankData_replicated g p) (fun _ _ _ => rfl)
  refine ⟨S, h, ?_, ?_⟩
  · rw [(hS 0 0 1 0 1 0 (by decide) rfl rfl).1, if_pos (by decide)]
    simp [overlapEntry, twoBandEnv, oneRankData, Finset.sum_range_succ,
      ScaLAPACKMatrix.local_el, ScaLAPACKMatrix.elIndex]
    norm_num
  · rw [(hS 0 0 0 1 0 1 (by decide) rfl rfl).1, if_neg (by decide)]
    simp [twoBandEnv, oneRankData, ScaLAPACKMatrix.local_el, ScaLAPACKMatrix.elIndex]
    norm_num

/-! ## The column blocks and their owners -/

theorem numBlocks_eq (N vbs k : Nat) (hbs : 1 ≤ vbs) (hge : N ≤ k * vbs)
    (hlast : k = 0 ∨ (k - 1) * vbs < N) : numBlocks N vbs = k := by
  unfold numBlocks
  rcases hlast with h0 | h1
  · subst h0
    have hN : N = 0 := by omega
    subst hN
    exact Nat.div_eq_of_lt (by omega)
  · have hk : 1 ≤ k := by
      rcases Nat.eq_zero_or_pos k with h | h
      · subst h
        simp only [Nat.zero_mul] at hge
        omega
      · exact h
    obtain ⟨j, rfl⟩ : ∃ j, k = j + 1 := ⟨k - 1, by omega⟩
    rw [Nat.add_sub_cancel] at h1
    rw [Nat.add_mul, Nat.one_mul] at hge
    refine Nat.div_eq_of_lt_le ?_ ?_
    · rw [Nat.add_mul, Nat.one_mul]
      omega
    · show N + vbs - 1 < (j + 1 + 1) * vbs
      rw [Nat.add_mul, Nat.add_mul, Nat.one_mul]
      omega

theorem stridedLoop_blocks {σ : Type} (N vbs : Nat) (body : Nat → σ → σ) (fuel : Nat) (s : σ)
    (hbs : 1 ≤ vbs) (hfuel : N ≤ fuel) :
    stridedLoop N vbs body fuel 0 s
      = some (forLoop (fun k => body (k * vbs)) (numBlocks N vbs) s) := by
  obtain ⟨t, i, hrun, hle, k, hik, hlast, ht⟩ := stridedLoop_invariant N vbs body
    (fun i t => ∃ k, i = k * vbs ∧ (k = 0 ∨ (k - 1) * vbs < N) ∧
      t = forLoop (fun k => body (k * vbs)) k s)
    hbs
    (fun i t hi h => by
      obtain ⟨k, hik, _, ht⟩ := h
      refine ⟨k + 1, ?_, Or.inr ?_, ?_⟩
      · rw [hik, Nat.add_mul, Nat.one_mul]
      · rw [Nat.add_sub_cancel, ← hik]
        exact hi
      · rw [forLoop_succ, ← ht, ← hik])
    fuel 0 s (by omega) ⟨0, by rw [Nat.zero_mul], Or.inl rfl, rfl⟩
  rw [hrun, ht, numBlocks_eq N vbs k hbs (by rw [← hik]; exact hle) hlast]

theorem block_of_column (N vbs c : Nat) (hbs : 1 ≤ vbs) (hc : c < N) :
    c / vbs < numBlocks N vbs ∧ c / vbs * vbs ≤ c ∧
      c < c / vbs * vbs + min vbs (N - c / vbs * vbs) ∧
      ∀ k, k * vbs ≤ c → c < k * vbs + min vbs (N - k * vbs) → k = c / vbs := by
  have h1 : c / vbs * vbs ≤ c := Nat.div_mul_le_self c vbs
  have h2 : c < c / vbs * vbs + vbs := by
    have := Nat.div_add_mod c vbs
    have hm := Nat.mod_lt c (by omega : 0 < vbs)
    rw [Nat.mul_comm] at this
    omega
  refine ⟨?_, h1, ?_, ?_⟩
  · unfold numBlocks
    show c / vbs + 1 ≤ (N + vbs - 1) / vbs
    rw [Nat.le_div_iff_mul_le (by omega), Nat.add_mul, Nat.one_mul]
    omega
  · have : c - c / vbs * vbs < min vbs (N - c / vbs * vbs) := by
      rw [Nat.lt_min]
      constructor <;> omega
    omega
  · intro k hk1 hk2
    have hm : min vbs (N - k * vbs) ≤ vbs := Nat.min_le_left _ _
    symm
    refine Nat.div_eq_of_lt_le hk1 ?_
    show c < (k + 1) * vbs
    rw [Nat.add_mul, Nat.one_mul]
    omega

theorem block_in_range (N vbs k : Nat) (hbs : 1 ≤ vbs) (hk : k < numBlocks N vbs) :
    k * vbs < N ∧ k * vbs + min vbs (N - k * vbs) ≤ N ∧ 1 ≤ min vbs (N - k * vbs) ∧
      columnBlockEnd N vbs (k * vbs) = k * vbs + min vbs (N - k * vbs) := by
  have h1 : k * vbs < N := by
    unfold numBlocks at hk
    have h2 : k + 1 ≤ (N + vbs - 1) / vbs := hk
    rw [Nat.le_div_iff_mul_le (by omega), Nat.add_mul, Nat.one_mul] at h2
    omega
  have h3 : min vbs (N - k * vbs) ≤ N - k * vbs := Nat.min_le_right _ _
  refine ⟨h1, by omega, ?_, ?_⟩
  · rw [Nat.le_min]
    constructor <;> omega
  · exact columnBlockEnd_of_block N vbs (k * vbs) (k * vbs) (Dvd.intro_left k rfl)
      (le_refl _) (by omega)

theorem block_owner (env : ParallelEnv) (N vbs : Nat) (hbs : 1 ≤ vbs)
    (hG : 1 ≤ env.numberBandGroups) (hband : BandPartition env N) (k : Nat)
    (hk : k < numBlocks N vbs) :
    ∃ g0, g0 < env.numberBandGroups ∧ bandOwns env g0 (k * vbs + min vbs (N - k * vbs)) ∧
      ∀ g, g < env.numberBandGroups → bandOwns env g (k * vbs + min vbs (N - k * vbs)) →
        g = g0 := by
  obtain ⟨h1, h2, h3, _⟩ := block_in_range N vbs k hbs hk
  obtain ⟨g0, hg0, hown⟩ := bandPartition_owner_exists env N hband
    (k * vbs + min vbs (N - k * vbs)) (by omega) (env.numberBandGroups - 1) (by omega)
    (by rw [hband.last]; exact h2)
  exact ⟨g0, hg0, hown, fun g hg ho =>
    bandPartition_owner_unique env N hband _ g g0 hg hg0 ho hown⟩

/-! ## The band counters of `subspaceRotation` -/

theorem rotationVectorStep_band (env : ParallelEnv) (N vbs dbs idof : Nat)
    (ranks : Nat → RankData) (g : Nat) (tr tria : Bool) (jvec : Nat) (st : RotationState) :
    (bandOwns env g (jvec + min vbs (N - jvec)) →
      (rotationVectorStep env N vbs dbs idof ranks g tr tria jvec st).startIndexBandParal
        = (if jvec < st.startIndexBandParal then jvec else st.startIndexBandParal) ∧
      (rotationVectorStep env N vbs dbs idof ranks g tr tria jvec st).numVectorsBandParal
        = jvec + min vbs (N - jvec)
          - (if jvec < st.startIndexBandParal then jvec else st.startIndexBandParal)) ∧
    (¬ bandOwns env g (jvec + min vbs (N - jvec)) →
      rotationVectorStep env N vbs dbs idof ranks g tr tria jvec st = st) := by
  unfold rotationVectorStep
  dsimp only
  constructor
  · intro h
    rw [if_pos h]
    exact ⟨rfl, rfl⟩
  · intro h
    rw [if_neg h]

theorem bandRange_final (env : ParallelEnv) (N vbs g start num i : Nat) (hi : N ≤ i)
    (h : bandRange env N vbs g start num i) : bandRange env N vbs g start num N := by
  rcases h with ⟨h1, h2, h3⟩ | ⟨h1, h2, h3, h4, h5, h6, h7⟩
  · exact Or.inl ⟨h1, h2, fun c hc _ => h3 c (by omega) hc⟩
  · exact Or.inr ⟨h1, h1, h3, h4, h6, h6, fun c hc _ => h7 c (by omega) hc⟩

theorem bandRange_iff (env : ParallelEnv) (N vbs g start num : Nat)
    (h : bandRange env N vbs g start num N) (c : Nat) (hc : c < N) :
    bandOwns env g (columnBlockEnd N vbs c) ↔ start ≤ c ∧ c < start + num := by
  rcases h with ⟨h1, h2, h3⟩ | ⟨_, _, _, _, _, _, h7⟩
  · constructor
    · intro ho
      exact absurd ho (h3 c hc hc)
    · intro hr
      omega
  · exact h7 c hc hc

theorem rotationPass_band (env : ParallelEnv) (N vbs dbs idof : Nat)
    (ranks : Nat → RankData) (g : Nat) (tr tria : Bool) (fuel : Nat) (st0 : RotationState)
    (hbs : 1 ≤ vbs) (hfuel : N ≤ fuel)
    (h0 : (st0.startIndexBandParal = N ∧ st0.numVectorsBandParal = 0) ∨
      bandRange env N vbs g st0.startIndexBandParal st0.numVectorsBandParal N) :
    ∃ st, stridedLoop N vbs (rotationVectorStep env N vbs dbs idof ranks g tr tria) fuel 0 st0
        = some st ∧
      bandRange env N vbs g st.startIndexBandParal st.numVectorsBandParal N := by
  have hinit : bandRange env N vbs g st0.startIndexBandParal st0.numVectorsBandParal 0 ∨
      ((∀ c, c < 0 → c < N → ¬ bandOwns env g (columnBlockEnd N vbs c)) ∧
        st0.startIndexBandParal < N ∧
        bandRange env N vbs g st0.startIndexBandParal st0.numVectorsBandParal N) := by
    rcases h0 with ⟨a, b⟩ | h
    · exact Or.inl (Or.inl ⟨a, b, fun c hc => absurd hc (Nat.not_lt_zero _)⟩)
    · rcases h with ⟨a, b, _⟩ | hr
      · exact Or.inl (Or.inl ⟨a, b, fun c hc => absurd hc (Nat.not_lt_zero _)⟩)
      · exact Or.inr ⟨fun c hc => absurd hc (Nat.not_lt_zero _), hr.1, Or.inr hr⟩
  obtain ⟨t, i, hrun, hle, _, hQ⟩ := stridedLoop_invariant N vbs
    (rotationVectorStep env N vbs dbs idof ranks g tr tria)
    (fun jvec st => vbs ∣ jvec ∧
      (bandRange env N vbs g st.startIndexBandParal st.numVectorsBandParal jvec ∨
        ((∀ c, c < jvec → c < N → ¬ bandOwns env g (columnBlockEnd N vbs c)) ∧
          st.startIndexBandParal < N ∧
          bandRange env N vbs g st.startIndexBandParal st.numVectorsBandParal N)))
    hbs
    (fun jvec st hjv h => by
      obtain ⟨hd, hq⟩ := h
      refine ⟨Dvd.dvd.add hd (dvd_refl _), ?_⟩
      obtain ⟨c1, c2⟩ := rotationVectorStep_band env N vbs dbs idof ranks g tr tria jvec st
      by_cases hown : bandOwns env g (jvec + min vbs (N - jvec))
      · left
        rw [(c1 hown).1, (c1 hown).2]
        rcases hq with hr | ⟨hnone, hlt, hfin⟩
        · exact (bandRange_step env N vbs g jvec st.startIndexBandParal
            st.numVectorsBandParal hbs hd hjv hr).1 hown
        · have hend : columnBlockEnd N vbs jvec = jvec + min vbs (N - jvec) :=
            columnBlockEnd_of_block N vbs jvec jvec hd (le_refl _) (by omega)
          have hj := (bandRange_iff env N vbs g _ _ hfin jvec hjv).mp (by rw [hend]; exact hown)
          have hS : st.startIndexBandParal = jvec := by
            rcases Nat.eq_or_lt_of_le hj.1 with he | hl
            · exact he
            · exfalso
              have hs := (bandRange_iff env N vbs g _ _ hfin st.startIndexBandParal hlt).mpr
                ⟨le_refl _, by omega⟩
              exact hnone _ hl hlt hs
          have hstep := (bandRange_step env N vbs g jvec N 0 hbs hd hjv
            (Or.inl ⟨rfl, rfl, hnone⟩)).1 hown
          rw [if_pos hjv] at hstep
          rw [hS, if_neg (lt_irrefl _)]
          exact hstep
      · rw [c2 hown]
        rcases hq with hr | ⟨hnone, hlt, hfin⟩
        · left
          exact (bandRange_step env N vbs g jvec st.startIndexBandParal
            st.numVectorsBandParal hbs hd hjv hr).2 hown
        · right
          refine ⟨fun c hc hcN => ?_, hlt, hfin⟩
          by_cases hlow : c < jvec
          · exact hnone c hlow hcN
          · rw [columnBlockEnd_of_block N vbs jvec c hd (by omega) hc]
            exact hown)
    fuel 0 st0 (by omega) ⟨dvd_zero _, hinit⟩
  refine ⟨t, hrun, ?_⟩
  rcases hQ with hr | ⟨_, _, hfin⟩
  · exact bandRange_final env N vbs g _ _ i hle hr
  · exact hfin

theorem rotationDofStep_band (env : ParallelEnv) (N vbs dbs : Nat)
    (ranks : Nat → RankData) (g : Nat) (tr tria : Bool) (fuel idof : Nat) (st0 : RotationState)
    (hbs : 1 ≤ vbs) (hfuel : N ≤ fuel)
    (h0 : (st0.startIndexBandParal = N ∧ st0.numVectorsBandParal = 0) ∨
      bandRange env N vbs g st0.startIndexBandParal st0.numVectorsBandParal N) :
    ∃ st, rotationDofStep env N vbs dbs ranks g tr tria fuel idof (some st0) = some st ∧
      bandRange env N vbs g st.startIndexBandParal st.numVectorsBandParal N := by
  obtain ⟨t, hrun, hr⟩ := rotationPass_band env N vbs dbs idof ranks g tr tria fuel
    { st0 with rotatedVectorsMatBlock := fun _ _ => 0 } hbs hfuel h0
  unfold rotationDofStep
  dsimp only
  rw [hrun]
  exact ⟨_, rfl, hr⟩

theorem rotationBandGroup_band (env : ParallelEnv) (N : Nat) (ranks : Nat → RankData)
    (g : Nat) (tr tria : Bool) (fuel : Nat)
    (hbs : 1 ≤ min env.wfcBlockSize (env.bandGroupLowHighPlusOneIndices 1))
    (hdof : 1 ≤ env.subspaceRotDofsBlockSize) (hfuel : N ≤ fuel)
    (hfuel2 : ∀ p, p < env.numberDomainRanks →
      (ranks p).subspaceVectorsArrayLocalSize / N ≤ fuel)
    (hmax : 1 ≤ mpiMax env.numberDomainRanks
      (fun p => (ranks p).subspaceVectorsArrayLocalSize / N)) :
    ∃ st, rotationBandGroup env N ranks g tr tria fuel = some st ∧
      ∀ c, c < N →
        (bandOwns env g
            (columnBlockEnd N (min env.wfcBlockSize (env.bandGroupLowHighPlusOneIndices 1)) c)
          ↔ st.startIndexBandParal ≤ c ∧
            c < st.startIndexBandParal + st.numVectorsBandParal) := by
  have hle := mpiMax_le env.numberDomainRanks
    (fun p => (ranks p).subspaceVectorsArrayLocalSize / N) fuel hfuel2
  obtain ⟨t, i, hrun, hi, st, hst, hI⟩ := stridedLoop_invariant
    (mpiMax env.numberDomainRanks (fun p => (ranks p).subspaceVectorsArrayLocalSize / N))
    (min (mpiMax env.numberDomainRanks (fun p => (ranks p).subspaceVectorsArrayLocalSize / N))
      env.subspaceRotDofsBlockSize)
    (rotationDofStep env N (min env.wfcBlockSize (env.bandGroupLowHighPlusOneIndices 1))
      (min (mpiMax env.numberDomainRanks (fun p => (ranks p).subspaceVectorsArrayLocalSize / N))
        env.subspaceRotDofsBlockSize) ranks g tr tria fuel)
    (fun idof ost => ∃ st, ost = some st ∧
      ((idof = 0 ∧ st.startIndexBandParal = N ∧ st.numVectorsBandParal = 0) ∨
        bandRange env N (min env.wfcBlockSize (env.bandGroupLowHighPlusOneIndices 1)) g
          st.startIndexBandParal st.numVectorsBandParal N))
    (by
      rw [Nat.lt_min]
      constructor <;> omega)
    (fun idof ost _ h => by
      obtain ⟨st, hst, hc⟩ := h
      have h0 : (st.startIndexBandParal = N ∧ st.numVectorsBandParal = 0) ∨
          bandRange env N (min env.wfcBlockSize (env.bandGroupLowHighPlusOneIndices 1)) g
            st.startIndexBandParal st.numVectorsBandParal N := by
        rcases hc with ⟨_, a, b⟩ | hr
        · exact Or.inl ⟨a, b⟩
        · exact Or.inr hr
      obtain ⟨st2, hrun2, hr2⟩ := rotationDofStep_band env N _ _ ranks g tr tria fuel idof st
        hbs hfuel h0
      exact ⟨st2, by rw [hst, hrun2], Or.inr hr2⟩)
    fuel 0 (some ⟨fun p => (ranks p).subspaceVectorsArray, fun _ _ => 0, fun _ _ => 0, N, 0⟩)
    (by omega) ⟨_, rfl, Or.inl ⟨rfl, rfl, rfl⟩⟩
  refine ⟨st, ?_, ?_⟩
  · unfold rotationBandGroup
    dsimp only
    rw [hrun, hst]
  · intro c hc
    rcases hI with ⟨h0, _, _⟩ | hr
    · omega
    · exact bandRange_iff env N _ g _ _ hr c hc

/-- C27: for every `N` and block size `vbs >= 1` the loop
`for (jvec = 0; jvec < N; jvec += vbs)` of the ChFSI filter, `fillParallelOverlapMatrix` and
`subspaceRotation` terminates and runs its body on the blocks `[k * vbs, k * vbs + BVec)`,
`BVec = min(vbs, N - k * vbs)`, `k = 0, 1, ..., numBlocks - 1` in increasing order; these
blocks are non-empty, lie in `[0, N)` and every column `c < N` lies in exactly one of them.
When the band-group ranges split `[0, N)`, each block passes the ownership test
`lo_g < jvec + BVec <= hi_g` for exactly one band group; the bodies skip the blocks that
fail the test (the ChFSI body only sets their columns to zero). After the block loop of
the ChFSI filter, and after `subspaceRotation` when some rank has a local row, the columns
whose block a group owns are exactly those of
`[startIndexBandParal, startIndexBandParal + numVectorsBandParal)`. -/
theorem column_blocks_partition (env : ParallelEnv) (N vbs fuel : Nat)
    (hbs : 1 ≤ vbs) (hfuel : N ≤ fuel) :
    (∀ (σ : Type) (body : Nat → σ → σ) (s : σ),
      stridedLoop N vbs body fuel 0 s
        = some (forLoop (fun k => body (k * vbs)) (numBlocks N vbs) s)) ∧
    (∀ k, k < numBlocks N vbs →
      k * vbs < N ∧ 1 ≤ min vbs (N - k * vbs) ∧ k * vbs + min vbs (N - k * vbs) ≤ N) ∧
    (∀ c, c < N →
      c / vbs < numBlocks N vbs ∧ c / vbs * vbs ≤ c ∧
      c < c / vbs * vbs + min vbs (N - c / vbs * vbs) ∧
      ∀ k, k * vbs ≤ c → c < k * vbs + min vbs (N - k * vbs) → k = c / vbs) ∧
    (1 ≤ env.numberBandGroups → BandPartition env N → ∀ k, k < numBlocks N vbs →
      ∃ g0, g0 < env.numberBandGroups ∧
        bandOwns env g0 (k * vbs + min vbs (N - k * vbs)) ∧
        ∀ g, g < env.numberBandGroups →
          bandOwns env g (k * vbs + min vbs (N - k * vbs)) → g = g0) ∧
    (∀ (ranks : Nat → RankData) (g ivec : Nat) (st : OverlapState),
      ¬ bandOwns env g (ivec + min vbs (N - ivec)) →
      overlapBlockStep env N vbs ranks g ivec st = st) ∧
    (∀ (dbs idof : Nat) (ranks : Nat → RankData) (g : Nat) (tr tria : Bool) (jvec : Nat)
      (st : RotationState), ¬ bandOwns env g (jvec + min vbs (N - jvec)) →
      rotationVectorStep env N vbs dbs idof ranks g tr tria jvec st = st) ∧
    (∀ (σ : Type) (lib : FilterLib σ) (order nA : Nat) (nloc : Nat → Nat) (g jvec : Nat)
      (st : ChebyshevState σ), ¬ bandOwns env g (jvec + min vbs (N - jvec)) →
      (chebyshevBlockStep lib env N vbs order nA nloc g jvec st).operatorMatrix
          = st.operatorMatrix ∧
        (chebyshevBlockStep lib env N vbs order nA nloc g jvec st).eigenVectorsFlattenedArrayBlock
          = st.eigenVectorsFlattenedArrayBlock ∧
        (chebyshevBlockStep lib env N vbs order nA nloc g jvec st).startIndexBandParal
          = st.startIndexBandParal ∧
        (chebyshevBlockStep lib env N vbs order nA nloc g jvec st).numVectorsBandParal
          = st.numVectorsBandParal) ∧
    (∀ (σ : Type) (lib : FilterLib σ) (cw order nA : Nat) (X0 : Nat → Buf) (nloc : Nat → Nat)
      (op0 : σ) (g : Nat), vbs = min cw (env.bandGroupLowHighPlusOneIndices 1) →
      ∃ st, chebyshevBandGroup lib env N cw order nA X0 nloc op0 g fuel = some st ∧
        ∀ c, c < N →
          (bandOwns env g (columnBlockEnd N vbs c)
            ↔ st.startIndexBandParal ≤ c ∧
              c < st.startIndexBandParal + st.numVectorsBandParal)) ∧
    (∀ (ranks : Nat → RankData) (g : Nat) (tr tria : Bool),
      vbs = min env.wfcBlockSize (env.bandGroupLowHighPlusOneIndices 1) →
      1 ≤ env.subspaceRotDofsBlockSize →
      (∀ p, p < env.numberDomainRanks → (ranks p).subspaceVectorsArrayLocalSize / N ≤ fuel) →
      1 ≤ mpiMax env.numberDomainRanks
        (fun p => (ranks p).subspaceVectorsArrayLocalSize / N) →
      ∃ st, rotationBandGroup env N ranks g tr tria fuel = some st ∧
        ∀ c, c < N →
          (bandOwns env g (columnBlockEnd N vbs c)
            ↔ st.startIndexBandParal ≤ c ∧
              c < st.startIndexBandParal + st.numVectorsBandParal)) := by
  refine ⟨fun σ body s => stridedLoop_blocks N vbs body fuel s hbs hfuel, fun k hk => ?_,
    fun c hc => block_of_column N vbs c hbs hc,
    fun hG hband k hk => block_owner env N vbs hbs hG hband k hk,
    fun ranks g ivec st hno => ?_, fun dbs idof ranks g tr tria jvec st hno => ?_,
    fun σ lib order nA nloc g jvec st hno => ?_,
    fun σ lib cw order nA X0 nloc op0 g hv => ?_, fun ranks g tr tria hv hdof hf2 hmax => ?_⟩
  · obtain ⟨h1, h2, h3, _⟩ := block_in_range N vbs k hbs hk
    exact ⟨h1, h3, h2⟩
  · unfold overlapBlockStep
    dsimp only
    rw [if_neg hno]
  · exact (rotationVectorStep_band env N vbs dbs idof ranks g tr tria jvec st).2 hno
  · unfold chebyshevBlockStep
    dsimp only
    rw [if_neg hno]
    exact ⟨rfl, rfl, rfl, rfl⟩
  · subst hv
    obtain ⟨st, h1, _, h3⟩ := chebyshevBandGroup_apply lib env N cw order nA X0 nloc op0 g fuel
      hbs hfuel
    exact ⟨st, h1, h3⟩
  · subst hv
    exact rotationBandGroup_band env N ranks g tr tria fuel hbs hdof hfuel hf2 hmax

/-- Witness for C27: two columns in blocks of one on the two band groups of `twoBandEnv`:
the loop runs the body on the blocks `0` and `1`, and the block `1` has one owner. -/
theorem column_blocks_partition_witness :
    numBlocks 2 1 = 2 ∧
    (∀ (σ : Type) (body : Nat → σ → σ) (s : σ),
      stridedLoop 2 1 body 2 0 s = some (forLoop (fun k => body (k * 1)) (numBlocks 2 1) s)) ∧
    ∃ g0, g0 < twoBandEnv.numberBandGroups ∧
      bandOwns twoBandEnv g0 (1 * 1 + min 1 (2 - 1 * 1)) ∧
      ∀ g, g < twoBandEnv.numberBandGroups →
        bandOwns twoBandEnv g (1 * 1 + min 1 (2 - 1 * 1)) → g = g0 :=
  ⟨by decide,
    (column_blocks_partition twoBandEnv 2 1 2 (by decide) (by decide)).1,
    (column_blocks_partition twoBandEnv 2 1 2 (by decide) (by decide)).2.2.2.1 (by decide)
      twoBandEnv_partition 1 (by decide)⟩

/-! ## The displacement of the problem during `solve` -/

theorem resetBranch_point {σ : Type} (num : NumLib) (problem : nonlinearSolverProblem σ)
    (p : σ) (s : BFGSNonLinearSolver) :
    (resetBranch num problem p s).d_stepAccepted = s.d_stepAccepted ∧
    (resetBranch num problem p s).d_deltaX = s.d_deltaX ∧
    (resetBranch num problem p s).d_gradient = s.d_gradient ∧
    (resetBranch num problem p s).d_value = s.d_value ∧
    (resetBranch num problem p s).d_numberUnknowns = s.d_numberUnknowns := by
  unfold resetBranch initializeHessian
  split <;> simp

theorem iterationHead_point {σ : Type} (num : NumLib) (problem : nonlinearSolverProblem σ)
    (s : BFGSNonLinearSolver) (p : σ) :
    (iterationHead num problem s p).2
      = problem.update p
          (incrementVector (computeStep num (resetBranch num problem p s))
            (solveUpdateVector num problem s p)) true
          (computeStep num (resetBranch num problem p s)).d_useSingleAtomSolutionsInitialGuess ∧
    (iterationHead num problem s p).1.d_deltaXNew
      = (computeStep num (resetBranch num problem p s)).d_deltaXNew ∧
    (iterationHead num problem s p).1.d_deltaX = s.d_deltaX ∧
    (iterationHead num problem s p).1.d_gradient = s.d_gradient ∧
    (iterationHead num problem s p).1.d_value = s.d_value ∧
    (iterationHead num problem s p).1.d_stepAccepted = s.d_stepAccepted ∧
    (iterationHead num problem s p).1.d_gradientNew.data
      = problem.gradient (iterationHead num problem s p).2 ∧
    (iterationHead num problem s p).1.d_valueNew
      = problem.value (iterationHead num problem s p).2 := by
  obtain ⟨r1, r2, r3, r4, _⟩ := resetBranch_point num problem p s
  refine ⟨rfl, ?_⟩
  unfold iterationHead updateSolution scaleHessian
  simp only []
  split_ifs <;> exact ⟨rfl, r2, r3, r4, r1, rfl, rfl⟩

theorem acceptedStep_point (s : BFGSNonLinearSolver) :
    (acceptedStep s).d_stepAccepted = s.d_stepAccepted ∧
    (acceptedStep s).d_deltaX = s.d_deltaXNew ∧
    (acceptedStep s).d_gradient = s.d_gradientNew ∧
    (acceptedStep s).d_value = s.d_valueNew := by
  unfold acceptedStep updateHessian computepredDec
  simp only []
  split_ifs <;> simp

theorem rejectedStep_point (fuel : Nat) (s t : BFGSNonLinearSolver)
    (h : rejectedStep fuel s = some t) :
    t.d_stepAccepted = s.d_stepAccepted ∧ t.d_deltaX = s.d_deltaXNew ∧
    t.d_gradient = s.d_gradient ∧ t.d_value = s.d_value := by
  unfold rejectedStep at h
  simp only [] at h
  split at h
  · simp at h
  · split at h <;> (simp only [Option.some.injEq] at h; subst h; simp)

theorem solveIteration_outcome {σ : Type} (num : NumLib) (problem : nonlinearSolverProblem σ)
    (fuel : Nat) (s t : BFGSNonLinearSolver) (p q : σ)
    (h : solveIteration num problem fuel s p = some (t, q, false)) :
    q = (iterationHead num problem s p).2 ∧
    (((iterationHead num problem s p).1.d_valueNew ≤ (iterationHead num problem s p).1.d_value ∧
        t = acceptedStep { (iterationHead num problem s p).1 with d_stepAccepted := true }) ∨
      (¬ (iterationHead num problem s p).1.d_valueNew
          ≤ (iterationHead num problem s p).1.d_value ∧
        rejectedStep fuel { (iterationHead num problem s p).1 with d_stepAccepted := false }
          = some t)) := by
  unfold solveIteration at h
  simp only [] at h
  split at h
  · simp at h
  · by_cases ha : (iterationHead num problem s p).1.d_valueNew
        ≤ (iterationHead num problem s p).1.d_value
    · have hd : decide ((iterationHead num problem s p).1.d_valueNew
          ≤ (iterationHead num problem s p).1.d_value) = true := by simpa using ha
      rw [hd] at h
      simp only [if_true, Option.some.injEq, Prod.mk.injEq, and_true] at h
      exact ⟨h.2.symm, Or.inl ⟨ha, h.1.symm⟩⟩
    · have hd : decide ((iterationHead num problem s p).1.d_valueNew
          ≤ (iterationHead num problem s p).1.d_value) = false := by simpa using ha
      rw [hd] at h
      simp only [Bool.false_eq_true, if_false] at h
      split at h
      · simp at h
      · rename_i t2 ht2
        simp only [Option.some.injEq, Prod.mk.injEq, and_true] at h
        refine ⟨h.2.symm, Or.inr ⟨ha, ?_⟩⟩
        rw [ht2, h.1]

theorem solveUpdateVector_apply {σ : Type} (num : NumLib) (problem : nonlinearSolverProblem σ)
    (s : BFGSNonLinearSolver) (p : σ) (i : Nat) (hi : i < s.d_numberUnknowns) :
    solveUpdateVector num problem s p i
      = if s.d_stepAccepted = true
        then (iterationHead num problem s p).1.d_deltaXNew.data i
        else (iterationHead num problem s p).1.d_deltaXNew.data i - s.d_deltaX.data i := by
  obtain ⟨r1, r2, _, _, r5⟩ := resetBranch_point num problem p s
  obtain ⟨_, h2, _⟩ := iterationHead_point num problem s p
  have e1 : (computeStep num (resetBranch num problem p s)).d_stepAccepted
      = s.d_stepAccepted := r1
  have e2 : (computeStep num (resetBranch num problem p s)).d_deltaX = s.d_deltaX := r2
  have e3 : (computeStep num (resetBranch num problem p s)).d_numberUnknowns
      = s.d_numberUnknowns := r5
  unfold solveUpdateVector
  rw [e1, e2, e3, h2]
  by_cases hacc : s.d_stepAccepted = true
  · rw [if_pos hacc, if_pos hacc]
  · rw [if_neg hacc, if_neg hacc,
      forLoop_fill (fun i => (computeStep num (resetBranch num problem p s)).d_deltaXNew.data i
        - s.d_deltaX.data i), if_pos hi]

/-- C29: in `solve` the total displacement applied to the problem since the last accepted
point equals, after the update call of every iteration, the tentative step `d_deltaXNew`.
Started without restart, `solve` enters the loop with `d_stepAccepted` set and with
`d_gradient`, `d_value` those of the initial point. In an iteration entered with a
displacement `off` that is zero when `d_stepAccepted` is set and equals the rejected step
`d_deltaX` when it is clear, and with `d_gradient`, `d_value` those of the last accepted
problem state `a`: the vector passed to `problem.update` is `d_deltaXNew` after an accepted
step and `d_deltaXNew - d_deltaX` after a rejected one, so `off` plus this vector is
`d_deltaXNew`; `d_gradient` and `d_value` are still those of `a`; and when the iteration
does not break, the next iteration is entered in the same situation: after acceptance with
`d_stepAccepted` set and `d_gradient`, `d_value` those of the new point, after rejection
with `d_stepAccepted` clear, `d_deltaX` the displacement, and `d_gradient`, `d_value` those
of `a`. -/
theorem solve_displacement {σ : Type} (num : NumLib) (problem : nonlinearSolverProblem σ) :
    (∀ (s0 : BFGSNonLinearSolver) (p0 : σ),
      (resetIter (solveInit num problem false s0 p0)).d_stepAccepted = true ∧
      (resetIter (solveInit num problem false s0 p0)).d_gradient.data = problem.gradient p0 ∧
      (resetIter (solveInit num problem false s0 p0)).d_value = problem.value p0) ∧
    (∀ (s : BFGSNonLinearSolver) (p a : σ) (off : Buf),
      (s.d_stepAccepted = true → ∀ i, i < s.d_numberUnknowns → off i = 0) →
      (s.d_stepAccepted = false → ∀ i, i < s.d_numberUnknowns → off i = s.d_deltaX.data i) →
      s.d_gradient.data = problem.gradient a → s.d_value = problem.value a →
      (iterationHead num problem s p).2
        = problem.update p
            (incrementVector (computeStep num (resetBranch num problem p s))
              (solveUpdateVector num problem s p)) true
            (computeStep num (resetBranch num problem p s)).d_useSingleAtomSolutionsInitialGuess ∧
      (∀ i, i < s.d_numberUnknowns →
        incrementVector (computeStep num (resetBranch num problem p s))
            (solveUpdateVector num problem s p) i
          = solveUpdateVector num problem s p i) ∧
      (s.d_stepAccepted = true → ∀ i, i < s.d_numberUnknowns →
        solveUpdateVector num problem s p i
          = (iterationHead num problem s p).1.d_deltaXNew.data i) ∧
      (s.d_stepAccepted = false → ∀ i, i < s.d_numberUnknowns →
        solveUpdateVector num problem s p i
          = (iterationHead num problem s p).1.d_deltaXNew.data i - s.d_deltaX.data i) ∧
      (∀ i, i < s.d_numberUnknowns →
        off i + solveUpdateVector num problem s p i
          = (iterationHead num problem s p).1.d_deltaXNew.data i) ∧
      (iterationHead num problem s p).1.d_gradient.data = problem.gradient a ∧
      (iterationHead num problem s p).1.d_value = problem.value a ∧
      ∀ (fuel : Nat) (t : BFGSNonLinearSolver) (q : σ),
        solveIteration num problem fuel s p = some (t, q, false) →
        q = (iterationHead num problem s p).2 ∧
        (incrementIter t).d_numberUnknowns = s.d_numberUnknowns ∧
        (((incrementIter t).d_stepAccepted = true ∧
            (incrementIter t).d_gradient.data = problem.gradient q ∧
            (incrementIter t).d_value = problem.value q) ∨
          ((incrementIter t).d_stepAccepted = false ∧
            (∀ i, i < s.d_numberUnknowns →
              (incrementIter t).d_deltaX.data i = off i + solveUpdateVector num problem s p i) ∧
            (incrementIter t).d_gradient.data = problem.gradient a ∧
            (incrementIter t).d_value = problem.value a))) := by
  constructor
  · intro s0 p0
    unfold resetIter solveInit initializeHessian
    simp
  · intro s p a off hacc hrej hg hv
    obtain ⟨h1, h2, h3, h4, h5, h6, h7, h8⟩ := iterationHead_point num problem s p
    have hU : (computeStep num (resetBranch num problem p s)).d_numberUnknowns
        = s.d_numberUnknowns := (resetBranch_point num problem p s).2.2.2.2
    have hsum : ∀ i, i < s.d_numberUnknowns →
        off i + solveUpdateVector num problem s p i
          = (iterationHead num problem s p).1.d_deltaXNew.data i := by
      intro i hi
      rw [solveUpdateVector_apply num problem s p i hi]
      by_cases hc : s.d_stepAccepted = true
      · rw [if_pos hc, hacc hc i hi, zero_add]
      · have hf : s.d_stepAccepted = false := by simpa using hc
        rw [if_neg hc, hrej hf i hi]
        ring
    refine ⟨h1, fun i hi => ?_, fun hc i hi => ?_, fun hc i hi => ?_, hsum, ?_, ?_,
      fun fuel t q hit => ?_⟩
    · unfold incrementVector
      rw [forLoop_fill, hU, if_pos hi]
    · rw [solveUpdateVector_apply num problem s p i hi, if_pos hc]
    · rw [solveUpdateVector_apply num problem s p i hi, if_neg (by rw [hc]; decide)]
    · rw [h4]
      exact hg
    · rw [h5]
      exact hv
    · obtain ⟨hq, hcase⟩ := solveIteration_outcome num problem fuel s t p q hit
      have hn := (solveIteration_fields num problem fuel s p _ hit).2.2.2.2.2.1
      refine ⟨hq, hn, ?_⟩
      rcases hcase with ⟨_, ht⟩ | ⟨_, ht⟩
      · left
        obtain ⟨b1, _, b3, b4⟩ := acceptedStep_point
          { (iterationHead num problem s p).1 with d_stepAccepted := true }
        rw [← ht] at b1 b3 b4
        refine ⟨b1, ?_, ?_⟩
        · show t.d_gradient.data = problem.gradient q
          rw [b3, hq]
          exact h7
        · show t.d_value = problem.value q
          rw [b4, hq]
          exact h8
      · right
        obtain ⟨b1, b2, b3, b4⟩ := rejectedStep_point fuel _ t ht
        refine ⟨b1, fun i hi => ?_, ?_, ?_⟩
        · show t.d_deltaX.data i = _
          rw [b2, hsum i hi]
        · show t.d_gradient.data = problem.gradient a
          rw [b3]
          show (iterationHead num problem s p).1.d_gradient.data = problem.gradient a
          rw [h4]
          exact hg
        · show t.d_value = problem.value a
          rw [b4]
          show (iterationHead num problem s p).1.d_value = problem.value a
          rw [h5]
          exact hv

/-- Witness for C29: the first iteration of `solve` without restart on `lineProblem`, started
from the freshly constructed solver: the displacement is zero before the update and the
update vector is the tentative step. -/
theorem solve_displacement_witness :
    ∀ i, i < (resetIter (solveInit unitNumLib lineProblem false
          (freshSolver (1 / 2) (1 / 2)) 0)).d_numberUnknowns →
      (0 : ℚ) + solveUpdateVector unitNumLib lineProblem
          (resetIter (solveInit unitNumLib lineProblem false (freshSolver (1 / 2) (1 / 2)) 0))
          0 i
        = (iterationHead unitNumLib lineProblem
            (resetIter (solveInit unitNumLib lineProblem false (freshSolver (1 / 2) (1 / 2)) 0))
            0).1.d_deltaXNew.data i :=
  ((solve_displacement unitNumLib lineProblem).2
    (resetIter (solveInit unitNumLib lineProblem false (freshSolver (1 / 2) (1 / 2)) 0))
    0 0 (fun _ => 0) (fun _ _ _ => rfl)
    (fun h => absurd
      (((solve_displacement unitNumLib lineProblem).1 (freshSolver (1 / 2) (1 / 2)) 0).1.symm.trans
        h) (by decide))
    ((solve_displacement unitNumLib lineProblem).1 (freshSolver (1 / 2) (1 / 2)) 0).2.1
    ((solve_displacement unitNumLib lineProblem).1 (freshSolver (1 / 2) (1 / 2)) 0).2.2).2.2.2.2.1

end dftfe
